import Mathlib

set_option autoImplicit false
set_option linter.unusedSectionVars false
set_option linter.unusedVariables false

/-!
# TND004: priority queue, disjoint sets, graphs and their algorithms

Definitions embedding the C++ sources, followed by the theorems about them.
The 32-bit `int` is a mathematical integer; sums that can overflow go through
`wrap32`. Vectors are lists; asserts are `Option`.
-/

/-! ## Definitions -/

namespace TND004

/-- `std::numeric_limits<int>::max()` for the 32-bit `int`. -/
def INT_MAX : Int := 2147483647

/-- Two's-complement reduction of a mathematical integer to a 32-bit `int`. Signed
overflow is undefined in C++; it is modelled as wrap-around. -/
def wrap32 (x : Int) : Int := (x + 2147483648) % 4294967296 - 2147483648

/-- `a + b` on `int`. -/
def add32 (a b : Int) : Int := wrap32 (a + b)

/-- `-a` on `int`. -/
def neg32 (a : Int) : Int := wrap32 (-a)

/-- Modelled from the spec: `edge.h` is not among the sources. An edge is the triple
`(from, to, weight)`; vertex ids are naturals (the asserts admit `1..size` only). -/
structure Edge where
  from_ : Nat
  to_ : Nat
  weight : Int
  deriving DecidableEq

namespace Edge

/-- Modelled from the spec: `Edge::links_same_nodes`, the two edges connect the same
ordered pair `(from, to)`. -/
def links_same_nodes (e ed : Edge) : Bool := e.from_ == ed.from_ && e.to_ == ed.to_

/-- Modelled from the spec: `Edge::reverse`, the edge `(to, from, weight)`. -/
def reverse (e : Edge) : Edge := { from_ := e.to_, to_ := e.from_, weight := e.weight }

end Edge

/-- The members of `class Digraph`: adjacency table (slot 0 unused), vertex count, edge
counter, and the result arrays `dist`, `path`, `done`. -/
structure Digraph where
  table : List (List Edge)
  size : Nat
  n_edges : Int
  dist : List Int
  path : List Nat
  done : List Bool
  deriving DecidableEq

namespace Digraph

/-- `Digraph::Digraph(int n)`; `none` is the failed `assert(n >= 1)`. -/
def new (n : Nat) : Option Digraph :=
  if n ≥ 1 then
    some { table := List.replicate (n + 1) [], size := n, n_edges := 0,
           dist := List.replicate (n + 1) 0, path := List.replicate (n + 1) 0,
           done := List.replicate (n + 1) false }
  else none

/-- The update `it->weight = e.weight` at the first entry linking the same nodes. -/
def updateWeight (e : Edge) : List Edge → List Edge
  | [] => []
  | ed :: rest =>
    if e.links_same_nodes ed then { ed with weight := e.weight } :: rest
    else ed :: updateWeight e rest

/-- `Digraph::insertEdge`; `none` is a failed assertion. -/
def insertEdge (g : Digraph) (e : Edge) : Option Digraph :=
  if e.from_ ≥ 1 ∧ e.from_ ≤ g.size ∧ e.to_ ≥ 1 ∧ e.to_ ≤ g.size then
    let row := g.table.getD e.from_ []
    if row.any (fun ed => e.links_same_nodes ed) then
      some { g with table := g.table.set e.from_ (updateWeight e row) }
    else
      some { g with table := g.table.set e.from_ (row ++ [e]), n_edges := g.n_edges + 1 }
  else none

/-- The loop `for (auto e : V) insertEdge(e)`. -/
def insertEdges : List Edge → Digraph → Option Digraph
  | [], g => some g
  | e :: es, g =>
    match insertEdge g e with
    | some g1 => insertEdges es g1
    | none => none

/-- `Digraph::Digraph(const std::vector<Edge>& V, int n)`. -/
def ofEdges (V : List Edge) (n : Nat) : Option Digraph :=
  match new n with
  | some g => insertEdges V g
  | none => none

/-- The erase of the first entry linking the same nodes. -/
def eraseEdge (e : Edge) : List Edge → List Edge
  | [] => []
  | ed :: rest => if e.links_same_nodes ed then rest else ed :: eraseEdge e rest

/-- `Digraph::removeEdge`; `none` is a failed assertion. -/
def removeEdge (g : Digraph) (e : Edge) : Option Digraph :=
  if e.from_ ≥ 1 ∧ e.from_ ≤ g.size ∧ e.to_ ≥ 1 ∧ e.to_ ≤ g.size then
    let row := g.table.getD e.from_ []
    if row.any (fun ed => e.links_same_nodes ed) then
      some { g with table := g.table.set e.from_ (eraseEdge e row), n_edges := g.n_edges - 1 }
    else none
  else none

/-- Loop state of `uwsssp`: the arrays and the FIFO queue (front first). -/
structure BfsState where
  dist : List Int
  path : List Nat
  q : List Nat
  deriving DecidableEq

/-- The loop `for (auto& e : table[v])` of `uwsssp`, over the remaining edges. -/
def uwssspRelax (v : Nat) : List Edge → BfsState → BfsState
  | [], st => st
  | e :: es, st =>
    let u := e.to_
    if st.dist.getD u 0 = INT_MAX then
      uwssspRelax v es
        { dist := st.dist.set u (add32 (st.dist.getD v 0) 1),
          path := st.path.set u v,
          q := st.q ++ [u] }
    else uwssspRelax v es st

/-- The loop `while (!q.empty())` of `uwsssp`, with fuel. -/
def uwssspLoop (table : List (List Edge)) : Nat → BfsState → BfsState
  | 0, st => st
  | fuel + 1, st =>
    match st.q with
    | [] => st
    | v :: q1 => uwssspLoop table fuel (uwssspRelax v (table.getD v []) { st with q := q1 })

/-- The state of `uwsssp` on entry to the loop. -/
def uwssspInit (g : Digraph) (s : Nat) : BfsState :=
  { dist := (List.replicate g.dist.length INT_MAX).set s 0,
    path := List.replicate g.path.length 0,
    q := [s] }

/-- `Digraph::uwsssp(s)`; `none` is the failed assertion. The fuel is the number of
table slots; the queue is empty when the loop ends (see `uwsssp_queue_empty`). -/
def uwsssp (g : Digraph) (s : Nat) : Option Digraph :=
  if s ≥ 1 ∧ s ≤ g.size then
    let st := uwssspLoop g.table g.table.length (uwssspInit g s)
    some { g with dist := st.dist, path := st.path }
  else none

/-- Order of `std::pair<int,int>`: lexicographic. -/
def pairLt (a b : Int × Nat) : Bool := a.1 < b.1 || (a.1 == b.1 && a.2 < b.2)

/-- The least element of a non-empty heap content, scanning left to right. -/
def minOf (lt : (Int × Nat) → (Int × Nat) → Bool) : (Int × Nat) → List (Int × Nat) → Int × Nat
  | m, [] => m
  | m, x :: xs => if lt x m then minOf lt x xs else minOf lt m xs

/-- Modelled from the spec: the standard-library priority queue. `top`/`pop` of a heap
ordered by the total order `lt` return the least element and remove one copy of it;
the heap is represented by its contents. -/
def popTop (lt : (Int × Nat) → (Int × Nat) → Bool) :
    List (Int × Nat) → Option ((Int × Nat) × List (Int × Nat))
  | [] => none
  | x :: xs => some (minOf lt x xs, (x :: xs).erase (minOf lt x xs))

/-- Loop state of `pwsssp`. -/
structure DijkstraState where
  dist : List Int
  path : List Nat
  done : List Bool
  pq : List (Int × Nat)
  deriving DecidableEq

/-- The loop `for (auto& e : table[v])` of `pwsssp`, over the remaining edges. -/
def pwssspRelax (d : Int) (v : Nat) : List Edge → DijkstraState → DijkstraState
  | [], st => st
  | e :: es, st =>
    let u := e.to_
    let w := e.weight
    if !st.done.getD u false && add32 d w < st.dist.getD u 0 then
      pwssspRelax d v es
        { st with dist := st.dist.set u (add32 d w),
                  path := st.path.set u v,
                  pq := (add32 d w, u) :: st.pq }
    else pwssspRelax d v es st

/-- The loop `while (!pq.empty())` of `pwsssp`, with fuel. -/
def pwssspLoop (table : List (List Edge)) : Nat → DijkstraState → DijkstraState
  | 0, st => st
  | fuel + 1, st =>
    match popTop pairLt st.pq with
    | none => st
    | some ((d, v), pq1) =>
      if st.done.getD v false then pwssspLoop table fuel { st with pq := pq1 }
      else
        pwssspLoop table fuel
          (pwssspRelax d v (table.getD v []) { st with done := st.done.set v true, pq := pq1 })

/-- The state of `pwsssp` on entry to the loop. -/
def pwssspInit (g : Digraph) (s : Nat) : DijkstraState :=
  { dist := (List.replicate g.dist.length INT_MAX).set s 0,
    path := List.replicate g.path.length 0,
    done := List.replicate g.done.length false,
    pq := [(0, s)] }

/-- Number of stored adjacency entries. -/
def entryCount (table : List (List Edge)) : Nat := (table.map List.length).sum

/-- `Digraph::pwsssp(s)`; `none` is the failed assertion. The fuel is one more than the
number of stored edges; the heap is empty when the loop ends. -/
def pwsssp (g : Digraph) (s : Nat) : Option Digraph :=
  if s ≥ 1 ∧ s ≤ g.size then
    let st := pwssspLoop g.table (entryCount g.table + 1) (pwssspInit g s)
    some { g with dist := st.dist, path := st.path, done := st.done }
  else none

/-- Shape of a digraph: array sizes fixed by the constructor, every stored edge sits in
the list of its `from` vertex and has endpoints in `1..size`. -/
structure WF (g : Digraph) : Prop where
  table_len : g.table.length = g.size + 1
  dist_len : g.dist.length = g.size + 1
  path_len : g.path.length = g.size + 1
  done_len : g.done.length = g.size + 1
  row0 : g.table.getD 0 [] = []
  range : ∀ v e, e ∈ g.table.getD v [] → e.from_ = v ∧ 1 ≤ e.to_ ∧ e.to_ ≤ g.size

/-- The digraph with the edges (1,2), (2,3), (1,3), as built by the constructor. -/
def exampleBfsGraph : Digraph :=
  { table := [[], [⟨1, 2, 7⟩, ⟨1, 3, 7⟩], [⟨2, 3, 7⟩], []], size := 3, n_edges := 3,
    dist := [0, 0, 0, 0], path := [0, 0, 0, 0], done := [false, false, false, false] }

/-- A walk of `k` stored edges from `s`: the third index is the end vertex, the fourth the
number of edges. -/
inductive Walk (table : List (List Edge)) (s : Nat) : Nat → Nat → Prop where
  | nil : Walk table s s 0
  | snoc (v k : Nat) (e : Edge) :
      Walk table s v k → e ∈ table.getD v [] → Walk table s e.to_ (k + 1)

/-- Loop invariant of `uwsssp` between two iterations of the `while`. -/
structure BfsInv (table : List (List Edge)) (n s : Nat) (st : BfsState) : Prop where
  dist_len : st.dist.length = n + 1
  path_len : st.path.length = n + 1
  d0 : st.dist.getD 0 0 = INT_MAX
  ds : st.dist.getD s 0 = 0
  ps : st.path.getD s 0 = 0
  sound : ∀ u, u ≤ n → st.dist.getD u 0 ≠ INT_MAX →
    ∃ k : Nat, st.dist.getD u 0 = (k : Int) ∧ Walk table s u k
  pot : ∀ u, u ≤ n → st.dist.getD u 0 ≠ INT_MAX →
    st.dist.getD u 0 + (st.q.length : Int) + (st.dist.count INT_MAX : Int) ≤ (n : Int) + 1
  sorted : st.q.Pairwise (fun a b => st.dist.getD a 0 ≤ st.dist.getD b 0)
  near : ∀ u, u ≤ n → st.dist.getD u 0 ≠ INT_MAX →
    ∀ w ∈ st.q, st.dist.getD u 0 ≤ st.dist.getD w 0 + 1
  qdisc : ∀ w ∈ st.q, w ≤ n ∧ st.dist.getD w 0 ≠ INT_MAX
  closed : ∀ v, v ≤ n → st.dist.getD v 0 ≠ INT_MAX → v ∉ st.q →
    ∀ e ∈ table.getD v [], st.dist.getD e.to_ 0 ≠ INT_MAX ∧
      st.dist.getD e.to_ 0 ≤ st.dist.getD v 0 + 1
  pinf : ∀ u, u ≤ n → st.dist.getD u 0 = INT_MAX → st.path.getD u 0 = 0

/-- Invariant of the inner `for` of `uwsssp` while vertex `v` is expanded; `pre` is the
part of `table[v]` already visited. -/
structure BfsRelaxInv (table : List (List Edge)) (n s v : Nat) (pre : List Edge)
    (st : BfsState) : Prop where
  dist_len : st.dist.length = n + 1
  path_len : st.path.length = n + 1
  d0 : st.dist.getD 0 0 = INT_MAX
  ds : st.dist.getD s 0 = 0
  ps : st.path.getD s 0 = 0
  sound : ∀ u, u ≤ n → st.dist.getD u 0 ≠ INT_MAX →
    ∃ k : Nat, st.dist.getD u 0 = (k : Int) ∧ Walk table s u k
  vdisc : v ≤ n ∧ st.dist.getD v 0 ≠ INT_MAX
  pot : ∀ u, u ≤ n → st.dist.getD u 0 ≠ INT_MAX →
    st.dist.getD u 0 + (st.q.length : Int) + (st.dist.count INT_MAX : Int) ≤ (n : Int) + 1
  potv : st.dist.getD v 0 + (st.q.length : Int) + (st.dist.count INT_MAX : Int) ≤ (n : Int)
  sorted : st.q.Pairwise (fun a b => st.dist.getD a 0 ≤ st.dist.getD b 0)
  qrange : ∀ w ∈ st.q, st.dist.getD v 0 ≤ st.dist.getD w 0 ∧
    st.dist.getD w 0 ≤ st.dist.getD v 0 + 1
  near : ∀ u, u ≤ n → st.dist.getD u 0 ≠ INT_MAX → st.dist.getD u 0 ≤ st.dist.getD v 0 + 1
  qdisc : ∀ w ∈ st.q, w ≤ n ∧ st.dist.getD w 0 ≠ INT_MAX
  closed : ∀ x, x ≤ n → st.dist.getD x 0 ≠ INT_MAX → x ∉ st.q → x ≠ v →
    ∀ e ∈ table.getD x [], st.dist.getD e.to_ 0 ≠ INT_MAX ∧
      st.dist.getD e.to_ 0 ≤ st.dist.getD x 0 + 1
  preok : ∀ e ∈ pre, st.dist.getD e.to_ 0 ≠ INT_MAX ∧
    st.dist.getD e.to_ 0 ≤ st.dist.getD v 0 + 1
  pinf : ∀ u, u ≤ n → st.dist.getD u 0 = INT_MAX → st.path.getD u 0 = 0

/-- `IsPath table s p u`: the edges `p` form a chain of stored edges leading from `s`
to `u`. -/
inductive IsPath (table : List (List Edge)) (s : Nat) : List Edge → Nat → Prop where
  | nil : IsPath table s [] s
  | snoc (p : List Edge) (v : Nat) (e : Edge) :
      IsPath table s p v → e ∈ table.getD v [] → IsPath table s (p ++ [e]) e.to_

/-- Total weight of a path (a mathematical integer). -/
def pathWeight (p : List Edge) : Int := (p.map (fun e => e.weight)).sum

/-- The vertices a path from `s` visits, in order. -/
def pathVertices (s : Nat) (p : List Edge) : List Nat := s :: p.map (fun e => e.to_)

/-- Sum of the out-degrees of the vertices not yet marked in `done`. -/
def undoneDeg : List (List Edge) → List Bool → Nat
  | row :: t, b :: bs => (if b then 0 else row.length) + undoneDeg t bs
  | _, _ => 0

/-- Loop invariant of `pwsssp` between two iterations of the `while`. -/
structure DijInv (table : List (List Edge)) (n s : Nat) (st : DijkstraState) : Prop where
  dist_len : st.dist.length = n + 1
  path_len : st.path.length = n + 1
  done_len : st.done.length = n + 1
  ds : st.dist.getD s 0 = 0
  sound : ∀ u, u ≤ n → st.dist.getD u 0 ≠ INT_MAX →
    ∃ p, IsPath table s p u ∧ pathWeight p = st.dist.getD u 0 ∧ (pathVertices s p).Nodup ∧
      ∀ x ∈ pathVertices s p, x ≠ u → st.done.getD x false = true
  donedisc : ∀ v, st.done.getD v false = true → st.dist.getD v 0 ≠ INT_MAX
  heap_ge : ∀ y ∈ st.pq, y.2 ≤ n ∧ st.dist.getD y.2 0 ≤ y.1 ∧ st.dist.getD y.2 0 ≠ INT_MAX
  heap_has : ∀ u, u ≤ n → st.done.getD u false = false → st.dist.getD u 0 ≠ INT_MAX →
    (st.dist.getD u 0, u) ∈ st.pq
  mono : ∀ v, st.done.getD v false = true → ∀ y ∈ st.pq, st.dist.getD v 0 ≤ y.1
  closed : ∀ v, st.done.getD v false = true → ∀ e ∈ table.getD v [],
    st.dist.getD e.to_ 0 ≠ INT_MAX ∧ st.dist.getD e.to_ 0 ≤ st.dist.getD v 0 + e.weight
  pinf : ∀ u, u ≤ n → st.dist.getD u 0 = INT_MAX → st.path.getD u 0 = 0

/-- Invariant of the inner `for` of `pwsssp` while the popped entry `(d, v)` is expanded;
`pre` is the part of `table[v]` already visited. -/
structure DijRelaxInv (table : List (List Edge)) (n s : Nat) (d : Int) (v : Nat)
    (pre : List Edge) (st : DijkstraState) : Prop where
  dist_len : st.dist.length = n + 1
  path_len : st.path.length = n + 1
  done_len : st.done.length = n + 1
  ds : st.dist.getD s 0 = 0
  sound : ∀ u, u ≤ n → st.dist.getD u 0 ≠ INT_MAX →
    ∃ p, IsPath table s p u ∧ pathWeight p = st.dist.getD u 0 ∧ (pathVertices s p).Nodup ∧
      ∀ x ∈ pathVertices s p, x ≠ u → st.done.getD x false = true
  donedisc : ∀ v, st.done.getD v false = true → st.dist.getD v 0 ≠ INT_MAX
  vd : v ≤ n ∧ st.done.getD v false = true ∧ st.dist.getD v 0 = d
  heap_ge : ∀ y ∈ st.pq, y.2 ≤ n ∧ st.dist.getD y.2 0 ≤ y.1 ∧ st.dist.getD y.2 0 ≠ INT_MAX
  heap_has : ∀ u, u ≤ n → st.done.getD u false = false → st.dist.getD u 0 ≠ INT_MAX →
    (st.dist.getD u 0, u) ∈ st.pq
  mono : ∀ x, st.done.getD x false = true → ∀ y ∈ st.pq, st.dist.getD x 0 ≤ y.1
  monov : ∀ x, st.done.getD x false = true → st.dist.getD x 0 ≤ d
  closed : ∀ x, st.done.getD x false = true → x ≠ v → ∀ e ∈ table.getD x [],
    st.dist.getD e.to_ 0 ≠ INT_MAX ∧ st.dist.getD e.to_ 0 ≤ st.dist.getD x 0 + e.weight
  preok : ∀ e ∈ pre, st.dist.getD e.to_ 0 ≠ INT_MAX ∧ st.dist.getD e.to_ 0 ≤ d + e.weight
  pinf : ∀ u, u ≤ n → st.dist.getD u 0 = INT_MAX → st.path.getD u 0 = 0

/-- The digraph with the edges (1,2,4), (1,3,1), (3,2,1), as built by the constructor. -/
def exampleDijkstraGraph : Digraph :=
  { table := [[], [⟨1, 2, 4⟩, ⟨1, 3, 1⟩], [], [⟨3, 2, 1⟩]], size := 3, n_edges := 3,
    dist := [0, 0, 0, 0], path := [0, 0, 0, 0], done := [false, false, false, false] }

end Digraph

namespace PriorityQueue

variable {α : Type} [LinearOrder α]

/-- The test `j < n && pq[j] < pq[i]` of `percolateDown` / `pq[idx] < pq[parent]` of
`percolateUp`: false when an index is outside the vector. -/
def ltAt (pq : List α) (j i : Nat) : Bool :=
  match pq[j]?, pq[i]? with
  | some a, some b => decide (a < b)
  | _, _ => false

/-- `std::swap(pq[i], pq[j])`. -/
def swap (pq : List α) (i j : Nat) : List α :=
  match pq[i]?, pq[j]? with
  | some a, some b => (pq.set i b).set j a
  | _, _ => pq

/-- The index `smallest` computed by one pass of the body of `percolateDown`. -/
def smallestOf (pq : List α) (idx : Nat) : Nat :=
  let left := 2 * idx + 1
  let right := 2 * idx + 2
  let smallest := if ltAt pq left idx then left else idx
  if ltAt pq right smallest then right else smallest

/-- The `while (true)` loop of `percolateDown`, with fuel. -/
def percolateDownAux : Nat → List α → Nat → List α
  | 0, pq, _ => pq
  | fuel + 1, pq, idx =>
    let smallest := smallestOf pq idx
    if smallest ≠ idx then percolateDownAux fuel (swap pq idx smallest) smallest
    else pq

/-- `PriorityQueue::percolateDown(idx)`. -/
def percolateDown (pq : List α) (idx : Nat) : List α :=
  percolateDownAux pq.length pq idx

/-- The `while (idx > 0)` loop of `percolateUp`, with fuel. -/
def percolateUpAux : Nat → List α → Nat → List α
  | 0, pq, _ => pq
  | fuel + 1, pq, idx =>
    if idx > 0 then
      let parent := (idx - 1) / 2
      if ltAt pq idx parent then percolateUpAux fuel (swap pq idx parent) parent
      else pq
    else pq

/-- `PriorityQueue::percolateUp(idx)`. -/
def percolateUp (pq : List α) (idx : Nat) : List α :=
  percolateUpAux pq.length pq idx

/-- The capacity constructor: an empty vector. -/
def empty : List α := []

/-- `PriorityQueue::makeEmpty`. -/
def makeEmpty (_pq : List α) : List α := []

/-- `PriorityQueue::isEmpty`. -/
def isEmpty (pq : List α) : Bool := pq.isEmpty

/-- `PriorityQueue::size`. -/
def size (pq : List α) : Nat := pq.length

/-- `PriorityQueue::findMin`; `none` is the failed `assert(!isEmpty())`. -/
def findMin (pq : List α) : Option α := pq.head?

/-- `PriorityQueue::deleteMin`; `none` is the failed `assert(!isEmpty())`.
Returns the removed item and the new vector. -/
def deleteMin (pq : List α) : Option (α × List α) :=
  match pq, pq.getLast? with
  | minItem :: _, some last =>
    let pq1 := (pq.set 0 last).dropLast
    some (minItem, if pq1.isEmpty then pq1 else percolateDown pq1 0)
  | _, _ => none

/-- `PriorityQueue::insert(x)`. -/
def insert (pq : List α) (x : α) : List α :=
  let pq1 := pq ++ [x]
  percolateUp pq1 (pq1.length - 1)

/-- The `for (i = size/2 - 1; i >= 0; --i)` loop of `heapify`: `k` is `i + 1`. -/
def heapifyLoop : Nat → List α → List α
  | 0, pq => pq
  | k + 1, pq => heapifyLoop k (percolateDown pq k)

/-- `PriorityQueue::heapify`; `none` is the failed `assert(pq.size() > 1)`. -/
def heapify (pq : List α) : Option (List α) :=
  if pq.length > 1 then some (heapifyLoop (pq.length / 2) pq) else none

/-- The bulk constructor `PriorityQueue(V)`: copy `V`, then `heapify`. -/
def ofVector (V : List α) : Option (List α) := heapify V

/-- `PriorityQueue::isMinHeap`. -/
def isMinHeap (pq : List α) : Bool :=
  (List.range (pq.length / 2 + 1)).all fun i =>
    !(ltAt pq (2 * i + 1) i) && !(ltAt pq (2 * i + 2) i)

/-- Calling `deleteMin` until `isEmpty`, collecting the returned values. The fuel is
the number of calls allowed. -/
def drainAux : Nat → List α → List α
  | 0, _ => []
  | fuel + 1, pq =>
    match deleteMin pq with
    | some (m, pq1) => m :: drainAux fuel pq1
    | none => []

/-- Drain a queue: `while (!isEmpty()) out.push_back(deleteMin())`. -/
def drain (pq : List α) : List α := drainAux pq.length pq

/-- A call made by a client of the queue. -/
inductive Op (α : Type) where
  | insert : α → Op α
  | deleteMin : Op α
  | makeEmpty : Op α

/-- Run a sequence of calls; returns the final vector and the values returned by the
`deleteMin` calls, in call order; `none` when a `deleteMin` hits the assertion. -/
def run : List (Op α) → List α → Option (List α × List α)
  | [], pq => some (pq, [])
  | Op.insert x :: ops, pq => run ops (insert pq x)
  | Op.makeEmpty :: ops, pq => run ops (makeEmpty pq)
  | Op.deleteMin :: ops, pq =>
    match deleteMin pq with
    | none => none
    | some (m, pq1) =>
      match run ops pq1 with
      | none => none
      | some (pq2, out) => some (pq2, m :: out)

/-- The heap invariant: every element is `≤` each of its children that exists. -/
def HeapInv (pq : List α) : Prop :=
  ∀ i, (∀ a b, pq[i]? = some a → pq[2 * i + 1]? = some b → a ≤ b) ∧
       (∀ a b, pq[i]? = some a → pq[2 * i + 2]? = some b → a ≤ b)

/-- States reachable from a constructor by the public mutating operations. -/
inductive Reachable : List α → Prop where
  | capacity : Reachable (empty : List α)
  | bulk (V pq : List α) : ofVector V = some pq → Reachable pq
  | insert (pq : List α) (x : α) : Reachable pq → Reachable (insert pq x)
  | deleteMin (pq pq1 : List α) (m : α) :
      Reachable pq → deleteMin pq = some (m, pq1) → Reachable pq1
  | makeEmpty (pq : List α) : Reachable pq → Reachable (makeEmpty pq)

/-- Parent/child order between two positions (vacuous outside the vector). -/
def LeAt (pq : List α) (p j : Nat) : Prop :=
  ∀ a b, pq[p]? = some a → pq[j]? = some b → a ≤ b

/-- Heap order holds at every parent position `≥ lo`. -/
def HeapFrom (pq : List α) (lo : Nat) : Prop :=
  ∀ p, lo ≤ p → LeAt pq p (2 * p + 1) ∧ LeAt pq p (2 * p + 2)

/-- The state of the loop of `percolateDown`: heap order holds at every parent `≥ lo`
except `idx`, and the parent of `idx` (when `≥ lo`) is `≤` the children of `idx`. -/
def DownInv (pq : List α) (lo idx : Nat) : Prop :=
  (∀ p, lo ≤ p → p ≠ idx → LeAt pq p (2 * p + 1) ∧ LeAt pq p (2 * p + 2)) ∧
  (∀ p, lo ≤ p → (idx = 2 * p + 1 ∨ idx = 2 * p + 2) →
    LeAt pq p (2 * idx + 1) ∧ LeAt pq p (2 * idx + 2))

/-- The state of the loop of `percolateUp`: heap order holds for every child other
than `idx`, and the parent of `idx` is `≤` the children of `idx`. -/
def UpInv (pq : List α) (idx : Nat) : Prop :=
  (∀ p j, (j = 2 * p + 1 ∨ j = 2 * p + 2) → j ≠ idx → LeAt pq p j) ∧
  (∀ p j, (idx = 2 * p + 1 ∨ idx = 2 * p + 2) → (j = 2 * idx + 1 ∨ j = 2 * idx + 2) →
    LeAt pq p j)

/-- The vector that `deleteMin` hands to `percolateDown`. -/
def afterPop (t : List α) : List α :=
  match t.getLast? with
  | some last => last :: t.dropLast
  | none => []

/-- The condition under which interleaved use gives non-decreasing output: an `insert`
made after a `deleteMin` never inserts a value below the value most recently returned
(`last`).  Evaluated along the run of `ops` from `pq`. -/
def insertsAbove : Option α → List (Op α) → List α → Bool
  | _, [], _ => true
  | last, Op.insert x :: ops, pq =>
    (match last with
      | some l => decide (l ≤ x)
      | none => true) && insertsAbove last ops (insert pq x)
  | last, Op.makeEmpty :: ops, pq => insertsAbove last ops (makeEmpty pq)
  | _, Op.deleteMin :: ops, pq =>
    match deleteMin pq with
    | none => true
    | some (m, pq1) => insertsAbove (some m) ops pq1

/-- The calls of a sequence are `insert` and `deleteMin` only. -/
def noMakeEmpty : List (Op α) → Bool
  | [] => true
  | Op.makeEmpty :: _ => false
  | _ :: ops => noMakeEmpty ops

end PriorityQueue

/-- The members of `class Graph`: adjacency table (slot 0 unused), vertex count and edge
counter. -/
structure Graph where
  table : List (List Edge)
  size : Nat
  n_edges : Int
  deriving DecidableEq

namespace Graph

/-- `Graph::Graph(int n)`; `none` is the failed `assert(n >= 1)`. -/
def new (n : Nat) : Option Graph :=
  if n ≥ 1 then some { table := List.replicate (n + 1) [], size := n, n_edges := 0 }
  else none

/-- The lambda `edge_insertion` of `insertEdge`, on the table and the counter. -/
def edge_insertion (T : List (List Edge)) (n : Int) (e1 : Edge) : List (List Edge) × Int :=
  let row := T.getD e1.from_ []
  if row.any (fun ed => e1.links_same_nodes ed) then
    (T.set e1.from_ (Digraph.updateWeight e1 row), n)
  else (T.set e1.from_ (row ++ [e1]), n + 1)

/-- `Graph::insertEdge`; `none` is a failed assertion. -/
def insertEdge (g : Graph) (e : Edge) : Option Graph :=
  if e.from_ ≥ 1 ∧ e.from_ ≤ g.size ∧ e.to_ ≥ 1 ∧ e.to_ ≤ g.size then
    let r1 := edge_insertion g.table g.n_edges e
    let r2 := edge_insertion r1.1 r1.2 e.reverse
    some { g with table := r2.1, n_edges := r2.2 }
  else none

/-- The lambda `edgeRemoval` of `removeEdge`; `none` is the failed
`assert(it != end(T[e1.from]))`. -/
def edgeRemoval (T : List (List Edge)) (n : Int) (e1 : Edge) :
    Option (List (List Edge) × Int) :=
  let row := T.getD e1.from_ []
  if row.any (fun ed => e1.links_same_nodes ed) then
    some (T.set e1.from_ (Digraph.eraseEdge e1 row), n - 1)
  else none

/-- `Graph::removeEdge`; `none` is a failed assertion. -/
def removeEdge (g : Graph) (e : Edge) : Option Graph :=
  if e.from_ ≥ 1 ∧ e.from_ ≤ g.size ∧ e.to_ ≥ 1 ∧ e.to_ ≤ g.size then
    match edgeRemoval g.table g.n_edges e with
    | none => none
    | some r1 =>
      match edgeRemoval r1.1 r1.2 e.reverse with
      | none => none
      | some r2 => some { g with table := r2.1, n_edges := r2.2 }
  else none

/-- The loop `for (auto e : V) insertEdge(e)`. -/
def insertEdges : List Edge → Graph → Option Graph
  | [], g => some g
  | e :: es, g =>
    match insertEdge g e with
    | some g1 => insertEdges es g1
    | none => none

/-- `Graph::Graph(const std::vector<Edge>& V, int n)`. -/
def ofEdges (V : List Edge) (n : Nat) : Option Graph :=
  match new n with
  | some g => insertEdges V g
  | none => none

/-- Graph states reachable from the constructor by successful `insertEdge` and
`removeEdge` calls. -/
inductive Reachable : Graph → Prop where
  | new (n : Nat) (g : Graph) : Graph.new n = some g → Reachable g
  | insertEdge (g g1 : Graph) (e : Edge) : Reachable g → insertEdge g e = some g1 → Reachable g1
  | removeEdge (g g1 : Graph) (e : Edge) : Reachable g → removeEdge g e = some g1 → Reachable g1

/-- Shape of the adjacency table of an undirected graph: `size + 1` rows, row 0 empty,
every entry of row `v` has `from = v` and `to` in `1..size`, no row holds two entries
with the same `to`, and every entry has its mirror with the same weight. -/
structure WF (g : Graph) : Prop where
  size_pos : 1 ≤ g.size
  table_len : g.table.length = g.size + 1
  row0 : g.table.getD 0 [] = []
  range : ∀ v e, e ∈ g.table.getD v [] → e.from_ = v ∧ 1 ≤ e.to_ ∧ e.to_ ≤ g.size
  uniq : ∀ v, (g.table.getD v []).Pairwise (fun a b => a.to_ ≠ b.to_)
  mirror : ∀ v e, e ∈ g.table.getD v [] → e.reverse ∈ g.table.getD e.to_ []

/-- Every entry of the row carries `from = a`, and no two entries share their `to`. -/
def RowOK (a : Nat) (row : List Edge) : Prop :=
  (∀ x ∈ row, x.from_ = a) ∧ row.Pairwise (fun x y => x.to_ ≠ y.to_)

/-- Table-level invariant shared by the two lambdas. -/
def RowsOK (T : List (List Edge)) : Prop := ∀ v, RowOK v (T.getD v [])

end Graph

/-- Some edge of `es` joins `u` and `v`, in either direction. -/
def Adj (es : List Edge) (u v : Nat) : Prop :=
  ∃ e ∈ es, (e.from_ = u ∧ e.to_ = v) ∨ (e.from_ = v ∧ e.to_ = u)

/-- `u` and `v` are connected by edges of `es` (used in either direction). -/
def Conn (es : List Edge) : Nat → Nat → Prop := Relation.ReflTransGen (Adj es)

/-- The relation obtained from `R` by adding a link between `a` and `b`. -/
def Link (R : Nat → Nat → Prop) (a b x y : Nat) : Prop :=
  R x y ∨ (R x a ∧ R b y) ∨ (R x b ∧ R a y)

/-- No cycle: every edge is a bridge, its endpoints are not connected by the other
edges. -/
def Acyclic (T : List Edge) : Prop := ∀ e ∈ T, ¬ Conn (T.erase e) e.from_ e.to_

/-- Total weight of a list of edges (a mathematical integer). -/
def weightSum (T : List Edge) : Int := (T.map (fun e => e.weight)).sum

/-- `T` is a spanning forest of the edge set `E`: a duplicate-free, cycle-free subset of
`E` that connects whatever `E` connects. -/
structure IsSpanningForest (E T : List Edge) : Prop where
  nodup : T.Nodup
  sub : ∀ e ∈ T, e ∈ E
  acyclic : Acyclic T
  spans : ∀ u v, Conn E u v → Conn T u v

/-- `KruskalSel P K`: processing the edges `P` in order and keeping an edge exactly when
its endpoints are not yet connected by the kept edges leaves the kept edges `K`. -/
inductive KruskalSel : List Edge → List Edge → Prop where
  | nil : KruskalSel [] []
  | accept (P K : List Edge) (e : Edge) :
      KruskalSel P K → ¬ Conn K e.from_ e.to_ → KruskalSel (P ++ [e]) (K ++ [e])
  | reject (P K : List Edge) (e : Edge) :
      KruskalSel P K → Conn K e.from_ e.to_ → KruskalSel (P ++ [e]) K

/-- `reps` holds exactly one vertex of every connected component of the graph on the
vertices `1..n` with edges `E`. -/
structure IsRepSystem (E : List Edge) (n : Nat) (reps : List Nat) : Prop where
  nodup : reps.Nodup
  range : ∀ r ∈ reps, 1 ≤ r ∧ r ≤ n
  cover : ∀ v, 1 ≤ v → v ≤ n → ∃ r ∈ reps, Conn E v r
  sep : ∀ r1 ∈ reps, ∀ r2 ∈ reps, Conn E r1 r2 → r1 = r2

/-- The graph on the vertices `1..n` with edges `E` has `c` connected components. -/
def ComponentCount (E : List Edge) (n c : Nat) : Prop :=
  ∃ reps, IsRepSystem E n reps ∧ reps.length = c

namespace DSets

/-- `DSets::init`: every slot from 1 on becomes `-1`; slot 0 keeps its value. -/
def init (V : List Int) : List Int :=
  match V with
  | [] => []
  | x :: t => x :: List.replicate t.length (-1)

/-- `DSets::DSets(int theSize)`: a zeroed vector of `theSize + 1` slots, then `init`;
`none` is the failed `assert(theSize > 0)`. -/
def new (theSize : Nat) : Option (List Int) :=
  if theSize > 0 then some (init (List.replicate (theSize + 1) 0)) else none

/-- `DSets::join(r, s)`; `none` is a failed assertion. The sizes stored in the roots are
at most the number of elements, an `int`, so `V[r] += V[s]` does not overflow. -/
def join (V : List Int) (r s : Nat) : Option (List Int) :=
  if r ≠ s ∧ (r ≥ 1 ∧ r ≤ V.length - 1) ∧ (s ≥ 1 ∧ s ≤ V.length - 1) ∧
      V.getD r 0 < 0 ∧ V.getD s 0 < 0 then
    if V.getD r 0 < V.getD s 0 then
      some ((V.set r (V.getD r 0 + V.getD s 0)).set s (r : Int))
    else
      some ((V.set s (V.getD s 0 + V.getD r 0)).set r (s : Int))
  else none

/-- The recursion of `DSets::find`, with fuel: `none` is a failed assertion or exhausted
fuel. Returns the root and the vector after path compression. -/
def findAux : Nat → List Int → Nat → Option (Nat × List Int)
  | 0, _, _ => none
  | fuel + 1, V, x =>
    if x ≥ 1 ∧ x ≤ V.length - 1 then
      if V.getD x 0 < 0 then some (x, V)
      else
        match findAux fuel V (V.getD x 0).toNat with
        | none => none
        | some (r, V1) => some (r, V1.set x (r : Int))
    else none

/-- `DSets::find(x)`; the fuel is the number of slots (see `find_spec`: it is never
exhausted on a well-formed vector). -/
def find (V : List Int) (x : Nat) : Option (Nat × List Int) := findAux V.length V x

end DSets

namespace Graph

/-- Step 1 of `mstKruskal`: the entries with `from < to`, row by row. -/
def collectEdges (g : Graph) : List Edge :=
  (List.range' 1 g.size).flatMap fun u =>
    (g.table.getD u []).filter fun e => decide (e.from_ < e.to_)

/-- Loop state of `mstKruskal`: the disjoint sets, the running total and the edges
printed so far. -/
structure KruskalState where
  ds : List Int
  totalWeight : Int
  out : List Edge
  deriving DecidableEq

/-- The body of the `while` of `mstKruskal` for the popped edge `e`; `none` is a failed
assertion of `DSets`. -/
def kruskalStep (st : KruskalState) (e : Edge) : Option KruskalState :=
  match DSets.find st.ds e.from_ with
  | none => none
  | some (ru, ds1) =>
    match DSets.find ds1 e.to_ with
    | none => none
    | some (rv, ds2) =>
      if ru ≠ rv then
        match DSets.join ds2 ru rv with
        | none => none
        | some ds3 =>
          some { ds := ds3, totalWeight := add32 st.totalWeight e.weight, out := st.out ++ [e] }
      else some { st with ds := ds2 }

/-- The loop `while (!heap.empty())` of `mstKruskal`, with fuel; `pop` is
`std::pop_heap` followed by `heap.back()` and `heap.pop_back()`. -/
def kruskalLoop (pop : List Edge → Option (Edge × List Edge)) :
    Nat → List Edge → KruskalState → Option KruskalState
  | 0, _, st => some st
  | fuel + 1, heap, st =>
    match pop heap with
    | none => some st
    | some (e, heap1) =>
      match kruskalStep st e with
      | none => none
      | some st1 => kruskalLoop pop fuel heap1 st1

/-- `Graph::mstKruskal`, returning the printed edges and the printed total. The
standard-library heap is a parameter: `make` is `std::make_heap` and `pop` is
`std::pop_heap` plus `pop_back`, both with the comparator `cmp` on weights. -/
def mstKruskal (make : List Edge → List Edge) (pop : List Edge → Option (Edge × List Edge))
    (g : Graph) : Option (List Edge × Int) :=
  match DSets.new g.size with
  | none => none
  | some ds =>
    let heap := make (collectEdges g)
    match kruskalLoop pop heap.length heap { ds := ds, totalWeight := 0, out := [] } with
    | none => none
    | some st => some (st.out, st.totalWeight)

/-- Modelled from the spec: what the standard library guarantees for `std::make_heap`
and `std::pop_heap` with the comparator `cmp`: `make` rearranges, `pop` fails on the
empty heap only and otherwise removes an edge whose weight is least. Which edge of
several of equal weight comes first is left open. -/
structure MinHeapOps (make : List Edge → List Edge)
    (pop : List Edge → Option (Edge × List Edge)) : Prop where
  make_perm : ∀ h, (make h).Perm h
  pop_none : ∀ h, pop h = none ↔ h = []
  pop_perm : ∀ h e h1, pop h = some (e, h1) → h.Perm (e :: h1)
  pop_min : ∀ h e h1, pop h = some (e, h1) → ∀ x ∈ h, e.weight ≤ x.weight

/-- The first edge of least weight in `m :: l`. -/
def minEdge : Edge → List Edge → Edge
  | m, [] => m
  | m, x :: xs => if x.weight < m.weight then minEdge x xs else minEdge m xs

/-- A heap that keeps its contents in insertion order and pops the first edge of least
weight: one implementation of `MinHeapOps`. -/
def popMinEdge : List Edge → Option (Edge × List Edge)
  | [] => none
  | x :: xs => some (minEdge x xs, (x :: xs).erase (minEdge x xs))

end Graph

namespace DSets

/-- `Rep V x r`: following the parent links from `x` ends at the root `r`. -/
inductive Rep (V : List Int) : Nat → Nat → Prop where
  | root (x : Nat) : 1 ≤ x → x < V.length → V.getD x 0 < 0 → Rep V x x
  | step (x r : Nat) : 1 ≤ x → x < V.length → 0 ≤ V.getD x 0 →
      Rep V (V.getD x 0).toNat r → Rep V x r

/-- The size a slot stores when it is a root, else 0. -/
def negPart (x : Int) : Int := if x < 0 then -x else 0

/-- Sum of the sizes stored in the roots. -/
def sizeSum (V : List Int) : Int := (V.map negPart).sum

/-- Representation invariant of `DSets` for `n` elements, with a ghost rank `h` that
grows along parent links and is bounded by the size stored in the root. -/
structure Inv (V : List Int) (n : Nat) (h : Nat → Nat) : Prop where
  len : V.length = n + 1
  parent : ∀ x, 1 ≤ x → x ≤ n → 0 ≤ V.getD x 0 → 1 ≤ V.getD x 0 ∧ V.getD x 0 ≤ (n : Int)
  rank : ∀ x, 1 ≤ x → x ≤ n → 0 ≤ V.getD x 0 → h x < h (V.getD x 0).toNat
  bound : ∀ x, 1 ≤ x → x ≤ n → h x ≤ n
  pos : ∀ x, 1 ≤ x → x ≤ n → 1 ≤ h x
  size : ∀ r, 1 ≤ r → r ≤ n → V.getD r 0 < 0 → (h r : Int) ≤ - V.getD r 0
  total : sizeSum V ≤ (n : Int)

end DSets

namespace Graph

/-- What the disjoint sets of `mstKruskal` represent: the components of the kept
edges, with the running total equal to their weight reduced to an `int`. -/
structure KruskalInv (n : Nat) (st : KruskalState) : Prop where
  ds : ∃ h, DSets.Inv st.ds n h
  part : ∀ x y, 1 ≤ x → x ≤ n → 1 ≤ y → y ≤ n →
    ((∃ r, DSets.Rep st.ds x r ∧ DSets.Rep st.ds y r) ↔ Conn st.out x y)
  total : st.totalWeight = wrap32 (weightSum st.out)

/-- The total returned is the least total weight of a spanning forest of `E`: some
spanning forest has this weight and none has less. -/
def IsMinForestWeight (E : List Edge) (w : Int) : Prop :=
  (∃ T, IsSpanningForest E T ∧ weightSum T = w) ∧ ∀ T, IsSpanningForest E T → w ≤ weightSum T

/-- The path 1 - 2 - 3 with two edges of weight `2^30`. -/
def heavyPath : Graph :=
  { table := [[], [⟨1, 2, 1073741824⟩], [⟨2, 1, 1073741824⟩, ⟨2, 3, 1073741824⟩],
      [⟨3, 2, 1073741824⟩]],
    size := 3, n_edges := 4 }

/-- The triangle 1 - 2 - 3 with weights 1, 2, 3. -/
def triangle : Graph :=
  { table := [[], [⟨1, 2, 1⟩, ⟨1, 3, 3⟩], [⟨2, 1, 1⟩, ⟨2, 3, 2⟩], [⟨3, 1, 3⟩, ⟨3, 2, 2⟩]],
    size := 3, n_edges := 6 }

end Graph

/-- Edge `e` leaves the vertex set `S`: exactly one endpoint lies in `S`. -/
def Crosses (S : List Nat) (e : Edge) : Prop :=
  (e.from_ ∈ S ∧ e.to_ ∉ S) ∨ (e.to_ ∈ S ∧ e.from_ ∉ S)

instance decCrosses (S : List Nat) (e : Edge) : Decidable (Crosses S e) :=
  inferInstanceAs (Decidable ((e.from_ ∈ S ∧ e.to_ ∉ S) ∨ (e.to_ ∈ S ∧ e.from_ ∉ S)))

/-- Prim's rule grown from vertex 1: each step adds a vertex `v` outside the tree
together with a lightest edge of `E` leaving the tree. -/
inductive PrimSel (E : List Edge) : List Nat → List Edge → Prop where
  | start : PrimSel E [1] []
  | grow (S : List Nat) (PT : List Edge) (e : Edge) (x v : Nat) :
      PrimSel E S PT → e ∈ E → x ∈ S → v ∉ S →
      ((e.from_ = x ∧ e.to_ = v) ∨ (e.from_ = v ∧ e.to_ = x)) →
      (∀ f ∈ E, Crosses S f → e.weight ≤ f.weight) → PrimSel E (v :: S) (e :: PT)

namespace Graph

/-- Loop state of `mstPrim`; `heap` holds the pairs `(-weight, vertex)`. -/
structure PrimState where
  dist : List Int
  path : List Nat
  done : List Bool
  heap : List (Int × Nat)
  total_weight : Int
  deriving DecidableEq

/-- The loop `for (auto const& e : table[u])` of `mstPrim`, over the remaining edges. -/
def primRelax (u : Nat) : List Edge → PrimState → PrimState
  | [], st => st
  | e :: es, st =>
    let v := e.to_
    let ew := e.weight
    if !st.done.getD v false && ew < st.dist.getD v 0 then
      primRelax u es
        { st with dist := st.dist.set v ew,
                  path := st.path.set v u,
                  heap := (neg32 ew, v) :: st.heap }
    else primRelax u es st

/-- The loop `while (!heap.empty())` of `mstPrim`, with fuel. `std::pop_heap` on the
default max-heap of pairs removes the greatest pair. -/
def primLoop (table : List (List Edge)) : Nat → PrimState → PrimState
  | 0, st => st
  | fuel + 1, st =>
    match Digraph.popTop (fun a b => Digraph.pairLt b a) st.heap with
    | none => st
    | some ((neg_w, u), heap1) =>
      if st.done.getD u false then primLoop table fuel { st with heap := heap1 }
      else
        primLoop table fuel
          (primRelax u (table.getD u [])
            { st with done := st.done.set u true, heap := heap1,
                      total_weight := add32 st.total_weight (neg32 neg_w) })

/-- The state of `mstPrim` on entry to the loop. -/
def primInit (g : Graph) : PrimState :=
  { dist := (List.replicate (g.size + 1) INT_MAX).set 1 0,
    path := List.replicate (g.size + 1) 0,
    done := List.replicate (g.size + 1) false,
    heap := [(0, 1)],
    total_weight := 0 }

/-- `Graph::mstPrim`: the printed triples `(path[v], v, dist[v])` for `v = 2 .. size`
and the printed total. The fuel is one more than the number of stored entries; the
heap is empty when the loop ends. -/
def mstPrim (g : Graph) : List (Nat × Nat × Int) × Int :=
  let st := primLoop g.table (Digraph.entryCount g.table + 1) (primInit g)
  ((List.range' 2 (g.size - 1)).map (fun v => (st.path.getD v 0, v, st.dist.getD v 0)),
    st.total_weight)

/-- The single edge 1 - 2 of weight `INT_MAX`. -/
def sentinelEdge : Graph :=
  { table := [[], [⟨1, 2, 2147483647⟩], [⟨2, 1, 2147483647⟩]], size := 2, n_edges := 2 }

/-- What `mstPrim` needs to know about the adjacency table: ranges of the entries and
how they correspond to the edge set `E`. -/
structure PrimTable (table : List (List Edge)) (n : Nat) (E : List Edge) : Prop where
  len : table.length = n + 1
  range : ∀ v e, e ∈ table.getD v [] → e.from_ = v ∧ 1 ≤ e.to_ ∧ e.to_ ≤ n
  wt : ∀ v e, e ∈ table.getD v [] → 0 ≤ e.weight ∧ e.weight < INT_MAX
  toE : ∀ v e, e ∈ table.getD v [] → e.from_ ≠ e.to_ →
    ∃ c ∈ E, c.weight = e.weight ∧
      ((c.from_ = e.from_ ∧ c.to_ = e.to_) ∨ (c.from_ = e.to_ ∧ c.to_ = e.from_))
  ofE : ∀ c ∈ E, ∀ x y, ((c.from_ = x ∧ c.to_ = y) ∨ (c.from_ = y ∧ c.to_ = x)) →
    ∃ e ∈ table.getD x [], e.to_ = y ∧ e.weight = c.weight

/-- Loop invariant of `mstPrim`. `S` and `PT` are the vertices marked done and the tree
edges chosen so far; `ok x e` says that the entry `e` of the done vertex `x` has already
been visited by the inner `for`. -/
structure PrimInv (table : List (List Edge)) (n : Nat) (E : List Edge)
    (ok : Nat → Edge → Prop) (st : PrimState) (S : List Nat) (PT : List Edge) : Prop where
  dist_len : st.dist.length = n + 1
  done_len : st.done.length = n + 1
  sdone : ∀ v, v ∈ S ↔ st.done.getD v false = true
  sel : PrimSel E S PT
  total : st.total_weight = wrap32 (weightSum PT)
  sound : ∀ u, u ≤ n → st.done.getD u false = false → st.dist.getD u 0 ≠ INT_MAX →
    ∃ x e, st.done.getD x false = true ∧ e ∈ table.getD x [] ∧ e.to_ = u ∧
      e.weight = st.dist.getD u 0
  heap_ge : ∀ y ∈ st.heap, y.2 ≤ n ∧ -INT_MAX < y.1 ∧ y.1 ≤ 0 ∧ st.dist.getD y.2 0 ≤ -y.1
  heap_has : ∀ u, u ≤ n → st.done.getD u false = false → st.dist.getD u 0 ≠ INT_MAX →
    (-(st.dist.getD u 0), u) ∈ st.heap
  closed : ∀ x, st.done.getD x false = true → ∀ e ∈ table.getD x [], ok x e →
    st.done.getD e.to_ false = false → st.dist.getD e.to_ 0 ≤ e.weight

end Graph

namespace PriorityQueue

variable {α : Type} [LinearOrder α]

/-- A call of `findMin` as a transition of the queue: the returned value (`none` when
the assertion fails) and the vector afterwards. `findMin` only reads `pq.front()`. -/
def findMinCall (pq : List α) : Option α × List α := (findMin pq, pq)

/-- A call of `deleteMin` as a transition of the queue: the returned value (`none` when
the assertion fails) and the vector afterwards. The assertion is the first statement, so
a failing call has written nothing. -/
def deleteMinCall (pq : List α) : Option α × List α :=
  match deleteMin pq with
  | some (m, pq1) => (some m, pq1)
  | none => (none, pq)

end PriorityQueue

namespace DSets

/-- States of a `DSets` object for `n` elements reachable from the constructor by
successful `join` and `find` calls; the second index counts the `join` calls. -/
inductive Reach (n : Nat) : Nat → List Int → Prop where
  | init (V : List Int) : new n = some V → Reach n 0 V
  | join (k : Nat) (V V1 : List Int) (r s : Nat) :
      Reach n k V → join V r s = some V1 → Reach n (k + 1) V1
  | find (k : Nat) (V V1 : List Int) (x r : Nat) :
      Reach n k V → find V x = some (r, V1) → Reach n k V1

/-- `OnPath V x y`: `y` is met when following the parent links from `x` (`x` itself
included). -/
inductive OnPath (V : List Int) : Nat → Nat → Prop where
  | here (x : Nat) : OnPath V x x
  | next (x y : Nat) : 0 ≤ V.getD x 0 → OnPath V (V.getD x 0).toNat y → OnPath V x y

/-- `Depth V x r d`: following the parent links from `x` reaches the root `r` after `d`
links. -/
inductive Depth (V : List Int) : Nat → Nat → Nat → Prop where
  | root (x : Nat) : 1 ≤ x → x < V.length → V.getD x 0 < 0 → Depth V x x 0
  | step (x r d : Nat) : 1 ≤ x → x < V.length → 0 ≤ V.getD x 0 →
      Depth V (V.getD x 0).toNat r d → Depth V x r (d + 1)

/-- Number of roots among the elements `1 .. n`. -/
def rootCount (V : List Int) (n : Nat) : Nat :=
  ((List.range' 1 n).filter (fun x => decide (V.getD x 0 < 0))).length

/-- A call `join(r, s)` with its `int` arguments, as a transition of the array: whether
the call succeeded, and the array afterwards. A negative argument fails the range
assertion like any other id outside `1 .. n`; all assertions precede the writes, so a
failing call has written nothing. -/
def joinCall (V : List Int) (r s : Int) : Bool × List Int :=
  if 0 ≤ r ∧ 0 ≤ s then
    match join V r.toNat s.toNat with
    | some V1 => (true, V1)
    | none => (false, V)
  else (false, V)

/-- A call `find(x)` with its `int` argument, as a transition of the array: the returned
root (`none` when an assertion fails) and the array afterwards. The writes `V[x] = ...`
happen after the recursive calls have returned, so a failing call has written nothing. -/
def findCall (V : List Int) (x : Int) : Option Nat × List Int :=
  if 0 ≤ x then
    match find V x.toNat with
    | some (r, V1) => (some r, V1)
    | none => (none, V)
  else (none, V)

/-- Ghost ranks witnessing logarithmic depth: the rank grows along every parent link and
a root of rank `k` heads a tree of at least `2 ^ k` elements. -/
structure LogInv (V : List Int) (n : Nat) (rk : Nat → Nat) : Prop where
  up : ∀ x, 1 ≤ x → x ≤ n → 0 ≤ V.getD x 0 → rk x < rk (V.getD x 0).toNat
  big : ∀ r, 1 ≤ r → r ≤ n → V.getD r 0 < 0 → (2 : Int) ^ rk r ≤ - V.getD r 0

/-- The elements `1 .. n` whose representative is `r`, listed without repetition. -/
def Members (V : List Int) (n r : Nat) (ms : List Nat) : Prop :=
  ms.Nodup ∧ ∀ x, x ∈ ms ↔ (1 ≤ x ∧ x ≤ n ∧ Rep V x r)

/-- Four elements after `join(1, 2)`, `join(3, 4)`, `join(2, 4)`: the chain
`1 -> 2 -> 4` and `3 -> 4`. -/
def exampleSets : List Int := [0, 2, 4, 4, -4]

/-- Every root stores the negated number of elements it represents. -/
def Counted (V : List Int) (n : Nat) : Prop :=
  ∀ r, 1 ≤ r → r ≤ n → V.getD r 0 < 0 →
    ∃ ms, Members V n r ms ∧ (ms.length : Int) = - V.getD r 0

end DSets

namespace Digraph

/-- Digraph states reachable from the constructor by successful calls of the public
member functions. -/
inductive Reachable : Digraph → Prop where
  | new (n : Nat) (g : Digraph) : Digraph.new n = some g → Reachable g
  | insertEdge (g g1 : Digraph) (e : Edge) :
      Reachable g → insertEdge g e = some g1 → Reachable g1
  | removeEdge (g g1 : Digraph) (e : Edge) :
      Reachable g → removeEdge g e = some g1 → Reachable g1
  | uwsssp (g g1 : Digraph) (s : Nat) : Reachable g → uwsssp g s = some g1 → Reachable g1
  | pwsssp (g g1 : Digraph) (s : Nat) : Reachable g → pwsssp g s = some g1 → Reachable g1

end Digraph

namespace Graph

/-- The stored entries whose `from` exceeds their `to`: the mirrors of the collected
entries. -/
def mirrorEdges (g : Graph) : List Edge :=
  (List.range' 1 g.size).flatMap fun u =>
    (g.table.getD u []).filter fun e => decide (e.to_ < e.from_)

/-- The stored self-loops, the entries with `from = to`. -/
def selfLoops (g : Graph) : List Edge :=
  (List.range' 1 g.size).flatMap fun u =>
    (g.table.getD u []).filter fun e => decide (e.from_ = e.to_)

end Graph

namespace Digraph

/-- A call `removeEdge(Edge(u, v, w))` with its `int` endpoints, as a transition of the
digraph: whether the call succeeded, and the digraph afterwards. A negative endpoint fails
the range assertion like any other id outside `1 .. size`; all assertions precede the
writes, so a failing call has written nothing. -/
def removeEdgeCall (g : Digraph) (u v w : Int) : Bool × Digraph :=
  if 0 ≤ u ∧ 0 ≤ v then
    match removeEdge g ⟨u.toNat, v.toNat, w⟩ with
    | some g1 => (true, g1)
    | none => (false, g)
  else (false, g)

end Digraph

namespace Graph

/-- The pairs (remaining heap, loop state) the `while` of `mstKruskal` passes through:
the state on entry, and the state after each iteration that popped an edge. -/
inductive KruskalReach (make : List Edge → List Edge)
    (pop : List Edge → Option (Edge × List Edge)) (g : Graph) :
    List Edge → KruskalState → Prop where
  | start (ds : List Int) : DSets.new g.size = some ds →
      KruskalReach make pop g (make (collectEdges g)) { ds := ds, totalWeight := 0, out := [] }
  | step (heap heap1 : List Edge) (st st1 : KruskalState) (e : Edge) :
      KruskalReach make pop g heap st → pop heap = some (e, heap1) →
      kruskalStep st e = some st1 → KruskalReach make pop g heap1 st1

/-- The graph on three vertices with the single edge 1 - 2 of weight 5; vertex 3 is
isolated. -/
def isolatedVertex : Graph :=
  { table := [[], [⟨1, 2, 5⟩], [⟨2, 1, 5⟩], []], size := 3, n_edges := 2 }

end Graph

namespace Digraph

end Digraph

/-- The members of `class Set` (lab 2): the values stored in the nodes between the dummy
head and the dummy tail, in list order, and `counter`. The nodes themselves, their `prev`
and `next` pointers and their allocation are not represented. -/
structure Set where
  values : List Int
  counter : Nat
  deriving DecidableEq

namespace Set

/-- `++counter` on `size_t` (64 bits): the successor modulo `2 ^ 64`. -/
def incr (c : Nat) : Nat := if c = 18446744073709551615 then 0 else c + 1

/-- `--counter` on `size_t` (64 bits): the predecessor modulo `2 ^ 64`. -/
def decr (c : Nat) : Nat := if c = 0 then 18446744073709551615 else c - 1

/-- The loop of `Set::is_member`, from the node `current` on. -/
def isMemberFrom : List Int → Int → Bool
  | [], _ => false
  | a :: rest, val => if a ≤ val then (if a = val then true else isMemberFrom rest val) else false

/-- `Set::is_member`. -/
def is_member (S : Set) (val : Int) : Bool := isMemberFrom S.values val

/-- `Set::make_empty`. -/
def make_empty (_S : Set) : Set := { values := [], counter := 0 }

/-- The inner loop `while (p1 != tail && p1->value < p2->value) p1 = p1->next` of
`operator+=`: `pre` are the values before `p1`, the second list the values from `p1` on,
`x` is `p2->value`. -/
def advance (x : Int) : List Int → List Int → List Int × List Int
  | pre, [] => (pre, [])
  | pre, a :: suf => if a < x then advance x (pre ++ [a]) suf else (pre, a :: suf)

/-- The loop `while (p2 != S.tail)` of `operator+=`: `pre` and `suf` are the values of
`*this` before `p1` and from `p1` on, `c` is `counter`, the last list the values of `S`
from `p2` on. `insert_node(p1->prev, x)` puts `x` right before `p1`. -/
def plusLoop : List Int → List Int → Nat → List Int → List Int × Nat
  | pre, suf, c, [] => (pre ++ suf, c)
  | pre, suf, c, x :: s =>
    match advance x pre suf with
    | (pre1, []) => plusLoop (pre1 ++ [x]) [] (incr c) s
    | (pre1, a :: suf1) =>
      if a > x then plusLoop (pre1 ++ [x]) (a :: suf1) (incr c) s
      else plusLoop pre1 (a :: suf1) c s

/-- `Set::operator+=` for an argument `S` that is another object than `*this`. -/
def plusAssign (A S : Set) : Set :=
  { values := (plusLoop [] A.values A.counter S.values).1,
    counter := (plusLoop [] A.values A.counter S.values).2 }

/-- The first loop `while (p1 != tail && p2 != S.tail)` of `operator*=`, with fuel;
returns the values before `p1`, the values from `p1` on, and `counter`. -/
def timesLoop : Nat → List Int → List Int → Nat → List Int → List Int × List Int × Nat
  | 0, pre, suf, c, _ => (pre, suf, c)
  | fuel + 1, pre, a :: suf, c, x :: s =>
    if a < x then timesLoop fuel pre suf (decr c) (x :: s)
    else if a > x then timesLoop fuel pre (a :: suf) c s
    else timesLoop fuel (pre ++ [a]) suf c s
  | _ + 1, pre, suf, c, _ => (pre, suf, c)

/-- The second loop `while (p1 != tail)` of `operator*=`: every remaining node is removed
and counted down. -/
def dropRest : List Int → Nat → Nat
  | [], c => c
  | _ :: suf, c => dropRest suf (decr c)

/-- `Set::operator*=` for an argument `S` that is another object than `*this`. Every
iteration of the first loop passes a node of one of the two lists, so the fuel is the
sum of the lengths. -/
def timesAssign (A S : Set) : Set :=
  { values := (timesLoop (A.values.length + S.values.length) [] A.values A.counter S.values).1,
    counter :=
      dropRest (timesLoop (A.values.length + S.values.length) [] A.values A.counter S.values).2.1
        (timesLoop (A.values.length + S.values.length) [] A.values A.counter S.values).2.2 }

/-- The loop `while (p1 != tail && p2 != S.tail)` of `operator-=`, with fuel. -/
def minusLoop : Nat → List Int → List Int → Nat → List Int → List Int × Nat
  | 0, pre, suf, c, _ => (pre ++ suf, c)
  | fuel + 1, pre, a :: suf, c, x :: s =>
    if a < x then minusLoop fuel (pre ++ [a]) suf c (x :: s)
    else if a > x then minusLoop fuel pre (a :: suf) c s
    else minusLoop fuel pre suf (decr c) s
  | _ + 1, pre, suf, c, _ => (pre ++ suf, c)

/-- `Set::operator-=`; `same` is the test `this == &S`. -/
def minusAssign (same : Bool) (A S : Set) : Set :=
  if same then make_empty A
  else
    { values := (minusLoop (A.values.length + S.values.length) [] A.values A.counter S.values).1,
      counter :=
        (minusLoop (A.values.length + S.values.length) [] A.values A.counter S.values).2 }

/-- The set `{1, 3, 5}`. -/
def exampleA : Set := { values := [1, 3, 5], counter := 3 }

/-- The set `{3, 4}`. -/
def exampleB : Set := { values := [3, 4], counter := 2 }

end Set

end TND004

/-! ## Theorems -/

namespace TND004

theorem getD_set {β : Type} (l : List β) (i j : Nat) (a d : β) :
    (l.set i a).getD j d = if i = j ∧ i < l.length then a else l.getD j d := by
  simp only [List.getD_eq_getElem?_getD, List.getElem?_set]
  by_cases h : i = j
  · subst h
    by_cases h2 : i < l.length
    · simp [h2]
    · simp [h2, List.getElem?_eq_none (Nat.le_of_not_lt h2)]
  · simp [h]

theorem getD_set_self {β : Type} (l : List β) (i : Nat) (a d : β) (h : i < l.length) :
    (l.set i a).getD i d = a := by
  rw [getD_set]; simp [h]

theorem getD_set_ne {β : Type} (l : List β) (i j : Nat) (a d : β) (h : i ≠ j) :
    (l.set i a).getD j d = l.getD j d := by
  rw [getD_set]; simp [h]

theorem getD_replicate {β : Type} (n j : Nat) (a d : β) (h : j < n) :
    (List.replicate n a).getD j d = a := by
  simp [List.getD_eq_getElem?_getD, List.getElem?_replicate, h]

theorem count_set_lt (l : List Int) (i : Nat) (a b : Int) (hi : i < l.length)
    (hold : l.getD i 0 = b) (hnew : a ≠ b) :
    (l.set i a).count b + 1 = l.count b := by
  rw [List.count_set _ _ _ _ hi]
  have hget : l[i] = b := by
    rw [← hold, List.getD_eq_getElem?_getD, List.getElem?_eq_getElem hi]; rfl
  have hpos : 0 < l.count b := List.count_pos_iff.2 (hget ▸ List.getElem_mem hi)
  simp only [hget, beq_self_eq_true, if_true]
  have : (a == b) = false := by simpa using hnew
  simp only [this, Bool.false_eq_true, if_false]
  omega

theorem wrap32_id (x : Int) (h1 : -2147483648 ≤ x) (h2 : x ≤ 2147483647) : wrap32 x = x := by
  unfold wrap32; omega

namespace Digraph

theorem new_wf (n : Nat) (g : Digraph) (h : new n = some g) : WF g ∧ g.size = n := by
  unfold new at h
  split at h
  · simp only [Option.some.injEq] at h
    subst h
    refine ⟨⟨by simp, by simp, by simp, by simp, ?_, ?_⟩, rfl⟩
    · simp [List.getD_eq_getElem?_getD, List.getElem?_replicate]
    · intro v e he
      simp only [List.getD_eq_getElem?_getD, List.getElem?_replicate] at he
      split at he <;> simp at he
  · cases h

theorem updateWeight_mem (e x : Edge) (row : List Edge) (hx : x ∈ updateWeight e row) :
    ∃ y ∈ row, x.from_ = y.from_ ∧ x.to_ = y.to_ := by
  induction row with
  | nil => simp [updateWeight] at hx
  | cons ed rest ih =>
    simp only [updateWeight] at hx
    split at hx
    · rcases List.mem_cons.1 hx with h | h
      · exact ⟨ed, List.mem_cons_self _ _, by rw [h], by rw [h]⟩
      · exact ⟨x, List.mem_cons_of_mem _ h, rfl, rfl⟩
    · rcases List.mem_cons.1 hx with h | h
      · exact ⟨ed, List.mem_cons_self _ _, by rw [h], by rw [h]⟩
      · obtain ⟨y, hy, h1⟩ := ih h
        exact ⟨y, List.mem_cons_of_mem _ hy, h1⟩

theorem insertEdge_wf (g g1 : Digraph) (e : Edge) (hg : WF g) (h : insertEdge g e = some g1) :
    WF g1 ∧ g1.size = g.size := by
  unfold insertEdge at h
  split at h
  · next hr =>
    have hlen : e.from_ < g.table.length := by rw [hg.table_len]; omega
    simp only at h
    split at h
    · simp only [Option.some.injEq] at h
      subst h
      refine ⟨⟨by simpa using hg.table_len, hg.dist_len, hg.path_len, hg.done_len, ?_, ?_⟩, rfl⟩
      · show (g.table.set e.from_ _).getD 0 [] = []
        rw [getD_set_ne _ _ _ _ _ (by omega)]; exact hg.row0
      · intro v x hx
        change x ∈ (g.table.set e.from_ _).getD v [] at hx
        rw [getD_set] at hx
        split at hx
        · next hv =>
          obtain ⟨y, hy, h1, h2⟩ := updateWeight_mem e x _ hx
          have := hg.range e.from_ y hy
          rw [h1, h2, ← hv.1]; exact this
        · exact hg.range v x hx
    · simp only [Option.some.injEq] at h
      subst h
      refine ⟨⟨by simpa using hg.table_len, hg.dist_len, hg.path_len, hg.done_len, ?_, ?_⟩, rfl⟩
      · show (g.table.set e.from_ _).getD 0 [] = []
        rw [getD_set_ne _ _ _ _ _ (by omega)]; exact hg.row0
      · intro v x hx
        change x ∈ (g.table.set e.from_ _).getD v [] at hx
        rw [getD_set] at hx
        split at hx
        · next hv =>
          rcases List.mem_append.1 hx with h1 | h1
          · rw [← hv.1]; exact hg.range e.from_ x h1
          · simp only [List.mem_singleton] at h1
            subst h1
            exact ⟨hv.1, hr.2.2.1, hr.2.2.2⟩
        · exact hg.range v x hx
  · cases h

theorem insertEdges_wf (V : List Edge) : ∀ (g g1 : Digraph), WF g →
    insertEdges V g = some g1 → WF g1 ∧ g1.size = g.size := by
  induction V with
  | nil =>
    intro g g1 hg h
    simp only [insertEdges, Option.some.injEq] at h
    subst h; exact ⟨hg, rfl⟩
  | cons e es ih =>
    intro g g1 hg h
    simp only [insertEdges] at h
    cases h1 : insertEdge g e with
    | none => rw [h1] at h; cases h
    | some g2 =>
      rw [h1] at h
      obtain ⟨hw, hs⟩ := insertEdge_wf g g2 e hg h1
      obtain ⟨hw2, hs2⟩ := ih g2 g1 hw h
      exact ⟨hw2, hs2.trans hs⟩

theorem ofEdges_wf (V : List Edge) (n : Nat) (g : Digraph) (h : ofEdges V n = some g) :
    WF g ∧ g.size = n := by
  unfold ofEdges at h
  cases h1 : new n with
  | none => rw [h1] at h; cases h
  | some g0 =>
    rw [h1] at h
    obtain ⟨hw, hs⟩ := new_wf n g0 h1
    obtain ⟨hw2, hs2⟩ := insertEdges_wf V g0 g hw h
    exact ⟨hw2, hs2.trans hs⟩

theorem bfs_relax_step (table : List (List Edge)) (n s v : Nat) (pre : List Edge)
    (st : BfsState) (e : Edge) (hn : (n : Int) < INT_MAX)
    (he : e ∈ table.getD v []) (hr : 1 ≤ e.to_ ∧ e.to_ ≤ n)
    (inv : BfsRelaxInv table n s v pre st) :
    BfsRelaxInv table n s v (pre ++ [e]) (uwssspRelax v [e] st) ∧
    ((uwssspRelax v [e] st).q.length + (uwssspRelax v [e] st).dist.count INT_MAX =
      st.q.length + st.dist.count INT_MAX) := by
  simp only [uwssspRelax]
  by_cases hu : st.dist.getD e.to_ 0 = INT_MAX
  · rw [if_pos hu]
    obtain ⟨kv, hkv, hwv⟩ := inv.sound v inv.vdisc.1 inv.vdisc.2
    have hul : e.to_ < st.dist.length := by rw [inv.dist_len]; omega
    have hcnt := count_set_lt st.dist e.to_ (add32 (st.dist.getD v 0) 1) INT_MAX hul hu
    have hpotv := inv.potv
    have hI : INT_MAX = 2147483647 := rfl
    have hcpos : 0 < st.dist.count INT_MAX := by
      apply List.count_pos_iff.2
      rw [← hu, List.getD_eq_getElem?_getD, List.getElem?_eq_getElem hul]
      exact List.getElem_mem hul
    have hadd : add32 (st.dist.getD v 0) 1 = st.dist.getD v 0 + 1 := by
      unfold add32
      apply wrap32_id
      · omega
      · omega
    have hlt : st.dist.getD v 0 + 1 < INT_MAX := by omega
    have hne : add32 (st.dist.getD v 0) 1 ≠ INT_MAX := by rw [hadd]; omega
    have hcnt2 := hcnt hne
    have huv : e.to_ ≠ v := by
      intro h; rw [h] at hu; exact inv.vdisc.2 hu
    have hus : e.to_ ≠ s := by
      intro h; rw [h, inv.ds] at hu; unfold INT_MAX at hu; omega
    have hD : ∀ x, (st.dist.set e.to_ (add32 (st.dist.getD v 0) 1)).getD x 0 =
        if x = e.to_ then st.dist.getD v 0 + 1 else st.dist.getD x 0 := by
      intro x
      rw [getD_set, hadd]
      by_cases hx : x = e.to_
      · simp [hx, hul]
      · simp [hx, Ne.symm hx]
    have hDold : ∀ x, st.dist.getD x 0 ≠ INT_MAX →
        (st.dist.set e.to_ (add32 (st.dist.getD v 0) 1)).getD x 0 = st.dist.getD x 0 := by
      intro x hx
      rw [hD, if_neg]; intro h; rw [h] at hx; exact hx hu
    have hDv := hDold v inv.vdisc.2
    refine ⟨?_, ?_⟩
    · refine
        { dist_len := by simpa using inv.dist_len
          path_len := by simpa using inv.path_len
          d0 := ?_, ds := ?_, ps := ?_, sound := ?_, vdisc := ?_, pot := ?_, potv := ?_,
          sorted := ?_, qrange := ?_, near := ?_, qdisc := ?_, closed := ?_, preok := ?_,
          pinf := ?_ }
      · show (st.dist.set _ _).getD 0 0 = INT_MAX
        rw [hD, if_neg (by omega)]; exact inv.d0
      · show (st.dist.set _ _).getD s 0 = 0
        rw [hD, if_neg (Ne.symm hus)]; exact inv.ds
      · show (st.path.set _ _).getD s 0 = 0
        rw [getD_set_ne _ _ _ _ _ hus]; exact inv.ps
      · intro u hun hdu
        change (st.dist.set _ _).getD u 0 ≠ INT_MAX at hdu
        show ∃ k : Nat, (st.dist.set _ _).getD u 0 = (k : Int) ∧ _
        rw [hD] at hdu ⊢
        by_cases hx : u = e.to_
        · rw [if_pos hx]
          refine ⟨kv + 1, by rw [hkv]; push_cast; rfl, ?_⟩
          rw [hx]; exact Walk.snoc v kv e hwv he
        · rw [if_neg hx] at hdu ⊢
          exact inv.sound u hun hdu
      · refine ⟨inv.vdisc.1, ?_⟩
        show (st.dist.set _ _).getD v 0 ≠ INT_MAX
        rw [hDv]; exact inv.vdisc.2
      · intro u hun hdu
        change (st.dist.set _ _).getD u 0 ≠ INT_MAX at hdu
        show (st.dist.set _ _).getD u 0 + ((st.q ++ [e.to_]).length : Int) +
          ((st.dist.set _ _).count INT_MAX : Int) ≤ (n : Int) + 1
        rw [hD] at hdu ⊢
        simp only [List.length_append, List.length_singleton]
        by_cases hx : u = e.to_
        · rw [if_pos hx]; push_cast; omega
        · rw [if_neg hx] at hdu ⊢
          have := inv.pot u hun hdu
          push_cast; omega
      · show (st.dist.set _ _).getD v 0 + ((st.q ++ [e.to_]).length : Int) +
          ((st.dist.set _ _).count INT_MAX : Int) ≤ (n : Int)
        rw [hDv]
        simp only [List.length_append, List.length_singleton]
        push_cast; omega
      · show (st.q ++ [e.to_]).Pairwise
          (fun a b => (st.dist.set _ _).getD a 0 ≤ (st.dist.set _ _).getD b 0)
        rw [List.pairwise_append]
        refine ⟨?_, List.pairwise_singleton _ _, ?_⟩
        · apply inv.sorted.imp_of_mem
          intro a b ha hb hab
          rw [hDold a (inv.qdisc a ha).2, hDold b (inv.qdisc b hb).2]; exact hab
        · intro a ha b hb
          simp only [List.mem_singleton] at hb
          subst hb
          rw [hDold a (inv.qdisc a ha).2, hD, if_pos rfl]
          exact (inv.qrange a ha).2
      · intro w hw
        change w ∈ st.q ++ [e.to_] at hw
        show (st.dist.set _ _).getD v 0 ≤ (st.dist.set _ _).getD w 0 ∧
          (st.dist.set _ _).getD w 0 ≤ (st.dist.set _ _).getD v 0 + 1
        rw [hDv]
        rcases List.mem_append.1 hw with h | h
        · rw [hDold w (inv.qdisc w h).2]; exact inv.qrange w h
        · simp only [List.mem_singleton] at h
          subst h
          rw [hD, if_pos rfl]; omega
      · intro u hun hdu
        change (st.dist.set _ _).getD u 0 ≠ INT_MAX at hdu
        show (st.dist.set _ _).getD u 0 ≤ (st.dist.set _ _).getD v 0 + 1
        rw [hDv]
        rw [hD] at hdu ⊢
        by_cases hx : u = e.to_
        · rw [if_pos hx]
        · rw [if_neg hx] at hdu ⊢; exact inv.near u hun hdu
      · intro w hw
        change w ∈ st.q ++ [e.to_] at hw
        show w ≤ n ∧ (st.dist.set _ _).getD w 0 ≠ INT_MAX
        rcases List.mem_append.1 hw with h | h
        · rw [hDold w (inv.qdisc w h).2]; exact inv.qdisc w h
        · simp only [List.mem_singleton] at h
          subst h
          rw [hD, if_pos rfl]; exact ⟨hr.2, by omega⟩
      · intro x hxn hdx hxq hxv e1 he1
        change (st.dist.set _ _).getD x 0 ≠ INT_MAX at hdx
        change x ∉ st.q ++ [e.to_] at hxq
        show (st.dist.set _ _).getD e1.to_ 0 ≠ INT_MAX ∧
          (st.dist.set _ _).getD e1.to_ 0 ≤ (st.dist.set _ _).getD x 0 + 1
        have hxu : x ≠ e.to_ := by
          intro h; apply hxq; rw [h]; simp
        rw [hD, if_neg hxu] at hdx
        have hxq1 : x ∉ st.q := fun h => hxq (List.mem_append_left _ h)
        have := inv.closed x hxn hdx hxq1 hxv e1 he1
        rw [hDold _ this.1, hDold _ hdx]; exact this
      · intro e1 he1
        show (st.dist.set _ _).getD e1.to_ 0 ≠ INT_MAX ∧
          (st.dist.set _ _).getD e1.to_ 0 ≤ (st.dist.set _ _).getD v 0 + 1
        rw [hDv]
        rcases List.mem_append.1 he1 with h | h
        · have := inv.preok e1 h
          rw [hDold _ this.1]; exact this
        · simp only [List.mem_singleton] at h
          subst h
          rw [hD, if_pos rfl]; exact ⟨by omega, le_refl _⟩
      · intro u hun hdu
        change (st.dist.set _ _).getD u 0 = INT_MAX at hdu
        show (st.path.set _ _).getD u 0 = 0
        rw [hD] at hdu
        by_cases hx : u = e.to_
        · rw [if_pos hx] at hdu; omega
        · rw [if_neg hx] at hdu
          rw [getD_set_ne _ _ _ _ _ (Ne.symm hx)]; exact inv.pinf u hun hdu
    · show (st.q ++ [e.to_]).length + (st.dist.set _ _).count INT_MAX = _
      simp only [List.length_append, List.length_singleton]
      omega
  · rw [if_neg hu]
    refine ⟨?_, rfl⟩
    exact
      { dist_len := inv.dist_len, path_len := inv.path_len, d0 := inv.d0, ds := inv.ds,
        ps := inv.ps, sound := inv.sound, vdisc := inv.vdisc, pot := inv.pot,
        potv := inv.potv, sorted := inv.sorted, qrange := inv.qrange, near := inv.near,
        qdisc := inv.qdisc, closed := inv.closed, pinf := inv.pinf,
        preok := by
          intro e1 he1
          rcases List.mem_append.1 he1 with h | h
          · exact inv.preok e1 h
          · simp only [List.mem_singleton] at h
            subst h
            exact ⟨hu, inv.near _ hr.2 hu⟩ }

theorem uwssspRelax_cons (v : Nat) (e : Edge) (es : List Edge) (st : BfsState) :
    uwssspRelax v (e :: es) st = uwssspRelax v es (uwssspRelax v [e] st) := by
  simp only [uwssspRelax]
  split <;> rfl

theorem bfs_relax_all (table : List (List Edge)) (n s v : Nat) (hn : (n : Int) < INT_MAX)
    (rem : List Edge) : ∀ (pre : List Edge) (st : BfsState),
    (∀ e ∈ rem, e ∈ table.getD v [] ∧ 1 ≤ e.to_ ∧ e.to_ ≤ n) →
    BfsRelaxInv table n s v pre st →
    BfsRelaxInv table n s v (pre ++ rem) (uwssspRelax v rem st) ∧
    ((uwssspRelax v rem st).q.length + (uwssspRelax v rem st).dist.count INT_MAX =
      st.q.length + st.dist.count INT_MAX) := by
  induction rem with
  | nil =>
    intro pre st _ inv
    simp only [uwssspRelax, List.append_nil]
    exact ⟨inv, trivial⟩
  | cons e es ih =>
    intro pre st hrem inv
    rw [uwssspRelax_cons]
    have he := hrem e (List.mem_cons_self _ _)
    obtain ⟨inv1, hm1⟩ := bfs_relax_step table n s v pre st e hn he.1 he.2 inv
    obtain ⟨inv2, hm2⟩ := ih (pre ++ [e]) _
      (fun x hx => hrem x (List.mem_cons_of_mem _ hx)) inv1
    rw [List.append_assoc] at inv2
    exact ⟨inv2, hm2.trans hm1⟩

theorem bfs_pop (table : List (List Edge)) (n s v : Nat) (q1 : List Nat) (st : BfsState)
    (hq : st.q = v :: q1) (inv : BfsInv table n s st) :
    BfsRelaxInv table n s v [] { st with q := q1 } := by
  have hvq : v ∈ st.q := by rw [hq]; exact List.mem_cons_self _ _
  have hsub : ∀ w, w ∈ q1 → w ∈ st.q := by
    intro w hw; rw [hq]; exact List.mem_cons_of_mem _ hw
  have hlen : (st.q.length : Int) = (q1.length : Int) + 1 := by rw [hq]; simp
  have hsorted := inv.sorted
  rw [hq, List.pairwise_cons] at hsorted
  exact
    { dist_len := inv.dist_len, path_len := inv.path_len, d0 := inv.d0, ds := inv.ds,
      ps := inv.ps, sound := inv.sound, vdisc := inv.qdisc v hvq,
      pot := by
        intro u hun hdu
        have := inv.pot u hun hdu
        show st.dist.getD u 0 + (q1.length : Int) + (st.dist.count INT_MAX : Int) ≤ (n : Int) + 1
        omega
      potv := by
        have := inv.pot v (inv.qdisc v hvq).1 (inv.qdisc v hvq).2
        show st.dist.getD v 0 + (q1.length : Int) + (st.dist.count INT_MAX : Int) ≤ (n : Int)
        omega
      sorted := hsorted.2
      qrange := fun w hw =>
        ⟨hsorted.1 w hw, inv.near w (inv.qdisc w (hsub w hw)).1 (inv.qdisc w (hsub w hw)).2 v hvq⟩
      near := fun u hun hdu => inv.near u hun hdu v hvq
      qdisc := fun w hw => inv.qdisc w (hsub w hw)
      closed := by
        intro x hxn hdx hxq hxv
        apply inv.closed x hxn hdx
        rw [hq]
        intro h
        rcases List.mem_cons.1 h with h | h
        · exact hxv h
        · exact hxq h
      preok := by intro e he; cases he
      pinf := inv.pinf }

theorem bfs_finish (table : List (List Edge)) (n s v : Nat) (st : BfsState)
    (inv : BfsRelaxInv table n s v (table.getD v []) st) : BfsInv table n s st :=
  { dist_len := inv.dist_len, path_len := inv.path_len, d0 := inv.d0, ds := inv.ds,
    ps := inv.ps, sound := inv.sound, pot := inv.pot, sorted := inv.sorted,
    near := by
      intro u hun hdu w hw
      have h1 := inv.near u hun hdu
      have h2 := (inv.qrange w hw).1
      omega
    qdisc := inv.qdisc
    closed := by
      intro x hxn hdx hxq
      by_cases hxv : x = v
      · subst hxv; exact inv.preok
      · exact inv.closed x hxn hdx hxq hxv
    pinf := inv.pinf }

theorem bfs_loop (table : List (List Edge)) (n s : Nat) (hn : (n : Int) < INT_MAX)
    (htab : ∀ v e, e ∈ table.getD v [] → 1 ≤ e.to_ ∧ e.to_ ≤ n)
    (fuel : Nat) : ∀ st : BfsState, BfsInv table n s st →
    st.q.length + st.dist.count INT_MAX ≤ fuel + 1 →
    BfsInv table n s (uwssspLoop table fuel st) ∧ (uwssspLoop table fuel st).q = [] := by
  induction fuel with
  | zero =>
    intro st inv hm
    simp only [uwssspLoop]
    refine ⟨inv, ?_⟩
    have hc : 0 < st.dist.count INT_MAX := by
      apply List.count_pos_iff.2
      have h0 : 0 < st.dist.length := by rw [inv.dist_len]; omega
      have := inv.d0
      rw [List.getD_eq_getElem?_getD, List.getElem?_eq_getElem h0] at this
      simp only [Option.getD_some] at this
      rw [← this]; exact List.getElem_mem h0
    exact List.length_eq_zero.1 (by omega)
  | succ fuel ih =>
    intro st inv hm
    simp only [uwssspLoop]
    cases hq : st.q with
    | nil => exact ⟨inv, hq⟩
    | cons v q1 =>
      simp only
      have inv1 := bfs_pop table n s v q1 st hq inv
      obtain ⟨inv2, hm2⟩ := bfs_relax_all table n s v hn (table.getD v []) [] _
        (fun e he => ⟨he, htab v e he⟩) inv1
      rw [List.nil_append] at inv2
      apply ih _ (bfs_finish table n s v _ inv2)
      rw [hm2]
      rw [hq] at hm
      simp only [List.length_cons] at hm
      show q1.length + st.dist.count INT_MAX ≤ fuel + 1
      omega

theorem bfs_init (g : Digraph) (s : Nat) (hg : WF g) (hs : 1 ≤ s ∧ s ≤ g.size) :
    BfsInv g.table g.size s (uwssspInit g s) ∧
    (uwssspInit g s).q.length + (uwssspInit g s).dist.count INT_MAX = g.size + 1 := by
  have hinit : uwssspInit g s =
      { dist := (List.replicate (g.size + 1) INT_MAX).set s 0,
        path := List.replicate (g.size + 1) 0, q := [s] } := by
    simp [uwssspInit, hg.dist_len, hg.path_len]
  rw [hinit]
  have hsl : s < (List.replicate (g.size + 1) INT_MAX).length := by
    rw [List.length_replicate]; omega
  have hI : INT_MAX = 2147483647 := rfl
  have hD : ∀ x, x ≤ g.size → ((List.replicate (g.size + 1) INT_MAX).set s 0).getD x 0 =
      if x = s then 0 else INT_MAX := by
    intro x hx
    by_cases h : x = s
    · rw [if_pos h, h]; exact getD_set_self _ _ _ _ hsl
    · rw [getD_set, if_neg (by intro h2; exact h h2.1.symm), if_neg h]
      exact getD_replicate _ _ _ _ (by omega)
  have hcnt : ((List.replicate (g.size + 1) INT_MAX).set s 0).count INT_MAX + 1 =
      (List.replicate (g.size + 1) INT_MAX).count INT_MAX :=
    count_set_lt _ s 0 INT_MAX hsl (getD_replicate _ _ _ _ (by omega))
      (by rw [hI]; omega)
  rw [List.count_replicate_self] at hcnt
  have hdisc : ∀ u, u ≤ g.size →
      ((List.replicate (g.size + 1) INT_MAX).set s 0).getD u 0 ≠ INT_MAX → u = s := by
    intro u hu hd
    rw [hD u hu] at hd
    by_contra h
    rw [if_neg h] at hd; exact hd rfl
  refine ⟨?_, ?_⟩
  · exact
      { dist_len := by simp
        path_len := by simp
        d0 := by
          show ((List.replicate (g.size + 1) INT_MAX).set s 0).getD 0 0 = INT_MAX
          rw [hD 0 (Nat.zero_le _), if_neg (by omega)]
        ds := by
          show ((List.replicate (g.size + 1) INT_MAX).set s 0).getD s 0 = 0
          rw [hD s hs.2, if_pos rfl]
        ps := getD_replicate _ _ _ _ (by omega)
        sound := by
          intro u hu hd
          have := hdisc u hu hd
          subst this
          exact ⟨0, by
            show ((List.replicate (g.size + 1) INT_MAX).set u 0).getD u 0 = ((0 : Nat) : Int)
            rw [hD u hu, if_pos rfl]; rfl, Walk.nil⟩
        pot := by
          intro u hu hd
          have := hdisc u hu hd
          subst this
          show ((List.replicate (g.size + 1) INT_MAX).set u 0).getD u 0 + ((1 : Nat) : Int) +
            ((((List.replicate (g.size + 1) INT_MAX).set u 0).count INT_MAX : Nat) : Int) ≤
            (g.size : Int) + 1
          rw [hD u hu, if_pos rfl]
          omega
        sorted := List.pairwise_singleton _ _
        near := by
          intro u hu hd w hw
          have := hdisc u hu hd
          subst this
          have hw2 : w = u := by simpa using hw
          subst hw2
          show ((List.replicate (g.size + 1) INT_MAX).set w 0).getD w 0 ≤
            ((List.replicate (g.size + 1) INT_MAX).set w 0).getD w 0 + 1
          omega
        qdisc := by
          intro w hw
          have hw2 : w = s := by simpa using hw
          subst hw2
          refine ⟨hs.2, ?_⟩
          show ((List.replicate (g.size + 1) INT_MAX).set w 0).getD w 0 ≠ INT_MAX
          rw [hD w hs.2, if_pos rfl, hI]; omega
        closed := by
          intro v hv hd hq
          have := hdisc v hv hd
          subst this
          exact absurd (by simp) hq
        pinf := fun u hu _ => getD_replicate _ _ _ _ (by omega) }
  · show 1 + ((List.replicate (g.size + 1) INT_MAX).set s 0).count INT_MAX = _
    omega

/-- The queue of `uwsssp` is empty when the fuelled loop stops: the fuel is enough. -/
theorem uwsssp_queue_empty (g : Digraph) (s : Nat) (hg : WF g) (hs : 1 ≤ s ∧ s ≤ g.size)
    (hn : (g.size : Int) < INT_MAX) :
    BfsInv g.table g.size s (uwssspLoop g.table g.table.length (uwssspInit g s)) ∧
    (uwssspLoop g.table g.table.length (uwssspInit g s)).q = [] := by
  obtain ⟨inv, hm⟩ := bfs_init g s hg hs
  apply bfs_loop g.table g.size s hn (fun v e he => (hg.range v e he).2) _ _ inv
  rw [hm, hg.table_len]; omega

theorem bfs_complete (table : List (List Edge)) (n s : Nat) (st : BfsState)
    (htab : ∀ v e, e ∈ table.getD v [] → 1 ≤ e.to_ ∧ e.to_ ≤ n) (hs : s ≤ n)
    (inv : BfsInv table n s st) (hq : st.q = []) (u k : Nat) (hw : Walk table s u k) :
    u ≤ n ∧ st.dist.getD u 0 ≠ INT_MAX ∧ st.dist.getD u 0 ≤ (k : Int) := by
  induction hw with
  | nil =>
    refine ⟨hs, ?_, ?_⟩
    · rw [inv.ds]; decide
    · rw [inv.ds]; omega
  | snoc v k e _ he ih =>
    obtain ⟨hv, hd, hk⟩ := ih
    have := inv.closed v hv hd (by rw [hq]; simp) e he
    refine ⟨(htab v e he).2, this.1, ?_⟩
    push_cast; omega

/-- C2: `uwsssp` computes minimum hop counts. On a digraph built by `insertEdge` (whose
vertex count plus one fits in `int`, as the constructor's `n + 1` needs) and a source
`s` in `1..n`, the call succeeds, `dist[s] = 0`, `path[s] = 0`, every vertex reachable
from `s` gets the least number of edges of a walk from `s`, and every unreachable vertex
keeps `dist = INT_MAX` and `path = 0`. -/
theorem C2_uwsssp_min_hops (V : List Edge) (n : Nat) (g : Digraph) (s : Nat)
    (hg : ofEdges V n = some g) (hn : (n : Int) < INT_MAX) (hs : 1 ≤ s ∧ s ≤ n) :
    ∃ g1, uwsssp g s = some g1 ∧ g1.table = g.table ∧
      g1.dist.getD s 0 = 0 ∧ g1.path.getD s 0 = 0 ∧
      (∀ u j, Walk g.table s u j →
        ∃ k : Nat, g1.dist.getD u 0 = (k : Int) ∧ Walk g.table s u k ∧
          ∀ i, Walk g.table s u i → k ≤ i) ∧
      (∀ u, 1 ≤ u → u ≤ n → (¬ ∃ k, Walk g.table s u k) →
        g1.dist.getD u 0 = INT_MAX ∧ g1.path.getD u 0 = 0) := by
  obtain ⟨hw, hsz⟩ := ofEdges_wf V n g hg
  subst hsz
  obtain ⟨inv, hq⟩ := uwsssp_queue_empty g s hw hs hn
  refine ⟨{ g with dist := (uwssspLoop g.table g.table.length (uwssspInit g s)).dist,
                   path := (uwssspLoop g.table g.table.length (uwssspInit g s)).path },
    by unfold uwsssp; rw [if_pos hs], rfl, inv.ds, inv.ps, ?_, ?_⟩
  · intro u j hj
    obtain ⟨hu, hd, _⟩ := bfs_complete g.table g.size s _ (fun v e he => (hw.range v e he).2)
      hs.2 inv hq u j hj
    obtain ⟨k, hk, hwk⟩ := inv.sound u hu hd
    refine ⟨k, hk, hwk, ?_⟩
    intro i hi
    have := (bfs_complete g.table g.size s _ (fun v e he => (hw.range v e he).2)
      hs.2 inv hq u i hi).2.2
    change (uwssspLoop g.table g.table.length (uwssspInit g s)).dist.getD u 0 = (k : Int) at hk
    omega
  · intro u _ hu hnr
    have hd : (uwssspLoop g.table g.table.length (uwssspInit g s)).dist.getD u 0 = INT_MAX := by
      by_contra hd
      obtain ⟨k, _, hwk⟩ := inv.sound u hu hd
      exact hnr ⟨k, hwk⟩
    exact ⟨hd, inv.pinf u hu hd⟩

theorem C2_uwsssp_min_hops_witness :
    (∃ g1, uwsssp exampleBfsGraph 1 = some g1 ∧ g1.dist.getD 1 0 = 0 ∧ g1.path.getD 1 0 = 0) ∧
    (uwsssp exampleBfsGraph 1).map (fun g1 => g1.dist) = some [INT_MAX, 0, 1, 1] :=
  ⟨(C2_uwsssp_min_hops [⟨1, 2, 7⟩, ⟨2, 3, 7⟩, ⟨1, 3, 7⟩] 3 exampleBfsGraph 1
      (by decide) (by decide) (by decide)).elim
    (fun g1 h => ⟨g1, h.1, h.2.2.1, h.2.2.2.1⟩), by decide⟩

theorem pathWeight_snoc (p : List Edge) (e : Edge) :
    pathWeight (p ++ [e]) = pathWeight p + e.weight := by
  simp [pathWeight]

theorem pathVertices_snoc (s : Nat) (p : List Edge) (e : Edge) :
    pathVertices s (p ++ [e]) = pathVertices s p ++ [e.to_] := by
  simp [pathVertices]

theorem isPath_end_mem (table : List (List Edge)) (s : Nat) (p : List Edge) (u : Nat)
    (h : IsPath table s p u) : u ∈ pathVertices s p := by
  cases h with
  | nil => simp [pathVertices]
  | snoc p v e _ _ => rw [pathVertices_snoc]; simp

theorem pathWeight_nonneg (table : List (List Edge)) (s : Nat)
    (hw : ∀ v e, e ∈ table.getD v [] → 0 ≤ e.weight) (p : List Edge) (u : Nat)
    (h : IsPath table s p u) : 0 ≤ pathWeight p := by
  induction h with
  | nil => simp [pathWeight]
  | snoc p v e _ he ih =>
    rw [pathWeight_snoc]
    have := hw v e he
    omega

theorem minOf_mem (lt : (Int × Nat) → (Int × Nat) → Bool) (l : List (Int × Nat)) :
    ∀ m, minOf lt m l ∈ m :: l := by
  induction l with
  | nil => intro m; simp [minOf]
  | cons x xs ih =>
    intro m
    simp only [minOf]
    split
    · exact List.mem_cons_of_mem _ (ih x)
    · rcases List.mem_cons.1 (ih m) with h | h
      · rw [h]; exact List.mem_cons_self _ _
      · exact List.mem_cons_of_mem _ (List.mem_cons_of_mem _ h)

theorem minOf_pairLt_le (l : List (Int × Nat)) :
    ∀ m, ∀ y ∈ m :: l, (minOf pairLt m l).1 ≤ y.1 := by
  induction l with
  | nil =>
    intro m y hy
    simp only [List.mem_singleton] at hy
    subst hy; simp [minOf]
  | cons x xs ih =>
    intro m y hy
    simp only [minOf]
    by_cases hlt : pairLt x m = true
    · rw [if_pos hlt]
      have hxm : x.1 ≤ m.1 := by
        simp only [pairLt, Bool.or_eq_true, decide_eq_true_eq, Bool.and_eq_true,
          beq_iff_eq] at hlt
        rcases hlt with h | h
        · exact le_of_lt h
        · exact le_of_eq h.1
      rcases List.mem_cons.1 hy with h | h
      · subst h
        exact le_trans (ih x x (List.mem_cons_self _ _)) hxm
      · exact ih x y h
    · rw [if_neg hlt]
      have hmx : m.1 ≤ x.1 := by
        simp only [pairLt, Bool.or_eq_true, decide_eq_true_eq, Bool.and_eq_true,
          beq_iff_eq, not_or, not_lt] at hlt
        exact hlt.1
      rcases List.mem_cons.1 hy with h | h
      · subst h; exact ih y y (List.mem_cons_self _ _)
      · rcases List.mem_cons.1 h with h | h
        · subst h
          exact le_trans (ih m m (List.mem_cons_self _ _)) hmx
        · exact ih m y (List.mem_cons_of_mem _ h)

theorem popTop_spec (pq pq1 : List (Int × Nat)) (d : Int) (v : Nat)
    (h : popTop pairLt pq = some ((d, v), pq1)) :
    (d, v) ∈ pq ∧ pq1 = pq.erase (d, v) ∧ (∀ y ∈ pq, d ≤ y.1) ∧ pq1.length + 1 = pq.length := by
  cases pq with
  | nil => simp [popTop] at h
  | cons x xs =>
    simp only [popTop, Option.some.injEq, Prod.mk.injEq] at h
    obtain ⟨hm, hr⟩ := h
    have hmem := minOf_mem pairLt xs x
    rw [hm] at hmem
    have hle := minOf_pairLt_le xs x
    rw [hm] at hle hr
    refine ⟨hmem, hr.symm, hle, ?_⟩
    rw [← hr, List.length_erase_of_mem hmem]
    simp

theorem popTop_none (pq : List (Int × Nat)) (h : popTop pairLt pq = none) : pq = [] := by
  cases pq with
  | nil => rfl
  | cons x xs => simp [popTop] at h

theorem undoneDeg_set (table : List (List Edge)) : ∀ (done : List Bool) (v : Nat),
    v < table.length → v < done.length → done.getD v false = false →
    undoneDeg table (done.set v true) + (table.getD v []).length = undoneDeg table done := by
  induction table with
  | nil => intro done v hv; simp at hv
  | cons row t ih =>
    intro done v hv hd hf
    cases done with
    | nil => simp at hd
    | cons b bs =>
      cases v with
      | zero =>
        simp only [List.getD_cons_zero] at hf
        subst hf
        simp [undoneDeg]
        omega
      | succ v =>
        simp only [List.set_cons_succ, undoneDeg, List.getD_cons_succ]
        simp only [List.length_cons] at hv hd
        simp only [List.getD_cons_succ] at hf
        have := ih bs v (by omega) (by omega) hf
        omega

theorem undoneDeg_replicate (table : List (List Edge)) :
    undoneDeg table (List.replicate table.length false) = entryCount table := by
  induction table with
  | nil => rfl
  | cons row t ih =>
    simp only [List.length_cons, List.replicate_succ, undoneDeg, entryCount, List.map_cons,
      List.sum_cons]
    rw [ih]; simp [entryCount]

theorem dij_relax_step (table : List (List Edge)) (n s : Nat) (d : Int) (v : Nat)
    (pre : List Edge) (st : DijkstraState) (e : Edge)
    (hw : ∀ v e, e ∈ table.getD v [] → 0 ≤ e.weight)
    (hsum : ∀ p u, IsPath table s p u → (pathVertices s p).Nodup → pathWeight p < INT_MAX)
    (he : e ∈ table.getD v []) (hr : 1 ≤ e.to_ ∧ e.to_ ≤ n)
    (inv : DijRelaxInv table n s d v pre st) :
    DijRelaxInv table n s d v (pre ++ [e]) (pwssspRelax d v [e] st) ∧
    (pwssspRelax d v [e] st).pq.length ≤ st.pq.length + 1 ∧
    (pwssspRelax d v [e] st).done = st.done := by
  have hI : INT_MAX = 2147483647 := rfl
  have hw0 : 0 ≤ e.weight := hw v e he
  simp only [pwssspRelax]
  cases hdu : st.done.getD e.to_ false
  · -- `e.to_` is not done: the sum `d + w` is the weight of a simple path
    have hvdisc : st.dist.getD v 0 ≠ INT_MAX := inv.donedisc v inv.vd.2.1
    obtain ⟨pv, hpv, hwv, hnd, hint⟩ := inv.sound v inv.vd.1 hvdisc
    rw [inv.vd.2.2] at hwv
    have hd0 : 0 ≤ d := by rw [← hwv]; exact pathWeight_nonneg table s hw pv v hpv
    have hall : ∀ x ∈ pathVertices s pv, st.done.getD x false = true := by
      intro x hx
      by_cases hxv : x = v
      · rw [hxv]; exact inv.vd.2.1
      · exact hint x hx hxv
    have hnotin : e.to_ ∉ pathVertices s pv := by
      intro h
      have := hall _ h
      rw [hdu] at this; cases this
    have hpath : IsPath table s (pv ++ [e]) e.to_ := IsPath.snoc pv v e hpv he
    have hnd2 : (pathVertices s (pv ++ [e])).Nodup := by
      rw [pathVertices_snoc]
      apply List.Nodup.append hnd (List.nodup_singleton _)
      intro x hx hx2
      simp only [List.mem_singleton] at hx2
      subst hx2; exact hnotin hx
    have hlt : d + e.weight < INT_MAX := by
      have := hsum _ _ hpath hnd2
      rw [pathWeight_snoc, hwv] at this; exact this
    have hadd : add32 d e.weight = d + e.weight := by
      unfold add32; apply wrap32_id <;> omega
    rw [hadd]
    by_cases hc : d + e.weight < st.dist.getD e.to_ 0
    · have hcond : (!false && decide (d + e.weight < st.dist.getD e.to_ 0)) = true := by
        simp only [Bool.not_false, Bool.true_and, decide_eq_true_eq]; exact hc
      rw [if_pos hcond]
      have hul : e.to_ < st.dist.length := by rw [inv.dist_len]; omega
      have hD : ∀ x, (st.dist.set e.to_ (d + e.weight)).getD x 0 =
          if x = e.to_ then d + e.weight else st.dist.getD x 0 := by
        intro x
        rw [getD_set]
        by_cases hx : x = e.to_
        · simp [hx, hul]
        · simp [hx, Ne.symm hx]
      have hDle : ∀ x, (st.dist.set e.to_ (d + e.weight)).getD x 0 ≤ st.dist.getD x 0 := by
        intro x
        rw [hD]
        split
        · next h => rw [h]; exact le_of_lt hc
        · exact le_refl _
      have hDne : ∀ x, st.dist.getD x 0 ≠ INT_MAX →
          (st.dist.set e.to_ (d + e.weight)).getD x 0 ≠ INT_MAX := by
        intro x hx
        rw [hD]
        split
        · omega
        · exact hx
      have hDdone : ∀ x, st.done.getD x false = true →
          (st.dist.set e.to_ (d + e.weight)).getD x 0 = st.dist.getD x 0 := by
        intro x hx
        rw [hD, if_neg]
        intro h; rw [h, hdu] at hx; cases hx
      have hus : e.to_ ≠ s := by
        intro h
        rw [h, inv.ds] at hc
        omega
      refine ⟨?_, by simp, rfl⟩
      refine
        { dist_len := by simpa using inv.dist_len
          path_len := by simpa using inv.path_len
          done_len := inv.done_len
          ds := ?_, sound := ?_, donedisc := ?_, vd := ?_, heap_ge := ?_, heap_has := ?_,
          mono := ?_, monov := ?_, closed := ?_, preok := ?_, pinf := ?_ }
      · show (st.dist.set _ _).getD s 0 = 0
        rw [hD, if_neg (Ne.symm hus)]; exact inv.ds
      · intro u hun hd1
        change (st.dist.set _ _).getD u 0 ≠ INT_MAX at hd1
        show ∃ p, IsPath table s p u ∧ pathWeight p = (st.dist.set _ _).getD u 0 ∧
          (pathVertices s p).Nodup ∧ ∀ x ∈ pathVertices s p, x ≠ u → st.done.getD x false = true
        rw [hD] at hd1 ⊢
        by_cases hx : u = e.to_
        · rw [if_pos hx, hx]
          refine ⟨pv ++ [e], hpath, by rw [pathWeight_snoc, hwv], hnd2, ?_⟩
          intro x hxm hxne
          rw [pathVertices_snoc] at hxm
          rcases List.mem_append.1 hxm with h | h
          · exact hall x h
          · simp only [List.mem_singleton] at h
            exact absurd h hxne
        · rw [if_neg hx] at hd1 ⊢
          exact inv.sound u hun hd1
      · intro x hx
        show (st.dist.set _ _).getD x 0 ≠ INT_MAX
        exact hDne x (inv.donedisc x hx)
      · refine ⟨inv.vd.1, inv.vd.2.1, ?_⟩
        show (st.dist.set _ _).getD v 0 = d
        rw [hDdone v inv.vd.2.1]; exact inv.vd.2.2
      · intro y hy
        change y ∈ (d + e.weight, e.to_) :: st.pq at hy
        show y.2 ≤ n ∧ (st.dist.set _ _).getD y.2 0 ≤ y.1 ∧ (st.dist.set _ _).getD y.2 0 ≠ INT_MAX
        rcases List.mem_cons.1 hy with h | h
        · subst h
          simp only
          rw [hD, if_pos rfl]
          exact ⟨hr.2, le_refl _, by omega⟩
        · have := inv.heap_ge y h
          exact ⟨this.1, le_trans (hDle _) this.2.1, hDne _ this.2.2⟩
      · intro u hun hdn hd1
        change (st.dist.set _ _).getD u 0 ≠ INT_MAX at hd1
        show ((st.dist.set _ _).getD u 0, u) ∈ (d + e.weight, e.to_) :: st.pq
        rw [hD] at hd1 ⊢
        by_cases hx : u = e.to_
        · rw [if_pos hx, hx]; exact List.mem_cons_self _ _
        · rw [if_neg hx] at hd1 ⊢
          exact List.mem_cons_of_mem _ (inv.heap_has u hun hdn hd1)
      · intro x hx y hy
        change y ∈ (d + e.weight, e.to_) :: st.pq at hy
        show (st.dist.set _ _).getD x 0 ≤ y.1
        rw [hDdone x hx]
        rcases List.mem_cons.1 hy with h | h
        · subst h
          have := inv.monov x hx
          simp only; omega
        · exact inv.mono x hx y h
      · intro x hx
        show (st.dist.set _ _).getD x 0 ≤ d
        rw [hDdone x hx]; exact inv.monov x hx
      · intro x hx hxv e1 he1
        show (st.dist.set _ _).getD e1.to_ 0 ≠ INT_MAX ∧
          (st.dist.set _ _).getD e1.to_ 0 ≤ (st.dist.set _ _).getD x 0 + e1.weight
        rw [hDdone x hx]
        have := inv.closed x hx hxv e1 he1
        exact ⟨hDne _ this.1, le_trans (hDle _) this.2⟩
      · intro e1 he1
        show (st.dist.set _ _).getD e1.to_ 0 ≠ INT_MAX ∧
          (st.dist.set _ _).getD e1.to_ 0 ≤ d + e1.weight
        rcases List.mem_append.1 he1 with h | h
        · have := inv.preok e1 h
          exact ⟨hDne _ this.1, le_trans (hDle _) this.2⟩
        · simp only [List.mem_singleton] at h
          subst h
          rw [hD, if_pos rfl]
          exact ⟨by omega, le_refl _⟩
      · intro u hun hd1
        change (st.dist.set _ _).getD u 0 = INT_MAX at hd1
        show (st.path.set _ _).getD u 0 = 0
        rw [hD] at hd1
        by_cases hx : u = e.to_
        · rw [if_pos hx] at hd1; omega
        · rw [if_neg hx] at hd1
          rw [getD_set_ne _ _ _ _ _ (Ne.symm hx)]; exact inv.pinf u hun hd1
    · have hcond : ¬ ((!false && decide (d + e.weight < st.dist.getD e.to_ 0)) = true) := by
        simp only [Bool.not_false, Bool.true_and, decide_eq_true_eq]; exact hc
      rw [if_neg hcond]
      refine ⟨?_, by simp, rfl⟩
      exact
        { dist_len := inv.dist_len, path_len := inv.path_len, done_len := inv.done_len,
          ds := inv.ds, sound := inv.sound, donedisc := inv.donedisc, vd := inv.vd,
          heap_ge := inv.heap_ge, heap_has := inv.heap_has, mono := inv.mono,
          monov := inv.monov, closed := inv.closed, pinf := inv.pinf,
          preok := by
            intro e1 he1
            rcases List.mem_append.1 he1 with h | h
            · exact inv.preok e1 h
            · simp only [List.mem_singleton] at h
              subst h
              exact ⟨by omega, by omega⟩ }
  · have hcond : ¬ ((!true && decide (add32 d e.weight < st.dist.getD e.to_ 0)) = true) := by
      simp
    rw [if_neg hcond]
    refine ⟨?_, by simp, rfl⟩
    exact
      { dist_len := inv.dist_len, path_len := inv.path_len, done_len := inv.done_len,
        ds := inv.ds, sound := inv.sound, donedisc := inv.donedisc, vd := inv.vd,
        heap_ge := inv.heap_ge, heap_has := inv.heap_has, mono := inv.mono,
        monov := inv.monov, closed := inv.closed, pinf := inv.pinf,
        preok := by
          intro e1 he1
          rcases List.mem_append.1 he1 with h | h
          · exact inv.preok e1 h
          · simp only [List.mem_singleton] at h
            subst h
            have h1 := inv.monov _ hdu
            exact ⟨inv.donedisc _ hdu, by omega⟩ }

theorem pwssspRelax_cons (d : Int) (v : Nat) (e : Edge) (es : List Edge)
    (st : DijkstraState) :
    pwssspRelax d v (e :: es) st = pwssspRelax d v es (pwssspRelax d v [e] st) := by
  simp only [pwssspRelax]
  split <;> rfl

theorem dij_relax_all (table : List (List Edge)) (n s : Nat) (d : Int) (v : Nat)
    (hw : ∀ v e, e ∈ table.getD v [] → 0 ≤ e.weight)
    (hsum : ∀ p u, IsPath table s p u → (pathVertices s p).Nodup → pathWeight p < INT_MAX)
    (rem : List Edge) : ∀ (pre : List Edge) (st : DijkstraState),
    (∀ e ∈ rem, e ∈ table.getD v [] ∧ 1 ≤ e.to_ ∧ e.to_ ≤ n) →
    DijRelaxInv table n s d v pre st →
    DijRelaxInv table n s d v (pre ++ rem) (pwssspRelax d v rem st) ∧
    (pwssspRelax d v rem st).pq.length ≤ st.pq.length + rem.length ∧
    (pwssspRelax d v rem st).done = st.done := by
  induction rem with
  | nil =>
    intro pre st _ inv
    simp only [pwssspRelax, List.append_nil]
    exact ⟨inv, by simp, trivial⟩
  | cons e es ih =>
    intro pre st hrem inv
    rw [pwssspRelax_cons]
    have he := hrem e (List.mem_cons_self _ _)
    obtain ⟨inv1, hl1, hd1⟩ := dij_relax_step table n s d v pre st e hw hsum he.1 he.2 inv
    obtain ⟨inv2, hl2, hd2⟩ := ih (pre ++ [e]) _
      (fun x hx => hrem x (List.mem_cons_of_mem _ hx)) inv1
    rw [List.append_assoc] at inv2
    refine ⟨inv2, ?_, hd2.trans hd1⟩
    simp only [List.length_cons]
    omega

theorem dij_pop_stale (table : List (List Edge)) (n s : Nat) (st : DijkstraState)
    (d : Int) (v : Nat) (pq1 : List (Int × Nat))
    (hpop : popTop pairLt st.pq = some ((d, v), pq1))
    (hdone : st.done.getD v false = true) (inv : DijInv table n s st) :
    DijInv table n s { st with pq := pq1 } := by
  obtain ⟨_, hpq1, _, _⟩ := popTop_spec st.pq pq1 d v hpop
  have hsub : ∀ y, y ∈ pq1 → y ∈ st.pq := by
    intro y hy; rw [hpq1] at hy; exact List.mem_of_mem_erase hy
  exact
    { dist_len := inv.dist_len, path_len := inv.path_len, done_len := inv.done_len,
      ds := inv.ds, sound := inv.sound, donedisc := inv.donedisc,
      heap_ge := fun y hy => inv.heap_ge y (hsub y hy)
      heap_has := by
        intro u hun hdn hd1
        have := inv.heap_has u hun hdn hd1
        show (st.dist.getD u 0, u) ∈ pq1
        rw [hpq1]
        apply (List.mem_erase_of_ne _).2 this
        intro h
        have : u = v := (Prod.mk.inj h).2
        rw [this, hdone] at hdn; cases hdn
      mono := fun x hx y hy => inv.mono x hx y (hsub y hy)
      closed := inv.closed, pinf := inv.pinf }

theorem dij_pop_fresh (table : List (List Edge)) (n s : Nat) (st : DijkstraState)
    (d : Int) (v : Nat) (pq1 : List (Int × Nat))
    (hpop : popTop pairLt st.pq = some ((d, v), pq1))
    (hdone : st.done.getD v false = false) (inv : DijInv table n s st) :
    DijRelaxInv table n s d v [] { st with done := st.done.set v true, pq := pq1 } := by
  obtain ⟨hmem, hpq1, hmin, _⟩ := popTop_spec st.pq pq1 d v hpop
  have hsub : ∀ y, y ∈ pq1 → y ∈ st.pq := by
    intro y hy; rw [hpq1] at hy; exact List.mem_of_mem_erase hy
  obtain ⟨hvn, hdle, hvdisc⟩ := inv.heap_ge (d, v) hmem
  simp only at hvn hdle hvdisc
  have hdge : d ≤ st.dist.getD v 0 := hmin _ (inv.heap_has v hvn hdone hvdisc)
  have hdv : st.dist.getD v 0 = d := le_antisymm hdle hdge
  have hvl : v < st.done.length := by rw [inv.done_len]; omega
  have hDone : ∀ x, (st.done.set v true).getD x false =
      if x = v then true else st.done.getD x false := by
    intro x
    rw [getD_set]
    by_cases hx : x = v
    · simp [hx, hvl]
    · simp [hx, Ne.symm hx]
  have hDoneMono : ∀ x, st.done.getD x false = true →
      (st.done.set v true).getD x false = true := by
    intro x hx; rw [hDone]; split
    · rfl
    · exact hx
  exact
    { dist_len := inv.dist_len, path_len := inv.path_len
      done_len := by simpa using inv.done_len
      ds := inv.ds
      sound := by
        intro u hun hd1
        obtain ⟨p, h1, h2, h3, h4⟩ := inv.sound u hun hd1
        exact ⟨p, h1, h2, h3, fun x hx hxu => hDoneMono x (h4 x hx hxu)⟩
      donedisc := by
        intro x hx
        change (st.done.set v true).getD x false = true at hx
        show st.dist.getD x 0 ≠ INT_MAX
        rw [hDone] at hx
        by_cases hxv : x = v
        · rw [hxv]; exact hvdisc
        · rw [if_neg hxv] at hx; exact inv.donedisc x hx
      vd := ⟨hvn, by show (st.done.set v true).getD v false = true; rw [hDone, if_pos rfl], hdv⟩
      heap_ge := fun y hy => inv.heap_ge y (hsub y hy)
      heap_has := by
        intro u hun hdn hd1
        change (st.done.set v true).getD u false = false at hdn
        show (st.dist.getD u 0, u) ∈ pq1
        rw [hDone] at hdn
        by_cases hxv : u = v
        · rw [if_pos hxv] at hdn; cases hdn
        · rw [if_neg hxv] at hdn
          rw [hpq1]
          apply (List.mem_erase_of_ne _).2 (inv.heap_has u hun hdn hd1)
          intro h
          exact hxv (Prod.mk.inj h).2
      mono := by
        intro x hx y hy
        change (st.done.set v true).getD x false = true at hx
        show st.dist.getD x 0 ≤ y.1
        rw [hDone] at hx
        by_cases hxv : x = v
        · rw [hxv, hdv]; exact hmin y (hsub y hy)
        · rw [if_neg hxv] at hx; exact inv.mono x hx y (hsub y hy)
      monov := by
        intro x hx
        change (st.done.set v true).getD x false = true at hx
        show st.dist.getD x 0 ≤ d
        rw [hDone] at hx
        by_cases hxv : x = v
        · rw [hxv, hdv]
        · rw [if_neg hxv] at hx; exact inv.mono x hx (d, v) hmem
      closed := by
        intro x hx hxv
        change (st.done.set v true).getD x false = true at hx
        rw [hDone, if_neg hxv] at hx
        exact inv.closed x hx
      preok := by intro e he; cases he
      pinf := inv.pinf }

theorem dij_finish (table : List (List Edge)) (n s : Nat) (d : Int) (v : Nat)
    (st : DijkstraState) (inv : DijRelaxInv table n s d v (table.getD v []) st) :
    DijInv table n s st :=
  { dist_len := inv.dist_len, path_len := inv.path_len, done_len := inv.done_len,
    ds := inv.ds, sound := inv.sound, donedisc := inv.donedisc, heap_ge := inv.heap_ge,
    heap_has := inv.heap_has, mono := inv.mono,
    closed := by
      intro x hx
      by_cases hxv : x = v
      · subst hxv
        rw [inv.vd.2.2]; exact inv.preok
      · exact inv.closed x hx hxv
    pinf := inv.pinf }

theorem dij_loop (table : List (List Edge)) (n s : Nat) (htl : table.length = n + 1)
    (htab : ∀ v e, e ∈ table.getD v [] → 1 ≤ e.to_ ∧ e.to_ ≤ n)
    (hw : ∀ v e, e ∈ table.getD v [] → 0 ≤ e.weight)
    (hsum : ∀ p u, IsPath table s p u → (pathVertices s p).Nodup → pathWeight p < INT_MAX)
    (fuel : Nat) : ∀ st : DijkstraState, DijInv table n s st →
    st.pq.length + undoneDeg table st.done ≤ fuel →
    DijInv table n s (pwssspLoop table fuel st) ∧ (pwssspLoop table fuel st).pq = [] := by
  induction fuel with
  | zero =>
    intro st inv hm
    simp only [pwssspLoop]
    exact ⟨inv, List.length_eq_zero.1 (by omega)⟩
  | succ fuel ih =>
    intro st inv hm
    simp only [pwssspLoop]
    cases hpop : popTop pairLt st.pq with
    | none => exact ⟨inv, popTop_none _ hpop⟩
    | some r =>
      obtain ⟨⟨d, v⟩, pq1⟩ := r
      simp only
      obtain ⟨hmem, _, _, hlen⟩ := popTop_spec st.pq pq1 d v hpop
      cases hdone : st.done.getD v false
      · simp only [Bool.false_eq_true, if_false]
        have inv1 := dij_pop_fresh table n s st d v pq1 hpop hdone inv
        obtain ⟨inv2, hl2, hd2⟩ := dij_relax_all table n s d v hw hsum (table.getD v []) [] _
          (fun e he => ⟨he, htab v e he⟩) inv1
        rw [List.nil_append] at inv2
        apply ih _ (dij_finish table n s d v _ inv2)
        rw [hd2]
        have hvn := (inv.heap_ge (d, v) hmem).1
        simp only at hvn
        have := undoneDeg_set table st.done v (by omega) (by rw [inv.done_len]; omega) hdone
        have hl3 : (pwssspRelax d v (table.getD v [])
            { st with done := st.done.set v true, pq := pq1 }).pq.length ≤
            pq1.length + (table.getD v []).length := hl2
        show _ + undoneDeg table (st.done.set v true) ≤ fuel
        omega
      · simp only [if_true]
        apply ih _ (dij_pop_stale table n s st d v pq1 hpop hdone inv)
        show pq1.length + undoneDeg table st.done ≤ fuel
        omega

theorem dij_init (g : Digraph) (s : Nat) (hg : WF g) (hs : 1 ≤ s ∧ s ≤ g.size) :
    DijInv g.table g.size s (pwssspInit g s) ∧
    (pwssspInit g s).pq.length + undoneDeg g.table (pwssspInit g s).done =
      entryCount g.table + 1 := by
  have hinit : pwssspInit g s =
      { dist := (List.replicate (g.size + 1) INT_MAX).set s 0,
        path := List.replicate (g.size + 1) 0,
        done := List.replicate g.table.length false, pq := [(0, s)] } := by
    simp [pwssspInit, hg.dist_len, hg.path_len, hg.done_len, hg.table_len]
  rw [hinit]
  have hsl : s < (List.replicate (g.size + 1) INT_MAX).length := by
    rw [List.length_replicate]; omega
  have hI : INT_MAX = 2147483647 := rfl
  have hD : ∀ x, x ≤ g.size → ((List.replicate (g.size + 1) INT_MAX).set s 0).getD x 0 =
      if x = s then 0 else INT_MAX := by
    intro x hx
    by_cases h : x = s
    · rw [if_pos h, h]; exact getD_set_self _ _ _ _ hsl
    · rw [getD_set, if_neg (by intro h2; exact h h2.1.symm), if_neg h]
      exact getD_replicate _ _ _ _ (by omega)
  have hdisc : ∀ u, u ≤ g.size →
      ((List.replicate (g.size + 1) INT_MAX).set s 0).getD u 0 ≠ INT_MAX → u = s := by
    intro u hu hd
    rw [hD u hu] at hd
    by_contra h
    rw [if_neg h] at hd; exact hd rfl
  have hnd : ∀ x, (List.replicate g.table.length false).getD x false = false := by
    intro x
    simp only [List.getD_eq_getElem?_getD, List.getElem?_replicate]
    split <;> rfl
  refine ⟨?_, ?_⟩
  · exact
      { dist_len := by simp
        path_len := by simp
        done_len := by simp [hg.table_len]
        ds := by
          show ((List.replicate (g.size + 1) INT_MAX).set s 0).getD s 0 = 0
          rw [hD s hs.2, if_pos rfl]
        sound := by
          intro u hu hd
          have := hdisc u hu hd
          subst this
          refine ⟨[], IsPath.nil, ?_, by simp [pathVertices], ?_⟩
          · show pathWeight [] = ((List.replicate (g.size + 1) INT_MAX).set u 0).getD u 0
            rw [hD u hu, if_pos rfl]; rfl
          · intro x hx hxu
            simp only [pathVertices, List.map_nil, List.mem_singleton] at hx
            exact absurd hx hxu
        donedisc := by
          intro v hv
          rw [hnd v] at hv; cases hv
        heap_ge := by
          intro y hy
          have : y = (0, s) := by simpa using hy
          subst this
          show s ≤ g.size ∧ ((List.replicate (g.size + 1) INT_MAX).set s 0).getD s 0 ≤ 0 ∧
            ((List.replicate (g.size + 1) INT_MAX).set s 0).getD s 0 ≠ INT_MAX
          rw [hD s hs.2, if_pos rfl]
          exact ⟨hs.2, le_refl _, by rw [hI]; omega⟩
        heap_has := by
          intro u hu _ hd
          have := hdisc u hu hd
          subst this
          show (((List.replicate (g.size + 1) INT_MAX).set u 0).getD u 0, u) ∈ [((0 : Int), u)]
          rw [hD u hu, if_pos rfl]; simp
        mono := by
          intro v hv
          rw [hnd v] at hv; cases hv
        closed := by
          intro v hv
          rw [hnd v] at hv; cases hv
        pinf := fun u hu _ => getD_replicate _ _ _ _ (by omega) }
  · show 1 + undoneDeg g.table (List.replicate g.table.length false) = _
    rw [undoneDeg_replicate]; omega

/-- The heap of `pwsssp` is empty when the fuelled loop stops: the fuel is enough. -/
theorem pwsssp_heap_empty (g : Digraph) (s : Nat) (hg : WF g) (hs : 1 ≤ s ∧ s ≤ g.size)
    (hw : ∀ v e, e ∈ g.table.getD v [] → 0 ≤ e.weight)
    (hsum : ∀ p u, IsPath g.table s p u → (pathVertices s p).Nodup → pathWeight p < INT_MAX) :
    DijInv g.table g.size s (pwssspLoop g.table (entryCount g.table + 1) (pwssspInit g s)) ∧
    (pwssspLoop g.table (entryCount g.table + 1) (pwssspInit g s)).pq = [] := by
  obtain ⟨inv, hm⟩ := dij_init g s hg hs
  apply dij_loop g.table g.size s hg.table_len (fun v e he => (hg.range v e he).2) hw hsum
    _ _ inv
  rw [hm]

theorem dij_complete (table : List (List Edge)) (n s : Nat) (st : DijkstraState)
    (htab : ∀ v e, e ∈ table.getD v [] → 1 ≤ e.to_ ∧ e.to_ ≤ n) (hs : s ≤ n)
    (inv : DijInv table n s st) (hq : st.pq = []) (p : List Edge) (u : Nat)
    (hp : IsPath table s p u) :
    u ≤ n ∧ st.done.getD u false = true ∧ st.dist.getD u 0 ≤ pathWeight p := by
  have hdd : ∀ x, x ≤ n → st.dist.getD x 0 ≠ INT_MAX → st.done.getD x false = true := by
    intro x hx hd
    cases hdn : st.done.getD x false
    · have := inv.heap_has x hx hdn hd
      rw [hq] at this; cases this
    · rfl
  induction hp with
  | nil =>
    refine ⟨hs, hdd s hs ?_, ?_⟩
    · rw [inv.ds]; decide
    · rw [inv.ds]; simp [pathWeight]
  | snoc p v e _ he ih =>
    obtain ⟨_, hdn, hle⟩ := ih
    have := inv.closed v hdn e he
    refine ⟨(htab v e he).2, hdd _ (htab v e he).2 this.1, ?_⟩
    rw [pathWeight_snoc]; omega

/-- C1: `pwsssp` (Dijkstra) computes shortest weighted distances. On a digraph built by
`insertEdge` whose stored weights are all `≥ 0` and whose simple paths from the source
all have total weight below `INT_MAX`, for a source `s` in `1..n` the call succeeds,
`dist[s] = 0`, for every vertex reachable from `s` the value `dist[u]` is the weight of
some path from `s` to `u` and is `≤` the weight of every path from `s` to `u`, and every
unreachable vertex keeps `dist = INT_MAX` and `path = 0`. -/
theorem C1_pwsssp_shortest (V : List Edge) (n : Nat) (g : Digraph) (s : Nat)
    (hg : ofEdges V n = some g) (hs : 1 ≤ s ∧ s ≤ n)
    (hw : ∀ v e, e ∈ g.table.getD v [] → 0 ≤ e.weight)
    (hsum : ∀ p u, IsPath g.table s p u → (pathVertices s p).Nodup → pathWeight p < INT_MAX) :
    ∃ g1, pwsssp g s = some g1 ∧ g1.table = g.table ∧ g1.dist.getD s 0 = 0 ∧
      (∀ u p, IsPath g.table s p u →
        (∃ q, IsPath g.table s q u ∧ pathWeight q = g1.dist.getD u 0) ∧
        ∀ r, IsPath g.table s r u → g1.dist.getD u 0 ≤ pathWeight r) ∧
      (∀ u, 1 ≤ u → u ≤ n → (¬ ∃ p, IsPath g.table s p u) →
        g1.dist.getD u 0 = INT_MAX ∧ g1.path.getD u 0 = 0) := by
  obtain ⟨hwf, hsz⟩ := ofEdges_wf V n g hg
  subst hsz
  obtain ⟨inv, hq⟩ := pwsssp_heap_empty g s hwf hs hw hsum
  have hcomp := dij_complete g.table g.size s _ (fun v e he => (hwf.range v e he).2) hs.2 inv hq
  refine ⟨{ g with
      dist := (pwssspLoop g.table (entryCount g.table + 1) (pwssspInit g s)).dist,
      path := (pwssspLoop g.table (entryCount g.table + 1) (pwssspInit g s)).path,
      done := (pwssspLoop g.table (entryCount g.table + 1) (pwssspInit g s)).done },
    by unfold pwsssp; rw [if_pos hs], rfl, inv.ds, ?_, ?_⟩
  · intro u p hp
    obtain ⟨hu, hdn, _⟩ := hcomp p u hp
    obtain ⟨q, hq1, hq2, _, _⟩ := inv.sound u hu (inv.donedisc u hdn)
    exact ⟨⟨q, hq1, hq2⟩, fun r hr => (hcomp r u hr).2.2⟩
  · intro u _ hu hnr
    have hd : (pwssspLoop g.table (entryCount g.table + 1) (pwssspInit g s)).dist.getD u 0 =
        INT_MAX := by
      by_contra hd
      obtain ⟨q, hq1, _⟩ := inv.sound u hu hd
      exact hnr ⟨q, hq1⟩
    exact ⟨hd, inv.pinf u hu hd⟩

theorem exampleDijkstraGraph_rows (v : Nat) (e : Edge)
    (he : e ∈ exampleDijkstraGraph.table.getD v []) :
    (v = 1 ∧ (e = ⟨1, 2, 4⟩ ∨ e = ⟨1, 3, 1⟩)) ∨ (v = 3 ∧ e = ⟨3, 2, 1⟩) := by
  rcases v with _ | _ | _ | _ | v
  · simp [exampleDijkstraGraph] at he
  · left; simpa [exampleDijkstraGraph] using he
  · simp [exampleDijkstraGraph] at he
  · right; simpa [exampleDijkstraGraph] using he
  · simp [exampleDijkstraGraph] at he

theorem exampleDijkstraGraph_paths (p : List Edge) (u : Nat)
    (hp : IsPath exampleDijkstraGraph.table 1 p u) :
    (u = 1 ∧ pathWeight p ≤ 0) ∨ (u = 3 ∧ pathWeight p ≤ 1) ∨ (u = 2 ∧ pathWeight p ≤ 4) := by
  induction hp with
  | nil => left; exact ⟨rfl, by simp [pathWeight]⟩
  | snoc p v e _ he ih =>
    rw [pathWeight_snoc]
    rcases exampleDijkstraGraph_rows v e he with ⟨hv, he | he⟩ | ⟨hv, he⟩
    · subst he
      rcases ih with ⟨_, h⟩ | ⟨h1, _⟩ | ⟨h1, _⟩
      · right; right; exact ⟨rfl, by simp only; omega⟩
      · omega
      · omega
    · subst he
      rcases ih with ⟨_, h⟩ | ⟨h1, _⟩ | ⟨h1, _⟩
      · right; left; exact ⟨rfl, by simp only; omega⟩
      · omega
      · omega
    · subst he
      rcases ih with ⟨h1, _⟩ | ⟨_, h⟩ | ⟨h1, _⟩
      · omega
      · right; right; exact ⟨rfl, by simp only; omega⟩
      · omega

theorem C1_pwsssp_shortest_witness :
    (∃ g1, pwsssp exampleDijkstraGraph 1 = some g1 ∧ g1.dist.getD 1 0 = 0) ∧
    (pwsssp exampleDijkstraGraph 1).map (fun g1 => (g1.dist.getD 2 0, g1.path.getD 2 0)) =
      some (2, 3) :=
  ⟨(C1_pwsssp_shortest [⟨1, 2, 4⟩, ⟨1, 3, 1⟩, ⟨3, 2, 1⟩] 3 exampleDijkstraGraph 1
      (by decide) (by decide)
      (fun v e he => by
        rcases exampleDijkstraGraph_rows v e he with ⟨_, he | he⟩ | ⟨_, he⟩ <;>
          subst he <;> decide)
      (fun p u hp _ => by
        have hI : INT_MAX = 2147483647 := rfl
        rcases exampleDijkstraGraph_paths p u hp with ⟨_, h⟩ | ⟨_, h⟩ | ⟨_, h⟩ <;> omega)).elim
    (fun g1 h => ⟨g1, h.1, h.2.2.1⟩), by decide⟩

end Digraph

namespace PriorityQueue

variable {α : Type} [LinearOrder α]

theorem heapInv_iff_heapFrom (pq : List α) : HeapInv pq ↔ HeapFrom pq 0 := by
  constructor
  · intro h p _; exact h p
  · intro h p; exact h p (Nat.zero_le _)

theorem ltAt_true_iff (pq : List α) (j i : Nat) :
    ltAt pq j i = true ↔ ∃ a b, pq[j]? = some a ∧ pq[i]? = some b ∧ a < b := by
  unfold ltAt
  cases hj : pq[j]? <;> cases hi : pq[i]? <;> simp

theorem leAt_of_not_ltAt (pq : List α) (j i : Nat) (h : ltAt pq j i = false) :
    LeAt pq i j := by
  intro a b ha hb
  by_contra hlt
  have : ltAt pq j i = true := (ltAt_true_iff pq j i).2 ⟨b, a, hb, ha, lt_of_not_le hlt⟩
  rw [h] at this; exact Bool.noConfusion this

theorem swap_length (pq : List α) (i j : Nat) : (swap pq i j).length = pq.length := by
  unfold swap
  cases pq[i]? <;> cases pq[j]? <;> simp

theorem swap_getElem? (pq : List α) (i j k : Nat) (hi : i < pq.length) (hj : j < pq.length) :
    (swap pq i j)[k]? = if k = j then pq[i]? else if k = i then pq[j]? else pq[k]? := by
  unfold swap
  rw [List.getElem?_eq_getElem hi, List.getElem?_eq_getElem hj]
  simp only [List.getElem?_set, List.length_set]
  by_cases h1 : k = j
  · subst h1; simp [hj]
  · by_cases h2 : k = i
    · subst h2; simp [h1, hi, Ne.symm h1]
    · simp [h1, h2, Ne.symm h1, Ne.symm h2]

theorem swap_perm (pq : List α) (i j : Nat) : (swap pq i j).Perm pq := by
  unfold swap
  cases hi : pq[i]? with
  | none => exact List.Perm.refl _
  | some a =>
    cases hj : pq[j]? with
    | none => exact List.Perm.refl _
    | some b =>
      have hi' : i < pq.length := (List.getElem?_eq_some_iff.1 hi).1
      have hj' : j < pq.length := (List.getElem?_eq_some_iff.1 hj).1
      have ha : pq[i] = a := (List.getElem?_eq_some_iff.1 hi).2
      have hb : pq[j] = b := (List.getElem?_eq_some_iff.1 hj).2
      rw [List.perm_iff_count]
      intro x
      have hj2 : j < (pq.set i b).length := by simpa using hj'
      rw [List.count_set _ _ _ _ hj2, List.count_set _ _ _ _ hi']
      have hget : (pq.set i b)[j] = b := by
        rw [List.getElem_set]; split <;> simp_all
      rw [hget, ha]
      have hcnt : (if (a == x) = true then 1 else 0) ≤ List.count x pq := by
        split
        · next h =>
          have : a = x := by simpa using h
          subst this
          exact List.count_pos_iff.2 (ha ▸ List.getElem_mem hi')
        · exact Nat.zero_le _
      omega

theorem smallestOf_spec (pq : List α) (idx : Nat) :
    (smallestOf pq idx = idx ∧ LeAt pq idx (2 * idx + 1) ∧ LeAt pq idx (2 * idx + 2)) ∨
    ((smallestOf pq idx = 2 * idx + 1 ∨ smallestOf pq idx = 2 * idx + 2) ∧
      ∃ a b, pq[smallestOf pq idx]? = some a ∧ pq[idx]? = some b ∧ a < b ∧
        (∀ c, pq[2 * idx + 1]? = some c → a ≤ c) ∧
        (∀ c, pq[2 * idx + 2]? = some c → a ≤ c)) := by
  cases h1 : ltAt pq (2 * idx + 1) idx
  · cases h2 : ltAt pq (2 * idx + 2) idx
    · left
      have hs : smallestOf pq idx = idx := by simp [smallestOf, h1, h2]
      exact ⟨hs, leAt_of_not_ltAt _ _ _ h1, leAt_of_not_ltAt _ _ _ h2⟩
    · right
      have hs : smallestOf pq idx = 2 * idx + 2 := by simp [smallestOf, h1, h2]
      rw [hs]
      obtain ⟨a, b, ha, hb, hab⟩ := (ltAt_true_iff _ _ _).1 h2
      refine ⟨Or.inr rfl, a, b, ha, hb, hab, ?_, ?_⟩
      · intro c hc
        exact le_trans (le_of_lt hab) (leAt_of_not_ltAt _ _ _ h1 b c hb hc)
      · intro c hc
        rw [ha] at hc; cases hc; exact le_refl _
  · obtain ⟨a, b, ha, hb, hab⟩ := (ltAt_true_iff _ _ _).1 h1
    cases h2 : ltAt pq (2 * idx + 2) (2 * idx + 1)
    · right
      have hs : smallestOf pq idx = 2 * idx + 1 := by simp [smallestOf, h1, h2]
      rw [hs]
      refine ⟨Or.inl rfl, a, b, ha, hb, hab, ?_, ?_⟩
      · intro c hc
        rw [ha] at hc; cases hc; exact le_refl _
      · intro c hc
        exact leAt_of_not_ltAt _ _ _ h2 a c ha hc
    · right
      have hs : smallestOf pq idx = 2 * idx + 2 := by simp [smallestOf, h1, h2]
      rw [hs]
      obtain ⟨a2, b2, ha2, hb2, hab2⟩ := (ltAt_true_iff _ _ _).1 h2
      rw [ha] at hb2; cases hb2
      refine ⟨Or.inr rfl, a2, b, ha2, hb, lt_trans hab2 hab, ?_, ?_⟩
      · intro c hc
        rw [ha] at hc; cases hc; exact le_of_lt hab2
      · intro c hc
        rw [ha2] at hc; cases hc; exact le_refl _

theorem lt_length_of_getElem? {pq : List α} {i : Nat} {a : α} (h : pq[i]? = some a) :
    i < pq.length := (List.getElem?_eq_some_iff.1 h).1

theorem downInv_swap (pq : List α) (lo idx s : Nat) (hlo : lo ≤ idx)
    (hs : s = 2 * idx + 1 ∨ s = 2 * idx + 2) (a b : α)
    (ha : pq[s]? = some a) (hb : pq[idx]? = some b) (hab : a < b)
    (hl : ∀ c, pq[2 * idx + 1]? = some c → a ≤ c)
    (hr : ∀ c, pq[2 * idx + 2]? = some c → a ≤ c)
    (inv : DownInv pq lo idx) : DownInv (swap pq idx s) lo s := by
  have hsn := lt_length_of_getElem? ha
  have hin := lt_length_of_getElem? hb
  have hget : ∀ k, (swap pq idx s)[k]? =
      if k = s then some b else if k = idx then some a else pq[k]? := by
    intro k; rw [swap_getElem? pq idx s k hin hsn, hb, ha]
  have hsi : s ≠ idx := by omega
  obtain ⟨inv1, inv2⟩ := inv
  have key : ∀ p j, lo ≤ p → p ≠ s → (j = 2 * p + 1 ∨ j = 2 * p + 2) →
      LeAt (swap pq idx s) p j := by
    intro p j hp hps hj x y hx hy
    rw [hget] at hx hy
    by_cases hpi : p = idx
    · subst hpi
      simp only [hps, if_false, if_true] at hx
      cases hx
      by_cases hjs : j = s
      · simp only [hjs, if_true] at hy; cases hy; exact le_of_lt hab
      · have hji : j ≠ p := by omega
        simp only [hjs, hji, if_false] at hy
        rcases hj with hj | hj
        · subst hj; exact hl _ hy
        · subst hj; exact hr _ hy
    · simp only [hps, hpi, if_false] at hx
      have hjs : j ≠ s := by omega
      by_cases hji : j = idx
      · rw [hji, if_neg (Ne.symm hsi), if_pos rfl] at hy
        cases hy
        have h2 := inv2 p hp (by omega)
        rcases hs with hs | hs
        · subst hs; exact h2.1 _ _ hx ha
        · subst hs; exact h2.2 _ _ hx ha
      · simp only [hjs, hji, if_false] at hy
        have h1 := inv1 p hp hpi
        rcases hj with hj | hj
        · subst hj; exact h1.1 _ _ hx hy
        · subst hj; exact h1.2 _ _ hx hy
  constructor
  · intro p hp hps
    exact ⟨key p _ hp hps (Or.inl rfl), key p _ hp hps (Or.inr rfl)⟩
  · intro p hp hsp
    have hpi : p = idx := by omega
    subst hpi
    have h1 := inv1 s (by omega) hsi
    have aux : ∀ j, (j = 2 * s + 1 ∨ j = 2 * s + 2) → LeAt (swap pq p s) p j := by
      intro j hj x y hx hy
      rw [hget] at hx hy
      have hjs : j ≠ s := by omega
      have hjp : j ≠ p := by omega
      simp only [hjs, hjp, if_false] at hy
      rw [if_neg (Ne.symm hsi), if_pos rfl] at hx
      cases hx
      rcases hj with hj | hj
      · subst hj; exact h1.1 _ _ ha hy
      · subst hj; exact h1.2 _ _ ha hy
    exact ⟨aux _ (Or.inl rfl), aux _ (Or.inr rfl)⟩

theorem percolateDownAux_heapFrom (fuel : Nat) : ∀ (pq : List α) (lo idx : Nat),
    pq.length ≤ fuel + idx → lo ≤ idx → DownInv pq lo idx →
    HeapFrom (percolateDownAux fuel pq idx) lo := by
  induction fuel with
  | zero =>
    intro pq lo idx hf _ inv p hp
    simp only [percolateDownAux]
    by_cases hpi : p = idx
    · subst hpi
      have hnone : pq[p]? = none := List.getElem?_eq_none (by omega)
      constructor <;> intro a b ha _ <;> rw [hnone] at ha <;> cases ha
    · exact inv.1 p hp hpi
  | succ fuel ih =>
    intro pq lo idx hf hlo inv
    simp only [percolateDownAux]
    rcases smallestOf_spec pq idx with ⟨hs, h1, h2⟩ | ⟨hs, a, b, ha, hb, hab, hl, hr⟩
    · rw [if_neg (by simpa using hs)]
      intro p hp
      by_cases hpi : p = idx
      · subst hpi; exact ⟨h1, h2⟩
      · exact inv.1 p hp hpi
    · have hne : smallestOf pq idx ≠ idx := by omega
      rw [if_pos hne]
      have hsn := lt_length_of_getElem? ha
      apply ih
      · rw [swap_length]; omega
      · omega
      · exact downInv_swap pq lo idx _ hlo hs a b ha hb hab hl hr inv

theorem percolateDownAux_length (fuel : Nat) : ∀ (pq : List α) (idx : Nat),
    (percolateDownAux fuel pq idx).length = pq.length := by
  induction fuel with
  | zero => intro pq idx; rfl
  | succ fuel ih =>
    intro pq idx
    simp only [percolateDownAux]
    split
    · rw [ih, swap_length]
    · rfl

theorem percolateDownAux_perm (fuel : Nat) : ∀ (pq : List α) (idx : Nat),
    (percolateDownAux fuel pq idx).Perm pq := by
  induction fuel with
  | zero => intro pq idx; exact List.Perm.refl _
  | succ fuel ih =>
    intro pq idx
    simp only [percolateDownAux]
    split
    · exact (ih _ _).trans (swap_perm _ _ _)
    · exact List.Perm.refl _

theorem percolateDown_length (pq : List α) (idx : Nat) :
    (percolateDown pq idx).length = pq.length := percolateDownAux_length _ _ _

theorem percolateDown_perm (pq : List α) (idx : Nat) :
    (percolateDown pq idx).Perm pq := percolateDownAux_perm _ _ _

theorem percolateDown_heapFrom (pq : List α) (lo idx : Nat) (hlo : lo ≤ idx)
    (inv : DownInv pq lo idx) : HeapFrom (percolateDown pq idx) lo :=
  percolateDownAux_heapFrom _ pq lo idx (by omega) hlo inv

/-- The fuel of `percolateDown` is never exhausted: the model satisfies the loop's
unrolling equation. -/
theorem percolateDownAux_fuel (fuel : Nat) : ∀ (pq : List α) (idx : Nat),
    pq.length ≤ fuel + idx →
    percolateDownAux (fuel + 1) pq idx = percolateDownAux fuel pq idx := by
  induction fuel with
  | zero =>
    intro pq idx hf
    simp only [percolateDownAux]
    rcases smallestOf_spec pq idx with ⟨hs, -, -⟩ | ⟨-, a, b, -, hb, -⟩
    · rw [if_neg (by simpa using hs)]
    · have := lt_length_of_getElem? hb; omega
  | succ fuel ih =>
    intro pq idx hf
    rw [percolateDownAux]
    conv => rhs; rw [percolateDownAux]
    split
    · next hne =>
      rcases smallestOf_spec pq idx with ⟨hs, -, -⟩ | ⟨hs, a, b, ha, -⟩
      · exact absurd hs hne
      · apply ih
        rw [swap_length]; omega
    · rfl

theorem percolateDown_unroll (pq : List α) (idx : Nat) :
    percolateDown pq idx =
      if smallestOf pq idx ≠ idx then
        percolateDown (swap pq idx (smallestOf pq idx)) (smallestOf pq idx)
      else pq := by
  unfold percolateDown
  rw [swap_length]
  cases hn : pq.length with
  | zero =>
    simp only [percolateDownAux]
    rcases smallestOf_spec pq idx with ⟨hs, -, -⟩ | ⟨-, a, b, -, hb, -⟩
    · rw [if_neg (by simpa using hs)]
    · have := lt_length_of_getElem? hb; omega
  | succ n =>
    rw [percolateDownAux]
    split
    · next hne =>
      rcases smallestOf_spec pq idx with ⟨hs, -, -⟩ | ⟨hs, a, b, ha, -⟩
      · exact absurd hs hne
      · symm; apply percolateDownAux_fuel
        rw [swap_length]; omega
    · rfl

theorem upInv_swap (pq : List α) (idx : Nat) (hidx : 0 < idx) (a b : α)
    (ha : pq[idx]? = some a) (hb : pq[(idx - 1) / 2]? = some b) (hab : a < b)
    (inv : UpInv pq idx) : UpInv (swap pq idx ((idx - 1) / 2)) ((idx - 1) / 2) := by
  obtain ⟨inv1, inv2⟩ := inv
  have hin := lt_length_of_getElem? ha
  have hpn := lt_length_of_getElem? hb
  generalize hpar : (idx - 1) / 2 = par at *
  have hpc : idx = 2 * par + 1 ∨ idx = 2 * par + 2 := by omega
  have hne : par ≠ idx := by omega
  have hget : ∀ k, (swap pq idx par)[k]? =
      if k = par then some a else if k = idx then some b else pq[k]? := by
    intro k; rw [swap_getElem? pq idx par k hin hpn, ha, hb]
  constructor
  · intro p j hj hjp x y hx hy
    rw [hget] at hx hy
    rw [if_neg hjp] at hy
    by_cases hpp : p = par
    · subst hpp
      rw [if_pos rfl] at hx; cases hx
      by_cases hji : j = idx
      · rw [if_pos hji] at hy; cases hy; exact le_of_lt hab
      · rw [if_neg hji] at hy
        exact le_trans (le_of_lt hab) (inv1 p j hj hji _ _ hb hy)
    · rw [if_neg hpp] at hx
      by_cases hpi : p = idx
      · subst hpi
        rw [if_pos rfl] at hx; cases hx
        have hji : j ≠ p := by omega
        rw [if_neg hji] at hy
        exact inv2 par j hpc hj _ _ hb hy
      · rw [if_neg hpi] at hx
        have hji : j ≠ idx := by omega
        rw [if_neg hji] at hy
        exact inv1 p j hj hji _ _ hx hy
  · intro p j hp hj x y hx hy
    rw [hget] at hx hy
    have hpp : p ≠ par := by omega
    have hpi : p ≠ idx := by omega
    have hjp : j ≠ par := by omega
    rw [if_neg hpp, if_neg hpi] at hx
    rw [if_neg hjp] at hy
    have h1 : x ≤ b := inv1 p par hp hne _ _ hx hb
    by_cases hji : j = idx
    · rw [if_pos hji] at hy; cases hy; exact h1
    · rw [if_neg hji] at hy
      exact le_trans h1 (inv1 par j hj hji _ _ hb hy)

theorem percolateUpAux_heapInv (fuel : Nat) : ∀ (pq : List α) (idx : Nat),
    idx ≤ fuel → UpInv pq idx → HeapInv (percolateUpAux fuel pq idx) := by
  induction fuel with
  | zero =>
    intro pq idx hf inv p
    have h0 : idx = 0 := by omega
    subst h0
    simp only [percolateUpAux]
    exact ⟨inv.1 p _ (Or.inl rfl) (by omega), inv.1 p _ (Or.inr rfl) (by omega)⟩
  | succ fuel ih =>
    intro pq idx hf inv
    simp only [percolateUpAux]
    by_cases hpos : idx > 0
    · rw [if_pos hpos]
      cases hlt : ltAt pq idx ((idx - 1) / 2)
      · simp only [Bool.false_eq_true, if_false]
        have hle := leAt_of_not_ltAt _ _ _ hlt
        have hpc : idx = 2 * ((idx - 1) / 2) + 1 ∨ idx = 2 * ((idx - 1) / 2) + 2 := by omega
        have key : ∀ p j, (j = 2 * p + 1 ∨ j = 2 * p + 2) → LeAt pq p j := by
          intro p j hj
          by_cases hji : j = idx
          · have : p = (idx - 1) / 2 := by omega
            rw [this, hji]; exact hle
          · exact inv.1 p j hj hji
        intro p
        exact ⟨key p _ (Or.inl rfl), key p _ (Or.inr rfl)⟩
      · simp only [if_true]
        obtain ⟨a, b, ha, hb, hab⟩ := (ltAt_true_iff _ _ _).1 hlt
        apply ih
        · omega
        · exact upInv_swap pq idx hpos a b ha hb hab inv
    · rw [if_neg hpos]
      have h0 : idx = 0 := by omega
      subst h0
      intro p
      exact ⟨inv.1 p _ (Or.inl rfl) (by omega), inv.1 p _ (Or.inr rfl) (by omega)⟩

theorem percolateUpAux_perm (fuel : Nat) : ∀ (pq : List α) (idx : Nat),
    (percolateUpAux fuel pq idx).Perm pq := by
  induction fuel with
  | zero => intro pq idx; exact List.Perm.refl _
  | succ fuel ih =>
    intro pq idx
    simp only [percolateUpAux]
    split
    · split
      · exact (ih _ _).trans (swap_perm _ _ _)
      · exact List.Perm.refl _
    · exact List.Perm.refl _

theorem percolateUp_perm (pq : List α) (idx : Nat) :
    (percolateUp pq idx).Perm pq := percolateUpAux_perm _ _ _

/-- The fuel of `percolateUp` is never exhausted. -/
theorem percolateUpAux_fuel (fuel : Nat) : ∀ (pq : List α) (idx : Nat),
    idx ≤ fuel → percolateUpAux (fuel + 1) pq idx = percolateUpAux fuel pq idx := by
  induction fuel with
  | zero =>
    intro pq idx hf
    have h0 : idx = 0 := by omega
    subst h0
    simp [percolateUpAux]
  | succ fuel ih =>
    intro pq idx hf
    rw [percolateUpAux]
    conv => rhs; rw [percolateUpAux]
    dsimp only
    split
    · split
      · apply ih; omega
      · rfl
    · rfl

theorem percolateUp_unroll (pq : List α) (idx : Nat) (h : idx < pq.length) :
    percolateUp pq idx =
      if idx > 0 then
        if ltAt pq idx ((idx - 1) / 2) then
          percolateUp (swap pq idx ((idx - 1) / 2)) ((idx - 1) / 2)
        else pq
      else pq := by
  unfold percolateUp
  rw [swap_length]
  cases hn : pq.length with
  | zero => omega
  | succ n =>
    rw [percolateUpAux]
    dsimp only
    split
    · split
      · symm; apply percolateUpAux_fuel; omega
      · rfl
    · rfl

theorem insert_perm (pq : List α) (x : α) : (insert pq x).Perm (x :: pq) := by
  unfold insert
  exact (percolateUp_perm _ _).trans (List.perm_append_singleton x pq)

theorem insert_length (pq : List α) (x : α) : (insert pq x).length = pq.length + 1 := by
  rw [(insert_perm pq x).length_eq]; rfl

theorem insert_heapInv (pq : List α) (x : α) (h : HeapInv pq) : HeapInv (insert pq x) := by
  unfold insert percolateUp
  simp only [List.length_append, List.length_singleton, Nat.add_sub_cancel]
  apply percolateUpAux_heapInv _ _ _ (Nat.le_succ _)
  have hget : ∀ k, k < pq.length → (pq ++ [x])[k]? = pq[k]? := by
    intro k hk; exact List.getElem?_append_left hk
  have hnone : ∀ k, pq.length < k → (pq ++ [x])[k]? = none := by
    intro k hk; apply List.getElem?_eq_none; simp; omega
  constructor
  · intro p j hj hjn a b ha hb
    have hjl : j < pq.length := by
      have := lt_length_of_getElem? hb
      simp at this; omega
    rw [hget j hjl] at hb
    rw [hget p (by omega)] at ha
    rcases hj with hj | hj
    · subst hj; exact (h p).1 _ _ ha hb
    · subst hj; exact (h p).2 _ _ ha hb
  · intro p j _ hj a b _ hb
    rw [hnone j (by omega)] at hb; cases hb

theorem heapInv_root_le (pq : List α) (h : HeapInv pq) (m : α) (hm : pq[0]? = some m) :
    ∀ (i : Nat) (a : α), pq[i]? = some a → m ≤ a := by
  intro i
  induction i using Nat.strong_induction_on with
  | _ i ih =>
    intro a ha
    by_cases h0 : i = 0
    · subst h0; rw [hm] at ha; cases ha; exact le_refl _
    · have hin := lt_length_of_getElem? ha
      have hp : (i - 1) / 2 < pq.length := by omega
      obtain ⟨b, hb⟩ : ∃ b, pq[(i - 1) / 2]? = some b := ⟨_, List.getElem?_eq_getElem hp⟩
      have h1 := ih ((i - 1) / 2) (by omega) _ hb
      have hpc : i = 2 * ((i - 1) / 2) + 1 ∨ i = 2 * ((i - 1) / 2) + 2 := by omega
      rcases hpc with hpc | hpc
      · have := (h ((i - 1) / 2)).1 _ a hb (by rw [← hpc]; exact ha)
        exact le_trans h1 this
      · have := (h ((i - 1) / 2)).2 _ a hb (by rw [← hpc]; exact ha)
        exact le_trans h1 this

theorem heapInv_head_le (m : α) (t : List α) (h : HeapInv (m :: t)) :
    ∀ a ∈ m :: t, m ≤ a := by
  intro a ha
  obtain ⟨i, hi, rfl⟩ := List.getElem_of_mem ha
  exact heapInv_root_le _ h m (by simp) i _ (List.getElem?_eq_getElem hi)

theorem deleteMin_eq_none_iff (pq : List α) : deleteMin pq = none ↔ pq = [] := by
  cases pq with
  | nil => simp [deleteMin]
  | cons m t =>
    have : (m :: t).getLast? = some ((m :: t).getLast (by simp)) :=
      List.getLast?_eq_getLast _ _
    simp [deleteMin, this]

theorem nil_or_snoc (t : List α) : t = [] ∨ ∃ t1 x, t = t1 ++ [x] := by
  rcases List.eq_nil_or_concat t with h | ⟨t1, x, h⟩
  · exact Or.inl h
  · exact Or.inr ⟨t1, x, by rw [h, List.concat_eq_append]⟩

theorem deleteMin_cons (m : α) (t : List α) :
    deleteMin (m :: t) =
      some (m, if (afterPop t).isEmpty then afterPop t
               else percolateDown (afterPop t) 0) := by
  rcases nil_or_snoc t with rfl | ⟨t, x, rfl⟩
  · simp [deleteMin, afterPop]
  · have h1 : (m :: (t ++ [x])).getLast? = some x := by
      have : m :: (t ++ [x]) = (m :: t) ++ [x] := rfl
      rw [this, List.getLast?_append]; simp
    have h2 : (t ++ [x]).getLast? = some x := by simp
    have h3 : ((m :: (t ++ [x])).set 0 x).dropLast = x :: t := by
      simp only [List.set_cons_zero]
      have : x :: (t ++ [x]) = (x :: t) ++ [x] := rfl
      rw [this, List.dropLast_concat]
    simp only [deleteMin, h1, afterPop, h2, h3, List.dropLast_concat]

theorem afterPop_perm (t : List α) : (afterPop t).Perm t := by
  rcases nil_or_snoc t with rfl | ⟨t, x, rfl⟩
  · simp [afterPop]
  · have h2 : (t ++ [x]).getLast? = some x := by simp
    simp only [afterPop, h2, List.dropLast_concat]
    exact (List.perm_append_singleton x t).symm

theorem afterPop_downInv (m : α) (t : List α) (h : HeapInv (m :: t)) :
    DownInv (afterPop t) 0 0 := by
  rcases nil_or_snoc t with rfl | ⟨t, x, rfl⟩
  · constructor
    · intro p _ _; constructor <;> intro a b ha _ <;> simp [afterPop] at ha
    · intro p _ hp; omega
  · have hap : afterPop (t ++ [x]) = x :: t := by
      simp [afterPop]
    rw [hap]
    have hget : ∀ k y, 0 < k → (x :: t)[k]? = some y → (m :: (t ++ [x]))[k]? = some y := by
      intro k y hk hy
      obtain ⟨k, rfl⟩ : ∃ k', k = k' + 1 := ⟨k - 1, by omega⟩
      simp only [List.getElem?_cons_succ] at hy ⊢
      have := lt_length_of_getElem? hy
      rw [List.getElem?_append_left this]; exact hy
    constructor
    · intro p _ hp
      constructor
      · intro a b ha hb
        exact (h p).1 a b (hget _ _ (by omega) ha) (hget _ _ (by omega) hb)
      · intro a b ha hb
        exact (h p).2 a b (hget _ _ (by omega) ha) (hget _ _ (by omega) hb)
    · intro p _ hp; omega

theorem deleteMin_spec (pq : List α) (m : α) (pq1 : List α)
    (hd : deleteMin pq = some (m, pq1)) :
    findMin pq = some m ∧ pq.Perm (m :: pq1) ∧
      (HeapInv pq → HeapInv pq1 ∧ ∀ a ∈ pq, m ≤ a) := by
  cases pq with
  | nil => simp [deleteMin] at hd
  | cons m0 t =>
    rw [deleteMin_cons] at hd
    simp only [Option.some.injEq, Prod.mk.injEq] at hd
    obtain ⟨rfl, hpq1⟩ := hd
    refine ⟨rfl, ?_, ?_⟩
    · apply List.Perm.cons
      rw [← hpq1]
      split
      · exact (afterPop_perm t).symm
      · exact ((percolateDown_perm _ _).trans (afterPop_perm t)).symm
    · intro h
      refine ⟨?_, heapInv_head_le m0 t h⟩
      rw [← hpq1]
      have hinv := afterPop_downInv m0 t h
      split
      · next he =>
        have : afterPop t = [] := by simpa using he
        rw [this]
        intro i; constructor <;> intro a b ha _ <;> simp at ha
      · exact (heapInv_iff_heapFrom _).2 (percolateDown_heapFrom _ 0 0 (le_refl _) hinv)

theorem heapifyLoop_length (k : Nat) : ∀ pq : List α, (heapifyLoop k pq).length = pq.length := by
  induction k with
  | zero => intro pq; rfl
  | succ k ih => intro pq; simp only [heapifyLoop]; rw [ih, percolateDown_length]

theorem heapifyLoop_perm (k : Nat) : ∀ pq : List α, (heapifyLoop k pq).Perm pq := by
  induction k with
  | zero => intro pq; exact List.Perm.refl _
  | succ k ih =>
    intro pq; simp only [heapifyLoop]
    exact (ih _).trans (percolateDown_perm _ _)

theorem heapifyLoop_heapInv (k : Nat) : ∀ pq : List α, HeapFrom pq k →
    HeapInv (heapifyLoop k pq) := by
  induction k with
  | zero => intro pq h; exact (heapInv_iff_heapFrom _).2 h
  | succ k ih =>
    intro pq h
    simp only [heapifyLoop]
    apply ih
    apply percolateDown_heapFrom _ k k (le_refl _)
    constructor
    · intro p hp hpk; exact h p (by omega)
    · intro p hp hk; omega

theorem heapify_spec (V pq : List α) (h : heapify V = some pq) :
    HeapInv pq ∧ pq.Perm V := by
  unfold heapify at h
  split at h
  · simp only [Option.some.injEq] at h
    subst h
    refine ⟨heapifyLoop_heapInv _ _ ?_, heapifyLoop_perm _ _⟩
    intro p hp
    constructor <;> intro a b _ hb
    · have := lt_length_of_getElem? hb; omega
    · have := lt_length_of_getElem? hb; omega
  · cases h

theorem heapInv_nil : HeapInv ([] : List α) := by
  intro i; constructor <;> intro a b ha _ <;> simp at ha

theorem isMinHeap_iff (pq : List α) : isMinHeap pq = true ↔ HeapInv pq := by
  unfold isMinHeap
  simp only [List.all_eq_true, List.mem_range, Bool.and_eq_true, Bool.not_eq_true']
  constructor
  · intro h i
    by_cases hi : i < pq.length / 2 + 1
    · exact ⟨leAt_of_not_ltAt _ _ _ (h i hi).1, leAt_of_not_ltAt _ _ _ (h i hi).2⟩
    · constructor <;> intro a b _ hb
      · have := lt_length_of_getElem? hb; omega
      · have := lt_length_of_getElem? hb; omega
  · intro h i _
    constructor
    · cases hlt : ltAt pq (2 * i + 1) i
      · rfl
      · obtain ⟨a, b, ha, hb, hab⟩ := (ltAt_true_iff _ _ _).1 hlt
        exact absurd ((h i).1 _ _ hb ha) (not_le_of_lt hab)
    · cases hlt : ltAt pq (2 * i + 2) i
      · rfl
      · obtain ⟨a, b, ha, hb, hab⟩ := (ltAt_true_iff _ _ _).1 hlt
        exact absurd ((h i).2 _ _ hb ha) (not_le_of_lt hab)

theorem drainAux_spec (fuel : Nat) : ∀ pq : List α, pq.length ≤ fuel → HeapInv pq →
    (drainAux fuel pq).Perm pq ∧ (drainAux fuel pq).Sorted (· ≤ ·) := by
  induction fuel with
  | zero =>
    intro pq hlen _
    have : pq = [] := List.length_eq_zero.1 (by omega)
    subst this
    exact ⟨List.Perm.refl _, List.sorted_nil⟩
  | succ fuel ih =>
    intro pq hlen hinv
    simp only [drainAux]
    cases hd : deleteMin pq with
    | none =>
      have : pq = [] := (deleteMin_eq_none_iff pq).1 hd
      subst this
      exact ⟨List.Perm.refl _, List.sorted_nil⟩
    | some r =>
      obtain ⟨m, pq1⟩ := r
      obtain ⟨_, hperm, hrest⟩ := deleteMin_spec pq m pq1 hd
      obtain ⟨hinv1, hmin⟩ := hrest hinv
      have hl : pq1.length ≤ fuel := by
        have := hperm.length_eq
        simp only [List.length_cons] at this
        omega
      obtain ⟨hp1, hs1⟩ := ih pq1 hl hinv1
      refine ⟨(List.Perm.cons m hp1).trans hperm.symm, List.sorted_cons.2 ⟨?_, hs1⟩⟩
      intro b hb
      exact hmin b (hperm.symm.subset (List.mem_cons_of_mem _ (hp1.subset hb)))

theorem run_sorted (ops : List (Op α)) : ∀ (pq : List α) (last : Option α)
    (pq2 out : List α), HeapInv pq → (∀ l, last = some l → ∀ a ∈ pq, l ≤ a) →
    insertsAbove last ops pq = true → run ops pq = some (pq2, out) →
    out.Sorted (· ≤ ·) ∧ (∀ l, last = some l → ∀ o ∈ out, l ≤ o) := by
  induction ops with
  | nil =>
    intro pq last pq2 out _ _ _ hrun
    simp only [run, Option.some.injEq, Prod.mk.injEq] at hrun
    obtain ⟨-, rfl⟩ := hrun
    exact ⟨List.sorted_nil, by intro l _ o ho; cases ho⟩
  | cons op ops ih =>
    intro pq last pq2 out hinv hlast hab hrun
    cases op with
    | insert x =>
      simp only [run] at hrun
      simp only [insertsAbove, Bool.and_eq_true] at hab
      apply ih (insert pq x) last pq2 out (insert_heapInv pq x hinv) _ hab.2 hrun
      intro l hl a ha
      rcases List.mem_cons.1 ((insert_perm pq x).subset ha) with rfl | ha
      · have := hab.1; rw [hl] at this; simpa using this
      · exact hlast l hl a ha
    | makeEmpty =>
      simp only [run] at hrun
      simp only [insertsAbove] at hab
      apply ih (makeEmpty pq) last pq2 out heapInv_nil _ hab hrun
      intro l _ a ha; cases ha
    | deleteMin =>
      simp only [run] at hrun
      simp only [insertsAbove] at hab
      cases hd : deleteMin pq with
      | none => rw [hd] at hrun; cases hrun
      | some r =>
        obtain ⟨m, pq1⟩ := r
        rw [hd] at hrun hab
        simp only at hrun hab
        cases hr : run ops pq1 with
        | none => rw [hr] at hrun; cases hrun
        | some r2 =>
          obtain ⟨pq3, out1⟩ := r2
          rw [hr] at hrun
          simp only [Option.some.injEq, Prod.mk.injEq] at hrun
          obtain ⟨-, rfl⟩ := hrun
          obtain ⟨_, hperm, hrest⟩ := deleteMin_spec pq m pq1 hd
          obtain ⟨hinv1, hmin⟩ := hrest hinv
          have hlast1 : ∀ l, some m = some l → ∀ a ∈ pq1, l ≤ a := by
            intro l hl a ha
            cases hl
            exact hmin a (hperm.symm.subset (List.mem_cons_of_mem _ ha))
          obtain ⟨hs, hge⟩ := ih pq1 (some m) pq3 out1 hinv1 hlast1 hab hr
          refine ⟨List.sorted_cons.2 ⟨?_, hs⟩, ?_⟩
          · exact fun b hb => hge m rfl b hb
          · intro l hl o ho
            have hlm : l ≤ m := hlast l hl m (hperm.symm.subset (List.mem_cons_self _ _))
            rcases List.mem_cons.1 ho with rfl | ho
            · exact hlm
            · exact le_trans hlm (hge m rfl o ho)

/-- C6: heap sort round trip. For a vector `V` with at least two elements the bulk
constructor succeeds, and draining the queue with `deleteMin` returns a sorted
permutation of `V`. -/
theorem C6_heapsort_roundtrip (V : List α) (h : 2 ≤ V.length) :
    ∃ pq, ofVector V = some pq ∧ (drain pq).Perm V ∧ (drain pq).Sorted (· ≤ ·) := by
  have hsome : ofVector V = some (heapifyLoop (V.length / 2) V) := by
    unfold ofVector heapify
    rw [if_pos (by omega)]
  obtain ⟨hinv, hperm⟩ := heapify_spec V _ hsome
  obtain ⟨hp, hs⟩ := drainAux_spec _ _ (le_refl _) hinv
  exact ⟨_, hsome, hp.trans hperm, hs⟩

theorem C6_heapsort_roundtrip_witness :
    2 ≤ [5, 3, 8, 1, 9, 2, (7 : Nat)].length ∧
    ∃ pq, ofVector [5, 3, 8, 1, 9, 2, (7 : Nat)] = some pq ∧
      (drain pq).Perm [5, 3, 8, 1, 9, 2, 7] ∧ (drain pq).Sorted (· ≤ ·) :=
  ⟨by decide, C6_heapsort_roundtrip [5, 3, 8, 1, 9, 2, 7] (by decide)⟩

/-- C7 as stated fails: insert 5, deleteMin, insert 3, deleteMin on an empty queue
returns 5 and then 3. -/
theorem C7_counterexample :
    run [Op.insert 5, Op.deleteMin, Op.insert (3 : Nat), Op.deleteMin] [] = some ([], [5, 3]) ∧
    noMakeEmpty [Op.insert 5, Op.deleteMin, Op.insert (3 : Nat), Op.deleteMin] = true ∧
    ¬ ([5, 3] : List Nat).Sorted (· ≤ ·) := by
  decide

/-- C7 (amended): for any sequence of `insert` and `deleteMin` calls on an initially
empty queue, each `deleteMin` on a non-empty queue, in which no `insert` made after a
`deleteMin` inserts a value below the value most recently returned, the values returned
by `deleteMin` are non-decreasing. -/
theorem C7_deleteMin_nondecreasing (ops : List (Op α)) (pq out : List α)
    (hrun : run ops (empty : List α) = some (pq, out))
    (hab : insertsAbove none ops (empty : List α) = true) :
    out.Sorted (· ≤ ·) :=
  (run_sorted ops empty none pq out heapInv_nil (by intro l hl; cases hl) hab hrun).1

theorem C7_deleteMin_nondecreasing_witness :
    ([3, 4, 5] : List Nat).Sorted (· ≤ ·) :=
  C7_deleteMin_nondecreasing
    [Op.insert 5, Op.insert 3, Op.deleteMin, Op.insert 4, Op.deleteMin, Op.deleteMin]
    [] [3, 4, 5] (by decide) (by decide)

/-- C8: every state reachable from the capacity constructor or the bulk constructor by
`insert`, `deleteMin` (on a non-empty queue) and `makeEmpty` satisfies the heap
invariant, which is the property `isMinHeap` tests. -/
theorem C8_heap_invariant (pq : List α) (h : Reachable pq) :
    HeapInv pq ∧ isMinHeap pq = true := by
  have : HeapInv pq := by
    induction h with
    | capacity => exact heapInv_nil
    | bulk V pq hv => exact (heapify_spec V pq hv).1
    | insert pq x _ ih => exact insert_heapInv pq x ih
    | deleteMin pq pq1 m _ hd ih => exact ((deleteMin_spec pq m pq1 hd).2.2 ih).1
    | makeEmpty pq _ _ => exact heapInv_nil
  exact ⟨this, (isMinHeap_iff pq).2 this⟩

theorem C8_heap_invariant_witness :
    HeapInv (insert (insert (insert (empty : List Nat) 5) 3) 1) ∧
    isMinHeap (insert (insert (insert (empty : List Nat) 5) 3) 1) = true :=
  C8_heap_invariant _
    (Reachable.insert _ 1 (Reachable.insert _ 3 (Reachable.insert _ 5 Reachable.capacity)))

/-- C9: on a non-empty queue satisfying the heap invariant, `deleteMin` returns the value
`findMin` returns, that value is `≤` every element, the queue afterwards holds the
previous elements minus one occurrence of it (so the size drops by one), and the heap
invariant still holds. -/
theorem C9_deleteMin (pq : List α) (hne : pq ≠ []) (hinv : HeapInv pq) :
    ∃ m pq1, deleteMin pq = some (m, pq1) ∧ findMin pq = some m ∧ (∀ a ∈ pq, m ≤ a) ∧
      pq.Perm (m :: pq1) ∧ size pq1 + 1 = size pq ∧ HeapInv pq1 := by
  cases hd : deleteMin pq with
  | none => exact absurd ((deleteMin_eq_none_iff pq).1 hd) hne
  | some r =>
    obtain ⟨m, pq1⟩ := r
    obtain ⟨hf, hperm, hrest⟩ := deleteMin_spec pq m pq1 hd
    obtain ⟨hinv1, hmin⟩ := hrest hinv
    refine ⟨m, pq1, rfl, hf, hmin, hperm, ?_, hinv1⟩
    have := hperm.length_eq
    simp only [List.length_cons] at this
    exact this.symm

theorem C9_deleteMin_witness :
    ([1, 3, 2, (5 : Nat)] : List Nat) ≠ [] ∧
    ∃ m pq1, deleteMin [1, 3, 2, (5 : Nat)] = some (m, pq1) ∧
      findMin [1, 3, 2, (5 : Nat)] = some m ∧ (∀ a ∈ [1, 3, 2, (5 : Nat)], m ≤ a) ∧
      List.Perm [1, 3, 2, (5 : Nat)] (m :: pq1) ∧ size pq1 + 1 = size [1, 3, 2, (5 : Nat)] ∧
      HeapInv pq1 :=
  ⟨by decide, C9_deleteMin [1, 3, 2, 5] (by decide) ((isMinHeap_iff _).1 (by decide))⟩

/-- C10: on a queue satisfying the heap invariant, `insert x` leaves the previous
elements plus one occurrence of `x` (the size grows by one), and `findMin` afterwards
returns the smaller of the previous minimum and `x` (just `x` on an empty queue). -/
theorem C10_insert (pq : List α) (x : α) (hinv : HeapInv pq) :
    (insert pq x).Perm (x :: pq) ∧ size (insert pq x) = size pq + 1 ∧
    findMin (insert pq x) =
      some (match findMin pq with
            | some m => min m x
            | none => x) ∧
    HeapInv (insert pq x) := by
  have hperm := insert_perm pq x
  have hinv2 := insert_heapInv pq x hinv
  refine ⟨hperm, insert_length pq x, ?_, hinv2⟩
  cases hq : insert pq x with
  | nil => have := insert_length pq x; rw [hq] at this; cases this
  | cons h t =>
    rw [hq] at hperm hinv2
    have hmin := heapInv_head_le h t hinv2
    have hmem : h ∈ x :: pq := hperm.subset (List.mem_cons_self _ _)
    have hx : h ≤ x := hmin x (hperm.symm.subset (List.mem_cons_self _ _))
    simp only [findMin, List.head?_cons, Option.some.injEq]
    cases pq with
    | nil =>
      simp only [List.head?_nil]
      rcases List.mem_cons.1 hmem with h1 | h1
      · exact h1
      · cases h1
    | cons m t0 =>
      simp only [List.head?_cons]
      have hm : h ≤ m :=
        hmin m (hperm.symm.subset (List.mem_cons_of_mem _ (List.mem_cons_self _ _)))
      apply le_antisymm (le_min hm hx)
      rcases List.mem_cons.1 hmem with h1 | h1
      · rw [h1]; exact min_le_right _ _
      · exact le_trans (min_le_left _ _) (heapInv_head_le m t0 hinv h h1)

theorem C10_insert_witness :
    (insert [2, 3, (5 : Nat)] 1).Perm (1 :: [2, 3, 5]) ∧
    size (insert [2, 3, (5 : Nat)] 1) = size [2, 3, (5 : Nat)] + 1 ∧
    findMin (insert [2, 3, (5 : Nat)] 1) =
      some (match findMin [2, 3, (5 : Nat)] with
            | some m => min m 1
            | none => 1) ∧
    HeapInv (insert [2, 3, (5 : Nat)] 1) :=
  C10_insert [2, 3, 5] 1 ((isMinHeap_iff _).1 (by decide))

end PriorityQueue

namespace Graph

theorem links_iff (e ed : Edge) :
    e.links_same_nodes ed = true ↔ e.from_ = ed.from_ ∧ e.to_ = ed.to_ := by
  simp [Edge.links_same_nodes]

theorem any_links_iff (e : Edge) (row : List Edge) (a : Nat) (hrow : ∀ x ∈ row, x.from_ = a)
    (he : e.from_ = a) :
    row.any (fun ed => e.links_same_nodes ed) = true ↔ ∃ x ∈ row, x.to_ = e.to_ := by
  simp only [List.any_eq_true, links_iff]
  constructor
  · rintro ⟨x, hx, _, h2⟩; exact ⟨x, hx, h2.symm⟩
  · rintro ⟨x, hx, h2⟩; exact ⟨x, hx, by rw [he, hrow x hx], h2.symm⟩

theorem updateWeight_spec (e : Edge) (a : Nat) (he : e.from_ = a) (row : List Edge) :
    RowOK a row → (∃ x ∈ row, x.to_ = e.to_) →
    (∀ x, x ∈ Digraph.updateWeight e row ↔ x = e ∨ (x ∈ row ∧ x.to_ ≠ e.to_)) ∧
    RowOK a (Digraph.updateWeight e row) := by
  induction row with
  | nil => rintro _ ⟨x, hx, _⟩; cases hx
  | cons ed rest ih =>
    intro hok hex
    obtain ⟨htag, hpw⟩ := hok
    rw [List.pairwise_cons] at hpw
    have hedf : ed.from_ = a := htag ed (List.mem_cons_self _ _)
    simp only [Digraph.updateWeight]
    by_cases hl : e.links_same_nodes ed = true
    · rw [if_pos hl]
      obtain ⟨h1, h2⟩ := (links_iff e ed).1 hl
      have hee : ({ ed with weight := e.weight } : Edge) = e := by
        cases e; cases ed; simp_all
      rw [hee]
      refine ⟨?_, ?_, ?_⟩
      · intro x
        simp only [List.mem_cons]
        constructor
        · rintro (h | h)
          · exact Or.inl h
          · exact Or.inr ⟨Or.inr h, by rw [h2]; exact Ne.symm (hpw.1 x h)⟩
        · rintro (h | ⟨h | h, hne⟩)
          · exact Or.inl h
          · rw [h] at hne; exact absurd h2.symm hne
          · exact Or.inr h
      · intro x hx
        rcases List.mem_cons.1 hx with h | h
        · rw [h]; exact he
        · exact htag x (List.mem_cons_of_mem _ h)
      · rw [List.pairwise_cons]
        exact ⟨fun y hy => by rw [h2]; exact hpw.1 y hy, hpw.2⟩
    · rw [if_neg hl]
      have hne : ed.to_ ≠ e.to_ := by
        intro h
        exact hl ((links_iff e ed).2 ⟨by rw [he, hedf], h.symm⟩)
      have hex2 : ∃ x ∈ rest, x.to_ = e.to_ := by
        obtain ⟨x, hx, hxe⟩ := hex
        rcases List.mem_cons.1 hx with h | h
        · rw [h] at hxe; exact absurd hxe hne
        · exact ⟨x, h, hxe⟩
      obtain ⟨ihm, iht, ihp⟩ := ih ⟨fun x hx => htag x (List.mem_cons_of_mem _ hx), hpw.2⟩ hex2
      refine ⟨?_, ?_, ?_⟩
      · intro x
        simp only [List.mem_cons, ihm]
        constructor
        · rintro (h | h | ⟨h, h2⟩)
          · exact Or.inr ⟨Or.inl h, by rw [h]; exact hne⟩
          · exact Or.inl h
          · exact Or.inr ⟨Or.inr h, h2⟩
        · rintro (h | ⟨h | h, h2⟩)
          · exact Or.inr (Or.inl h)
          · exact Or.inl h
          · exact Or.inr (Or.inr ⟨h, h2⟩)
      · intro x hx
        rcases List.mem_cons.1 hx with h | h
        · rw [h]; exact hedf
        · exact iht x h
      · rw [List.pairwise_cons]
        refine ⟨?_, ihp⟩
        intro y hy
        rcases (ihm y).1 hy with h | ⟨h, _⟩
        · rw [h]; exact hne
        · exact hpw.1 y h

theorem append_spec (e : Edge) (a : Nat) (he : e.from_ = a) (row : List Edge)
    (hok : RowOK a row) (hno : ¬ ∃ x ∈ row, x.to_ = e.to_) :
    (∀ x, x ∈ row ++ [e] ↔ x = e ∨ (x ∈ row ∧ x.to_ ≠ e.to_)) ∧ RowOK a (row ++ [e]) := by
  refine ⟨?_, ?_, ?_⟩
  · intro x
    simp only [List.mem_append, List.mem_singleton]
    constructor
    · rintro (h | h)
      · exact Or.inr ⟨h, fun h2 => hno ⟨x, h, h2⟩⟩
      · exact Or.inl h
    · rintro (h | ⟨h, _⟩)
      · exact Or.inr h
      · exact Or.inl h
  · intro x hx
    rcases List.mem_append.1 hx with h | h
    · exact hok.1 x h
    · simp only [List.mem_singleton] at h; rw [h]; exact he
  · rw [List.pairwise_append]
    refine ⟨hok.2, List.pairwise_singleton _ _, ?_⟩
    intro x hx y hy
    simp only [List.mem_singleton] at hy
    rw [hy]
    exact fun h2 => hno ⟨x, hx, h2⟩

theorem eraseEdge_spec (e : Edge) (a : Nat) (he : e.from_ = a) (row : List Edge) :
    RowOK a row →
    (∀ x, x ∈ Digraph.eraseEdge e row ↔ (x ∈ row ∧ x.to_ ≠ e.to_)) ∧
    RowOK a (Digraph.eraseEdge e row) := by
  induction row with
  | nil =>
    intro _
    exact ⟨fun x => by simp [Digraph.eraseEdge], by simp [Digraph.eraseEdge, RowOK]⟩
  | cons ed rest ih =>
    intro hok
    obtain ⟨htag, hpw⟩ := hok
    rw [List.pairwise_cons] at hpw
    have hedf : ed.from_ = a := htag ed (List.mem_cons_self _ _)
    have hrest : RowOK a rest := ⟨fun x hx => htag x (List.mem_cons_of_mem _ hx), hpw.2⟩
    simp only [Digraph.eraseEdge]
    by_cases hl : e.links_same_nodes ed = true
    · rw [if_pos hl]
      obtain ⟨h1, h2⟩ := (links_iff e ed).1 hl
      refine ⟨?_, hrest⟩
      intro x
      simp only [List.mem_cons]
      constructor
      · intro h
        exact ⟨Or.inr h, by rw [h2]; exact Ne.symm (hpw.1 x h)⟩
      · rintro ⟨h | h, hne⟩
        · rw [h] at hne; exact absurd h2.symm hne
        · exact h
    · rw [if_neg hl]
      have hne : ed.to_ ≠ e.to_ := by
        intro h
        exact hl ((links_iff e ed).2 ⟨by rw [he, hedf], h.symm⟩)
      obtain ⟨ihm, iht, ihp⟩ := ih hrest
      refine ⟨?_, ?_, ?_⟩
      · intro x
        simp only [List.mem_cons, ihm]
        constructor
        · rintro (h | ⟨h, h2⟩)
          · exact ⟨Or.inl h, by rw [h]; exact hne⟩
          · exact ⟨Or.inr h, h2⟩
        · rintro ⟨h | h, h2⟩
          · exact Or.inl h
          · exact Or.inr ⟨h, h2⟩
      · intro x hx
        rcases List.mem_cons.1 hx with h | h
        · rw [h]; exact hedf
        · exact iht x h
      · rw [List.pairwise_cons]
        exact ⟨fun y hy => hpw.1 y ((ihm y).1 hy).1, ihp⟩

theorem edge_insertion_spec (T : List (List Edge)) (n : Int) (e : Edge)
    (hT : RowsOK T) (hlen : e.from_ < T.length) :
    (edge_insertion T n e).1.length = T.length ∧
    (∀ v x, x ∈ (edge_insertion T n e).1.getD v [] ↔
      ((v = e.from_ ∧ x = e) ∨ (x ∈ T.getD v [] ∧ ¬ (v = e.from_ ∧ x.to_ = e.to_)))) ∧
    RowsOK (edge_insertion T n e).1 := by
  have hrow := hT e.from_
  have key : ∀ row1 : List Edge,
      ((∀ x, x ∈ row1 ↔ x = e ∨ (x ∈ T.getD e.from_ [] ∧ x.to_ ≠ e.to_)) ∧
        RowOK e.from_ row1) →
      (T.set e.from_ row1).length = T.length ∧
      (∀ v x, x ∈ (T.set e.from_ row1).getD v [] ↔
        ((v = e.from_ ∧ x = e) ∨ (x ∈ T.getD v [] ∧ ¬ (v = e.from_ ∧ x.to_ = e.to_)))) ∧
      RowsOK (T.set e.from_ row1) := by
    rintro row1 ⟨hm, hok⟩
    refine ⟨by simp, ?_, ?_⟩
    · intro v x
      rw [getD_set]
      by_cases hv : e.from_ = v
      · subst hv
        rw [if_pos ⟨rfl, hlen⟩, hm]
        constructor
        · rintro (h | ⟨h, h2⟩)
          · exact Or.inl ⟨rfl, h⟩
          · exact Or.inr ⟨h, fun h3 => h2 h3.2⟩
        · rintro (⟨_, h⟩ | ⟨h, h2⟩)
          · exact Or.inl h
          · exact Or.inr ⟨h, fun h3 => h2 ⟨rfl, h3⟩⟩
      · rw [if_neg (fun h => hv h.1)]
        constructor
        · intro h; exact Or.inr ⟨h, fun h3 => hv h3.1.symm⟩
        · rintro (⟨h, _⟩ | ⟨h, _⟩)
          · exact absurd h.symm hv
          · exact h
    · intro v
      rw [getD_set]
      by_cases hv : e.from_ = v
      · subst hv; rw [if_pos ⟨rfl, hlen⟩]; exact hok
      · rw [if_neg (fun h => hv h.1)]; exact hT v
  unfold edge_insertion
  simp only
  by_cases hany : (T.getD e.from_ []).any (fun ed => e.links_same_nodes ed) = true
  · rw [if_pos hany]
    exact key _ (updateWeight_spec e e.from_ rfl _ hrow
      ((any_links_iff e _ e.from_ hrow.1 rfl).1 hany))
  · rw [if_neg hany]
    exact key _ (append_spec e e.from_ rfl _ hrow
      (fun h => hany ((any_links_iff e _ e.from_ hrow.1 rfl).2 h)))

theorem edgeRemoval_spec (T : List (List Edge)) (n : Int) (e : Edge)
    (T1 : List (List Edge)) (n1 : Int)
    (hT : RowsOK T) (hlen : e.from_ < T.length) (h : edgeRemoval T n e = some (T1, n1)) :
    T1.length = T.length ∧
    (∀ v x, x ∈ T1.getD v [] ↔ (x ∈ T.getD v [] ∧ ¬ (v = e.from_ ∧ x.to_ = e.to_))) ∧
    RowsOK T1 := by
  unfold edgeRemoval at h
  simp only at h
  split at h
  · simp only [Option.some.injEq, Prod.mk.injEq] at h
    obtain ⟨rfl, -⟩ := h
    obtain ⟨hm, hok⟩ := eraseEdge_spec e e.from_ rfl _ (hT e.from_)
    refine ⟨by simp, ?_, ?_⟩
    · intro v x
      rw [getD_set]
      by_cases hv : e.from_ = v
      · subst hv
        rw [if_pos ⟨rfl, hlen⟩, hm]
        constructor
        · rintro ⟨h, h2⟩; exact ⟨h, fun h3 => h2 h3.2⟩
        · rintro ⟨h, h2⟩; exact ⟨h, fun h3 => h2 ⟨rfl, h3⟩⟩
      · rw [if_neg (fun h => hv h.1)]
        constructor
        · intro h; exact ⟨h, fun h3 => hv h3.1.symm⟩
        · rintro ⟨h, _⟩; exact h
    · intro v
      rw [getD_set]
      by_cases hv : e.from_ = v
      · subst hv; rw [if_pos ⟨rfl, hlen⟩]; exact hok
      · rw [if_neg (fun h => hv h.1)]; exact hT v
  · cases h

theorem wf_rowsOK (g : Graph) (hg : WF g) : RowsOK g.table :=
  fun v => ⟨fun x hx => (hg.range v x hx).1, hg.uniq v⟩

theorem reverse_reverse (e : Edge) : e.reverse.reverse = e := by
  cases e; rfl

theorem graph_new_wf (n : Nat) (g : Graph) (h : new n = some g) : WF g := by
  unfold new at h
  split at h
  · next hn =>
    simp only [Option.some.injEq] at h
    subst h
    have hrow : ∀ v, (List.replicate (n + 1) ([] : List Edge)).getD v [] = [] := by
      intro v
      simp only [List.getD_eq_getElem?_getD, List.getElem?_replicate]
      split <;> rfl
    exact
      { size_pos := hn
        table_len := by simp
        row0 := hrow 0
        range := by intro v e he; rw [hrow v] at he; cases he
        uniq := by intro v; rw [hrow v]; exact List.Pairwise.nil
        mirror := by intro v e he; rw [hrow v] at he; cases he }
  · cases h

theorem graph_insertEdge_wf (g g1 : Graph) (e : Edge) (hg : WF g) (h : insertEdge g e = some g1) :
    WF g1 ∧ g1.size = g.size := by
  unfold insertEdge at h
  split at h
  · next hr =>
    simp only [Option.some.injEq] at h
    subst h
    obtain ⟨hl1, hm1, hok1⟩ := edge_insertion_spec g.table g.n_edges e (wf_rowsOK g hg)
      (by rw [hg.table_len]; omega)
    obtain ⟨hl2, hm2, hok2⟩ := edge_insertion_spec (edge_insertion g.table g.n_edges e).1
      (edge_insertion g.table g.n_edges e).2 e.reverse hok1
      (by rw [hl1, hg.table_len]; show e.to_ < _; omega)
    have hrf : e.reverse.from_ = e.to_ := rfl
    have hrt : e.reverse.to_ = e.from_ := rfl
    refine ⟨?_, rfl⟩
    exact
      { size_pos := hg.size_pos
        table_len := by show _ = g.size + 1; rw [hl2, hl1, hg.table_len]
        row0 := by
          apply List.eq_nil_iff_forall_not_mem.2
          intro x hx
          change x ∈ _ at hx
          rw [hm2, hm1, hg.row0] at hx
          rcases hx with ⟨h, _⟩ | ⟨⟨h, _⟩ | ⟨h, _⟩, _⟩
          · rw [hrf] at h; omega
          · omega
          · cases h
        range := by
          intro v x hx
          change x ∈ _ at hx
          rw [hm2, hm1] at hx
          rcases hx with ⟨h, h2⟩ | ⟨⟨h, h2⟩ | ⟨h, _⟩, _⟩
          · subst h2; rw [h]; exact ⟨rfl, hr.1, hr.2.1⟩
          · subst h2; rw [h]; exact ⟨rfl, hr.2.2.1, hr.2.2.2⟩
          · exact hg.range v x h
        uniq := fun v => (hok2 v).2
        mirror := by
          intro v x hx
          change x ∈ _ at hx
          show x.reverse ∈ (edge_insertion _ _ e.reverse).1.getD x.to_ []
          rw [hm2, hm1] at hx
          rw [hm2, hm1]
          rcases hx with ⟨h, h2⟩ | ⟨⟨h, h2⟩ | ⟨h, h3⟩, h4⟩
          · subst h2
            rw [reverse_reverse]
            by_cases hself : e.from_ = e.to_
            · left
              refine ⟨by rw [hrt, hrf]; exact hself, ?_⟩
              cases e; simp only [Edge.reverse] at hself ⊢; simp_all
            · right
              refine ⟨Or.inl ⟨rfl, rfl⟩, ?_⟩
              rintro ⟨h5, _⟩
              rw [hrt, hrf] at h5; exact hself h5
          · subst h2
            left; exact ⟨rfl, rfl⟩
          · right
            have hmir := hg.mirror v x h
            have hxf := (hg.range v x h).1
            have hrvt : x.reverse.to_ = v := hxf
            refine ⟨Or.inr ⟨hmir, ?_⟩, ?_⟩
            · rintro ⟨h5, h6⟩
              rw [hrvt] at h6
              exact h4 ⟨by rw [hrf]; exact h6, by rw [hrt]; exact h5⟩
            · rintro ⟨h5, h6⟩
              rw [hrvt, hrt] at h6
              rw [hrf] at h5
              exact h3 ⟨h6, h5⟩ }
  · cases h

theorem removeEdge_wf (g g1 : Graph) (e : Edge) (hg : WF g) (h : removeEdge g e = some g1) :
    WF g1 ∧ g1.size = g.size := by
  unfold removeEdge at h
  split at h
  · next hr =>
    cases h1 : edgeRemoval g.table g.n_edges e with
    | none => rw [h1] at h; cases h
    | some r1 =>
      rw [h1] at h
      simp only at h
      cases h2 : edgeRemoval r1.1 r1.2 e.reverse with
      | none => rw [h2] at h; cases h
      | some r2 =>
        rw [h2] at h
        simp only [Option.some.injEq] at h
        subst h
        obtain ⟨T1, n1⟩ := r1
        obtain ⟨T2, n2⟩ := r2
        obtain ⟨hl1, hm1, hok1⟩ := edgeRemoval_spec g.table g.n_edges e T1 n1 (wf_rowsOK g hg)
          (by rw [hg.table_len]; omega) h1
        obtain ⟨hl2, hm2, hok2⟩ := edgeRemoval_spec T1 n1 e.reverse T2 n2 hok1
          (by rw [hl1, hg.table_len]; show e.to_ < _; omega) h2
        have hrf : e.reverse.from_ = e.to_ := rfl
        have hrt : e.reverse.to_ = e.from_ := rfl
        refine ⟨?_, rfl⟩
        exact
          { size_pos := hg.size_pos
            table_len := by show T2.length = g.size + 1; rw [hl2, hl1, hg.table_len]
            row0 := by
              apply List.eq_nil_iff_forall_not_mem.2
              intro x hx
              change x ∈ T2.getD 0 [] at hx
              rw [hm2, hm1, hg.row0] at hx
              exact absurd hx.1.1 (List.not_mem_nil _)
            range := by
              intro v x hx
              change x ∈ T2.getD v [] at hx
              rw [hm2, hm1] at hx
              exact hg.range v x hx.1.1
            uniq := fun v => (hok2 v).2
            mirror := by
              intro v x hx
              change x ∈ T2.getD v [] at hx
              show x.reverse ∈ T2.getD x.to_ []
              rw [hm2, hm1] at hx
              rw [hm2, hm1]
              obtain ⟨⟨h, h3⟩, h4⟩ := hx
              have hmir := hg.mirror v x h
              have hxf := (hg.range v x h).1
              have hrvt : x.reverse.to_ = v := hxf
              refine ⟨⟨hmir, ?_⟩, ?_⟩
              · rintro ⟨h5, h6⟩
                rw [hrvt] at h6
                exact h4 ⟨by rw [hrf]; exact h6, by rw [hrt]; exact h5⟩
              · rintro ⟨h5, h6⟩
                rw [hrvt, hrt] at h6
                rw [hrf] at h5
                exact h3 ⟨h6, h5⟩ }
  · cases h

theorem reachable_wf (g : Graph) (h : Reachable g) : WF g := by
  induction h with
  | new n g h => exact graph_new_wf n g h
  | insertEdge g g1 e _ h ih => exact (graph_insertEdge_wf g g1 e ih h).1
  | removeEdge g g1 e _ h ih => exact (removeEdge_wf g g1 e ih h).1

theorem insertEdges_reachable (V : List Edge) : ∀ g g1 : Graph, Reachable g →
    insertEdges V g = some g1 → Reachable g1 := by
  induction V with
  | nil =>
    intro g g1 hg h
    simp only [insertEdges, Option.some.injEq] at h
    subst h; exact hg
  | cons e es ih =>
    intro g g1 hg h
    simp only [insertEdges] at h
    cases h1 : insertEdge g e with
    | none => rw [h1] at h; cases h
    | some g2 =>
      rw [h1] at h
      exact ih g2 g1 (Reachable.insertEdge g g2 e hg h1) h

theorem ofEdges_reachable (V : List Edge) (n : Nat) (g : Graph) (h : ofEdges V n = some g) :
    Reachable g := by
  unfold ofEdges at h
  cases h1 : new n with
  | none => rw [h1] at h; cases h
  | some g0 =>
    rw [h1] at h
    exact insertEdges_reachable V g0 g (Reachable.new n g0 h1) h

end Graph

theorem adj_symm (es : List Edge) (u v : Nat) (h : Adj es u v) : Adj es v u := by
  obtain ⟨e, he, h1⟩ := h
  exact ⟨e, he, h1.symm⟩

theorem conn_refl (es : List Edge) (u : Nat) : Conn es u u := Relation.ReflTransGen.refl

theorem conn_trans (es : List Edge) (u v w : Nat) (h1 : Conn es u v) (h2 : Conn es v w) :
    Conn es u w := Relation.ReflTransGen.trans h1 h2

theorem conn_symm (es : List Edge) (u v : Nat) (h : Conn es u v) : Conn es v u := by
  induction h with
  | refl => exact conn_refl es u
  | tail _ hbc ih => exact Relation.ReflTransGen.head (adj_symm es _ _ hbc) ih

theorem conn_mono (A B : List Edge) (hsub : ∀ e ∈ A, e ∈ B) (u v : Nat) (h : Conn A u v) :
    Conn B u v := by
  induction h with
  | refl => exact conn_refl B u
  | tail _ hbc ih =>
    obtain ⟨e, he, h1⟩ := hbc
    exact Relation.ReflTransGen.tail ih ⟨e, hsub e he, h1⟩

theorem conn_congr (A B : List Edge) (h : ∀ e, e ∈ A ↔ e ∈ B) (u v : Nat) :
    Conn A u v ↔ Conn B u v :=
  ⟨conn_mono A B (fun e he => (h e).1 he) u v, conn_mono B A (fun e he => (h e).2 he) u v⟩

theorem conn_edge (es : List Edge) (e : Edge) (he : e ∈ es) : Conn es e.from_ e.to_ :=
  Relation.ReflTransGen.single ⟨e, he, Or.inl ⟨rfl, rfl⟩⟩

theorem conn_nil (u v : Nat) (h : Conn [] u v) : u = v := by
  induction h with
  | refl => rfl
  | tail _ hbc _ =>
    obtain ⟨e, he, _⟩ := hbc
    cases he

theorem link_comm (R : Nat → Nat → Prop) (a b x y : Nat) : Link R a b x y ↔ Link R b a x y := by
  unfold Link
  constructor <;> rintro (h | h | h)
  · exact Or.inl h
  · exact Or.inr (Or.inr h)
  · exact Or.inr (Or.inl h)
  · exact Or.inl h
  · exact Or.inr (Or.inr h)
  · exact Or.inr (Or.inl h)

theorem conn_cons (e : Edge) (A : List Edge) (x y : Nat) :
    Conn (e :: A) x y ↔ Link (Conn A) e.from_ e.to_ x y := by
  have hm : ∀ u v, Conn A u v → Conn (e :: A) u v :=
    conn_mono A (e :: A) (fun z hz => List.mem_cons_of_mem _ hz)
  have he : Conn (e :: A) e.from_ e.to_ := conn_edge _ e (List.mem_cons_self _ _)
  constructor
  · intro h
    induction h with
    | refl => exact Or.inl (conn_refl A x)
    | @tail z y _ hbc ih =>
      obtain ⟨f, hf, hfe⟩ := hbc
      rcases List.mem_cons.1 hf with rfl | hfA
      · rcases hfe with ⟨h1, h2⟩ | ⟨h1, h2⟩
        · subst h1; subst h2
          rcases ih with h | ⟨h3, h4⟩ | ⟨h3, h4⟩
          · exact Or.inr (Or.inl ⟨h, conn_refl A _⟩)
          · exact Or.inl (conn_trans A _ _ _ h3 (conn_symm A _ _ h4))
          · exact Or.inl h3
        · subst h1; subst h2
          rcases ih with h | ⟨h3, h4⟩ | ⟨h3, h4⟩
          · exact Or.inr (Or.inr ⟨h, conn_refl A _⟩)
          · exact Or.inl h3
          · exact Or.inl (conn_trans A _ _ _ h3 (conn_symm A _ _ h4))
      · have hzy : Conn A z y := Relation.ReflTransGen.single ⟨f, hfA, hfe⟩
        rcases ih with h | ⟨h3, h4⟩ | ⟨h3, h4⟩
        · exact Or.inl (conn_trans A _ _ _ h hzy)
        · exact Or.inr (Or.inl ⟨h3, conn_trans A _ _ _ h4 hzy⟩)
        · exact Or.inr (Or.inr ⟨h3, conn_trans A _ _ _ h4 hzy⟩)
  · rintro (h | ⟨h3, h4⟩ | ⟨h3, h4⟩)
    · exact hm _ _ h
    · exact conn_trans _ _ _ _ (hm _ _ h3) (conn_trans _ _ _ _ he (hm _ _ h4))
    · exact conn_trans _ _ _ _ (hm _ _ h3)
        (conn_trans _ _ _ _ (conn_symm _ _ _ he) (hm _ _ h4))

/-- Linking `u`-`v` or linking `a`-`b` gives the same relation when `u ~ a` and `b ~ v`. -/
theorem link_same (A : List Edge) (u v a b : Nat) (hua : Conn A u a) (hbv : Conn A b v)
    (x y : Nat) : Link (Conn A) u v x y ↔ Link (Conn A) a b x y := by
  have t := conn_trans A
  have s := conn_symm A
  constructor
  · rintro (h | ⟨h1, h2⟩ | ⟨h1, h2⟩)
    · exact Or.inl h
    · exact Or.inr (Or.inl ⟨t _ _ _ h1 hua, t _ _ _ hbv h2⟩)
    · exact Or.inr (Or.inr ⟨t _ _ _ h1 (s _ _ hbv), t _ _ _ (s _ _ hua) h2⟩)
  · rintro (h | ⟨h1, h2⟩ | ⟨h1, h2⟩)
    · exact Or.inl h
    · exact Or.inr (Or.inl ⟨t _ _ _ h1 (s _ _ hua), t _ _ _ (s _ _ hbv) h2⟩)
    · exact Or.inr (Or.inr ⟨t _ _ _ h1 hbv, t _ _ _ hua h2⟩)

/-- The relational core of the exchange step: with `c`-`d` and `a`-`b` both bridges, and
`u ~ a`, `b ~ v` once `c`-`d` is linked, the edge `c`-`d` stays a bridge when `a`-`b` is
replaced by `u`-`v`. -/
theorem bridge_exchange (A : List Edge) (a b c d u v : Nat)
    (H1 : ¬ Link (Conn A) a b c d) (H2 : ¬ Link (Conn A) c d a b)
    (H3 : Link (Conn A) c d u a) (H4 : Link (Conn A) c d b v) :
    ¬ Link (Conn A) u v c d := by
  have t := conn_trans A
  have s := conn_symm A
  have n1 : ¬ Conn A c d := fun h => H1 (Or.inl h)
  have n2 : ¬ (Conn A c a ∧ Conn A b d) := fun h => H1 (Or.inr (Or.inl h))
  have n3 : ¬ (Conn A c b ∧ Conn A a d) := fun h => H1 (Or.inr (Or.inr h))
  have m1 : ¬ Conn A a b := fun h => H2 (Or.inl h)
  rintro (G | ⟨G1, G2⟩ | ⟨G1, G2⟩)
  · exact n1 G
  · rcases H3 with h3 | ⟨h3, h3b⟩ | ⟨h3, h3b⟩
    · rcases H4 with h4 | ⟨h4, h4b⟩ | ⟨h4, h4b⟩
      · exact n2 ⟨t _ _ _ G1 h3, t _ _ _ h4 G2⟩
      · exact m1 (t _ _ _ (s _ _ h3) (t _ _ _ (s _ _ G1) (s _ _ h4)))
      · exact n1 (t _ _ _ h4b G2)
    · rcases H4 with h4 | ⟨h4, h4b⟩ | ⟨h4, h4b⟩
      · exact m1 (t _ _ _ (s _ _ h3b) (t _ _ _ (s _ _ G2) (s _ _ h4)))
      · exact n3 ⟨s _ _ h4, s _ _ h3b⟩
      · exact n1 (t _ _ _ h4b G2)
    · exact n1 (t _ _ _ G1 h3)
  · rcases H3 with h3 | ⟨h3, h3b⟩ | ⟨h3, h3b⟩
    · rcases H4 with h4 | ⟨h4, h4b⟩ | ⟨h4, h4b⟩
      · exact n3 ⟨t _ _ _ G1 (s _ _ h4), t _ _ _ (s _ _ h3) G2⟩
      · exact n1 (t _ _ _ G1 (s _ _ h4b))
      · exact m1 (t _ _ _ (s _ _ h3) (t _ _ _ G2 (s _ _ h4)))
    · exact n1 (t _ _ _ (s _ _ h3) G2)
    · rcases H4 with h4 | ⟨h4, h4b⟩ | ⟨h4, h4b⟩
      · exact m1 (t _ _ _ (s _ _ h3b) (t _ _ _ G1 (s _ _ h4)))
      · exact n1 (t _ _ _ G1 (s _ _ h4b))
      · exact n2 ⟨h3b, h4⟩

theorem mem_erase_nodup (T : List Edge) (hnd : T.Nodup) (r x : Edge) :
    x ∈ T.erase r ↔ x ≠ r ∧ x ∈ T := hnd.mem_erase_iff

/-- Exchange step, oriented: `r` joins `a` and `b`. -/
theorem exchange_oriented (T : List Edge) (e r : Edge) (a b : Nat)
    (hab : (r.from_ = a ∧ r.to_ = b) ∨ (r.from_ = b ∧ r.to_ = a))
    (hnd : T.Nodup) (hac : Acyclic T) (hr : r ∈ T) (he : e ∉ T)
    (hua : Conn (T.erase r) e.from_ a) (hbv : Conn (T.erase r) b e.to_)
    (hnot : ¬ Conn (T.erase r) e.from_ e.to_) :
    (e :: T.erase r).Nodup ∧ Acyclic (e :: T.erase r) ∧
    ∀ x y, Conn (e :: T.erase r) x y ↔ Conn T x y := by
  have hBnd : (T.erase r).Nodup := hnd.erase r
  have heB : e ∉ T.erase r := fun h => he (List.mem_of_mem_erase h)
  have hlinkr : ∀ (X : List Edge) (x y : Nat),
      Link (Conn X) r.from_ r.to_ x y ↔ Link (Conn X) a b x y := by
    intro X x y
    rcases hab with ⟨h1, h2⟩ | ⟨h1, h2⟩
    · rw [h1, h2]
    · rw [h1, h2]; exact link_comm _ _ _ _ _
  have hT : ∀ x y, Conn T x y ↔ Link (Conn (T.erase r)) a b x y := by
    intro x y
    rw [← hlinkr, ← conn_cons]
    apply conn_congr
    intro z
    rw [List.mem_cons, mem_erase_nodup T hnd]
    constructor
    · intro hz
      by_cases hzr : z = r
      · exact Or.inl hzr
      · exact Or.inr ⟨hzr, hz⟩
    · rintro (h | h)
      · rw [h]; exact hr
      · exact h.2
  refine ⟨List.nodup_cons.2 ⟨heB, hBnd⟩, ?_, ?_⟩
  · intro f hf
    rcases List.mem_cons.1 hf with rfl | hfB
    · rw [List.erase_cons_head]; exact hnot
    · have hfT : f ∈ T := List.mem_of_mem_erase hfB
      have hfe : f ≠ e := fun h => he (h ▸ hfT)
      have hfr : f ≠ r := ((mem_erase_nodup T hnd r f).1 hfB).1
      have herase : (e :: T.erase r).erase f = e :: (T.erase r).erase f := by
        rw [List.erase_cons_tail]
        simpa using hfe.symm
      rw [herase, conn_cons]
      -- facts about the relation of `(T.erase r).erase f`
      have hB : ∀ x y, Conn (T.erase r) x y ↔
          Link (Conn ((T.erase r).erase f)) f.from_ f.to_ x y := by
        intro x y
        rw [← conn_cons]
        apply conn_congr
        intro z
        rw [List.mem_cons, mem_erase_nodup _ hBnd]
        constructor
        · intro hz
          by_cases hzf : z = f
          · exact Or.inl hzf
          · exact Or.inr ⟨hzf, hz⟩
        · rintro (h | h)
          · rw [h]; exact hfB
          · exact h.2
      have hTf : ∀ x y, Conn (T.erase f) x y ↔
          Link (Conn ((T.erase r).erase f)) a b x y := by
        intro x y
        rw [← hlinkr, ← conn_cons]
        apply conn_congr
        intro z
        rw [List.mem_cons, mem_erase_nodup _ hBnd, mem_erase_nodup T hnd, mem_erase_nodup T hnd]
        constructor
        · rintro ⟨h1, h2⟩
          by_cases hzr : z = r
          · exact Or.inl hzr
          · exact Or.inr ⟨h1, hzr, h2⟩
        · rintro (h | ⟨h1, _, h3⟩)
          · rw [h]; exact ⟨Ne.symm hfr, hr⟩
          · exact ⟨h1, h3⟩
      have H1 := hac f hfT
      rw [hTf] at H1
      have H2 : ¬ Conn (T.erase r) a b := by
        intro h
        apply hac r hr
        rcases hab with ⟨h1, h2⟩ | ⟨h1, h2⟩
        · rw [h1, h2]; exact h
        · rw [h1, h2]; exact conn_symm _ _ _ h
      rw [hB] at H2
      exact bridge_exchange _ a b f.from_ f.to_ e.from_ e.to_ H1 H2 ((hB _ _).1 hua)
        ((hB _ _).1 hbv)
  · intro x y
    rw [conn_cons, hT]
    exact link_same _ _ _ _ _ hua hbv x y

/-- Exchange step: in a forest `T` whose edge `r` separates the endpoints of `e ∉ T`,
replacing `r` by `e` gives a forest with the same connectivity. -/
theorem exchange (T : List Edge) (e r : Edge)
    (hnd : T.Nodup) (hac : Acyclic T) (hr : r ∈ T) (he : e ∉ T)
    (hconn : Conn T e.from_ e.to_) (hnot : ¬ Conn (T.erase r) e.from_ e.to_) :
    (e :: T.erase r).Nodup ∧ Acyclic (e :: T.erase r) ∧
    ∀ x y, Conn (e :: T.erase r) x y ↔ Conn T x y := by
  have hT : Conn (r :: T.erase r) e.from_ e.to_ := by
    apply conn_mono T _ _ _ _ hconn
    intro z hz
    by_cases hzr : z = r
    · rw [hzr]; exact List.mem_cons_self _ _
    · exact List.mem_cons_of_mem _ ((mem_erase_nodup T hnd r z).2 ⟨hzr, hz⟩)
  rw [conn_cons] at hT
  rcases hT with h | ⟨h1, h2⟩ | ⟨h1, h2⟩
  · exact absurd h hnot
  · exact exchange_oriented T e r r.from_ r.to_ (Or.inl ⟨rfl, rfl⟩) hnd hac hr he h1 h2 hnot
  · exact exchange_oriented T e r r.to_ r.from_ (Or.inr ⟨rfl, rfl⟩) hnd hac hr he h1 h2 hnot

theorem weightSum_cons (e : Edge) (T : List Edge) : weightSum (e :: T) = e.weight + weightSum T := by
  simp [weightSum]

theorem weightSum_perm (A B : List Edge) (h : A.Perm B) : weightSum A = weightSum B := by
  unfold weightSum
  exact (h.map _).sum_eq

theorem weightSum_erase (T : List Edge) (r : Edge) (hr : r ∈ T) :
    weightSum (T.erase r) + r.weight = weightSum T := by
  have := weightSum_perm _ _ (List.perm_cons_erase hr)
  rw [weightSum_cons] at this
  omega

/-- Walking through `R ++ A` from a pair not connected in `A`: some edge `r` of `R` is
the first to connect the pair. -/
theorem first_connecting (A : List Edge) (u v : Nat) (hnot : ¬ Conn A u v) :
    ∀ R : List Edge, Conn (R ++ A) u v →
    ∃ R1 r R2, R = R1 ++ r :: R2 ∧ ¬ Conn (R2 ++ A) u v ∧ Conn (r :: (R2 ++ A)) u v := by
  intro R
  induction R with
  | nil => intro h; exact absurd h hnot
  | cons r R ih =>
    intro h
    by_cases hc : Conn (R ++ A) u v
    · obtain ⟨R1, r1, R2, h1, h2, h3⟩ := ih hc
      exact ⟨r :: R1, r1, R2, by rw [h1]; rfl, h2, h3⟩
    · exact ⟨[], r, R, rfl, hc, h⟩

theorem conn_snoc (e : Edge) (A : List Edge) (x y : Nat) :
    Conn (A ++ [e]) x y ↔ Link (Conn A) e.from_ e.to_ x y := by
  rw [← conn_cons]
  apply conn_congr
  intro z
  rw [List.mem_append, List.mem_singleton, List.mem_cons]
  exact or_comm

/-- Improvement step of the greedy argument. In a spanning forest `T` of `E`, let the
edges marked `good` not connect the endpoints of `e ∈ E`, `e ∉ T`. Then some unmarked
edge `r` of `T` can be replaced by `e`, giving again a spanning forest of `E`. -/
theorem improve (E T : List Edge) (e : Edge) (good : Edge → Bool)
    (hT : IsSpanningForest E T) (heE : e ∈ E) (heT : e ∉ T)
    (hgood : ¬ Conn (T.filter good) e.from_ e.to_) :
    ∃ r, r ∈ T ∧ good r = false ∧ IsSpanningForest E (e :: T.erase r) ∧
      weightSum (e :: T.erase r) + r.weight = weightSum T + e.weight := by
  have hconnT : Conn T e.from_ e.to_ := hT.spans _ _ (conn_edge E e heE)
  have hsplit : ∀ z, z ∈ T → z ∈ T.filter (fun x => !good x) ++ T.filter good := by
    intro z hz
    rw [List.mem_append, List.mem_filter, List.mem_filter]
    cases hg : good z
    · exact Or.inl ⟨hz, by simp⟩
    · exact Or.inr ⟨hz, rfl⟩
  have hconn2 := conn_mono T _ hsplit _ _ hconnT
  obtain ⟨R1, r, R2, hR, hn, hc⟩ := first_connecting (T.filter good) e.from_ e.to_ hgood _ hconn2
  have hRnd : (T.filter (fun x => !good x)).Nodup := hT.nodup.filter _
  have hrR : r ∈ T.filter (fun x => !good x) := by rw [hR]; simp
  have hrT : r ∈ T := (List.mem_filter.1 hrR).1
  have hrg : good r = false := by
    have := (List.mem_filter.1 hrR).2
    simpa using this
  have hrR2 : r ∉ R2 := by
    rw [hR] at hRnd
    have := (List.nodup_append.1 hRnd).2.1
    exact (List.nodup_cons.1 this).1
  have hX : ∀ z, z ∈ R2 ++ T.filter good → z ∈ T.erase r := by
    intro z hz
    rw [mem_erase_nodup T hT.nodup]
    rcases List.mem_append.1 hz with h | h
    · refine ⟨fun hzr => hrR2 (hzr ▸ h), ?_⟩
      have : z ∈ T.filter (fun x => !good x) := by rw [hR]; simp [h]
      exact (List.mem_filter.1 this).1
    · refine ⟨?_, (List.mem_filter.1 h).1⟩
      intro hzr
      have := (List.mem_filter.1 h).2
      rw [hzr, hrg] at this; cases this
  have hm := conn_mono _ _ hX
  have hnot : ¬ Conn (T.erase r) e.from_ e.to_ := by
    intro h
    rw [conn_cons] at hc
    apply hT.acyclic r hrT
    have t := conn_trans (T.erase r)
    have s := conn_symm (T.erase r)
    rcases hc with h1 | ⟨h1, h2⟩ | ⟨h1, h2⟩
    · exact absurd h1 hn
    · exact t _ _ _ (s _ _ (hm _ _ h1)) (t _ _ _ h (s _ _ (hm _ _ h2)))
    · exact t _ _ _ (hm _ _ h2) (t _ _ _ (s _ _ h) (hm _ _ h1))
  obtain ⟨hnd, hac, hiff⟩ := exchange T e r hT.nodup hT.acyclic hrT heT hconnT hnot
  refine ⟨r, hrT, hrg, ⟨hnd, ?_, hac, ?_⟩, ?_⟩
  · intro z hz
    rcases List.mem_cons.1 hz with h | h
    · rw [h]; exact heE
    · exact hT.sub z (List.mem_of_mem_erase h)
  · intro u v huv
    exact (hiff u v).2 (hT.spans u v huv)
  · rw [weightSum_cons]
    have := weightSum_erase T r hrT
    omega

/-- A spanning forest that contains a spanning, duplicate-free edge set is that set. -/
theorem forest_eq_of_sub (E T P : List Edge) (hT : IsSpanningForest E T)
    (hPnd : P.Nodup) (hPT : ∀ x ∈ P, x ∈ T) (hPs : ∀ u v, Conn E u v → Conn P u v) :
    T.Perm P := by
  rw [List.perm_ext_iff_of_nodup hT.nodup hPnd]
  intro x
  constructor
  · intro hx
    by_contra hxP
    apply hT.acyclic x hx
    apply conn_mono P
    · intro z hz
      rw [mem_erase_nodup T hT.nodup]
      exact ⟨fun h => hxP (h ▸ hz), hPT z hz⟩
    · exact hPs _ _ (conn_edge E x (hT.sub x hx))
  · exact hPT x

theorem sel_sublist (P K : List Edge) (h : KruskalSel P K) : K.Sublist P := by
  induction h with
  | nil => exact List.Sublist.refl _
  | accept P K e _ _ ih => exact List.Sublist.append ih (List.Sublist.refl _)
  | reject P K e _ _ ih => exact ih.trans (List.sublist_append_left _ _)

theorem sel_conn (P K : List Edge) (h : KruskalSel P K) :
    ∀ x ∈ P, Conn K x.from_ x.to_ := by
  induction h with
  | nil => intro x hx; cases hx
  | accept P K e _ _ ih =>
    intro x hx
    rcases List.mem_append.1 hx with h1 | h1
    · exact conn_mono K _ (fun z hz => List.mem_append_left _ hz) _ _ (ih x h1)
    · simp only [List.mem_singleton] at h1
      rw [h1]; exact conn_edge _ e (by simp)
  | reject P K e _ hc ih =>
    intro x hx
    rcases List.mem_append.1 hx with h1 | h1
    · exact ih x h1
    · simp only [List.mem_singleton] at h1
      rw [h1]; exact hc

theorem conn_of_edges (P K : List Edge) (h : ∀ x ∈ P, Conn K x.from_ x.to_) (u v : Nat)
    (huv : Conn P u v) : Conn K u v := by
  induction huv with
  | refl => exact conn_refl K u
  | tail _ hbc ih =>
    obtain ⟨f, hf, hfe⟩ := hbc
    rcases hfe with ⟨h1, h2⟩ | ⟨h1, h2⟩
    · subst h1; subst h2; exact conn_trans K _ _ _ ih (h f hf)
    · subst h1; subst h2
      exact conn_trans K _ _ _ ih (conn_symm K _ _ (h f hf))

theorem acyclic_snoc (K : List Edge) (e : Edge) (hac : Acyclic K) (heK : e ∉ K)
    (hnot : ¬ Conn K e.from_ e.to_) : Acyclic (K ++ [e]) := by
  intro f hf
  rcases List.mem_append.1 hf with hfK | hfe
  · have hfe : f ≠ e := fun h => heK (h ▸ hfK)
    rw [List.erase_append_left _ hfK, conn_snoc]
    have hm := conn_mono (K.erase f) K (fun z hz => List.mem_of_mem_erase hz)
    have hf2 := conn_edge K f hfK
    have t := conn_trans K
    have s := conn_symm K
    rintro (h | ⟨h1, h2⟩ | ⟨h1, h2⟩)
    · exact hac f hfK h
    · exact hnot (t _ _ _ (s _ _ (hm _ _ h1)) (t _ _ _ hf2 (s _ _ (hm _ _ h2))))
    · exact hnot (t _ _ _ (hm _ _ h2) (t _ _ _ (s _ _ hf2) (hm _ _ h1)))
  · simp only [List.mem_singleton] at hfe
    subst hfe
    rw [List.erase_append_right _ heK]
    simpa using hnot

theorem sel_acyclic (P K : List Edge) (h : KruskalSel P K) (hnd : P.Nodup) : Acyclic K := by
  induction h with
  | nil => intro e he; cases he
  | accept P K e hsel hnot ih =>
    have hP := (List.nodup_append.1 hnd)
    have heP : e ∉ P := fun hh => hP.2.2 hh (by simp)
    exact acyclic_snoc K e (ih hP.1) (fun hh => heP ((sel_sublist P K hsel).subset hh)) hnot
  | reject P K e _ _ ih => exact ih (List.nodup_append.1 hnd).1

/-- The kept edges form a spanning forest of the processed edges. -/
theorem sel_spanning (E P K : List Edge) (h : KruskalSel P K) (hnd : P.Nodup)
    (hE : ∀ x, x ∈ E ↔ x ∈ P) : IsSpanningForest E K :=
  { nodup := hnd.sublist (sel_sublist P K h)
    sub := fun x hx => (hE x).2 ((sel_sublist P K h).subset hx)
    acyclic := sel_acyclic P K h hnd
    spans := fun u v huv =>
      conn_of_edges P K (sel_conn P K h) u v (conn_mono E P (fun x hx => (hE x).1 hx) u v huv) }

/-- Greedy invariant: every spanning forest can be turned, without gaining weight, into
one that agrees with the kept edges on every processed edge. -/
theorem sel_opt (E P K : List Edge) (h : KruskalSel P K) :
    ∀ rest : List Edge, (P ++ rest).Pairwise (fun a b => a.weight ≤ b.weight) →
    (P ++ rest).Nodup → (∀ x, x ∈ E ↔ x ∈ P ++ rest) →
    ∀ T, IsSpanningForest E T →
      ∃ T1, IsSpanningForest E T1 ∧ weightSum T1 ≤ weightSum T ∧ ∀ x ∈ P, (x ∈ T1 ↔ x ∈ K) := by
  induction h with
  | nil =>
    intro rest _ _ _ T hT
    exact ⟨T, hT, le_refl _, fun x hx => by cases hx⟩
  | accept P K e hsel hnot ih =>
    intro rest hsort hnd hE T hT
    rw [List.append_assoc] at hsort hnd hE
    obtain ⟨T1, hT1, hw1, hag⟩ := ih ([e] ++ rest) hsort hnd hE T hT
    have heE : e ∈ E := (hE e).2 (by simp)
    have hndP := List.nodup_append.1 hnd
    have heP : e ∉ P := fun hh => hndP.2.2 hh (by simp)
    have hKP := (sel_sublist P K hsel).subset
    by_cases heT : e ∈ T1
    · refine ⟨T1, hT1, hw1, ?_⟩
      intro x hx
      rcases List.mem_append.1 hx with h1 | h1
      · rw [hag x h1]
        constructor
        · intro hh; exact List.mem_append_left _ hh
        · intro hh
          rcases List.mem_append.1 hh with h2 | h2
          · exact h2
          · simp only [List.mem_singleton] at h2
            rw [h2] at h1; exact absurd h1 heP
      · simp only [List.mem_singleton] at h1
        rw [h1]
        exact ⟨fun _ => by simp, fun _ => heT⟩
    · have hgood : ¬ Conn (T1.filter (fun x => decide (x ∈ K))) e.from_ e.to_ := by
        intro hh
        apply hnot
        apply conn_mono _ K _ _ _ hh
        intro z hz
        have := (List.mem_filter.1 hz).2
        simpa using this
      obtain ⟨r, hrT, hrg, hT2, hw2⟩ := improve E T1 e _ hT1 heE heT hgood
      have hrK : r ∉ K := by simpa using hrg
      have hrP : r ∉ P := fun hh => hrK ((hag r hh).1 hrT)
      have hre : r ≠ e := fun hh => heT (hh ▸ hrT)
      have hrrest : r ∈ rest := by
        have := (hE r).1 (hT1.sub r hrT)
        rcases List.mem_append.1 this with h1 | h1
        · exact absurd h1 hrP
        · rcases List.mem_append.1 h1 with h2 | h2
          · simp only [List.mem_singleton] at h2; exact absurd h2 hre
          · exact h2
      have hwle : e.weight ≤ r.weight := by
        have h1 := (List.pairwise_append.1 hsort).2.1
        have h2 : ([e] ++ rest) = e :: rest := rfl
        rw [h2, List.pairwise_cons] at h1
        exact h1.1 r hrrest
      refine ⟨e :: T1.erase r, hT2, by omega, ?_⟩
      intro x hx
      rcases List.mem_append.1 hx with h1 | h1
      · have hxr : x ≠ r := fun hh => hrP (hh ▸ h1)
        have hxe : x ≠ e := fun hh => heP (hh ▸ h1)
        rw [List.mem_cons, mem_erase_nodup T1 hT1.nodup, List.mem_append, List.mem_singleton]
        constructor
        · rintro (hh | ⟨_, hh⟩)
          · exact absurd hh hxe
          · exact Or.inl ((hag x h1).1 hh)
        · rintro (hh | hh)
          · exact Or.inr ⟨hxr, (hag x h1).2 hh⟩
          · exact absurd hh hxe
      · simp only [List.mem_singleton] at h1
        rw [h1]
        exact ⟨fun _ => by simp, fun _ => List.mem_cons_self _ _⟩
  | reject P K e hsel hc ih =>
    intro rest hsort hnd hE T hT
    rw [List.append_assoc] at hsort hnd hE
    obtain ⟨T1, hT1, hw1, hag⟩ := ih ([e] ++ rest) hsort hnd hE T hT
    have hndP := List.nodup_append.1 hnd
    have heP : e ∉ P := fun hh => hndP.2.2 hh (by simp)
    have hKP := (sel_sublist P K hsel).subset
    refine ⟨T1, hT1, hw1, ?_⟩
    intro x hx
    rcases List.mem_append.1 hx with h1 | h1
    · exact hag x h1
    · simp only [List.mem_singleton] at h1
      rw [h1]
      constructor
      · intro heT
        exfalso
        apply hT1.acyclic e heT
        apply conn_mono K _ _ _ _ hc
        intro z hz
        rw [mem_erase_nodup T1 hT1.nodup]
        exact ⟨fun hh => heP (hh ▸ hKP hz), (hag z (hKP hz)).2 hz⟩
      · intro hh; exact absurd (hKP hh) heP

/-- Kruskal's rule on a weight-sorted order of `E` keeps a spanning forest of least
total weight. -/
theorem sel_minimal (E P K : List Edge) (h : KruskalSel P K)
    (hsort : P.Pairwise (fun a b => a.weight ≤ b.weight)) (hnd : P.Nodup)
    (hE : ∀ x, x ∈ E ↔ x ∈ P) (T : List Edge) (hT : IsSpanningForest E T) :
    weightSum K ≤ weightSum T := by
  obtain ⟨T1, hT1, hw1, hag⟩ := sel_opt E P K h [] (by simpa using hsort) (by simpa using hnd)
    (by simpa using hE) T hT
  have hK := sel_spanning E P K h hnd hE
  have hperm : T1.Perm K := by
    rw [List.perm_ext_iff_of_nodup hT1.nodup hK.nodup]
    intro x
    constructor
    · intro hx; exact (hag x ((hE x).1 (hT1.sub x hx))).1 hx
    · intro hx; exact (hag x ((hE x).1 (hK.sub x hx))).2 hx
  rw [← weightSum_perm _ _ hperm]; exact hw1

theorem length_le_of_injective (R : Nat → Nat → Prop) (l1 : List Nat) :
    ∀ l2 : List Nat, l1.Nodup → (∀ a ∈ l1, ∃ b ∈ l2, R a b) →
    (∀ a ∈ l1, ∀ a1 ∈ l1, ∀ b, R a b → R a1 b → a = a1) → l1.length ≤ l2.length := by
  induction l1 with
  | nil => intro l2 _ _ _; exact Nat.zero_le _
  | cons a t ih =>
    intro l2 hnd hmap hinj
    obtain ⟨b, hb, hab⟩ := hmap a (List.mem_cons_self _ _)
    have hat : a ∉ t := (List.nodup_cons.1 hnd).1
    have := ih (l2.erase b) (List.nodup_cons.1 hnd).2
      (by
        intro a1 ha1
        obtain ⟨b1, hb1, hab1⟩ := hmap a1 (List.mem_cons_of_mem _ ha1)
        refine ⟨b1, (List.mem_erase_of_ne ?_).2 hb1, hab1⟩
        intro hbb
        rw [hbb] at hab1
        have := hinj a (List.mem_cons_self _ _) a1 (List.mem_cons_of_mem _ ha1) b hab hab1
        exact hat (this ▸ ha1))
      (fun x hx y hy c => hinj x (List.mem_cons_of_mem _ hx) y (List.mem_cons_of_mem _ hy) c)
    rw [List.length_erase_of_mem hb] at this
    have hpos : 0 < l2.length := List.length_pos_of_mem hb
    simp only [List.length_cons]
    omega

/-- Two systems of representatives of the same graph have the same size: the number of
components is well defined. -/
theorem repSystem_length (E : List Edge) (n : Nat) (l1 l2 : List Nat)
    (h1 : IsRepSystem E n l1) (h2 : IsRepSystem E n l2) : l1.length = l2.length := by
  have key : ∀ a b : List Nat, IsRepSystem E n a → IsRepSystem E n b → a.length ≤ b.length := by
    intro a b ha hb
    apply length_le_of_injective (Conn E) a b ha.nodup
    · intro x hx
      exact hb.cover x (ha.range x hx).1 (ha.range x hx).2
    · intro x hx y hy c hxc hyc
      exact ha.sep x hx y hy (conn_trans E _ _ _ hxc (conn_symm E _ _ hyc))
  exact le_antisymm (key l1 l2 h1 h2) (key l2 l1 h2 h1)

theorem repSystem_congr (E F : List Edge) (n : Nat) (l : List Nat)
    (h : ∀ u v, Conn E u v ↔ Conn F u v) (hl : IsRepSystem E n l) : IsRepSystem F n l :=
  { nodup := hl.nodup
    range := hl.range
    cover := fun v hv1 hv2 => by
      obtain ⟨r, hr, hc⟩ := hl.cover v hv1 hv2
      exact ⟨r, hr, (h _ _).1 hc⟩
    sep := fun r1 h1 r2 h2 hc => hl.sep r1 h1 r2 h2 ((h _ _).2 hc) }

/-- Every kept edge merges two components: kept edges plus components is `n`. -/
theorem sel_count (n : Nat) (P K : List Edge) (h : KruskalSel P K) :
    (∀ x ∈ P, (1 ≤ x.from_ ∧ x.from_ ≤ n) ∧ (1 ≤ x.to_ ∧ x.to_ ≤ n)) →
    ∃ reps, IsRepSystem K n reps ∧ reps.length + K.length = n := by
  induction h with
  | nil =>
    intro _
    refine ⟨List.range' 1 n, ⟨List.nodup_range' 1 n, ?_, ?_, ?_⟩, by simp⟩
    · intro r hr
      rw [List.mem_range'_1] at hr; omega
    · intro v hv1 hv2
      exact ⟨v, by rw [List.mem_range'_1]; omega, conn_refl _ _⟩
    · intro r1 _ r2 _ hc
      exact conn_nil r1 r2 hc
  | reject P K e _ _ ih =>
    intro hP
    exact ih (fun x hx => hP x (List.mem_append_left _ hx))
  | accept P K e _ hnot ih =>
    intro hP
    obtain ⟨reps, hreps, hlen⟩ := ih (fun x hx => hP x (List.mem_append_left _ hx))
    have hin := hP e (by simp)
    · obtain ⟨a, ha, hua⟩ := hreps.cover e.from_ hin.1.1 hin.1.2
      obtain ⟨b, hb, hvb⟩ := hreps.cover e.to_ hin.2.1 hin.2.2
      have t := conn_trans K
      have s := conn_symm K
      have hab : a ≠ b := by
        intro hh
        rw [← hh] at hvb
        exact hnot (t _ _ _ hua (s _ _ hvb))
      have hm := conn_mono K (K ++ [e]) (fun z hz => List.mem_append_left _ hz)
      have he : Conn (K ++ [e]) e.from_ e.to_ := conn_edge _ e (by simp)
      refine ⟨reps.erase b, ⟨hreps.nodup.erase b, ?_, ?_, ?_⟩, ?_⟩
      · intro r hr; exact hreps.range r (List.mem_of_mem_erase hr)
      · intro w hw1 hw2
        obtain ⟨r, hr, hwr⟩ := hreps.cover w hw1 hw2
        by_cases hrb : r = b
        · refine ⟨a, (List.mem_erase_of_ne hab).2 ha, ?_⟩
          rw [hrb] at hwr
          exact conn_trans _ _ _ _ (hm _ _ (t _ _ _ hwr (s _ _ hvb)))
            (conn_trans _ _ _ _ (conn_symm _ _ _ he) (hm _ _ hua))
        · exact ⟨r, (List.mem_erase_of_ne hrb).2 hr, hm _ _ hwr⟩
      · intro r1 hr1 r2 hr2 hc
        have hr1b : r1 ≠ b := ((hreps.nodup.mem_erase_iff).1 hr1).1
        have hr2b : r2 ≠ b := ((hreps.nodup.mem_erase_iff).1 hr2).1
        have hr1m := List.mem_of_mem_erase hr1
        have hr2m := List.mem_of_mem_erase hr2
        rw [conn_snoc] at hc
        rcases hc with h1 | ⟨_, h2⟩ | ⟨h1, _⟩
        · exact hreps.sep r1 hr1m r2 hr2m h1
        · exact absurd (hreps.sep r2 hr2m b hb (t _ _ _ (s _ _ h2) hvb)) hr2b
        · exact absurd (hreps.sep r1 hr1m b hb (t _ _ _ h1 hvb)) hr1b
      · rw [List.length_erase_of_mem hb, List.length_append, List.length_singleton]
        have hpos : 0 < reps.length := List.length_pos_of_mem hb
        omega

namespace DSets

theorem negPart_nonneg (x : Int) : 0 ≤ negPart x := by
  unfold negPart; split <;> omega

theorem sizeSum_nonneg (V : List Int) : 0 ≤ sizeSum V := by
  induction V with
  | nil => simp [sizeSum]
  | cons a t ih =>
    have := negPart_nonneg a
    simp only [sizeSum, List.map_cons, List.sum_cons] at ih ⊢
    omega

theorem sizeSum_set (V : List Int) : ∀ (i : Nat) (a : Int), i < V.length →
    sizeSum (V.set i a) = sizeSum V - negPart (V.getD i 0) + negPart a := by
  induction V with
  | nil => intro i a hi; simp at hi
  | cons b t ih =>
    intro i a hi
    cases i with
    | zero => simp [sizeSum]; omega
    | succ i =>
      simp only [List.length_cons] at hi
      have := ih i a (by omega)
      simp only [sizeSum, List.set_cons_succ, List.map_cons, List.sum_cons,
        List.getD_cons_succ] at this ⊢
      omega

theorem negPart_le_sizeSum (V : List Int) : ∀ i : Nat, i < V.length →
    negPart (V.getD i 0) ≤ sizeSum V := by
  induction V with
  | nil => intro i hi; simp at hi
  | cons b t ih =>
    intro i hi
    cases i with
    | zero =>
      have := sizeSum_nonneg t
      simp only [sizeSum, List.map_cons, List.sum_cons, List.getD_cons_zero] at this ⊢
      omega
    | succ i =>
      simp only [List.length_cons] at hi
      have := ih i (by omega)
      have h2 := negPart_nonneg b
      simp only [sizeSum, List.map_cons, List.sum_cons, List.getD_cons_succ] at this ⊢
      omega

theorem rep_root (V : List Int) (x r : Nat) (h : Rep V x r) :
    1 ≤ r ∧ r < V.length ∧ V.getD r 0 < 0 := by
  induction h with
  | root x h1 h2 h3 => exact ⟨h1, h2, h3⟩
  | step x r _ _ _ _ ih => exact ih

theorem rep_dom (V : List Int) (x r : Nat) (h : Rep V x r) : 1 ≤ x ∧ x < V.length := by
  induction h with
  | root x h1 h2 _ => exact ⟨h1, h2⟩
  | step x r h1 h2 _ _ _ => exact ⟨h1, h2⟩

theorem rep_unique (V : List Int) (x r1 r2 : Nat) (h1 : Rep V x r1) (h2 : Rep V x r2) :
    r1 = r2 := by
  induction h1 with
  | root x _ _ hneg =>
    cases h2 with
    | root _ _ _ => rfl
    | step _ _ _ hpos _ => omega
  | step x r _ _ hpos _ ih =>
    cases h2 with
    | root _ _ _ hneg => omega
    | step _ _ _ _ _ hrest => exact ih hrest

theorem rep_of_root (V : List Int) (r r1 : Nat) (hneg : V.getD r 0 < 0) (h : Rep V r r1) :
    r1 = r := by
  cases h with
  | root _ _ _ => rfl
  | step _ _ _ hpos _ => omega

theorem rep_rank (V : List Int) (n : Nat) (h : Nat → Nat) (inv : Inv V n h) (x r : Nat)
    (hr : Rep V x r) : h x ≤ h r := by
  induction hr with
  | root x _ _ _ => exact le_refl _
  | step x r h1 h2 hpos _ ih =>
    have := inv.rank x h1 (by have := inv.len; omega) hpos
    omega

/-- Redirecting a non-root `x` to its own root changes no representative. -/
theorem rep_set (V : List Int) (x r : Nat) (hx1 : 1 ≤ x) (hx2 : x < V.length)
    (hpos : 0 ≤ V.getD x 0) (hxr : Rep V x r) (y r1 : Nat) :
    Rep (V.set x (r : Int)) y r1 ↔ Rep V y r1 := by
  obtain ⟨hr1, hr2, hrneg⟩ := rep_root V x r hxr
  have hne : r ≠ x := by intro h; rw [h] at hrneg; omega
  have hget : ∀ z, (V.set x (r : Int)).getD z 0 = if z = x then (r : Int) else V.getD z 0 := by
    intro z
    rw [getD_set]
    by_cases hz : z = x
    · simp [hz, hx2]
    · simp [hz, Ne.symm hz]
  have hlen : (V.set x (r : Int)).length = V.length := by simp
  have hrr : Rep (V.set x (r : Int)) r r :=
    Rep.root r hr1 (by rw [hlen]; exact hr2) (by rw [hget, if_neg hne]; exact hrneg)
  have hxr2 : Rep (V.set x (r : Int)) x r :=
    Rep.step x r hx1 (by rw [hlen]; exact hx2) (by rw [hget, if_pos rfl]; omega)
      (by rw [hget, if_pos rfl]; simpa using hrr)
  constructor
  · intro h
    induction h with
    | root y h1 h2 h3 =>
      rw [hget] at h3
      by_cases hy : y = x
      · rw [if_pos hy] at h3; omega
      · rw [if_neg hy] at h3
        exact Rep.root y h1 (by rw [← hlen]; exact h2) h3
    | step y r1 h1 h2 h3 _ ih =>
      rw [hget] at ih h3
      by_cases hy : y = x
      · rw [if_pos hy] at ih
        simp only [Int.toNat_ofNat] at ih
        have := rep_of_root V r r1 hrneg ih
        rw [hy, this]; exact hxr
      · rw [if_neg hy] at ih h3
        exact Rep.step y r1 h1 (by rw [← hlen]; exact h2) h3 ih
  · intro h
    induction h with
    | root y h1 h2 h3 =>
      have hy : y ≠ x := by intro hy; rw [hy] at h3; omega
      exact Rep.root y h1 (by rw [hlen]; exact h2) (by rw [hget, if_neg hy]; exact h3)
    | step y r1 h1 h2 h3 hrest ih =>
      by_cases hy : y = x
      · have hwhole : Rep V x r1 := by rw [← hy]; exact Rep.step y r1 h1 h2 h3 hrest
        have := rep_unique V x r1 r hwhole hxr
        rw [hy, this]; exact hxr2
      · exact Rep.step y r1 h1 (by rw [hlen]; exact h2) (by rw [hget, if_neg hy]; exact h3)
          (by rw [hget, if_neg hy]; exact ih)

/-- `find` on a well-formed vector: it returns (the fuel is enough), the result is the
root of `x`, and compression changes neither the roots, nor their sizes, nor any
representative. -/
theorem findAux_spec (n : Nat) (h : Nat → Nat) (fuel : Nat) : ∀ (V : List Int) (x : Nat),
    Inv V n h → 1 ≤ x → x ≤ n → n + 1 ≤ fuel + h x →
    ∃ r V1, findAux fuel V x = some (r, V1) ∧ Rep V x r ∧ Inv V1 n h ∧
      (∀ y, V.getD y 0 < 0 → V1.getD y 0 = V.getD y 0) ∧
      (∀ y, V1.getD y 0 < 0 → V.getD y 0 < 0) ∧
      (∀ y r1, Rep V1 y r1 ↔ Rep V y r1) := by
  induction fuel with
  | zero =>
    intro V x inv h1 h2 hf
    have := inv.bound x h1 h2
    omega
  | succ fuel ih =>
    intro V x inv h1 h2 hf
    have hxl : x < V.length := by rw [inv.len]; omega
    simp only [findAux]
    rw [if_pos ⟨h1, by rw [inv.len]; omega⟩]
    by_cases hneg : V.getD x 0 < 0
    · rw [if_pos hneg]
      exact ⟨x, V, rfl, Rep.root x h1 hxl hneg, inv, fun _ _ => rfl, fun _ hy => hy,
        fun _ _ => Iff.rfl⟩
    · rw [if_neg hneg]
      have hpos : 0 ≤ V.getD x 0 := by omega
      obtain ⟨hp1, hp2⟩ := inv.parent x h1 h2 hpos
      have hrk := inv.rank x h1 h2 hpos
      obtain ⟨r, V1, hfind, hrep, inv1, hroots, hroots2, hreps⟩ :=
        ih V (V.getD x 0).toNat inv (by omega) (by omega) (by omega)
      rw [hfind]
      obtain ⟨hr1, hr2, hrneg⟩ := rep_root V _ r hrep
      have hxr : Rep V x r := Rep.step x r h1 hxl hpos hrep
      have hxl1 : x < V1.length := by rw [inv1.len]; omega
      have hpos1 : 0 ≤ V1.getD x 0 := by
        by_contra hc
        have := hroots2 x (by omega)
        omega
      have hxr1 : Rep V1 x r := (hreps x r).2 hxr
      have hne : r ≠ x := by intro hh; rw [hh] at hrneg; omega
      have hrn : r ≤ n := by have := inv.len; omega
      have hget : ∀ z, (V1.set x (r : Int)).getD z 0 =
          if z = x then (r : Int) else V1.getD z 0 := by
        intro z
        rw [getD_set]
        by_cases hz : z = x
        · simp [hz, hxl1]
        · simp [hz, Ne.symm hz]
      refine ⟨r, V1.set x (r : Int), rfl, hxr, ?_, ?_, ?_, ?_⟩
      · exact
          { len := by simpa using inv1.len
            parent := by
              intro y hy1 hy2 hy3
              rw [hget] at hy3 ⊢
              by_cases hy : y = x
              · rw [if_pos hy]; omega
              · rw [if_neg hy] at hy3 ⊢; exact inv1.parent y hy1 hy2 hy3
            rank := by
              intro y hy1 hy2 hy3
              rw [hget] at hy3 ⊢
              by_cases hy : y = x
              · rw [if_pos hy, hy]
                simp only [Int.toNat_ofNat]
                have := rep_rank V n h inv _ r hrep
                omega
              · rw [if_neg hy] at hy3 ⊢; exact inv1.rank y hy1 hy2 hy3
            bound := inv1.bound
            pos := inv1.pos
            size := by
              intro y hy1 hy2 hy3
              rw [hget] at hy3 ⊢
              by_cases hy : y = x
              · rw [if_pos hy] at hy3; omega
              · rw [if_neg hy] at hy3 ⊢; exact inv1.size y hy1 hy2 hy3
            total := by
              rw [sizeSum_set V1 x _ hxl1]
              have := inv1.total
              have h1 : negPart (V1.getD x 0) = 0 := by unfold negPart; rw [if_neg]; omega
              have h2 : negPart (r : Int) = 0 := by unfold negPart; rw [if_neg]; omega
              omega }
      · intro y hy
        have hyx : y ≠ x := by intro hh; rw [hh] at hy; omega
        rw [hget, if_neg hyx]; exact hroots y hy
      · intro y hy
        rw [hget] at hy
        by_cases hyx : y = x
        · rw [if_pos hyx] at hy; omega
        · rw [if_neg hyx] at hy; exact hroots2 y hy
      · intro y r1
        rw [rep_set V1 x r h1 hxl1 hpos1 hxr1 y r1]
        exact hreps y r1

theorem find_spec (n : Nat) (h : Nat → Nat) (V : List Int) (x : Nat)
    (inv : Inv V n h) (h1 : 1 ≤ x) (h2 : x ≤ n) :
    ∃ r V1, find V x = some (r, V1) ∧ Rep V x r ∧ Inv V1 n h ∧
      (∀ y, V.getD y 0 < 0 → V1.getD y 0 = V.getD y 0) ∧
      (∀ y, V1.getD y 0 < 0 → V.getD y 0 < 0) ∧
      (∀ y r1, Rep V1 y r1 ↔ Rep V y r1) := by
  unfold find
  apply findAux_spec n h _ V x inv h1 h2
  rw [inv.len]; omega

theorem new_inv (n : Nat) (V : List Int) (h : new n = some V) :
    Inv V n (fun _ => 1) ∧ ∀ x, 1 ≤ x → x ≤ n → V.getD x 0 < 0 := by
  unfold new at h
  split at h
  · next hn =>
    simp only [Option.some.injEq] at h
    subst h
    have hV : init (List.replicate (n + 1) 0) = (0 : Int) :: List.replicate n (-1) := by
      simp [init, List.replicate_succ]
    rw [hV]
    have hget : ∀ x, 1 ≤ x → x ≤ n → ((0 : Int) :: List.replicate n (-1)).getD x 0 = -1 := by
      intro x h1 h2
      obtain ⟨k, rfl⟩ : ∃ k, x = k + 1 := ⟨x - 1, by omega⟩
      simp only [List.getD_cons_succ]
      exact getD_replicate _ _ _ _ (by omega)
    refine ⟨?_, fun x h1 h2 => by rw [hget x h1 h2]; omega⟩
    exact
      { len := by simp
        parent := by intro x h1 h2 h3; rw [hget x h1 h2] at h3; omega
        rank := by intro x h1 h2 h3; rw [hget x h1 h2] at h3; omega
        bound := by intro x h1 h2; omega
        pos := by intro x _ _; exact le_refl _
        size := by intro r h1 h2 _; rw [hget r h1 h2]; simp
        total := by
          have : sizeSum ((0 : Int) :: List.replicate n (-1)) = n := by
            simp [sizeSum, negPart, List.map_replicate, List.sum_replicate]
          omega }
  · cases h

/-- The link step of `join`: the root `o` is hung under the root `t`, which takes the
sum of the two sizes. -/
theorem link_spec (n : Nat) (h : Nat → Nat) (V : List Int) (t o : Nat) (inv : Inv V n h)
    (ht : 1 ≤ t ∧ t ≤ n) (ho : 1 ≤ o ∧ o ≤ n) (hne : t ≠ o)
    (htneg : V.getD t 0 < 0) (honeg : V.getD o 0 < 0) :
    Inv ((V.set t (V.getD t 0 + V.getD o 0)).set o (t : Int)) n
      (fun x => if x = t then h t + h o else h x) ∧
    ∀ y r0, Rep V y r0 →
      Rep ((V.set t (V.getD t 0 + V.getD o 0)).set o (t : Int)) y (if r0 = o then t else r0) := by
  have htl : t < V.length := by rw [inv.len]; omega
  have hol : o < V.length := by rw [inv.len]; omega
  have hol1 : o < (V.set t (V.getD t 0 + V.getD o 0)).length := by simpa using hol
  have hget : ∀ z, ((V.set t (V.getD t 0 + V.getD o 0)).set o (t : Int)).getD z 0 =
      if z = o then (t : Int) else if z = t then V.getD t 0 + V.getD o 0 else V.getD z 0 := by
    intro z
    rw [getD_set, getD_set]
    by_cases hzo : z = o
    · subst hzo; rw [if_pos ⟨rfl, hol1⟩, if_pos rfl]
    · rw [if_neg (fun hh => hzo hh.1.symm), if_neg hzo]
      by_cases hzt : z = t
      · subst hzt; rw [if_pos ⟨rfl, htl⟩, if_pos rfl]
      · rw [if_neg (fun hh => hzt hh.1.symm), if_neg hzt]
  have hlen : ((V.set t (V.getD t 0 + V.getD o 0)).set o (t : Int)).length = V.length := by
    simp
  have htot : sizeSum ((V.set t (V.getD t 0 + V.getD o 0)).set o (t : Int)) = sizeSum V := by
    rw [sizeSum_set _ o _ hol1, sizeSum_set V t _ htl, getD_set, if_neg (fun hh => hne hh.1)]
    have h1 : negPart (V.getD t 0) = - V.getD t 0 := by unfold negPart; rw [if_pos htneg]
    have h2 : negPart (V.getD o 0) = - V.getD o 0 := by unfold negPart; rw [if_pos honeg]
    have h3 : negPart (V.getD t 0 + V.getD o 0) = - (V.getD t 0 + V.getD o 0) := by
      unfold negPart; rw [if_pos (by omega)]
    have h4 : negPart (t : Int) = 0 := by unfold negPart; rw [if_neg (by omega)]
    rw [h1, h2, h3, h4]; omega
  have hsz_t := inv.size t ht.1 ht.2 htneg
  have hsz_o := inv.size o ho.1 ho.2 honeg
  have hpos_t := inv.pos t ht.1 ht.2
  have hpos_o := inv.pos o ho.1 ho.2
  constructor
  · exact
      { len := by rw [hlen]; exact inv.len
        parent := by
          intro y hy1 hy2 hy3
          rw [hget] at hy3 ⊢
          by_cases hyo : y = o
          · rw [if_pos hyo]; omega
          · rw [if_neg hyo] at hy3 ⊢
            by_cases hyt : y = t
            · rw [if_pos hyt] at hy3; omega
            · rw [if_neg hyt] at hy3 ⊢; exact inv.parent y hy1 hy2 hy3
        rank := by
          intro y hy1 hy2 hy3
          rw [hget] at hy3 ⊢
          by_cases hyo : y = o
          · rw [if_pos hyo]
            rw [Int.toNat_ofNat, if_pos rfl, if_neg (by rw [hyo]; exact Ne.symm hne), hyo]
            omega
          · rw [if_neg hyo] at hy3 ⊢
            by_cases hyt : y = t
            · rw [if_pos hyt] at hy3; omega
            · rw [if_neg hyt] at hy3 ⊢
              have := inv.rank y hy1 hy2 hy3
              rw [if_neg hyt]
              split
              · next heq => rw [heq] at this; omega
              · exact this
        bound := by
          intro y hy1 hy2
          split
          · have h1 := negPart_le_sizeSum
              ((V.set t (V.getD t 0 + V.getD o 0)).set o (t : Int)) t (by rw [hlen]; exact htl)
            rw [hget, if_neg hne, if_pos rfl, htot] at h1
            have h3 : negPart (V.getD t 0 + V.getD o 0) = - (V.getD t 0 + V.getD o 0) := by
              unfold negPart; rw [if_pos (by omega)]
            rw [h3] at h1
            have := inv.total
            omega
          · exact inv.bound y hy1 hy2
        pos := by
          intro y hy1 hy2
          split
          · omega
          · exact inv.pos y hy1 hy2
        size := by
          intro y hy1 hy2 hy3
          rw [hget] at hy3 ⊢
          by_cases hyo : y = o
          · rw [if_pos hyo] at hy3; omega
          · rw [if_neg hyo] at hy3 ⊢
            by_cases hyt : y = t
            · rw [if_pos hyt, if_pos hyt]
              push_cast; omega
            · rw [if_neg hyt] at hy3 ⊢
              rw [if_neg hyt]
              exact inv.size y hy1 hy2 hy3
        total := by rw [htot]; exact inv.total }
  · have hroot_t : Rep ((V.set t (V.getD t 0 + V.getD o 0)).set o (t : Int)) t t :=
      Rep.root t ht.1 (by rw [hlen]; exact htl)
        (by rw [hget, if_neg hne, if_pos rfl]; omega)
    intro y r0 hrep
    induction hrep with
    | root y hy1 hy2 hy3 =>
      by_cases hyo : y = o
      · rw [if_pos hyo, hyo]
        exact Rep.step o t ho.1 (by rw [hlen]; exact hol) (by rw [hget, if_pos rfl]; omega)
          (by rw [hget, if_pos rfl]; simpa using hroot_t)
      · rw [if_neg hyo]
        by_cases hyt : y = t
        · rw [hyt]; exact hroot_t
        · exact Rep.root y hy1 (by rw [hlen]; exact hy2)
            (by rw [hget, if_neg hyo, if_neg hyt]; exact hy3)
    | step y r0 hy1 hy2 hy3 _ ih =>
      have hyo : y ≠ o := by intro hh; rw [hh] at hy3; omega
      have hyt : y ≠ t := by intro hh; rw [hh] at hy3; omega
      exact Rep.step y _ hy1 (by rw [hlen]; exact hy2)
        (by rw [hget, if_neg hyo, if_neg hyt]; exact hy3)
        (by rw [hget, if_neg hyo, if_neg hyt]; exact ih)

/-- `join` on two distinct roots succeeds; one of the two becomes the root of both
trees and every other representative is kept. -/
theorem join_spec (n : Nat) (h : Nat → Nat) (V : List Int) (r s : Nat) (inv : Inv V n h)
    (hr : 1 ≤ r ∧ r ≤ n) (hs : 1 ≤ s ∧ s ≤ n) (hne : r ≠ s)
    (hrneg : V.getD r 0 < 0) (hsneg : V.getD s 0 < 0) :
    ∃ V1 h1 t o, join V r s = some V1 ∧ Inv V1 n h1 ∧
      ((t = r ∧ o = s) ∨ (t = s ∧ o = r)) ∧
      ∀ y r0, Rep V y r0 → Rep V1 y (if r0 = o then t else r0) := by
  have hcond : r ≠ s ∧ (r ≥ 1 ∧ r ≤ V.length - 1) ∧ (s ≥ 1 ∧ s ≤ V.length - 1) ∧
      V.getD r 0 < 0 ∧ V.getD s 0 < 0 := by
    refine ⟨hne, ⟨hr.1, ?_⟩, ⟨hs.1, ?_⟩, hrneg, hsneg⟩ <;> rw [inv.len] <;> omega
  unfold join
  rw [if_pos hcond]
  by_cases hlt : V.getD r 0 < V.getD s 0
  · rw [if_pos hlt]
    obtain ⟨h1, h2⟩ := link_spec n h V r s inv hr hs hne hrneg hsneg
    exact ⟨_, _, r, s, rfl, h1, Or.inl ⟨rfl, rfl⟩, h2⟩
  · rw [if_neg hlt]
    obtain ⟨h1, h2⟩ := link_spec n h V s r inv hs hr (Ne.symm hne) hsneg hrneg
    exact ⟨_, _, s, r, rfl, h1, Or.inr ⟨rfl, rfl⟩, h2⟩

end DSets

namespace Graph

theorem add32_wrap32 (a b : Int) : add32 (wrap32 a) b = wrap32 (a + b) := by
  unfold add32 wrap32; omega

theorem weightSum_snoc (K : List Edge) (e : Edge) :
    weightSum (K ++ [e]) = weightSum K + e.weight := by
  simp [weightSum]

theorem merge_iff (t o ru rv rx ry : Nat)
    (hto : (t = ru ∧ o = rv) ∨ (t = rv ∧ o = ru)) :
    ((if rx = o then t else rx) = (if ry = o then t else ry)) ↔
      (rx = ry ∨ (rx = ru ∧ rv = ry) ∨ (rx = rv ∧ ru = ry)) := by
  split_ifs <;> omega

/-- One iteration of the loop of `mstKruskal`: no assertion fails, and the popped edge
is kept exactly when its endpoints are not yet connected by the kept edges. -/
theorem kruskalStep_spec (n : Nat) (st : KruskalState) (e : Edge) (inv : KruskalInv n st)
    (hu : 1 ≤ e.from_ ∧ e.from_ ≤ n) (hv : 1 ≤ e.to_ ∧ e.to_ ≤ n) :
    ∃ st1, kruskalStep st e = some st1 ∧ KruskalInv n st1 ∧
      ((¬ Conn st.out e.from_ e.to_ ∧ st1.out = st.out ++ [e]) ∨
       (Conn st.out e.from_ e.to_ ∧ st1.out = st.out)) := by
  obtain ⟨h, hds⟩ := inv.ds
  obtain ⟨ru, V1, hf1, hrep1, inv1, hroots1, _, hreps1⟩ :=
    DSets.find_spec n h st.ds e.from_ hds hu.1 hu.2
  obtain ⟨rv, V2, hf2, hrep2, inv2, hroots2, _, hreps2⟩ :=
    DSets.find_spec n h V1 e.to_ inv1 hv.1 hv.2
  have hrepAll : ∀ y r1, DSets.Rep V2 y r1 ↔ DSets.Rep st.ds y r1 := by
    intro y r1; rw [hreps2, hreps1]
  have hru : DSets.Rep st.ds e.from_ ru := hrep1
  have hrv : DSets.Rep st.ds e.to_ rv := (hreps1 _ _).1 hrep2
  have hconn : Conn st.out e.from_ e.to_ ↔ ru = rv := by
    rw [← inv.part _ _ hu.1 hu.2 hv.1 hv.2]
    constructor
    · rintro ⟨r, h1, h2⟩
      rw [DSets.rep_unique _ _ _ _ hru h1, DSets.rep_unique _ _ _ _ hrv h2]
    · intro hh
      exact ⟨ru, hru, hh ▸ hrv⟩
  unfold kruskalStep
  rw [hf1]
  simp only
  rw [hf2]
  simp only
  by_cases heq : ru = rv
  · rw [if_neg (by simpa using heq)]
    refine ⟨_, rfl, ?_, Or.inr ⟨hconn.2 heq, rfl⟩⟩
    exact
      { ds := ⟨h, inv2⟩
        part := by
          intro x y hx1 hx2 hy1 hy2
          rw [← inv.part x y hx1 hx2 hy1 hy2]
          simp only [hrepAll]
        total := inv.total }
  · rw [if_pos heq]
    obtain ⟨hru1, hru2, hruneg⟩ := DSets.rep_root _ _ _ hru
    obtain ⟨hrv1, hrv2, hrvneg⟩ := DSets.rep_root _ _ _ hrv
    have hlen := hds.len
    have hruneg2 : V2.getD ru 0 < 0 := by
      rw [hroots2 ru (by rw [hroots1 ru hruneg]; exact hruneg), hroots1 ru hruneg]
      exact hruneg
    have hrvneg2 : V2.getD rv 0 < 0 := (DSets.rep_root _ _ _ ((hrepAll _ _).2 hrv)).2.2
    obtain ⟨V3, h3, t, o, hjoin, inv3, hto, hmap⟩ :=
      DSets.join_spec n h V2 ru rv inv2 ⟨hru1, by omega⟩ ⟨hrv1, by omega⟩ heq hruneg2 hrvneg2
    rw [hjoin]
    refine ⟨_, rfl, ?_, Or.inl ⟨fun hc => heq (hconn.1 hc), rfl⟩⟩
    have total_rep : ∀ x, 1 ≤ x → x ≤ n → ∃ r, DSets.Rep st.ds x r := by
      intro x hx1 hx2
      obtain ⟨r, _, _, hr, _⟩ := DSets.find_spec n h st.ds x hds hx1 hx2
      exact ⟨r, hr⟩
    exact
      { ds := ⟨h3, inv3⟩
        part := by
          intro x y hx1 hx2 hy1 hy2
          show _ ↔ Conn (st.out ++ [e]) x y
          rw [conn_snoc]
          obtain ⟨rx, hrx⟩ := total_rep x hx1 hx2
          obtain ⟨ry, hry⟩ := total_rep y hy1 hy2
          have hx3 := hmap x rx ((hrepAll _ _).2 hrx)
          have hy3 := hmap y ry ((hrepAll _ _).2 hry)
          have cx : ∀ z rz, 1 ≤ z → z ≤ n → DSets.Rep st.ds z rz →
              ∀ w rw, 1 ≤ w → w ≤ n → DSets.Rep st.ds w rw → (Conn st.out z w ↔ rz = rw) := by
            intro z rz hz1 hz2 hrz w rw hw1 hw2 hrw
            rw [← inv.part z w hz1 hz2 hw1 hw2]
            constructor
            · rintro ⟨r, h1, h2⟩
              rw [DSets.rep_unique _ _ _ _ hrz h1, DSets.rep_unique _ _ _ _ hrw h2]
            · intro hh
              exact ⟨rz, hrz, hh ▸ hrw⟩
          unfold Link
          rw [cx x rx hx1 hx2 hrx y ry hy1 hy2 hry,
            cx x rx hx1 hx2 hrx e.from_ ru hu.1 hu.2 hru,
            cx e.to_ rv hv.1 hv.2 hrv y ry hy1 hy2 hry,
            cx x rx hx1 hx2 hrx e.to_ rv hv.1 hv.2 hrv,
            cx e.from_ ru hu.1 hu.2 hru y ry hy1 hy2 hry]
          rw [← merge_iff t o ru rv rx ry hto]
          constructor
          · rintro ⟨r, h1, h2⟩
            rw [DSets.rep_unique _ _ _ _ hx3 h1, DSets.rep_unique _ _ _ _ hy3 h2]
          · intro hh
            exact ⟨if rx = o then t else rx, hx3, by rw [hh]; exact hy3⟩
        total := by
          show add32 st.totalWeight e.weight = wrap32 (weightSum (st.out ++ [e]))
          rw [inv.total, add32_wrap32, weightSum_snoc] }

theorem mem_collectEdges (g : Graph) (hg : WF g) (x : Edge) :
    x ∈ collectEdges g ↔ x ∈ g.table.getD x.from_ [] ∧ x.from_ < x.to_ := by
  unfold collectEdges
  rw [List.mem_flatMap]
  constructor
  · rintro ⟨u, _, hx⟩
    rw [List.mem_filter] at hx
    have := (hg.range u x hx.1).1
    exact ⟨by rw [this]; exact hx.1, by simpa using hx.2⟩
  · rintro ⟨h1, h2⟩
    have hr := hg.range _ x h1
    have h0 : x.from_ ≠ 0 := by
      intro hh
      rw [hh, hg.row0] at h1
      cases h1
    refine ⟨x.from_, ?_, ?_⟩
    · rw [List.mem_range'_1]; omega
    · rw [List.mem_filter]
      exact ⟨h1, by simpa using h2⟩

theorem collectEdges_range (g : Graph) (hg : WF g) (x : Edge) (hx : x ∈ collectEdges g) :
    (1 ≤ x.from_ ∧ x.from_ ≤ g.size) ∧ (1 ≤ x.to_ ∧ x.to_ ≤ g.size) := by
  obtain ⟨h1, h2⟩ := (mem_collectEdges g hg x).1 hx
  have hr := hg.range _ x h1
  have h0 : x.from_ ≠ 0 := by
    intro hh
    rw [hh, hg.row0] at h1
    cases h1
  have hlt : x.from_ < g.table.length := by
    by_contra hcon
    rw [List.getD_eq_getElem?_getD, List.getElem?_eq_none (by omega)] at h1
    cases h1
  have := hg.table_len
  omega

theorem row_nodup (g : Graph) (hg : WF g) (v : Nat) : (g.table.getD v []).Nodup := by
  have := hg.uniq v
  apply this.imp
  intro a b hab hh
  exact hab (by rw [hh])

theorem collectEdges_nodup (g : Graph) (hg : WF g) : (collectEdges g).Nodup := by
  unfold collectEdges
  rw [List.nodup_flatMap]
  constructor
  · intro u _
    exact (row_nodup g hg u).filter _
  · apply (List.nodup_range' 1 g.size).imp
    intro a b hab
    intro x hxa hxb
    rw [List.mem_filter] at hxa hxb
    have h1 := (hg.range a x hxa.1).1
    have h2 := (hg.range b x hxb.1).1
    exact hab (h1.symm.trans h2)

theorem mem_flatten_table (g : Graph) (x : Edge) :
    x ∈ g.table.flatten ↔ ∃ v, x ∈ g.table.getD v [] := by
  rw [List.mem_flatten]
  constructor
  · rintro ⟨row, hrow, hx⟩
    obtain ⟨i, hi, rfl⟩ := List.getElem_of_mem hrow
    refine ⟨i, ?_⟩
    rw [List.getD_eq_getElem?_getD, List.getElem?_eq_getElem hi]
    exact hx
  · rintro ⟨v, hx⟩
    by_cases hv : v < g.table.length
    · rw [List.getD_eq_getElem?_getD, List.getElem?_eq_getElem hv] at hx
      exact ⟨_, List.getElem_mem hv, hx⟩
    · rw [List.getD_eq_getElem?_getD, List.getElem?_eq_none (by omega)] at hx
      cases hx

/-- The stored entries (both orientations, self-loops included) and the collected
edges connect the same vertices. -/
theorem conn_collect_iff (g : Graph) (hg : WF g) (u v : Nat) :
    Conn g.table.flatten u v ↔ Conn (collectEdges g) u v := by
  constructor
  · intro h
    apply conn_of_edges g.table.flatten _ _ u v h
    intro x hx
    obtain ⟨w, hxw⟩ := (mem_flatten_table g x).1 hx
    have hr := hg.range w x hxw
    rcases Nat.lt_trichotomy x.from_ x.to_ with hlt | heq | hgt
    · apply conn_edge
      rw [mem_collectEdges g hg]
      exact ⟨by rw [hr.1]; exact hxw, hlt⟩
    · rw [heq]; exact conn_refl _ _
    · have hm := hg.mirror w x hxw
      have : x.reverse ∈ collectEdges g := by
        rw [mem_collectEdges g hg]
        exact ⟨hm, hgt⟩
      exact conn_symm _ _ _ (conn_edge _ _ this)
  · apply conn_mono
    intro x hx
    rw [mem_flatten_table]
    exact ⟨x.from_, ((mem_collectEdges g hg x).1 hx).1⟩

theorem kruskalLoop_spec (n : Nat) (make : List Edge → List Edge)
    (pop : List Edge → Option (Edge × List Edge)) (hops : MinHeapOps make pop)
    (fuel : Nat) : ∀ (heap : List Edge) (st : KruskalState) (P : List Edge),
    heap.length ≤ fuel → KruskalInv n st → KruskalSel P st.out →
    (∀ x ∈ heap, (1 ≤ x.from_ ∧ x.from_ ≤ n) ∧ (1 ≤ x.to_ ∧ x.to_ ≤ n)) →
    (∀ p ∈ P, ∀ x ∈ heap, p.weight ≤ x.weight) →
    P.Pairwise (fun a b => a.weight ≤ b.weight) →
    ∃ st1 order, kruskalLoop pop fuel heap st = some st1 ∧ order.Perm heap ∧
      KruskalInv n st1 ∧ KruskalSel (P ++ order) st1.out ∧
      (P ++ order).Pairwise (fun a b => a.weight ≤ b.weight) := by
  induction fuel with
  | zero =>
    intro heap st P hlen inv hsel _ _ hsort
    have : heap = [] := List.length_eq_zero.1 (by omega)
    subst this
    exact ⟨st, [], rfl, List.Perm.refl _, inv, by simpa using hsel, by simpa using hsort⟩
  | succ fuel ih =>
    intro heap st P hlen inv hsel hrange hle hsort
    simp only [kruskalLoop]
    cases hp : pop heap with
    | none =>
      have : heap = [] := (hops.pop_none heap).1 hp
      subst this
      exact ⟨st, [], rfl, List.Perm.refl _, inv, by simpa using hsel, by simpa using hsort⟩
    | some r =>
      obtain ⟨e, h1⟩ := r
      simp only
      have hperm := hops.pop_perm heap e h1 hp
      have hmin := hops.pop_min heap e h1 hp
      have heh : e ∈ heap := hperm.symm.subset (List.mem_cons_self _ _)
      have hsub : ∀ x, x ∈ h1 → x ∈ heap := fun x hx =>
        hperm.symm.subset (List.mem_cons_of_mem _ hx)
      obtain ⟨st1, hstep, inv1, hcase⟩ :=
        kruskalStep_spec n st e inv (hrange e heh).1 (hrange e heh).2
      rw [hstep]
      simp only
      have hsel1 : KruskalSel (P ++ [e]) st1.out := by
        rcases hcase with ⟨hn, ho⟩ | ⟨hc, ho⟩
        · rw [ho]; exact KruskalSel.accept P st.out e hsel hn
        · rw [ho]; exact KruskalSel.reject P st.out e hsel hc
      have hlen1 : h1.length ≤ fuel := by
        have := hperm.length_eq
        simp only [List.length_cons] at this
        omega
      obtain ⟨st2, order, hloop, hpo, inv2, hsel2, hsort2⟩ :=
        ih h1 st1 (P ++ [e]) hlen1 inv1 hsel1 (fun x hx => hrange x (hsub x hx))
          (by
            intro p hp x hx
            rcases List.mem_append.1 hp with h | h
            · exact hle p h x (hsub x hx)
            · simp only [List.mem_singleton] at h
              rw [h]; exact hmin x (hsub x hx))
          (by
            rw [List.pairwise_append]
            refine ⟨hsort, List.pairwise_singleton _ _, ?_⟩
            intro p hp x hx
            simp only [List.mem_singleton] at hx
            rw [hx]; exact hle p hp e heh)
      rw [List.append_assoc] at hsel2 hsort2
      exact ⟨st2, e :: order, hloop, (List.Perm.cons e hpo).trans hperm.symm, inv2, hsel2,
        hsort2⟩

/-- `mstKruskal` on a well-formed graph: it returns, and what it returns is Kruskal's
rule run on some weight-sorted arrangement of the collected edges. -/
theorem mstKruskal_spec (make : List Edge → List Edge)
    (pop : List Edge → Option (Edge × List Edge)) (hops : MinHeapOps make pop)
    (g : Graph) (hg : WF g) :
    ∃ out total order, mstKruskal make pop g = some (out, total) ∧
      order.Perm (collectEdges g) ∧ order.Pairwise (fun a b => a.weight ≤ b.weight) ∧
      KruskalSel order out ∧ total = wrap32 (weightSum out) := by
  unfold mstKruskal
  have hnew : DSets.new g.size = some (DSets.init (List.replicate (g.size + 1) 0)) := by
    unfold DSets.new
    rw [if_pos (by have := hg.size_pos; omega)]
  rw [hnew]
  simp only
  obtain ⟨hinv, hroots⟩ := DSets.new_inv g.size _ hnew
  have hlen := hinv.len
  have inv0 : KruskalInv g.size
      { ds := DSets.init (List.replicate (g.size + 1) 0), totalWeight := 0, out := [] } :=
    { ds := ⟨_, hinv⟩
      part := by
        intro x y hx1 hx2 hy1 hy2
        have hrx : DSets.Rep (DSets.init (List.replicate (g.size + 1) 0)) x x :=
          DSets.Rep.root x hx1 (by omega) (hroots x hx1 hx2)
        have hry : DSets.Rep (DSets.init (List.replicate (g.size + 1) 0)) y y :=
          DSets.Rep.root y hy1 (by omega) (hroots y hy1 hy2)
        constructor
        · rintro ⟨r, h1, h2⟩
          have e1 := DSets.rep_unique _ _ _ _ hrx h1
          have e2 := DSets.rep_unique _ _ _ _ hry h2
          rw [e1, e2]; exact conn_refl _ _
        · intro hc
          have := conn_nil x y hc
          subst this
          exact ⟨x, hrx, hrx⟩
      total := by simp [weightSum, wrap32] }
  have hmp := hops.make_perm (collectEdges g)
  obtain ⟨st1, order, hloop, hpo, inv1, hsel, hsort⟩ :=
    kruskalLoop_spec g.size make pop hops (make (collectEdges g)).length
      (make (collectEdges g)) _ [] (le_refl _) inv0 KruskalSel.nil
      (fun x hx => collectEdges_range g hg x (hmp.subset hx))
      (fun p hp => by cases hp) List.Pairwise.nil
  rw [hloop]
  simp only [List.nil_append] at hsel hsort
  exact ⟨st1.out, st1.totalWeight, order, rfl, hpo.trans hmp, hsort, hsel, inv1.total⟩

theorem popMinEdge_ops : MinHeapOps id popMinEdge := by
  have hmem : ∀ (l : List Edge) (m : Edge), minEdge m l ∈ m :: l := by
    intro l
    induction l with
    | nil => intro m; simp [minEdge]
    | cons x xs ih =>
      intro m
      simp only [minEdge]
      split
      · exact List.mem_cons_of_mem _ (ih x)
      · rcases List.mem_cons.1 (ih m) with h | h
        · rw [h]; exact List.mem_cons_self _ _
        · exact List.mem_cons_of_mem _ (List.mem_cons_of_mem _ h)
  have hle : ∀ (l : List Edge) (m : Edge), ∀ y ∈ m :: l, (minEdge m l).weight ≤ y.weight := by
    intro l
    induction l with
    | nil =>
      intro m y hy
      simp only [List.mem_singleton] at hy
      subst hy; simp [minEdge]
    | cons x xs ih =>
      intro m y hy
      simp only [minEdge]
      by_cases hlt : x.weight < m.weight
      · rw [if_pos hlt]
        rcases List.mem_cons.1 hy with h | h
        · subst h
          exact le_trans (ih x x (List.mem_cons_self _ _)) (le_of_lt hlt)
        · exact ih x y h
      · rw [if_neg hlt]
        rcases List.mem_cons.1 hy with h | h
        · subst h; exact ih y y (List.mem_cons_self _ _)
        · rcases List.mem_cons.1 h with h | h
          · subst h
            exact le_trans (ih m m (List.mem_cons_self _ _)) (by omega)
          · exact ih m y (List.mem_cons_of_mem _ h)
  exact
    { make_perm := fun h => List.Perm.refl _
      pop_none := by
        intro h
        cases h with
        | nil => simp [popMinEdge]
        | cons x xs => simp [popMinEdge]
      pop_perm := by
        intro h e h1 hp
        cases h with
        | nil => simp [popMinEdge] at hp
        | cons x xs =>
          simp only [popMinEdge, Option.some.injEq, Prod.mk.injEq] at hp
          obtain ⟨he, hr⟩ := hp
          rw [← hr, ← he]
          exact List.perm_cons_erase (hmem xs x)
      pop_min := by
        intro h e h1 hp
        cases h with
        | nil => simp [popMinEdge] at hp
        | cons x xs =>
          simp only [popMinEdge, Option.some.injEq, Prod.mk.injEq] at hp
          obtain ⟨he, _⟩ := hp
          rw [← he]
          exact hle xs x }

theorem weightSum_nonneg (T : List Edge) (h : ∀ e ∈ T, 0 ≤ e.weight) : 0 ≤ weightSum T := by
  induction T with
  | nil => simp [weightSum]
  | cons a t ih =>
    rw [weightSum_cons]
    have h1 := h a (List.mem_cons_self _ _)
    have h2 := ih (fun e he => h e (List.mem_cons_of_mem _ he))
    omega

theorem heavyPath_reachable : Reachable heavyPath :=
  ofEdges_reachable [⟨1, 2, 1073741824⟩, ⟨2, 3, 1073741824⟩] 3 heavyPath (by decide)

theorem triangle_reachable : Reachable triangle :=
  ofEdges_reachable [⟨1, 2, 1⟩, ⟨1, 3, 3⟩, ⟨2, 3, 2⟩] 3 triangle (by decide)

/-- C4 as stated fails: on the path 1 - 2 - 3 with two edges of weight `2^30` the
printed total is `-2^31` (the `int` sum wraps), which is the weight of no spanning
forest. -/
theorem C4_counterexample :
    Reachable heavyPath ∧
    ∃ out total, mstKruskal id popMinEdge heavyPath = some (out, total) ∧
      total = -2147483648 ∧ ¬ IsMinForestWeight (collectEdges heavyPath) total := by
  refine ⟨heavyPath_reachable, [⟨1, 2, 1073741824⟩, ⟨2, 3, 1073741824⟩], _, by decide, rfl, ?_⟩
  rintro ⟨⟨T, hT, hw⟩, -⟩
  have : 0 ≤ weightSum T := by
    apply weightSum_nonneg
    intro e he
    have := hT.sub e he
    have hE : collectEdges heavyPath = [⟨1, 2, 1073741824⟩, ⟨2, 3, 1073741824⟩] := by decide
    rw [hE] at this
    simp only [List.mem_cons, List.mem_singleton, List.not_mem_nil, or_false] at this
    rcases this with h | h <;> rw [h] <;> decide
  omega

/-- C4 (amended): for every reachable undirected graph and every heap implementation,
`mstKruskal` returns; the edges it prints form a spanning forest of least total weight,
and the printed total is that least weight reduced to an `int`: it is the least weight
itself whenever that fits in an `int`. -/
theorem C4_kruskal_min_weight (make : List Edge → List Edge)
    (pop : List Edge → Option (Edge × List Edge)) (hops : MinHeapOps make pop)
    (g : Graph) (hg : Reachable g) :
    ∃ out total, mstKruskal make pop g = some (out, total) ∧
      IsMinForestWeight (collectEdges g) (weightSum out) ∧
      IsSpanningForest (collectEdges g) out ∧
      total = wrap32 (weightSum out) ∧
      (-2147483648 ≤ weightSum out → weightSum out ≤ INT_MAX →
        IsMinForestWeight (collectEdges g) total) := by
  have hwf := reachable_wf g hg
  obtain ⟨out, total, order, hrun, hperm, hsort, hsel, htot⟩ :=
    mstKruskal_spec make pop hops g hwf
  have hnd : order.Nodup := hperm.nodup_iff.2 (collectEdges_nodup g hwf)
  have hE : ∀ x, x ∈ collectEdges g ↔ x ∈ order := fun x => hperm.mem_iff.symm
  have hsf := sel_spanning (collectEdges g) order out hsel hnd hE
  have hmin : IsMinForestWeight (collectEdges g) (weightSum out) :=
    ⟨⟨out, hsf, rfl⟩, fun T hT => sel_minimal (collectEdges g) order out hsel hsort hnd hE T hT⟩
  refine ⟨out, total, hrun, hmin, hsf, htot, ?_⟩
  intro h1 h2
  have : total = weightSum out := by
    rw [htot]
    apply wrap32_id _ h1
    unfold INT_MAX at h2; exact h2
  rw [this]; exact hmin

theorem C4_kruskal_min_weight_witness :
    ∃ out total, mstKruskal id popMinEdge triangle = some (out, total) ∧
      IsMinForestWeight (collectEdges triangle) (weightSum out) ∧
      IsSpanningForest (collectEdges triangle) out ∧
      total = wrap32 (weightSum out) ∧
      (-2147483648 ≤ weightSum out → weightSum out ≤ INT_MAX →
        IsMinForestWeight (collectEdges triangle) total) :=
  C4_kruskal_min_weight id popMinEdge popMinEdge_ops triangle triangle_reachable

/-- C5: for every reachable undirected graph with `n` vertices and `c` connected
components, `mstKruskal` prints exactly `n - c` edges and returns as total the `int` sum
of their weights; the printed edges are edges of the graph and contain no cycle, and two
vertices are connected by printed edges exactly when they are connected in the graph. -/
theorem C5_kruskal_forest (make : List Edge → List Edge)
    (pop : List Edge → Option (Edge × List Edge)) (hops : MinHeapOps make pop)
    (g : Graph) (hg : Reachable g) :
    ∃ out total, mstKruskal make pop g = some (out, total) ∧
      total = wrap32 (weightSum out) ∧
      (∀ c, ComponentCount g.table.flatten g.size c → out.length + c = g.size) ∧
      (∃ c, ComponentCount g.table.flatten g.size c) ∧
      (∀ e ∈ out, e ∈ g.table.flatten) ∧ out.Nodup ∧ Acyclic out ∧
      (∀ u v, Conn out u v ↔ Conn g.table.flatten u v) := by
  have hwf := reachable_wf g hg
  obtain ⟨out, total, order, hrun, hperm, hsort, hsel, htot⟩ :=
    mstKruskal_spec make pop hops g hwf
  have hnd : order.Nodup := hperm.nodup_iff.2 (collectEdges_nodup g hwf)
  have hE : ∀ x, x ∈ collectEdges g ↔ x ∈ order := fun x => hperm.mem_iff.symm
  have hsf := sel_spanning (collectEdges g) order out hsel hnd hE
  have hconn : ∀ u v, Conn out u v ↔ Conn g.table.flatten u v := by
    intro u v
    rw [conn_collect_iff g hwf]
    exact ⟨conn_mono out _ hsf.sub u v, hsf.spans u v⟩
  obtain ⟨reps, hreps, hlen⟩ := sel_count g.size order out hsel
    (fun x hx => collectEdges_range g hwf x ((hE x).2 hx))
  have hreps2 : IsRepSystem g.table.flatten g.size reps :=
    repSystem_congr out _ g.size reps hconn hreps
  refine ⟨out, total, hrun, htot, ?_, ⟨reps.length, reps, hreps2, rfl⟩, ?_, hsf.nodup,
    hsf.acyclic, hconn⟩
  · rintro c ⟨reps1, hr1, hc⟩
    have := repSystem_length _ _ _ _ hr1 hreps2
    omega
  · intro e he
    rw [mem_flatten_table]
    exact ⟨e.from_, ((mem_collectEdges g hwf e).1 (hsf.sub e he)).1⟩

theorem C5_kruskal_forest_witness :
    ∃ out total, mstKruskal id popMinEdge triangle = some (out, total) ∧
      total = wrap32 (weightSum out) ∧
      (∀ c, ComponentCount triangle.table.flatten triangle.size c →
        out.length + c = triangle.size) ∧
      (∃ c, ComponentCount triangle.table.flatten triangle.size c) ∧
      (∀ e ∈ out, e ∈ triangle.table.flatten) ∧ out.Nodup ∧ Acyclic out ∧
      (∀ u v, Conn out u v ↔ Conn triangle.table.flatten u v) :=
  C5_kruskal_forest id popMinEdge popMinEdge_ops triangle triangle_reachable

end Graph

theorem prim_inside (E : List Edge) (S : List Nat) (PT : List Edge) (h : PrimSel E S PT) :
    ∀ y ∈ PT, y.from_ ∈ S ∧ y.to_ ∈ S := by
  induction h with
  | start => intro y hy; cases hy
  | grow S PT e x v _ _ hx _ hj _ ih =>
    intro y hy
    rcases List.mem_cons.1 hy with h | h
    · subst h
      rcases hj with ⟨h1, h2⟩ | ⟨h1, h2⟩
      · rw [h1, h2]
        exact ⟨List.mem_cons_of_mem _ hx, List.mem_cons_self _ _⟩
      · rw [h1, h2]
        exact ⟨List.mem_cons_self _ _, List.mem_cons_of_mem _ hx⟩
    · exact ⟨List.mem_cons_of_mem _ (ih y h).1, List.mem_cons_of_mem _ (ih y h).2⟩

theorem prim_sub (E : List Edge) (S : List Nat) (PT : List Edge) (h : PrimSel E S PT) :
    ∀ y ∈ PT, y ∈ E := by
  induction h with
  | start => intro y hy; cases hy
  | grow S PT e x v _ he _ _ _ _ ih =>
    intro y hy
    rcases List.mem_cons.1 hy with h | h
    · rw [h]; exact he
    · exact ih y h

theorem prim_nodup (E : List Edge) (S : List Nat) (PT : List Edge) (h : PrimSel E S PT) :
    PT.Nodup := by
  induction h with
  | start => exact List.nodup_nil
  | grow S PT e x v hsel _ _ hv hj _ ih =>
    apply List.nodup_cons.2 ⟨?_, ih⟩
    intro hePT
    have := prim_inside E S PT hsel e hePT
    rcases hj with ⟨_, h2⟩ | ⟨h1, _⟩
    · rw [h2] at this; exact hv this.2
    · rw [h1] at this; exact hv this.1

theorem prim_conn (E : List Edge) (S : List Nat) (PT : List Edge) (h : PrimSel E S PT) :
    ∀ y ∈ S, Conn PT 1 y := by
  induction h with
  | start =>
    intro y hy
    simp only [List.mem_singleton] at hy
    rw [hy]; exact conn_refl _ _
  | grow S PT e x v _ _ hx _ hj _ ih =>
    have hm : ∀ a b, Conn PT a b → Conn (e :: PT) a b :=
      conn_mono PT (e :: PT) (fun z hz => List.mem_cons_of_mem _ hz)
    intro y hy
    rcases List.mem_cons.1 hy with h | h
    · subst h
      have he : Conn (e :: PT) e.from_ e.to_ := conn_edge _ e (List.mem_cons_self _ _)
      rcases hj with ⟨h1, h2⟩ | ⟨h1, h2⟩
      · rw [h1, h2] at he
        exact conn_trans _ _ _ _ (hm _ _ (ih x hx)) he
      · rw [h1, h2] at he
        exact conn_trans _ _ _ _ (hm _ _ (ih x hx)) (conn_symm _ _ _ he)
    · exact hm _ _ (ih y h)

/-- Edges that do not leave `S` never connect a vertex of `S` to one outside. -/
theorem conn_inside (S : List Nat) (A : List Edge) (hA : ∀ e ∈ A, ¬ Crosses S e) (u v : Nat)
    (h : Conn A u v) : u ∈ S ↔ v ∈ S := by
  induction h with
  | refl => exact Iff.rfl
  | @tail b c _ hbc ih =>
    rw [ih]
    obtain ⟨e, he, hj⟩ := hbc
    have := hA e he
    unfold Crosses at this
    rcases hj with ⟨h1, h2⟩ | ⟨h1, h2⟩
    · rw [h1, h2] at this; tauto
    · rw [h1, h2] at this; tauto

/-- The greedy invariant of Prim's rule: every spanning forest can be traded, without
gaining weight, for one that contains the tree grown so far. -/
theorem prim_opt (E : List Edge) (S : List Nat) (PT : List Edge) (h : PrimSel E S PT) :
    ∀ T, IsSpanningForest E T →
      ∃ T1, IsSpanningForest E T1 ∧ weightSum T1 ≤ weightSum T ∧ ∀ y ∈ PT, y ∈ T1 := by
  induction h with
  | start => intro T hT; exact ⟨T, hT, le_refl _, fun y hy => by cases hy⟩
  | grow S PT e x v hsel he hx hv hj hmin ih =>
    intro T hT
    obtain ⟨T1, hT1, hw1, hsub1⟩ := ih T hT
    by_cases heT : e ∈ T1
    · refine ⟨T1, hT1, hw1, ?_⟩
      intro y hy
      rcases List.mem_cons.1 hy with h | h
      · rw [h]; exact heT
      · exact hsub1 y h
    · have hcross : ¬ (e.from_ ∈ S ↔ e.to_ ∈ S) := by
        rcases hj with ⟨h1, h2⟩ | ⟨h1, h2⟩
        · rw [h1, h2]; tauto
        · rw [h1, h2]; tauto
      have hgood : ¬ Conn (T1.filter (fun r => decide (¬ Crosses S r))) e.from_ e.to_ := by
        intro hc
        apply hcross
        apply conn_inside S _ _ _ _ hc
        intro r hr
        have := (List.mem_filter.1 hr).2
        simpa using this
      obtain ⟨r, hr, hrg, hsf, hws⟩ :=
        improve E T1 e (fun r => decide (¬ Crosses S r)) hT1 he heT hgood
      have hrc : Crosses S r := by simpa using hrg
      have hle := hmin r (hT1.sub r hr) hrc
      refine ⟨e :: T1.erase r, hsf, by omega, ?_⟩
      intro y hy
      rcases List.mem_cons.1 hy with h | h
      · rw [h]; exact List.mem_cons_self _ _
      · apply List.mem_cons_of_mem
        apply (List.mem_erase_of_ne _).2 (hsub1 y h)
        intro hyr
        have hin := prim_inside E S PT hsel y h
        rw [hyr] at hin
        unfold Crosses at hrc
        tauto

/-- When no edge of `E` leaves the grown tree, the tree weighs no more than any
spanning forest of `E`, and it is one itself as soon as `E` has one. -/
theorem prim_minimal (E : List Edge) (S : List Nat) (PT : List Edge) (h : PrimSel E S PT)
    (hall : ∀ e ∈ E, e.from_ ∈ S ∧ e.to_ ∈ S) (T : List Edge) (hT : IsSpanningForest E T) :
    weightSum PT ≤ weightSum T ∧ IsSpanningForest E PT := by
  obtain ⟨T1, hT1, hw1, hsub1⟩ := prim_opt E S PT h T hT
  have hspan : ∀ u v, Conn E u v → Conn PT u v := by
    apply conn_of_edges
    intro e he
    have h1 := prim_conn E S PT h _ (hall e he).1
    have h2 := prim_conn E S PT h _ (hall e he).2
    exact conn_trans _ _ _ _ (conn_symm _ _ _ h1) h2
  have hperm := forest_eq_of_sub E T1 PT hT1 (prim_nodup E S PT h) hsub1 hspan
  have hweq := weightSum_perm _ _ hperm
  refine ⟨by omega, ?_⟩
  exact
    { nodup := prim_nodup E S PT h
      sub := prim_sub E S PT h
      acyclic := by
        intro e he hc
        have he1 : e ∈ T1 := hperm.symm.subset he
        apply hT1.acyclic e he1
        exact conn_mono _ _ (fun z hz => (hperm.symm.erase e).subset hz) _ _ hc
      spans := hspan }

namespace Graph

theorem maxOf_ge (l : List (Int × Nat)) :
    ∀ m, ∀ y ∈ m :: l, y.1 ≤ (Digraph.minOf (fun a b => Digraph.pairLt b a) m l).1 := by
  induction l with
  | nil =>
    intro m y hy
    simp only [List.mem_singleton] at hy
    subst hy; simp [Digraph.minOf]
  | cons x xs ih =>
    intro m y hy
    simp only [Digraph.minOf]
    by_cases hlt : Digraph.pairLt m x = true
    · rw [if_pos hlt]
      have hxm : m.1 ≤ x.1 := by
        simp only [Digraph.pairLt, Bool.or_eq_true, decide_eq_true_eq, Bool.and_eq_true,
          beq_iff_eq] at hlt
        rcases hlt with h | h
        · exact le_of_lt h
        · exact le_of_eq h.1
      rcases List.mem_cons.1 hy with h | h
      · subst h
        exact le_trans hxm (ih x x (List.mem_cons_self _ _))
      · exact ih x y h
    · rw [if_neg hlt]
      have hmx : x.1 ≤ m.1 := by
        simp only [Digraph.pairLt, Bool.or_eq_true, decide_eq_true_eq, Bool.and_eq_true,
          beq_iff_eq, not_or, not_lt] at hlt
        exact hlt.1
      rcases List.mem_cons.1 hy with h | h
      · subst h; exact ih y y (List.mem_cons_self _ _)
      · rcases List.mem_cons.1 h with h | h
        · subst h
          exact le_trans hmx (ih m m (List.mem_cons_self _ _))
        · exact ih m y (List.mem_cons_of_mem _ h)

theorem popMax_spec (pq pq1 : List (Int × Nat)) (d : Int) (v : Nat)
    (h : Digraph.popTop (fun a b => Digraph.pairLt b a) pq = some ((d, v), pq1)) :
    (d, v) ∈ pq ∧ pq1 = pq.erase (d, v) ∧ (∀ y ∈ pq, y.1 ≤ d) ∧
      pq1.length + 1 = pq.length := by
  cases pq with
  | nil => simp [Digraph.popTop] at h
  | cons x xs =>
    simp only [Digraph.popTop, Option.some.injEq, Prod.mk.injEq] at h
    obtain ⟨hm, hr⟩ := h
    have hmem := Digraph.minOf_mem (fun a b => Digraph.pairLt b a) xs x
    rw [hm] at hmem
    have hle := maxOf_ge xs x
    rw [hm] at hle hr
    refine ⟨hmem, hr.symm, hle, ?_⟩
    rw [← hr, List.length_erase_of_mem hmem]
    simp

theorem popMax_none (pq : List (Int × Nat))
    (h : Digraph.popTop (fun a b => Digraph.pairLt b a) pq = none) : pq = [] := by
  cases pq with
  | nil => rfl
  | cons x xs => simp [Digraph.popTop] at h

theorem primInv_weaken (table : List (List Edge)) (n : Nat) (E : List Edge)
    (ok ok1 : Nat → Edge → Prop) (st : PrimState) (S : List Nat) (PT : List Edge)
    (h : ∀ x e, e ∈ table.getD x [] → ok1 x e → ok x e)
    (inv : PrimInv table n E ok st S PT) : PrimInv table n E ok1 st S PT :=
  { dist_len := inv.dist_len, done_len := inv.done_len, sdone := inv.sdone, sel := inv.sel,
    total := inv.total, sound := inv.sound, heap_ge := inv.heap_ge, heap_has := inv.heap_has,
    closed := fun x hx e he hok => inv.closed x hx e he (h x e he hok) }

theorem primRelax_cons (u : Nat) (e : Edge) (es : List Edge) (st : PrimState) :
    primRelax u (e :: es) st = primRelax u es (primRelax u [e] st) := by
  simp only [primRelax]
  split <;> rfl

theorem prim_relax_step (table : List (List Edge)) (n : Nat) (E : List Edge)
    (ht : PrimTable table n E) (u : Nat) (pre : List Edge) (st : PrimState) (S : List Nat)
    (PT : List Edge) (e : Edge) (he : e ∈ table.getD u [])
    (hud : st.done.getD u false = true)
    (inv : PrimInv table n E (fun x a => x ≠ u ∨ a ∈ pre) st S PT) :
    PrimInv table n E (fun x a => x ≠ u ∨ a ∈ pre ++ [e]) (primRelax u [e] st) S PT ∧
    (primRelax u [e] st).heap.length ≤ st.heap.length + 1 ∧
    (primRelax u [e] st).done = st.done := by
  have hI : INT_MAX = 2147483647 := rfl
  have hw := ht.wt u e he
  have hr := ht.range u e he
  have hneg : neg32 e.weight = -e.weight := by
    unfold neg32; apply wrap32_id <;> omega
  simp only [primRelax]
  by_cases hc : st.done.getD e.to_ false = false ∧ e.weight < st.dist.getD e.to_ 0
  · have hcond : (!st.done.getD e.to_ false && decide (e.weight < st.dist.getD e.to_ 0)) =
        true := by
      rw [hc.1]
      simp only [Bool.not_false, Bool.true_and, decide_eq_true_eq]; exact hc.2
    rw [if_pos hcond, hneg]
    have hul : e.to_ < st.dist.length := by rw [inv.dist_len]; omega
    have hD : ∀ x, (st.dist.set e.to_ e.weight).getD x 0 =
        if x = e.to_ then e.weight else st.dist.getD x 0 := by
      intro x
      rw [getD_set]
      by_cases hx : x = e.to_
      · simp [hx, hul]
      · simp [hx, Ne.symm hx]
    have hDle : ∀ x, (st.dist.set e.to_ e.weight).getD x 0 ≤ st.dist.getD x 0 := by
      intro x
      rw [hD]
      split
      · next h => rw [h]; exact le_of_lt hc.2
      · exact le_refl _
    refine ⟨?_, by simp, rfl⟩
    refine
      { dist_len := by simpa using inv.dist_len
        done_len := inv.done_len
        sdone := inv.sdone, sel := inv.sel, total := inv.total
        sound := ?_, heap_ge := ?_, heap_has := ?_, closed := ?_ }
    · intro x hxn hdn hd1
      change st.done.getD x false = false at hdn
      change (st.dist.set _ _).getD x 0 ≠ INT_MAX at hd1
      show ∃ y a, st.done.getD y false = true ∧ a ∈ table.getD y [] ∧ a.to_ = x ∧
        a.weight = (st.dist.set _ _).getD x 0
      rw [hD] at hd1 ⊢
      by_cases hx : x = e.to_
      · rw [if_pos hx]
        exact ⟨u, e, hud, he, hx.symm, rfl⟩
      · rw [if_neg hx] at hd1 ⊢
        exact inv.sound x hxn hdn hd1
    · intro y hy
      change y ∈ (-e.weight, e.to_) :: st.heap at hy
      show y.2 ≤ n ∧ -INT_MAX < y.1 ∧ y.1 ≤ 0 ∧ (st.dist.set _ _).getD y.2 0 ≤ -y.1
      rcases List.mem_cons.1 hy with h | h
      · subst h
        simp only
        rw [hD, if_pos rfl]
        exact ⟨hr.2.2, by omega, by omega, by omega⟩
      · have := inv.heap_ge y h
        exact ⟨this.1, this.2.1, this.2.2.1, le_trans (hDle _) this.2.2.2⟩
    · intro x hxn hdn hd1
      change st.done.getD x false = false at hdn
      change (st.dist.set _ _).getD x 0 ≠ INT_MAX at hd1
      show (-((st.dist.set _ _).getD x 0), x) ∈ (-e.weight, e.to_) :: st.heap
      rw [hD] at hd1 ⊢
      by_cases hx : x = e.to_
      · rw [if_pos hx, hx]; exact List.mem_cons_self _ _
      · rw [if_neg hx] at hd1 ⊢
        exact List.mem_cons_of_mem _ (inv.heap_has x hxn hdn hd1)
    · intro x hx a ha hok hdn
      change st.done.getD x false = true at hx
      change st.done.getD a.to_ false = false at hdn
      show (st.dist.set _ _).getD a.to_ 0 ≤ a.weight
      have hold : (x ≠ u ∨ a ∈ pre) → (st.dist.set e.to_ e.weight).getD a.to_ 0 ≤ a.weight :=
        fun h => le_trans (hDle _) (inv.closed x hx a ha h hdn)
      rcases hok with h | h
      · exact hold (Or.inl h)
      · rcases List.mem_append.1 h with h | h
        · exact hold (Or.inr h)
        · simp only [List.mem_singleton] at h
          rw [h, hD, if_pos rfl]
  · have hcond : ¬ ((!st.done.getD e.to_ false && decide (e.weight < st.dist.getD e.to_ 0)) =
        true) := by
      intro h
      simp only [Bool.and_eq_true, Bool.not_eq_true', decide_eq_true_eq] at h
      exact hc h
    rw [if_neg hcond]
    refine ⟨?_, by simp, rfl⟩
    exact
      { dist_len := inv.dist_len, done_len := inv.done_len, sdone := inv.sdone
        sel := inv.sel, total := inv.total, sound := inv.sound, heap_ge := inv.heap_ge
        heap_has := inv.heap_has
        closed := by
          intro x hx a ha hok hdn
          rcases hok with h | h
          · exact inv.closed x hx a ha (Or.inl h) hdn
          · rcases List.mem_append.1 h with h | h
            · exact inv.closed x hx a ha (Or.inr h) hdn
            · simp only [List.mem_singleton] at h
              rw [h] at hdn ⊢
              by_contra hlt
              exact hc ⟨hdn, by omega⟩ }

theorem prim_relax_all (table : List (List Edge)) (n : Nat) (E : List Edge)
    (ht : PrimTable table n E) (u : Nat) (S : List Nat) (PT : List Edge)
    (rem : List Edge) : ∀ (pre : List Edge) (st : PrimState),
    (∀ e ∈ rem, e ∈ table.getD u []) → st.done.getD u false = true →
    PrimInv table n E (fun x a => x ≠ u ∨ a ∈ pre) st S PT →
    PrimInv table n E (fun x a => x ≠ u ∨ a ∈ pre ++ rem) (primRelax u rem st) S PT ∧
    (primRelax u rem st).heap.length ≤ st.heap.length + rem.length ∧
    (primRelax u rem st).done = st.done := by
  induction rem with
  | nil =>
    intro pre st _ _ inv
    simp only [primRelax, List.append_nil]
    exact ⟨inv, by simp, trivial⟩
  | cons e es ih =>
    intro pre st hrem hud inv
    rw [primRelax_cons]
    have he := hrem e (List.mem_cons_self _ _)
    obtain ⟨inv1, hl1, hd1⟩ := prim_relax_step table n E ht u pre st S PT e he hud inv
    obtain ⟨inv2, hl2, hd2⟩ := ih (pre ++ [e]) _
      (fun x hx => hrem x (List.mem_cons_of_mem _ hx)) (by rw [hd1]; exact hud) inv1
    rw [List.append_assoc] at inv2
    refine ⟨inv2, ?_, hd2.trans hd1⟩
    simp only [List.length_cons]
    omega

theorem prim_pop_stale (table : List (List Edge)) (n : Nat) (E : List Edge)
    (st : PrimState) (S : List Nat) (PT : List Edge)
    (d : Int) (u : Nat) (heap1 : List (Int × Nat))
    (hpop : Digraph.popTop (fun a b => Digraph.pairLt b a) st.heap = some ((d, u), heap1))
    (hdone : st.done.getD u false = true)
    (inv : PrimInv table n E (fun _ _ => True) st S PT) :
    PrimInv table n E (fun _ _ => True) { st with heap := heap1 } S PT := by
  obtain ⟨_, hpq1, _, _⟩ := popMax_spec st.heap heap1 d u hpop
  have hsub : ∀ y, y ∈ heap1 → y ∈ st.heap := by
    intro y hy; rw [hpq1] at hy; exact List.mem_of_mem_erase hy
  exact
    { dist_len := inv.dist_len, done_len := inv.done_len, sdone := inv.sdone, sel := inv.sel
      total := inv.total, sound := inv.sound
      heap_ge := fun y hy => inv.heap_ge y (hsub y hy)
      heap_has := by
        intro x hxn hdn hd1
        have := inv.heap_has x hxn hdn hd1
        show (-(st.dist.getD x 0), x) ∈ heap1
        rw [hpq1]
        apply (List.mem_erase_of_ne _).2 this
        intro h
        have : x = u := (Prod.mk.inj h).2
        rw [this, hdone] at hdn; cases hdn
      closed := inv.closed }

/-- Popping an entry of a vertex not yet done: its key is the weight of a lightest edge
leaving the tree, and the vertex joins the tree through such an edge. -/
theorem prim_pop_fresh (table : List (List Edge)) (n : Nat) (E : List Edge)
    (ht : PrimTable table n E) (st : PrimState) (S : List Nat) (PT : List Edge)
    (d : Int) (u : Nat) (heap1 : List (Int × Nat))
    (hpop : Digraph.popTop (fun a b => Digraph.pairLt b a) st.heap = some ((d, u), heap1))
    (hdone : st.done.getD u false = false)
    (inv : PrimInv table n E (fun _ _ => True) st S PT) :
    ∃ c, PrimInv table n E (fun x a => x ≠ u ∨ a ∈ ([] : List Edge))
      { st with done := st.done.set u true, heap := heap1,
                total_weight := add32 st.total_weight (neg32 d) } (u :: S) (c :: PT) := by
  have hI : INT_MAX = 2147483647 := rfl
  obtain ⟨hmem, hpq1, hmax, _⟩ := popMax_spec st.heap heap1 d u hpop
  have hsub : ∀ y, y ∈ heap1 → y ∈ st.heap := by
    intro y hy; rw [hpq1] at hy; exact List.mem_of_mem_erase hy
  obtain ⟨hun, hd1, hd2, hdle⟩ := inv.heap_ge (d, u) hmem
  simp only at hun hd1 hd2 hdle
  have hdisc : st.dist.getD u 0 ≠ INT_MAX := by omega
  have hdge : -(st.dist.getD u 0) ≤ d := hmax _ (inv.heap_has u hun hdone hdisc)
  have hdu : st.dist.getD u 0 = -d := by omega
  obtain ⟨x, e, hxd, hex, heu, hew⟩ := inv.sound u hun hdone hdisc
  have her := ht.range x e hex
  have hxu : x ≠ u := by
    intro h; rw [h, hdone] at hxd; cases hxd
  obtain ⟨c, hcE, hcw, hcj⟩ := ht.toE x e hex (by rw [her.1, heu]; exact hxu)
  rw [her.1, heu] at hcj
  have hul : u < st.done.length := by rw [inv.done_len]; omega
  have hDone : ∀ y, (st.done.set u true).getD y false =
      if y = u then true else st.done.getD y false := by
    intro y
    rw [getD_set]
    by_cases hy : y = u
    · simp [hy, hul]
    · simp [hy, Ne.symm hy]
  have hkey : ∀ y, y ≤ n → st.done.getD y false = false → ∀ w : Int, w < INT_MAX →
      st.dist.getD y 0 ≤ w → -d ≤ w := by
    intro y hyn hyd w hw hle
    have := hmax _ (inv.heap_has y hyn hyd (by omega))
    simp only at this
    omega
  have hmin : ∀ f ∈ E, Crosses S f → c.weight ≤ f.weight := by
    intro f hf hcr
    rw [hcw, hew, hdu]
    rcases hcr with ⟨h1, h2⟩ | ⟨h1, h2⟩
    · obtain ⟨a, ha, hat, haw⟩ := ht.ofE f hf f.from_ f.to_ (Or.inl ⟨rfl, rfl⟩)
      have hfd : st.done.getD f.to_ false = false := by
        cases hh : st.done.getD f.to_ false
        · rfl
        · exact absurd ((inv.sdone _).2 hh) h2
      have hcl := inv.closed f.from_ ((inv.sdone _).1 h1) a ha trivial (by rw [hat]; exact hfd)
      rw [hat, haw] at hcl
      have har := ht.range _ a ha
      have hawt := ht.wt _ a ha
      rw [hat] at har
      exact hkey f.to_ har.2.2 hfd f.weight (by omega) hcl
    · obtain ⟨a, ha, hat, haw⟩ := ht.ofE f hf f.to_ f.from_ (Or.inr ⟨rfl, rfl⟩)
      have hfd : st.done.getD f.from_ false = false := by
        cases hh : st.done.getD f.from_ false
        · rfl
        · exact absurd ((inv.sdone _).2 hh) h2
      have hcl := inv.closed f.to_ ((inv.sdone _).1 h1) a ha trivial (by rw [hat]; exact hfd)
      rw [hat, haw] at hcl
      have har := ht.range _ a ha
      have hawt := ht.wt _ a ha
      rw [hat] at har
      exact hkey f.from_ har.2.2 hfd f.weight (by omega) hcl
  have huS : u ∉ S := by
    intro h
    have := (inv.sdone u).1 h
    rw [hdone] at this; cases this
  refine ⟨c, ?_⟩
  exact
    { dist_len := inv.dist_len
      done_len := by simpa using inv.done_len
      sdone := by
        intro y
        show y ∈ u :: S ↔ (st.done.set u true).getD y false = true
        rw [hDone, List.mem_cons]
        by_cases hy : y = u
        · simp [hy]
        · rw [if_neg hy, inv.sdone]
          simp [hy]
      sel := PrimSel.grow S PT c x u inv.sel hcE ((inv.sdone x).2 hxd) huS hcj hmin
      total := by
        show add32 st.total_weight (neg32 d) = wrap32 (weightSum (c :: PT))
        have hneg : neg32 d = -d := by
          unfold neg32; apply wrap32_id <;> omega
        rw [hneg, inv.total, add32_wrap32, weightSum_cons, hcw, hew, hdu]
        congr 1
        omega
      sound := by
        intro y hyn hdn hdy
        change (st.done.set u true).getD y false = false at hdn
        rw [hDone] at hdn
        by_cases hy : y = u
        · rw [if_pos hy] at hdn; cases hdn
        · rw [if_neg hy] at hdn
          obtain ⟨x1, e1, h1, h2, h3, h4⟩ := inv.sound y hyn hdn hdy
          refine ⟨x1, e1, ?_, h2, h3, h4⟩
          show (st.done.set u true).getD x1 false = true
          rw [hDone]
          split
          · rfl
          · exact h1
      heap_ge := fun y hy => inv.heap_ge y (hsub y hy)
      heap_has := by
        intro y hyn hdn hdy
        change (st.done.set u true).getD y false = false at hdn
        show (-(st.dist.getD y 0), y) ∈ heap1
        rw [hDone] at hdn
        by_cases hy : y = u
        · rw [if_pos hy] at hdn; cases hdn
        · rw [if_neg hy] at hdn
          rw [hpq1]
          apply (List.mem_erase_of_ne _).2 (inv.heap_has y hyn hdn hdy)
          intro h
          exact hy (Prod.mk.inj h).2
      closed := by
        intro y hy a ha hok hdn
        change (st.done.set u true).getD y false = true at hy
        change (st.done.set u true).getD a.to_ false = false at hdn
        show st.dist.getD a.to_ 0 ≤ a.weight
        rcases hok with h | h
        · rw [hDone, if_neg h] at hy
          rw [hDone] at hdn
          by_cases hau : a.to_ = u
          · rw [if_pos hau] at hdn; cases hdn
          · rw [if_neg hau] at hdn
            exact inv.closed y hy a ha trivial hdn
        · cases h }

theorem prim_finish (table : List (List Edge)) (n : Nat) (E : List Edge) (u : Nat)
    (st : PrimState) (S : List Nat) (PT : List Edge)
    (inv : PrimInv table n E (fun x a => x ≠ u ∨ a ∈ [] ++ table.getD u []) st S PT) :
    PrimInv table n E (fun _ _ => True) st S PT := by
  apply primInv_weaken table n E _ _ st S PT _ inv
  intro x e he _
  by_cases hx : x = u
  · right
    rw [List.nil_append, ← hx]; exact he
  · exact Or.inl hx

theorem prim_loop (table : List (List Edge)) (n : Nat) (E : List Edge)
    (ht : PrimTable table n E) (fuel : Nat) :
    ∀ (st : PrimState) (S : List Nat) (PT : List Edge),
    PrimInv table n E (fun _ _ => True) st S PT →
    st.heap.length + Digraph.undoneDeg table st.done ≤ fuel →
    ∃ S1 PT1, PrimInv table n E (fun _ _ => True) (primLoop table fuel st) S1 PT1 ∧
      (primLoop table fuel st).heap = [] := by
  induction fuel with
  | zero =>
    intro st S PT inv hm
    simp only [primLoop]
    exact ⟨S, PT, inv, List.length_eq_zero.1 (by omega)⟩
  | succ fuel ih =>
    intro st S PT inv hm
    simp only [primLoop]
    cases hpop : Digraph.popTop (fun a b => Digraph.pairLt b a) st.heap with
    | none => exact ⟨S, PT, inv, popMax_none _ hpop⟩
    | some r =>
      obtain ⟨⟨d, u⟩, heap1⟩ := r
      simp only
      obtain ⟨hmem, _, _, hlen⟩ := popMax_spec st.heap heap1 d u hpop
      cases hdone : st.done.getD u false
      · simp only [Bool.false_eq_true, if_false]
        obtain ⟨c, inv1⟩ := prim_pop_fresh table n E ht st S PT d u heap1 hpop hdone inv
        have hun := (inv.heap_ge (d, u) hmem).1
        simp only at hun
        have hul : u < st.done.length := by rw [inv.done_len]; omega
        obtain ⟨inv2, hl2, hd2⟩ := prim_relax_all table n E ht u (u :: S) (c :: PT)
          (table.getD u []) [] _ (fun e he => he)
          (by show (st.done.set u true).getD u false = true
              exact getD_set_self _ _ _ _ hul) inv1
        apply ih _ _ _ (prim_finish table n E u _ _ _ inv2)
        rw [hd2]
        have := Digraph.undoneDeg_set table st.done u (by rw [ht.len]; omega) hul hdone
        have hl3 : (primRelax u (table.getD u [])
            { st with done := st.done.set u true, heap := heap1,
                      total_weight := add32 st.total_weight (neg32 d) }).heap.length ≤
            heap1.length + (table.getD u []).length := hl2
        show _ + Digraph.undoneDeg table (st.done.set u true) ≤ fuel
        omega
      · simp only [if_true]
        apply ih _ _ _ (prim_pop_stale table n E st S PT d u heap1 hpop hdone inv)
        show heap1.length + Digraph.undoneDeg table st.done ≤ fuel
        omega

theorem prim_one_mem (E : List Edge) (S : List Nat) (PT : List Edge) (h : PrimSel E S PT) :
    1 ∈ S := by
  induction h with
  | start => exact List.mem_singleton.2 rfl
  | grow S PT e x v _ _ _ _ _ _ ih => exact List.mem_cons_of_mem _ ih

/-- When the heap is empty, everything connected to vertex 1 is in the tree. -/
theorem prim_complete (table : List (List Edge)) (n : Nat) (E : List Edge)
    (ht : PrimTable table n E) (st : PrimState) (S : List Nat) (PT : List Edge)
    (inv : PrimInv table n E (fun _ _ => True) st S PT) (hempty : st.heap = [])
    (v : Nat) (hc : Conn E 1 v) : v ∈ S := by
  have hI : INT_MAX = 2147483647 := rfl
  induction hc with
  | refl => exact prim_one_mem E S PT inv.sel
  | @tail b c _ hbc ih =>
    obtain ⟨f, hf, hj⟩ := hbc
    obtain ⟨a, ha, hat, haw⟩ := ht.ofE f hf b c hj
    have har := ht.range _ a ha
    have hawt := ht.wt _ a ha
    rw [inv.sdone]
    cases hh : st.done.getD c false
    · exfalso
      have hcl := inv.closed b ((inv.sdone b).1 ih) a ha trivial (by rw [hat]; exact hh)
      rw [hat] at hcl har
      have := inv.heap_has c har.2.2 hh (by omega)
      rw [hempty] at this
      cases this
    · rfl

theorem prim_init (g : Graph) (E : List Edge) (hn : 1 ≤ g.size) :
    primLoop g.table (Digraph.entryCount g.table + 1) (primInit g) =
      primLoop g.table (Digraph.entryCount g.table)
        (primRelax 1 (g.table.getD 1 [])
          { dist := (List.replicate (g.size + 1) INT_MAX).set 1 0,
            path := List.replicate (g.size + 1) 0,
            done := (List.replicate (g.size + 1) false).set 1 true,
            heap := [],
            total_weight := 0 }) ∧
    PrimInv g.table g.size E (fun x a => x ≠ 1 ∨ a ∈ ([] : List Edge))
      { dist := (List.replicate (g.size + 1) INT_MAX).set 1 0,
        path := List.replicate (g.size + 1) 0,
        done := (List.replicate (g.size + 1) false).set 1 true,
        heap := [],
        total_weight := 0 } [1] [] := by
  have hI : INT_MAX = 2147483647 := rfl
  have hf : (List.replicate (g.size + 1) false).getD 1 false = false :=
    getD_replicate _ _ _ _ (by omega)
  have hDone : ∀ y, ((List.replicate (g.size + 1) false).set 1 true).getD y false =
      if y = 1 then true else false := by
    intro y
    rw [getD_set]
    by_cases hy : y = 1
    · simp [hy]; omega
    · rw [if_neg (by intro h; exact hy h.1.symm), if_neg hy]
      by_cases hyl : y < g.size + 1
      · exact getD_replicate _ _ _ _ hyl
      · rw [List.getD_eq_getElem?_getD, List.getElem?_eq_none (by simp; omega)]; rfl
  have hDist : ∀ y, y ≤ g.size → ((List.replicate (g.size + 1) INT_MAX).set 1 0).getD y 0 =
      if y = 1 then 0 else INT_MAX := by
    intro y hy
    rw [getD_set]
    by_cases hy1 : y = 1
    · simp [hy1]; omega
    · rw [if_neg (by intro h; exact hy1 h.1.symm), if_neg hy1]
      exact getD_replicate _ _ _ _ (by omega)
  constructor
  · have : add32 0 (neg32 0) = 0 := by decide
    simp only [primLoop, primInit, Digraph.popTop, Digraph.minOf, hf, Bool.false_eq_true,
      if_false, List.erase_cons_head, this]
  · exact
      { dist_len := by simp
        done_len := by simp
        sdone := by
          intro y
          show y ∈ [1] ↔ ((List.replicate (g.size + 1) false).set 1 true).getD y false = true
          rw [hDone, List.mem_singleton]
          by_cases hy : y = 1
          · simp [hy]
          · simp [hy]
        sel := PrimSel.start
        total := by
          show (0 : Int) = wrap32 (weightSum [])
          decide
        sound := by
          intro y hyn hdn hdy
          change ((List.replicate (g.size + 1) false).set 1 true).getD y false = false at hdn
          change ((List.replicate (g.size + 1) INT_MAX).set 1 0).getD y 0 ≠ INT_MAX at hdy
          rw [hDone] at hdn
          rw [hDist y hyn] at hdy
          by_cases hy : y = 1
          · rw [if_pos hy] at hdn; cases hdn
          · rw [if_neg hy] at hdy; exact absurd rfl hdy
        heap_ge := by intro y hy; cases hy
        heap_has := by
          intro y hyn hdn hdy
          change ((List.replicate (g.size + 1) false).set 1 true).getD y false = false at hdn
          change ((List.replicate (g.size + 1) INT_MAX).set 1 0).getD y 0 ≠ INT_MAX at hdy
          rw [hDone] at hdn
          rw [hDist y hyn] at hdy
          by_cases hy : y = 1
          · rw [if_pos hy] at hdn; cases hdn
          · rw [if_neg hy] at hdy; exact absurd rfl hdy
        closed := by
          intro y hy a ha hok hdn
          change ((List.replicate (g.size + 1) false).set 1 true).getD y false = true at hy
          rw [hDone] at hy
          rcases hok with h | h
          · rw [if_neg h] at hy; cases hy
          · cases h }

theorem primTable_of_wf (g : Graph) (hg : WF g)
    (hw : ∀ e ∈ g.table.flatten, 0 ≤ e.weight ∧ e.weight < INT_MAX) :
    PrimTable g.table g.size (collectEdges g) :=
  { len := hg.table_len
    range := hg.range
    wt := fun v e he => hw e ((mem_flatten_table g e).2 ⟨v, he⟩)
    toE := by
      intro v e he hne
      have hr := hg.range v e he
      rcases Nat.lt_or_gt_of_ne hne with hlt | hgt
      · refine ⟨e, ?_, rfl, Or.inl ⟨rfl, rfl⟩⟩
        rw [mem_collectEdges g hg]
        exact ⟨by rw [hr.1]; exact he, hlt⟩
      · refine ⟨e.reverse, ?_, rfl, Or.inr ⟨rfl, rfl⟩⟩
        rw [mem_collectEdges g hg]
        exact ⟨hg.mirror v e he, hgt⟩
    ofE := by
      intro c hc x y hj
      have h1 := ((mem_collectEdges g hg c).1 hc).1
      rcases hj with ⟨hx, hy⟩ | ⟨hy, hx⟩
      · exact ⟨c, by rw [← hx]; exact h1, hy, rfl⟩
      · refine ⟨c.reverse, ?_, hy, rfl⟩
        rw [← hx]
        exact hg.mirror _ c h1 }

/-- `mstPrim` on a connected graph with weights in `[0, INT_MAX)`: the printed total is
the weight, reduced to an `int`, of a tree grown by Prim's rule that reaches every
endpoint of every edge. -/
theorem mstPrim_spec (g : Graph) (hg : WF g)
    (hw : ∀ e ∈ g.table.flatten, 0 ≤ e.weight ∧ e.weight < INT_MAX)
    (hconn : ∀ v, 1 ≤ v → v ≤ g.size → Conn g.table.flatten 1 v) :
    ∃ S PT, PrimSel (collectEdges g) S PT ∧
      (∀ e ∈ collectEdges g, e.from_ ∈ S ∧ e.to_ ∈ S) ∧
      (mstPrim g).2 = wrap32 (weightSum PT) := by
  have ht := primTable_of_wf g hg hw
  obtain ⟨hrun, inv0⟩ := prim_init g (collectEdges g) hg.size_pos
  have hl1 : (1 : Nat) < ((List.replicate (g.size + 1) false)).length := by
    have := hg.size_pos
    simp; omega
  obtain ⟨inv1, hlen1, hd1⟩ := prim_relax_all g.table g.size (collectEdges g) ht 1 [1] []
    (g.table.getD 1 []) [] _ (fun e he => he)
    (by show ((List.replicate (g.size + 1) false).set 1 true).getD 1 false = true
        exact getD_set_self _ _ _ _ hl1) inv0
  have inv2 := prim_finish g.table g.size (collectEdges g) 1 _ _ _ inv1
  have hdeg := Digraph.undoneDeg_set g.table (List.replicate (g.size + 1) false) 1
    (by rw [hg.table_len]; have := hg.size_pos; omega) hl1
    (getD_replicate _ _ _ _ (by have := hg.size_pos; omega))
  have hrep := Digraph.undoneDeg_replicate g.table
  rw [hg.table_len] at hrep
  obtain ⟨S, PT, inv3, hempty⟩ := prim_loop g.table g.size (collectEdges g) ht
    (Digraph.entryCount g.table) _ [1] [] inv2 (by
      rw [hd1]
      simp only [List.length_nil, Nat.zero_add] at hlen1
      show _ + Digraph.undoneDeg g.table ((List.replicate (g.size + 1) false).set 1 true) ≤ _
      omega)
  refine ⟨S, PT, inv3.sel, ?_, ?_⟩
  · intro e he
    have hr := collectEdges_range g hg e he
    have hin : ∀ v, 1 ≤ v → v ≤ g.size → v ∈ S := fun v h1 h2 =>
      prim_complete g.table g.size (collectEdges g) ht _ S PT inv3 hempty v
        ((conn_collect_iff g hg 1 v).1 (hconn v h1 h2))
    exact ⟨hin _ hr.1.1 hr.1.2, hin _ hr.2.1 hr.2.2⟩
  · unfold mstPrim
    simp only
    rw [hrun]
    exact inv3.total

theorem sentinelEdge_reachable : Reachable sentinelEdge :=
  ofEdges_reachable [⟨1, 2, 2147483647⟩] 2 sentinelEdge (by decide)

theorem conn_of_mem (E : List Edge) (e : Edge) (he : e ∈ E) (u v : Nat)
    (h : (e.from_ = u ∧ e.to_ = v) ∨ (e.from_ = v ∧ e.to_ = u)) : Conn E u v :=
  Relation.ReflTransGen.single ⟨e, he, h⟩

/-- C3 as stated fails: on the connected graph with the single edge 1 - 2 of weight
`INT_MAX` (a weight `>= 0`), `mstPrim` prints total 0, because `ew < dist[v]` never
holds against the initial `INT_MAX`, while `mstKruskal` prints `INT_MAX`. -/
theorem C3_counterexample :
    Reachable sentinelEdge ∧
    (∀ v, 1 ≤ v → v ≤ sentinelEdge.size → Conn sentinelEdge.table.flatten 1 v) ∧
    (∀ e ∈ sentinelEdge.table.flatten, 0 ≤ e.weight) ∧
    (mstPrim sentinelEdge).2 = 0 ∧
    ∃ out total, mstKruskal id popMinEdge sentinelEdge = some (out, total) ∧
      total = 2147483647 ∧ (mstPrim sentinelEdge).2 ≠ total := by
  refine ⟨sentinelEdge_reachable, ?_, by decide, by decide,
    [⟨1, 2, 2147483647⟩], 2147483647, by decide, rfl, by decide⟩
  intro v h1 h2
  have h3 : v ≤ 2 := h2
  have hv : v = 1 ∨ v = 2 := by omega
  rcases hv with h | h
  · rw [h]; exact conn_refl _ _
  · rw [h]
    exact conn_of_mem _ ⟨1, 2, 2147483647⟩ (by decide) 1 2 (Or.inl ⟨rfl, rfl⟩)

/-- C3 (amended): for every connected reachable undirected graph whose weights lie in
`[0, INT_MAX)`, and every heap implementation used by `mstKruskal`, both algorithms
return and the total printed by `mstPrim` equals the total printed by `mstKruskal`;
both are the weight of a minimum spanning tree, reduced to an `int`. -/
theorem C3_prim_eq_kruskal (make : List Edge → List Edge)
    (pop : List Edge → Option (Edge × List Edge)) (hops : MinHeapOps make pop)
    (g : Graph) (hg : Reachable g)
    (hconn : ∀ v, 1 ≤ v → v ≤ g.size → Conn g.table.flatten 1 v)
    (hw : ∀ e ∈ g.table.flatten, 0 ≤ e.weight ∧ e.weight < INT_MAX) :
    ∃ out total, mstKruskal make pop g = some (out, total) ∧ (mstPrim g).2 = total ∧
      ∃ PT, IsMinForestWeight (collectEdges g) (weightSum PT) ∧
        IsSpanningForest (collectEdges g) PT ∧ total = wrap32 (weightSum PT) := by
  have hwf := reachable_wf g hg
  obtain ⟨out, total, order, hrun, hperm, hsort, hsel, htot⟩ :=
    mstKruskal_spec make pop hops g hwf
  have hnd : order.Nodup := hperm.nodup_iff.2 (collectEdges_nodup g hwf)
  have hE : ∀ x, x ∈ collectEdges g ↔ x ∈ order := fun x => hperm.mem_iff.symm
  have hsf := sel_spanning (collectEdges g) order out hsel hnd hE
  obtain ⟨S, PT, hps, hall, hpt⟩ := mstPrim_spec g hwf hw hconn
  obtain ⟨hle, hpf⟩ := prim_minimal (collectEdges g) S PT hps hall out hsf
  have hge := sel_minimal (collectEdges g) order out hsel hsort hnd hE PT hpf
  have heq : weightSum PT = weightSum out := le_antisymm hle hge
  refine ⟨out, total, hrun, by rw [hpt, htot, heq], PT, ⟨⟨PT, hpf, rfl⟩, ?_⟩, hpf,
    by rw [htot, heq]⟩
  intro T hT
  rw [heq]
  exact sel_minimal (collectEdges g) order out hsel hsort hnd hE T hT

theorem C3_prim_eq_kruskal_witness :
    ∃ out total, mstKruskal id popMinEdge triangle = some (out, total) ∧
      (mstPrim triangle).2 = total ∧
      ∃ PT, IsMinForestWeight (collectEdges triangle) (weightSum PT) ∧
        IsSpanningForest (collectEdges triangle) PT ∧ total = wrap32 (weightSum PT) :=
  C3_prim_eq_kruskal id popMinEdge popMinEdge_ops triangle triangle_reachable
    (by
      intro v h1 h2
      have h3 : v ≤ 3 := h2
      have hv : v = 1 ∨ v = 2 ∨ v = 3 := by omega
      rcases hv with h | h | h
      · rw [h]; exact conn_refl _ _
      · rw [h]
        exact conn_of_mem _ ⟨1, 2, 1⟩ (by decide) 1 2 (Or.inl ⟨rfl, rfl⟩)
      · rw [h]
        exact conn_of_mem _ ⟨1, 3, 3⟩ (by decide) 1 3 (Or.inl ⟨rfl, rfl⟩))
    (by decide)

end Graph

namespace PriorityQueue

variable {α : Type} [LinearOrder α]

theorem findMin_eq_none_iff (pq : List α) : findMin pq = none ↔ pq = [] := by
  cases pq with
  | nil => simp [findMin]
  | cons m t => simp [findMin]

theorem isEmpty_iff (pq : List α) : isEmpty pq = true ↔ pq = [] := by
  cases pq with
  | nil => simp [isEmpty]
  | cons m t => simp [isEmpty]

theorem deleteMinCall_fst (pq : List α) :
    (deleteMinCall pq).1 = none ↔ deleteMin pq = none := by
  unfold deleteMinCall
  cases h : deleteMin pq with
  | none => simp
  | some r => obtain ⟨m, pq1⟩ := r; simp

/-- C11: `findMin` and `deleteMin` fail exactly on the empty queue; a failing call
leaves the queue as it was, and `findMin` never changes the queue (on a non-empty queue
it returns the front element). -/
theorem C11_fail_iff_empty (pq : List α) :
    ((findMinCall pq).1 = none ↔ isEmpty pq = true) ∧
    ((deleteMinCall pq).1 = none ↔ isEmpty pq = true) ∧
    ((findMinCall pq).1 = none → (findMinCall pq).2 = pq) ∧
    ((deleteMinCall pq).1 = none → (deleteMinCall pq).2 = pq) ∧
    (findMinCall pq).2 = pq ∧
    (∀ m t, pq = m :: t → (findMinCall pq).1 = some m ∧ (deleteMinCall pq).1 = some m) := by
  refine ⟨?_, ?_, fun _ => rfl, ?_, rfl, ?_⟩
  · rw [isEmpty_iff]; exact findMin_eq_none_iff pq
  · rw [isEmpty_iff, deleteMinCall_fst]; exact deleteMin_eq_none_iff pq
  · intro h
    have := (deleteMinCall_fst pq).1 h
    unfold deleteMinCall
    rw [this]
  · intro m t hpq
    subst hpq
    refine ⟨rfl, ?_⟩
    unfold deleteMinCall
    rw [deleteMin_cons]

/-- C12 as stated fails: the bulk constructor does not accept the empty sequence nor a
one-element sequence, `heapify` asserts `pq.size() > 1`. -/
theorem C12_counterexample :
    ofVector ([] : List Nat) = none ∧ ofVector [(5 : Nat)] = none := by
  decide

/-- C12 (amended): the bulk constructor accepts exactly the sequences with at least two
elements. For such a `V` it succeeds and yields a queue that holds exactly the elements
of `V` and satisfies the heap invariant; on a shorter `V` the assertion of `heapify`
fails. -/
theorem C12_bulk_constructor (V : List α) :
    (2 ≤ V.length → ∃ pq, ofVector V = some pq ∧ pq.Perm V ∧ HeapInv pq ∧
      isMinHeap pq = true) ∧
    (V.length < 2 → ofVector V = none) := by
  constructor
  · intro h
    have hsome : ofVector V = some (heapifyLoop (V.length / 2) V) := by
      unfold ofVector heapify
      rw [if_pos (by omega)]
    obtain ⟨hinv, hperm⟩ := heapify_spec V _ hsome
    exact ⟨_, hsome, hperm, hinv, (isMinHeap_iff _).2 hinv⟩
  · intro h
    unfold ofVector heapify
    rw [if_neg (by omega)]

theorem C12_bulk_constructor_witness :
    (2 ≤ [5, 3, (8 : Nat)].length → ∃ pq, ofVector [5, 3, (8 : Nat)] = some pq ∧
      pq.Perm [5, 3, 8] ∧ HeapInv pq ∧ isMinHeap pq = true) ∧
    ([5, 3, (8 : Nat)].length < 2 → ofVector [5, 3, (8 : Nat)] = none) :=
  C12_bulk_constructor [5, 3, 8]

end PriorityQueue

namespace DSets

theorem findAux_length (fuel : Nat) : ∀ (V : List Int) (x r : Nat) (V1 : List Int),
    findAux fuel V x = some (r, V1) → V1.length = V.length := by
  induction fuel with
  | zero => intro V x r V1 h; simp [findAux] at h
  | succ fuel ih =>
    intro V x r V1 h
    simp only [findAux] at h
    split at h
    · split at h
      · simp only [Option.some.injEq, Prod.mk.injEq] at h
        rw [← h.2]
      · cases hrec : findAux fuel V (V.getD x 0).toNat with
        | none => rw [hrec] at h; cases h
        | some p =>
          obtain ⟨r0, V0⟩ := p
          rw [hrec] at h
          simp only [Option.some.injEq, Prod.mk.injEq] at h
          rw [← h.2, List.length_set]
          exact ih V _ r0 V0 hrec
    · cases h

/-- What `find` writes: exactly the non-roots met on the way from `x` get the returned
root as parent. -/
theorem findAux_path (fuel : Nat) : ∀ (V : List Int) (x r : Nat) (V1 : List Int),
    findAux fuel V x = some (r, V1) →
    ∀ y, (OnPath V x y ∧ 0 ≤ V.getD y 0 → V1.getD y 0 = (r : Int)) ∧
      (¬ (OnPath V x y ∧ 0 ≤ V.getD y 0) → V1.getD y 0 = V.getD y 0) := by
  induction fuel with
  | zero => intro V x r V1 h; simp [findAux] at h
  | succ fuel ih =>
    intro V x r V1 h y
    simp only [findAux] at h
    split at h
    · next hx =>
      split at h
      · next hneg =>
        simp only [Option.some.injEq, Prod.mk.injEq] at h
        rw [← h.2]
        refine ⟨?_, fun _ => rfl⟩
        rintro ⟨hp, hy⟩
        cases hp with
        | here => omega
        | next _ _ hpos _ => omega
      · next hneg =>
        cases hrec : findAux fuel V (V.getD x 0).toNat with
        | none => rw [hrec] at h; cases h
        | some p =>
          obtain ⟨r0, V0⟩ := p
          rw [hrec] at h
          simp only [Option.some.injEq, Prod.mk.injEq] at h
          obtain ⟨hr, hV⟩ := h
          subst hr
          rw [← hV]
          have hlen := findAux_length fuel V _ r0 V0 hrec
          have hxl : x < V0.length := by rw [hlen]; omega
          have hrecy := ih V _ r0 V0 hrec y
          rw [getD_set]
          by_cases hyx : y = x
          · rw [if_pos ⟨hyx.symm, hxl⟩]
            refine ⟨fun _ => rfl, ?_⟩
            intro hc
            exfalso
            apply hc
            rw [hyx]
            exact ⟨OnPath.here x, by omega⟩
          · rw [if_neg (fun hh => hyx hh.1.symm)]
            have hiff : OnPath V x y ↔ OnPath V (V.getD x 0).toNat y := by
              constructor
              · intro hp
                cases hp with
                | here => exact absurd rfl hyx
                | next _ _ _ hrest => exact hrest
              · intro hp
                exact OnPath.next x y (by omega) hp
            rw [hiff]
            exact hrecy
    · cases h

/-- What lies on the way from `x` to its root has the same root. -/
theorem onPath_rep (V : List Int) (x y r : Nat) (hp : OnPath V x y) (hr : Rep V x r) :
    Rep V y r := by
  induction hp with
  | here => exact hr
  | next x y hpos _ ih =>
    apply ih
    cases hr with
    | root _ _ hneg => omega
    | step _ _ _ _ _ hrest => exact hrest

theorem rep_iff_depth (V : List Int) (x r : Nat) : Rep V x r ↔ ∃ d, Depth V x r d := by
  constructor
  · intro h
    induction h with
    | root x h1 h2 h3 => exact ⟨0, Depth.root x h1 h2 h3⟩
    | step x r h1 h2 h3 _ ih =>
      obtain ⟨d, hd⟩ := ih
      exact ⟨d + 1, Depth.step x r d h1 h2 h3 hd⟩
  · rintro ⟨d, hd⟩
    induction hd with
    | root x h1 h2 h3 => exact Rep.root x h1 h2 h3
    | step x r d h1 h2 h3 _ ih => exact Rep.step x r h1 h2 h3 ih

theorem set_set_getD (V : List Int) (t o : Nat) (a b : Int) (ht : t < V.length)
    (ho : o < V.length) (z : Nat) :
    ((V.set t a).set o b).getD z 0 =
      if z = o then b else if z = t then a else V.getD z 0 := by
  have hol1 : o < (V.set t a).length := by simpa using ho
  rw [getD_set, getD_set]
  by_cases hzo : z = o
  · subst hzo; rw [if_pos ⟨rfl, hol1⟩, if_pos rfl]
  · rw [if_neg (fun hh => hzo hh.1.symm), if_neg hzo]
    by_cases hzt : z = t
    · subst hzt; rw [if_pos ⟨rfl, ht⟩, if_pos rfl]
    · rw [if_neg (fun hh => hzt hh.1.symm), if_neg hzt]

/-- A successful `join(r, s)` passed all five assertions and hung the root `o` of the
tree that is not strictly larger under the other root `t`. -/
theorem join_some (V : List Int) (r s : Nat) (V1 : List Int) (h : join V r s = some V1) :
    (r ≠ s ∧ (1 ≤ r ∧ r ≤ V.length - 1) ∧ (1 ≤ s ∧ s ≤ V.length - 1) ∧
      V.getD r 0 < 0 ∧ V.getD s 0 < 0) ∧
    ∃ t o, ((t = r ∧ o = s ∧ V.getD r 0 < V.getD s 0) ∨
        (t = s ∧ o = r ∧ ¬ V.getD r 0 < V.getD s 0)) ∧
      V1 = (V.set t (V.getD t 0 + V.getD o 0)).set o (t : Int) := by
  unfold join at h
  split at h
  · next hc =>
    refine ⟨hc, ?_⟩
    split at h
    · next hlt =>
      simp only [Option.some.injEq] at h
      exact ⟨r, s, Or.inl ⟨rfl, rfl, hlt⟩, h.symm⟩
    · next hlt =>
      simp only [Option.some.injEq] at h
      exact ⟨s, r, Or.inr ⟨rfl, rfl, hlt⟩, h.symm⟩
  · cases h

theorem find_range (V : List Int) (x r : Nat) (V1 : List Int) (h : find V x = some (r, V1)) :
    1 ≤ x ∧ x ≤ V.length - 1 := by
  unfold find at h
  cases hl : V.length with
  | zero => rw [hl] at h; simp [findAux] at h
  | succ m =>
    rw [hl] at h
    simp only [findAux] at h
    split at h
    · next hc => rw [hl] at hc; exact hc
    · cases h

theorem reach_inv (n k : Nat) (V : List Int) (hV : Reach n k V) : ∃ h, Inv V n h := by
  induction hV with
  | init V h => exact ⟨_, (new_inv n V h).1⟩
  | join k V V1 r s _ hj ih =>
    obtain ⟨h, inv⟩ := ih
    obtain ⟨⟨hne, hr, hs, hrneg, hsneg⟩, _⟩ := join_some V r s V1 hj
    have hlen := inv.len
    obtain ⟨V2, h1, t, o, hj2, inv2, _, _⟩ := join_spec n h V r s inv
      ⟨hr.1, by omega⟩ ⟨hs.1, by omega⟩ hne hrneg hsneg
    rw [hj] at hj2
    simp only [Option.some.injEq] at hj2
    rw [hj2]
    exact ⟨h1, inv2⟩
  | find k V V1 x r _ hf ih =>
    obtain ⟨h, inv⟩ := ih
    obtain ⟨hx1, hx2⟩ := find_range V x r V1 hf
    have hlen := inv.len
    obtain ⟨r2, V2, hf2, _, inv2, _⟩ := find_spec n h V x inv hx1 (by omega)
    rw [hf] at hf2
    simp only [Option.some.injEq, Prod.mk.injEq] at hf2
    rw [hf2.2]
    exact ⟨h, inv2⟩

theorem rep_exists (n : Nat) (h : Nat → Nat) (V : List Int) (inv : Inv V n h) (x : Nat)
    (h1 : 1 ≤ x) (h2 : x ≤ n) : ∃ r, Rep V x r := by
  obtain ⟨r, _, _, hrep, _⟩ := find_spec n h V x inv h1 h2
  exact ⟨r, hrep⟩

/-- Representatives after hanging the root `o` under the root `t`. -/
theorem link_rep_iff (n : Nat) (h : Nat → Nat) (V : List Int) (t o : Nat) (inv : Inv V n h)
    (ht : 1 ≤ t ∧ t ≤ n) (ho : 1 ≤ o ∧ o ≤ n) (hne : t ≠ o)
    (htneg : V.getD t 0 < 0) (honeg : V.getD o 0 < 0) (y r1 : Nat) :
    Rep ((V.set t (V.getD t 0 + V.getD o 0)).set o (t : Int)) y r1 ↔
      ∃ r0, Rep V y r0 ∧ r1 = if r0 = o then t else r0 := by
  obtain ⟨inv1, hfwd⟩ := link_spec n h V t o inv ht ho hne htneg honeg
  constructor
  · intro hr
    obtain ⟨hy1, hy2⟩ := rep_dom _ y r1 hr
    have hlen := inv.len
    simp only [List.length_set] at hy2
    obtain ⟨r0, hr0⟩ := rep_exists n h V inv y hy1 (by omega)
    exact ⟨r0, hr0, rep_unique _ y _ _ hr (hfwd y r0 hr0)⟩
  · rintro ⟨r0, hr0, rfl⟩
    exact hfwd y r0 hr0

/-- Everything `find` does on a well-formed vector. -/
theorem find_full (n : Nat) (h : Nat → Nat) (V : List Int) (x : Nat)
    (inv : Inv V n h) (h1 : 1 ≤ x) (h2 : x ≤ n) :
    ∃ r V1, find V x = some (r, V1) ∧ Rep V x r ∧ Inv V1 n h ∧ V1.length = V.length ∧
      (∀ y, OnPath V x y → 0 ≤ V.getD y 0 → V1.getD y 0 = (r : Int)) ∧
      (∀ y, ¬ (OnPath V x y ∧ 0 ≤ V.getD y 0) → V1.getD y 0 = V.getD y 0) ∧
      (∀ y, V.getD y 0 < 0 → V1.getD y 0 = V.getD y 0) ∧
      (∀ y, V1.getD y 0 < 0 → V.getD y 0 < 0) ∧
      (∀ y r1, Rep V1 y r1 ↔ Rep V y r1) := by
  obtain ⟨r, V1, hf, hrep, inv1, hroots, hroots2, hreps⟩ := find_spec n h V x inv h1 h2
  have hpath := findAux_path V.length V x r V1 hf
  refine ⟨r, V1, hf, hrep, inv1, by rw [inv1.len, inv.len],
    fun y hp hy => (hpath y).1 ⟨hp, hy⟩, fun y hc => (hpath y).2 hc, hroots, hroots2, hreps⟩

theorem exampleSets_reach : Reach 4 3 exampleSets :=
  Reach.join 2 [0, 2, -2, 4, -2] exampleSets 2 4
    (Reach.join 1 [0, 2, -2, -1, -1] [0, 2, -2, 4, -2] 3 4
      (Reach.join 0 [0, -1, -1, -1, -1] [0, 2, -2, -1, -1] 1 2
        (Reach.init _ (by decide)) (by decide))
      (by decide))
    (by decide)

/-- C13: in every reachable state and for every `x` in `1 .. n`, `find(x)` returns (the
recursion ends) the root reached from `x` by the parent links; afterwards every non-root
that was on the way from `x` to the root has the root as parent, every other entry is
unchanged, and so no root's size field and no element's representative changes. -/
theorem C13_find (n k : Nat) (V : List Int) (hV : Reach n k V) (x : Nat)
    (h1 : 1 ≤ x) (h2 : x ≤ n) :
    ∃ r V1, find V x = some (r, V1) ∧ Rep V x r ∧ V1.length = V.length ∧
      (∀ y, OnPath V x y → 0 ≤ V.getD y 0 → V1.getD y 0 = (r : Int)) ∧
      (∀ y, ¬ (OnPath V x y ∧ 0 ≤ V.getD y 0) → V1.getD y 0 = V.getD y 0) ∧
      (∀ y, V.getD y 0 < 0 → V1.getD y 0 = V.getD y 0) ∧
      (∀ y r1, Rep V1 y r1 ↔ Rep V y r1) := by
  obtain ⟨h, inv⟩ := reach_inv n k V hV
  obtain ⟨r, V1, hf, hrep, _, hlen, hp1, hp2, hroots, _, hreps⟩ :=
    find_full n h V x inv h1 h2
  exact ⟨r, V1, hf, hrep, hlen, hp1, hp2, hroots, hreps⟩

theorem C13_find_witness :
    ∃ r V1, find exampleSets 1 = some (r, V1) ∧ Rep exampleSets 1 r ∧
      V1.length = exampleSets.length ∧
      (∀ y, OnPath exampleSets 1 y → 0 ≤ exampleSets.getD y 0 → V1.getD y 0 = (r : Int)) ∧
      (∀ y, ¬ (OnPath exampleSets 1 y ∧ 0 ≤ exampleSets.getD y 0) →
        V1.getD y 0 = exampleSets.getD y 0) ∧
      (∀ y, exampleSets.getD y 0 < 0 → V1.getD y 0 = exampleSets.getD y 0) ∧
      (∀ y r1, Rep V1 y r1 ↔ Rep exampleSets y r1) :=
  C13_find 4 3 exampleSets exampleSets_reach 1 (by decide) (by decide)

/-- C14: `join` is union by size. For distinct roots `r` and `s` of a reachable state
the call succeeds; if the tree of `r` is strictly larger, `s` gets `r` as parent,
otherwise (tree of `r` smaller, or a tie) `r` gets `s` as parent; the surviving root
stores the negated sum of the two sizes, no other entry changes, every element
represented by `r` or `s` is now represented by the surviving root and every other
element keeps its representative. -/
theorem C14_join (n k : Nat) (V : List Int) (hV : Reach n k V) (r s : Nat)
    (hr : 1 ≤ r ∧ r ≤ n) (hs : 1 ≤ s ∧ s ≤ n) (hne : r ≠ s)
    (hrneg : V.getD r 0 < 0) (hsneg : V.getD s 0 < 0) :
    ∃ V1, join V r s = some V1 ∧ V1.length = V.length ∧
      (V.getD r 0 < V.getD s 0 →
        V1.getD s 0 = (r : Int) ∧ V1.getD r 0 = V.getD r 0 + V.getD s 0 ∧
        ∀ y r0, Rep V y r0 → Rep V1 y (if r0 = s then r else r0)) ∧
      (¬ V.getD r 0 < V.getD s 0 →
        V1.getD r 0 = (s : Int) ∧ V1.getD s 0 = V.getD s 0 + V.getD r 0 ∧
        ∀ y r0, Rep V y r0 → Rep V1 y (if r0 = r then s else r0)) ∧
      (∀ y, y ≠ r → y ≠ s → V1.getD y 0 = V.getD y 0) := by
  obtain ⟨h, inv⟩ := reach_inv n k V hV
  have hlen := inv.len
  have hrl : r < V.length := by omega
  have hsl : s < V.length := by omega
  have hcond : r ≠ s ∧ (r ≥ 1 ∧ r ≤ V.length - 1) ∧ (s ≥ 1 ∧ s ≤ V.length - 1) ∧
      V.getD r 0 < 0 ∧ V.getD s 0 < 0 :=
    ⟨hne, ⟨hr.1, by omega⟩, ⟨hs.1, by omega⟩, hrneg, hsneg⟩
  unfold join
  rw [if_pos hcond]
  by_cases hlt : V.getD r 0 < V.getD s 0
  · rw [if_pos hlt]
    have hget := set_set_getD V r s (V.getD r 0 + V.getD s 0) (r : Int) hrl hsl
    refine ⟨_, rfl, by simp, ?_, fun hc => absurd hlt hc, ?_⟩
    · intro _
      refine ⟨by rw [hget, if_pos rfl], by rw [hget, if_neg hne, if_pos rfl], ?_⟩
      exact (link_spec n h V r s inv hr hs hne hrneg hsneg).2
    · intro y hyr hys
      rw [hget, if_neg hys, if_neg hyr]
  · rw [if_neg hlt]
    have hget := set_set_getD V s r (V.getD s 0 + V.getD r 0) (s : Int) hsl hrl
    refine ⟨_, rfl, by simp, fun hc => absurd hc hlt, ?_, ?_⟩
    · intro _
      refine ⟨by rw [hget, if_pos rfl], by rw [hget, if_neg (Ne.symm hne), if_pos rfl], ?_⟩
      exact (link_spec n h V s r inv hs hr (Ne.symm hne) hsneg hrneg).2
    · intro y hyr hys
      rw [hget, if_neg hyr, if_neg hys]

theorem C14_join_witness :
    ∃ V1, join [0, 2, -2, -1, -1] 2 3 = some V1 ∧
      V1.length = ([0, 2, -2, -1, -1] : List Int).length ∧
      (([0, 2, -2, -1, -1] : List Int).getD 2 0 < ([0, 2, -2, -1, -1] : List Int).getD 3 0 →
        V1.getD 3 0 = ((2 : Nat) : Int) ∧
        V1.getD 2 0 = ([0, 2, -2, -1, -1] : List Int).getD 2 0 +
          ([0, 2, -2, -1, -1] : List Int).getD 3 0 ∧
        ∀ y r0, Rep [0, 2, -2, -1, -1] y r0 → Rep V1 y (if r0 = 3 then 2 else r0)) ∧
      (¬ ([0, 2, -2, -1, -1] : List Int).getD 2 0 < ([0, 2, -2, -1, -1] : List Int).getD 3 0 →
        V1.getD 2 0 = ((3 : Nat) : Int) ∧
        V1.getD 3 0 = ([0, 2, -2, -1, -1] : List Int).getD 3 0 +
          ([0, 2, -2, -1, -1] : List Int).getD 2 0 ∧
        ∀ y r0, Rep [0, 2, -2, -1, -1] y r0 → Rep V1 y (if r0 = 2 then 3 else r0)) ∧
      (∀ y, y ≠ 2 → y ≠ 3 → V1.getD y 0 = ([0, 2, -2, -1, -1] : List Int).getD y 0) :=
  C14_join 4 1 [0, 2, -2, -1, -1]
    (Reach.join 0 [0, -1, -1, -1, -1] [0, 2, -2, -1, -1] 1 2 (Reach.init _ (by decide))
      (by decide))
    2 3 (by decide) (by decide) (by decide) (by decide) (by decide)

theorem joinCall_fst (V : List Int) (r s : Int) :
    (joinCall V r s).1 = false ↔ (r < 0 ∨ s < 0 ∨ join V r.toNat s.toNat = none) := by
  unfold joinCall
  by_cases hc : 0 ≤ r ∧ 0 ≤ s
  · rw [if_pos hc]
    cases hj : join V r.toNat s.toNat with
    | none => simp
    | some V1 => simp; omega
  · rw [if_neg hc]
    simp only [true_iff]
    omega

theorem joinCall_snd (V : List Int) (r s : Int) (h : (joinCall V r s).1 = false) :
    (joinCall V r s).2 = V := by
  unfold joinCall at h ⊢
  by_cases hc : 0 ≤ r ∧ 0 ≤ s
  · rw [if_pos hc] at h ⊢
    cases hj : join V r.toNat s.toNat with
    | none => rfl
    | some V1 => rw [hj] at h; cases h
  · rw [if_neg hc]

theorem findCall_fst (V : List Int) (x : Int) :
    (findCall V x).1 = none ↔ (x < 0 ∨ find V x.toNat = none) := by
  unfold findCall
  by_cases hc : 0 ≤ x
  · rw [if_pos hc]
    cases hf : find V x.toNat with
    | none => simp
    | some p => obtain ⟨r, V1⟩ := p; simp; omega
  · rw [if_neg hc]
    simp only [true_iff]
    omega

theorem findCall_snd (V : List Int) (x : Int) (h : (findCall V x).1 = none) :
    (findCall V x).2 = V := by
  unfold findCall at h ⊢
  by_cases hc : 0 ≤ x
  · rw [if_pos hc] at h ⊢
    cases hf : find V x.toNat with
    | none => rfl
    | some p => obtain ⟨r, V1⟩ := p; rw [hf] at h; cases h
  · rw [if_neg hc]

theorem join_none_iff (V : List Int) (r s : Nat) :
    join V r s = none ↔ ¬ (r ≠ s ∧ (r ≥ 1 ∧ r ≤ V.length - 1) ∧ (s ≥ 1 ∧ s ≤ V.length - 1) ∧
      V.getD r 0 < 0 ∧ V.getD s 0 < 0) := by
  unfold join
  constructor
  · intro h hc
    rw [if_pos hc] at h
    split at h <;> cases h
  · intro hc
    rw [if_neg hc]

/-- C15: in a reachable state, `join(r, s)` fails exactly when `r = s`, or `r` or `s` is
outside `1 .. n`, or `V[r]` or `V[s]` is non-negative (not a root); `find(x)` fails
exactly when `x` is outside `1 .. n`; and a failing call leaves the array as it was. -/
theorem C15_failures (n k : Nat) (V : List Int) (hV : Reach n k V) (r s x : Int) :
    ((joinCall V r s).1 = false ↔
      (r = s ∨ r < 1 ∨ (n : Int) < r ∨ s < 1 ∨ (n : Int) < s ∨
        0 ≤ V.getD r.toNat 0 ∨ 0 ≤ V.getD s.toNat 0)) ∧
    ((joinCall V r s).1 = false → (joinCall V r s).2 = V) ∧
    ((findCall V x).1 = none ↔ (x < 1 ∨ (n : Int) < x)) ∧
    ((findCall V x).1 = none → (findCall V x).2 = V) := by
  obtain ⟨h, inv⟩ := reach_inv n k V hV
  have hlen := inv.len
  refine ⟨?_, joinCall_snd V r s, ?_, findCall_snd V x⟩
  · rw [joinCall_fst, join_none_iff, hlen]
    constructor
    · rintro (h1 | h1 | h1)
      · omega
      · omega
      · by_contra hc
        apply h1
        simp only [not_or, not_lt, not_le] at hc
        obtain ⟨c1, c2, c3, c4, c5, c6, c7⟩ := hc
        refine ⟨?_, ⟨by omega, by omega⟩, ⟨by omega, by omega⟩, c6, c7⟩
        intro heq
        apply c1
        have h3 : (r.toNat : Int) = r := Int.toNat_of_nonneg (by omega)
        have h4 : (s.toNat : Int) = s := Int.toNat_of_nonneg (by omega)
        rw [← h3, ← h4, heq]
    · intro hc
      by_cases hr0 : r < 0
      · exact Or.inl hr0
      · by_cases hs0 : s < 0
        · exact Or.inr (Or.inl hs0)
        · right; right
          rintro ⟨c1, c2, c3, c4, c5⟩
          have h3 : (r.toNat : Int) = r := Int.toNat_of_nonneg (by omega)
          have h4 : (s.toNat : Int) = s := Int.toNat_of_nonneg (by omega)
          rcases hc with hc | hc | hc | hc | hc | hc | hc
          · apply c1; rw [hc]
          · omega
          · omega
          · omega
          · omega
          · omega
          · omega
  · rw [findCall_fst]
    constructor
    · rintro (h1 | h1)
      · omega
      · by_contra hc
        simp only [not_or, not_lt] at hc
        obtain ⟨r0, V1, hf, _⟩ := find_spec n h V x.toNat inv (by omega) (by omega)
        rw [hf] at h1; cases h1
    · intro hc
      by_cases hx0 : x < 0
      · exact Or.inl hx0
      · right
        cases hf : find V x.toNat with
        | none => rfl
        | some p =>
          obtain ⟨r0, V1⟩ := p
          have := find_range V x.toNat r0 V1 hf
          omega

theorem C15_failures_witness :
    ((joinCall exampleSets 4 4).1 = false ↔
      ((4 : Int) = 4 ∨ (4 : Int) < 1 ∨ ((4 : Nat) : Int) < 4 ∨ (4 : Int) < 1 ∨
        ((4 : Nat) : Int) < 4 ∨
        0 ≤ exampleSets.getD (4 : Int).toNat 0 ∨ 0 ≤ exampleSets.getD (4 : Int).toNat 0)) ∧
    ((joinCall exampleSets 4 4).1 = false → (joinCall exampleSets 4 4).2 = exampleSets) ∧
    ((findCall exampleSets 5).1 = none ↔ ((5 : Int) < 1 ∨ ((4 : Nat) : Int) < 5)) ∧
    ((findCall exampleSets 5).1 = none → (findCall exampleSets 5).2 = exampleSets) :=
  C15_failures 4 3 exampleSets exampleSets_reach 4 4 5

theorem filter_length_remove (p q : Nat → Bool) (o : Nat) : ∀ l : List Nat, l.Nodup → o ∈ l →
    p o = true → q o = false → (∀ x ∈ l, x ≠ o → q x = p x) →
    (l.filter q).length + 1 = (l.filter p).length := by
  intro l
  induction l with
  | nil => intro _ ho; cases ho
  | cons a t ih =>
    intro hnd ho hpo hqo hrest
    obtain ⟨hat, hndt⟩ := List.nodup_cons.1 hnd
    by_cases hao : a = o
    · subst hao
      have hcongr : t.filter q = t.filter p := by
        apply List.filter_congr
        intro x hx
        exact hrest x (List.mem_cons_of_mem _ hx) (fun h => hat (h ▸ hx))
      rw [List.filter_cons_of_neg (by simp [hqo]), List.filter_cons_of_pos hpo, hcongr]
      simp
    · have hot : o ∈ t := by
        rcases List.mem_cons.1 ho with h | h
        · exact absurd h.symm hao
        · exact h
      have := ih hndt hot hpo hqo (fun x hx hxo => hrest x (List.mem_cons_of_mem _ hx) hxo)
      have hqa := hrest a (List.mem_cons_self _ _) hao
      cases hpa : p a
      · rw [hpa] at hqa
        rw [List.filter_cons_of_neg (by simp [hqa]), List.filter_cons_of_neg (by simp [hpa])]
        exact this
      · rw [hpa] at hqa
        rw [List.filter_cons_of_pos hqa, List.filter_cons_of_pos hpa]
        simp only [List.length_cons]
        omega

theorem rootCount_congr (V V1 : List Int) (n : Nat)
    (h : ∀ x, 1 ≤ x → x ≤ n → (V1.getD x 0 < 0 ↔ V.getD x 0 < 0)) :
    rootCount V1 n = rootCount V n := by
  unfold rootCount
  congr 1
  apply List.filter_congr
  intro x hx
  rw [List.mem_range'_1] at hx
  exact decide_eq_decide.2 (h x hx.1 (by omega))

theorem rootCount_new (n : Nat) (V : List Int) (h : new n = some V) : rootCount V n = n := by
  obtain ⟨_, hroots⟩ := new_inv n V h
  unfold rootCount
  have : (List.range' 1 n).filter (fun x => decide (V.getD x 0 < 0)) = List.range' 1 n := by
    rw [List.filter_eq_self]
    intro x hx
    rw [List.mem_range'_1] at hx
    simpa using hroots x hx.1 (by omega)
  rw [this, List.length_range']

/-- A successful `join` turns exactly one root into a non-root. -/
theorem rootCount_join (n : Nat) (V V1 : List Int) (r s : Nat) (hlen : V.length = n + 1)
    (hj : join V r s = some V1) : rootCount V1 n + 1 = rootCount V n := by
  obtain ⟨⟨hne, hr, hs, hrneg, hsneg⟩, t, o, hto, hV1⟩ := join_some V r s V1 hj
  have ht : 1 ≤ t ∧ t ≤ n ∧ V.getD t 0 < 0 := by
    rcases hto with ⟨h1, _, _⟩ | ⟨h1, _, _⟩ <;> rw [h1] <;> exact ⟨by omega, by omega, by assumption⟩
  have ho : 1 ≤ o ∧ o ≤ n ∧ V.getD o 0 < 0 := by
    rcases hto with ⟨_, h1, _⟩ | ⟨_, h1, _⟩ <;> rw [h1] <;> exact ⟨by omega, by omega, by assumption⟩
  have hneto : t ≠ o := by
    rcases hto with ⟨h1, h2, _⟩ | ⟨h1, h2, _⟩
    · rw [h1, h2]; exact hne
    · rw [h1, h2]; exact Ne.symm hne
  have hget := set_set_getD V t o (V.getD t 0 + V.getD o 0) (t : Int)
    (by omega) (by omega)
  rw [← hV1] at hget
  unfold rootCount
  apply filter_length_remove _ _ o _ (List.nodup_range' 1 n)
  · rw [List.mem_range'_1]; omega
  · simpa using ho.2.2
  · rw [hget, if_pos rfl]
    simp
  · intro x _ hxo
    rw [hget, if_neg hxo]
    by_cases hxt : x = t
    · rw [if_pos hxt, hxt]
      have h1 : V.getD t 0 + V.getD o 0 < 0 := by omega
      exact decide_eq_decide.2 ⟨fun _ => ht.2.2, fun _ => h1⟩
    · rw [if_neg hxt]

/-- C16: starting from `DSets(n)`, after `k` successful joins (finds interleaved freely)
there are `n - k` roots, each successful `join` removing exactly one; so after `n - 1`
joins there is exactly one root `r`, and `find` returns `r` for every element of
`1 .. n`. -/
theorem C16_root_count (n k : Nat) (V : List Int) (hV : Reach n k V) :
    rootCount V n + k = n ∧
    (∀ r s V1, join V r s = some V1 → rootCount V1 n + 1 = rootCount V n) ∧
    (k + 1 = n → ∃ r, 1 ≤ r ∧ r ≤ n ∧
      (∀ x, 1 ≤ x → x ≤ n → (V.getD x 0 < 0 ↔ x = r)) ∧
      ∀ x, 1 ≤ x → x ≤ n → ∃ V1, find V x = some (r, V1)) := by
  have hcount : ∀ (k : Nat) (V : List Int), Reach n k V → rootCount V n + k = n := by
    intro k V hV
    induction hV with
    | init V h => rw [rootCount_new n V h]; rfl
    | join k V V1 r s hV0 hj ih =>
      obtain ⟨h, inv⟩ := reach_inv n k V hV0
      have := rootCount_join n V V1 r s inv.len hj
      omega
    | find k V V1 x r hV0 hf ih =>
      obtain ⟨h, inv⟩ := reach_inv n k V hV0
      obtain ⟨hx1, hx2⟩ := find_range V x r V1 hf
      have hlen := inv.len
      obtain ⟨r2, V2, hf2, _, _, hroots, hroots2, _⟩ := find_spec n h V x inv hx1 (by omega)
      rw [hf] at hf2
      simp only [Option.some.injEq, Prod.mk.injEq] at hf2
      rw [← hf2.2] at hroots hroots2
      have := rootCount_congr V V1 n
        (fun y _ _ => ⟨hroots2 y, fun hy => by rw [hroots y hy]; exact hy⟩)
      omega
  obtain ⟨h, inv⟩ := reach_inv n k V hV
  have hc := hcount k V hV
  refine ⟨hc, fun r s V1 hj => rootCount_join n V V1 r s inv.len hj, ?_⟩
  intro hk
  have hone : rootCount V n = 1 := by omega
  unfold rootCount at hone
  obtain ⟨r, hr⟩ := List.length_eq_one.1 hone
  have hmem : ∀ x, x ∈ (List.range' 1 n).filter (fun x => decide (V.getD x 0 < 0)) ↔
      (1 ≤ x ∧ x ≤ n) ∧ V.getD x 0 < 0 := by
    intro x
    rw [List.mem_filter, List.mem_range'_1]
    simp only [decide_eq_true_eq]
    constructor
    · rintro ⟨⟨h1, h2⟩, h3⟩; exact ⟨⟨h1, by omega⟩, h3⟩
    · rintro ⟨⟨h1, h2⟩, h3⟩; exact ⟨⟨h1, by omega⟩, h3⟩
  have hroot : ∀ x, 1 ≤ x → x ≤ n → (V.getD x 0 < 0 ↔ x = r) := by
    intro x h1 h2
    constructor
    · intro hx
      have := (hmem x).2 ⟨⟨h1, h2⟩, hx⟩
      rw [hr] at this
      exact List.mem_singleton.1 this
    · intro hx
      have : r ∈ (List.range' 1 n).filter (fun x => decide (V.getD x 0 < 0)) := by
        rw [hr]; exact List.mem_singleton.2 rfl
      rw [hx]; exact ((hmem r).1 this).2
  have hrr : (1 ≤ r ∧ r ≤ n) ∧ V.getD r 0 < 0 := by
    apply (hmem r).1
    rw [hr]; exact List.mem_singleton.2 rfl
  refine ⟨r, hrr.1.1, hrr.1.2, hroot, ?_⟩
  intro x h1 h2
  obtain ⟨r0, V1, hf, hrep, _⟩ := find_spec n h V x inv h1 h2
  obtain ⟨hr1, hr2, hr3⟩ := rep_root V x r0 hrep
  have hlen := inv.len
  have : r0 = r := (hroot r0 hr1 (by omega)).1 hr3
  rw [this] at hf
  exact ⟨V1, hf⟩

theorem C16_root_count_witness :
    rootCount exampleSets 4 + 3 = 4 ∧
    (∀ r s V1, join exampleSets r s = some V1 →
      rootCount V1 4 + 1 = rootCount exampleSets 4) ∧
    (3 + 1 = 4 → ∃ r, 1 ≤ r ∧ r ≤ 4 ∧
      (∀ x, 1 ≤ x → x ≤ 4 → (exampleSets.getD x 0 < 0 ↔ x = r)) ∧
      ∀ x, 1 ≤ x → x ≤ 4 → ∃ V1, find exampleSets x = some (r, V1)) :=
  C16_root_count 4 3 exampleSets exampleSets_reach

theorem new_eq (n : Nat) (V : List Int) (h : new n = some V) :
    V = (0 : Int) :: List.replicate n (-1) := by
  unfold new at h
  split at h
  · simp only [Option.some.injEq] at h
    rw [← h]
    simp [init, List.replicate_succ]
  · cases h

theorem new_getD (n : Nat) (V : List Int) (h : new n = some V) (x : Nat) (h1 : 1 ≤ x)
    (h2 : x ≤ n) : V.getD x 0 = -1 := by
  rw [new_eq n V h]
  obtain ⟨k, rfl⟩ : ∃ k, x = k + 1 := ⟨x - 1, by omega⟩
  simp only [List.getD_cons_succ]
  exact getD_replicate _ _ _ _ (by omega)

theorem sizeSum_new (n : Nat) (V : List Int) (h : new n = some V) : sizeSum V = n := by
  rw [new_eq n V h]
  simp [sizeSum, negPart, List.map_replicate, List.sum_replicate]

theorem sizeSum_link (V : List Int) (t o : Nat) (ht : t < V.length) (ho : o < V.length)
    (hne : t ≠ o) (htneg : V.getD t 0 < 0) (honeg : V.getD o 0 < 0) :
    sizeSum ((V.set t (V.getD t 0 + V.getD o 0)).set o (t : Int)) = sizeSum V := by
  have hol1 : o < (V.set t (V.getD t 0 + V.getD o 0)).length := by simpa using ho
  rw [sizeSum_set _ o _ hol1, sizeSum_set V t _ ht, getD_set, if_neg (fun hh => hne hh.1)]
  have h1 : negPart (V.getD t 0) = - V.getD t 0 := by unfold negPart; rw [if_pos htneg]
  have h2 : negPart (V.getD o 0) = - V.getD o 0 := by unfold negPart; rw [if_pos honeg]
  have h3 : negPart (V.getD t 0 + V.getD o 0) = - (V.getD t 0 + V.getD o 0) := by
    unfold negPart; rw [if_pos (by omega)]
  have h4 : negPart (t : Int) = 0 := by unfold negPart; rw [if_neg (by omega)]
  rw [h1, h2, h3, h4]; omega

theorem sizeSum_congr (V V1 : List Int) (hlen : V1.length = V.length)
    (h : ∀ y, y < V.length → negPart (V1.getD y 0) = negPart (V.getD y 0)) :
    sizeSum V1 = sizeSum V := by
  unfold sizeSum
  congr 1
  apply List.ext_getElem (by simp [hlen])
  intro i h1 h2
  simp only [List.length_map] at h1 h2
  simp only [List.getElem_map]
  have := h i h2
  rw [List.getD_eq_getElem?_getD, List.getD_eq_getElem?_getD, List.getElem?_eq_getElem h1,
    List.getElem?_eq_getElem h2] at this
  exact this

theorem reach_sizeSum (n k : Nat) (V : List Int) (hV : Reach n k V) : sizeSum V = n := by
  induction hV with
  | init V h => exact sizeSum_new n V h
  | join k V V1 r s hV0 hj ih =>
    obtain ⟨h, inv⟩ := reach_inv n k V hV0
    have hlen := inv.len
    obtain ⟨⟨hne, hr, hs, hrneg, hsneg⟩, t, o, hto, hV1⟩ := join_some V r s V1 hj
    rw [hV1, ← ih]
    rcases hto with ⟨h1, h2, _⟩ | ⟨h1, h2, _⟩
    · rw [h1, h2]
      exact sizeSum_link V r s (by omega) (by omega) hne hrneg hsneg
    · rw [h1, h2]
      exact sizeSum_link V s r (by omega) (by omega) (Ne.symm hne) hsneg hrneg
  | find k V V1 x r hV0 hf ih =>
    obtain ⟨h, inv⟩ := reach_inv n k V hV0
    obtain ⟨hx1, hx2⟩ := find_range V x r V1 hf
    have hlen := inv.len
    obtain ⟨r2, V2, hf2, _, _, hl, _, _, hroots, hroots2, _⟩ :=
      find_full n h V x inv hx1 (by omega)
    rw [hf] at hf2
    simp only [Option.some.injEq, Prod.mk.injEq] at hf2
    rw [← hf2.2] at hroots hroots2 hl
    rw [← ih]
    apply sizeSum_congr V V1 hl
    intro y _
    by_cases hy : V.getD y 0 < 0
    · rw [hroots y hy]
    · have hy1 : ¬ V1.getD y 0 < 0 := fun hh => hy (hroots2 y hh)
      unfold negPart
      rw [if_neg hy, if_neg hy1]

theorem reach_counted (n k : Nat) (V : List Int) (hV : Reach n k V) : Counted V n := by
  induction hV with
  | init V h =>
    intro r h1 h2 _
    obtain ⟨inv, hroots⟩ := new_inv n V h
    have hlen := inv.len
    refine ⟨[r], ⟨List.nodup_singleton r, ?_⟩, ?_⟩
    · intro x
      rw [List.mem_singleton]
      constructor
      · intro hx
        rw [hx]
        exact ⟨h1, h2, Rep.root r h1 (by omega) (hroots r h1 h2)⟩
      · rintro ⟨hx1, hx2, hrep⟩
        exact (rep_of_root V x r (hroots x hx1 hx2) hrep).symm
    · rw [new_getD n V h r h1 h2]; rfl
  | join k V V1 r s hV0 hj ih =>
    obtain ⟨h, inv⟩ := reach_inv n k V hV0
    have hlen := inv.len
    obtain ⟨⟨hne, hr, hs, hrneg, hsneg⟩, t, o, hto, hV1⟩ := join_some V r s V1 hj
    have ht : (1 ≤ t ∧ t ≤ n) ∧ V.getD t 0 < 0 := by
      rcases hto with ⟨h1, _, _⟩ | ⟨h1, _, _⟩ <;> rw [h1] <;>
        exact ⟨⟨by omega, by omega⟩, by assumption⟩
    have ho : (1 ≤ o ∧ o ≤ n) ∧ V.getD o 0 < 0 := by
      rcases hto with ⟨_, h1, _⟩ | ⟨_, h1, _⟩ <;> rw [h1] <;>
        exact ⟨⟨by omega, by omega⟩, by assumption⟩
    have hneto : t ≠ o := by
      rcases hto with ⟨h1, h2, _⟩ | ⟨h1, h2, _⟩
      · rw [h1, h2]; exact hne
      · rw [h1, h2]; exact Ne.symm hne
    have hget := set_set_getD V t o (V.getD t 0 + V.getD o 0) (t : Int)
      (by omega) (by omega)
    have hrep := link_rep_iff n h V t o inv ht.1 ho.1 hneto ht.2 ho.2
    rw [← hV1] at hget hrep
    intro y hy1 hy2 hyneg
    rw [hget] at hyneg
    by_cases hyo : y = o
    · rw [if_pos hyo] at hyneg; omega
    · rw [if_neg hyo] at hyneg
      by_cases hyt : y = t
      · subst hyt
        obtain ⟨mt, ⟨hmt1, hmt2⟩, hmt3⟩ := ih y ht.1.1 ht.1.2 ht.2
        obtain ⟨mo, ⟨hmo1, hmo2⟩, hmo3⟩ := ih o ho.1.1 ho.1.2 ho.2
        refine ⟨mt ++ mo, ⟨?_, ?_⟩, ?_⟩
        · apply List.Nodup.append hmt1 hmo1
          intro x hxt hxo
          have e1 := ((hmt2 x).1 hxt).2.2
          have e2 := ((hmo2 x).1 hxo).2.2
          exact hneto (rep_unique V x _ _ e1 e2)
        · intro x
          rw [List.mem_append, hmt2, hmo2, hrep]
          constructor
          · rintro (⟨h1, h2, h3⟩ | ⟨h1, h2, h3⟩)
            · exact ⟨h1, h2, y, h3, by rw [if_neg hneto]⟩
            · exact ⟨h1, h2, o, h3, by rw [if_pos rfl]⟩
          · rintro ⟨h1, h2, r0, h3, h4⟩
            by_cases hr0 : r0 = o
            · right; rw [← hr0]; exact ⟨h1, h2, h3⟩
            · left
              rw [if_neg hr0] at h4
              rw [h4]; exact ⟨h1, h2, h3⟩
        · rw [hget, if_neg hneto, if_pos rfl, List.length_append]
          push_cast
          omega
      · rw [if_neg hyt] at hyneg
        obtain ⟨ms, ⟨hms1, hms2⟩, hms3⟩ := ih y hy1 hy2 hyneg
        refine ⟨ms, ⟨hms1, ?_⟩, ?_⟩
        · intro x
          rw [hms2, hrep]
          constructor
          · rintro ⟨h1, h2, h3⟩
            exact ⟨h1, h2, y, h3, by rw [if_neg hyo]⟩
          · rintro ⟨h1, h2, r0, h3, h4⟩
            by_cases hr0 : r0 = o
            · rw [if_pos hr0] at h4; exact absurd h4 hyt
            · rw [if_neg hr0] at h4
              rw [h4]; exact ⟨h1, h2, h3⟩
        · rw [hget, if_neg hyo, if_neg hyt]; exact hms3
  | find k V V1 x r hV0 hf ih =>
    obtain ⟨h, inv⟩ := reach_inv n k V hV0
    obtain ⟨hx1, hx2⟩ := find_range V x r V1 hf
    have hlen := inv.len
    obtain ⟨r2, V2, hf2, _, _, hroots, hroots2, hreps⟩ := find_spec n h V x inv hx1 (by omega)
    rw [hf] at hf2
    simp only [Option.some.injEq, Prod.mk.injEq] at hf2
    rw [← hf2.2] at hroots hroots2 hreps
    intro y hy1 hy2 hyneg
    have hyV := hroots2 y hyneg
    obtain ⟨ms, ⟨hms1, hms2⟩, hms3⟩ := ih y hy1 hy2 hyV
    refine ⟨ms, ⟨hms1, ?_⟩, by rw [hroots y hyV]; exact hms3⟩
    intro z
    rw [hms2, hreps]

/-- C17: representation invariant. In every reachable state the vector has `n + 1`
slots; each entry `V[x]`, `x` in `1 .. n`, is negative or a parent id in `1 .. n` other
than `x`; the parent links are acyclic (a rank grows along them) and every element
reaches exactly one root; every root `r` stores the negated number of the elements whose
representative is `r`; and the sizes stored in the roots sum to `n`. -/
theorem C17_representation (n k : Nat) (V : List Int) (hV : Reach n k V) :
    V.length = n + 1 ∧
    (∀ x, 1 ≤ x → x ≤ n →
      V.getD x 0 < 0 ∨ (1 ≤ V.getD x 0 ∧ V.getD x 0 ≤ (n : Int) ∧ V.getD x 0 ≠ (x : Int))) ∧
    (∃ h : Nat → Nat, ∀ x, 1 ≤ x → x ≤ n → 0 ≤ V.getD x 0 → h x < h (V.getD x 0).toNat) ∧
    (∀ x, 1 ≤ x → x ≤ n → ∃ r, Rep V x r ∧ ∀ r1, Rep V x r1 → r1 = r) ∧
    (∀ r, 1 ≤ r → r ≤ n → V.getD r 0 < 0 →
      ∃ ms : List Nat, ms.Nodup ∧ (∀ x, x ∈ ms ↔ (1 ≤ x ∧ x ≤ n ∧ Rep V x r)) ∧
        (ms.length : Int) = - V.getD r 0) ∧
    sizeSum V = n := by
  obtain ⟨h, inv⟩ := reach_inv n k V hV
  refine ⟨inv.len, ?_, ⟨h, inv.rank⟩, ?_, ?_, reach_sizeSum n k V hV⟩
  · intro x h1 h2
    by_cases hneg : V.getD x 0 < 0
    · exact Or.inl hneg
    · right
      have hpos : 0 ≤ V.getD x 0 := by omega
      obtain ⟨p1, p2⟩ := inv.parent x h1 h2 hpos
      refine ⟨p1, p2, ?_⟩
      intro heq
      have := inv.rank x h1 h2 hpos
      rw [heq, Int.toNat_ofNat] at this
      omega
  · intro x h1 h2
    obtain ⟨r, hr⟩ := rep_exists n h V inv x h1 h2
    exact ⟨r, hr, fun r1 hr1 => rep_unique V x r1 r hr1 hr⟩
  · intro r h1 h2 hneg
    obtain ⟨ms, ⟨hm1, hm2⟩, hm3⟩ := reach_counted n k V hV r h1 h2 hneg
    exact ⟨ms, hm1, hm2, hm3⟩

theorem C17_representation_witness :
    exampleSets.length = 4 + 1 ∧
    (∀ x, 1 ≤ x → x ≤ 4 →
      exampleSets.getD x 0 < 0 ∨ (1 ≤ exampleSets.getD x 0 ∧
        exampleSets.getD x 0 ≤ ((4 : Nat) : Int) ∧ exampleSets.getD x 0 ≠ (x : Int))) ∧
    (∃ h : Nat → Nat, ∀ x, 1 ≤ x → x ≤ 4 → 0 ≤ exampleSets.getD x 0 →
      h x < h (exampleSets.getD x 0).toNat) ∧
    (∀ x, 1 ≤ x → x ≤ 4 → ∃ r, Rep exampleSets x r ∧ ∀ r1, Rep exampleSets x r1 → r1 = r) ∧
    (∀ r, 1 ≤ r → r ≤ 4 → exampleSets.getD r 0 < 0 →
      ∃ ms : List Nat, ms.Nodup ∧ (∀ x, x ∈ ms ↔ (1 ≤ x ∧ x ≤ 4 ∧ Rep exampleSets x r)) ∧
        (ms.length : Int) = - exampleSets.getD r 0) ∧
    sizeSum exampleSets = (4 : Nat) :=
  C17_representation 4 3 exampleSets exampleSets_reach

theorem log_rank_le (n : Nat) (rk : Nat → Nat) (V : List Int) (hlen : V.length = n + 1)
    (li : LogInv V n rk) (y r : Nat) (h : Rep V y r) : rk y ≤ rk r := by
  induction h with
  | root x _ _ _ => exact le_refl _
  | step x r h1 h2 hpos _ ih =>
    have := li.up x h1 (by omega) hpos
    omega

theorem log_rank_lt (n : Nat) (rk : Nat → Nat) (V : List Int) (hlen : V.length = n + 1)
    (li : LogInv V n rk) (y r : Nat) (h : Rep V y r) (hy : 0 ≤ V.getD y 0) : rk y < rk r := by
  obtain ⟨h1, h2⟩ := rep_dom V y r h
  have h3 := li.up y h1 (by omega) hy
  cases h with
  | root _ _ hneg => omega
  | step _ _ _ _ _ hrest =>
    have h4 := log_rank_le n rk V hlen li _ r hrest
    omega

theorem reach_log (n k : Nat) (V : List Int) (hV : Reach n k V) : ∃ rk, LogInv V n rk := by
  induction hV with
  | init V h =>
    refine ⟨fun _ => 0, ?_, ?_⟩
    · intro x h1 h2 hpos
      rw [new_getD n V h x h1 h2] at hpos
      omega
    · intro r h1 h2 _
      rw [new_getD n V h r h1 h2]
      simp
  | join k V V1 r s hV0 hj ih =>
    obtain ⟨rk, li⟩ := ih
    obtain ⟨h, inv⟩ := reach_inv n k V hV0
    have hlen := inv.len
    obtain ⟨⟨hne, hr, hs, hrneg, hsneg⟩, t, o, hto, hV1⟩ := join_some V r s V1 hj
    have ht : (1 ≤ t ∧ t ≤ n) ∧ V.getD t 0 < 0 := by
      rcases hto with ⟨h1, _, _⟩ | ⟨h1, _, _⟩ <;> rw [h1] <;>
        exact ⟨⟨by omega, by omega⟩, by assumption⟩
    have ho : (1 ≤ o ∧ o ≤ n) ∧ V.getD o 0 < 0 := by
      rcases hto with ⟨_, h1, _⟩ | ⟨_, h1, _⟩ <;> rw [h1] <;>
        exact ⟨⟨by omega, by omega⟩, by assumption⟩
    have hneto : t ≠ o := by
      rcases hto with ⟨h1, h2, _⟩ | ⟨h1, h2, _⟩
      · rw [h1, h2]; exact hne
      · rw [h1, h2]; exact Ne.symm hne
    have hsize : V.getD t 0 ≤ V.getD o 0 := by
      rcases hto with ⟨h1, h2, h3⟩ | ⟨h1, h2, h3⟩
      · rw [h1, h2]; omega
      · rw [h1, h2]; omega
    have hget := set_set_getD V t o (V.getD t 0 + V.getD o 0) (t : Int)
      (by omega) (by omega)
    rw [← hV1] at hget
    have hge : ∀ x, rk x ≤ (if x = t then max (rk t) (rk o + 1) else rk x) := by
      intro x
      split
      · next hx => rw [hx]; exact le_max_left _ _
      · exact le_refl _
    refine ⟨fun x => if x = t then max (rk t) (rk o + 1) else rk x, ?_, ?_⟩
    · intro y hy1 hy2 hpos
      rw [hget] at hpos ⊢
      show (if y = t then max (rk t) (rk o + 1) else rk y) < _
      by_cases hyo : y = o
      · rw [if_pos hyo, Int.toNat_ofNat, if_pos rfl, hyo, if_neg (Ne.symm hneto)]
        have := le_max_right (rk t) (rk o + 1)
        omega
      · rw [if_neg hyo] at hpos ⊢
        by_cases hyt : y = t
        · rw [if_pos hyt] at hpos; omega
        · rw [if_neg hyt] at hpos ⊢
          rw [if_neg hyt]
          have h1 := li.up y hy1 hy2 hpos
          have h2 := hge (V.getD y 0).toNat
          omega
    · intro y hy1 hy2 hneg
      rw [hget] at hneg ⊢
      show (2 : Int) ^ (if y = t then max (rk t) (rk o + 1) else rk y) ≤ _
      by_cases hyo : y = o
      · rw [if_pos hyo] at hneg; omega
      · rw [if_neg hyo] at hneg ⊢
        by_cases hyt : y = t
        · rw [if_pos hyt, if_pos hyt]
          have bt := li.big t ht.1.1 ht.1.2 ht.2
          have bo := li.big o ho.1.1 ho.1.2 ho.2
          rcases le_total (rk t) (rk o + 1) with hle | hle
          · rw [max_eq_right hle, pow_succ]
            omega
          · rw [max_eq_left hle]
            omega
        · rw [if_neg hyt] at hneg ⊢
          rw [if_neg hyt]
          exact li.big y hy1 hy2 hneg
  | find k V V1 x r hV0 hf ih =>
    obtain ⟨rk, li⟩ := ih
    obtain ⟨h, inv⟩ := reach_inv n k V hV0
    obtain ⟨hx1, hx2⟩ := find_range V x r V1 hf
    have hlen := inv.len
    obtain ⟨r2, V2, hf2, hrep, _, hl, hp1, hp2, hroots, hroots2, _⟩ :=
      find_full n h V x inv hx1 (by omega)
    rw [hf] at hf2
    simp only [Option.some.injEq, Prod.mk.injEq] at hf2
    obtain ⟨e1, e2⟩ := hf2
    subst e1
    subst e2
    refine ⟨rk, ?_, ?_⟩
    · intro y hy1 hy2 hpos
      have hposV : 0 ≤ V.getD y 0 := by
        by_contra hc
        have := hroots y (by omega)
        omega
      by_cases hc : OnPath V x y ∧ 0 ≤ V.getD y 0
      · rw [hp1 y hc.1 hc.2, Int.toNat_ofNat]
        exact log_rank_lt n rk V hlen li y r (onPath_rep V x y r hc.1 hrep) hposV
      · rw [hp2 y hc]
        exact li.up y hy1 hy2 hposV
    · intro y hy1 hy2 hneg
      have hnegV := hroots2 y hneg
      rw [hroots y hnegV]
      exact li.big y hy1 hy2 hnegV

theorem depth_rank (n : Nat) (rk : Nat → Nat) (V : List Int) (hlen : V.length = n + 1)
    (li : LogInv V n rk) (x r d : Nat) (h : Depth V x r d) : rk x + d ≤ rk r := by
  induction h with
  | root x _ _ _ => exact le_refl _
  | step x r d h1 h2 hpos _ ih =>
    have := li.up x h1 (by omega) hpos
    omega

theorem depth_unique (V : List Int) (x r1 d1 r2 d2 : Nat) (h1 : Depth V x r1 d1)
    (h2 : Depth V x r2 d2) : r1 = r2 ∧ d1 = d2 := by
  induction h1 generalizing r2 d2 with
  | root x _ _ hneg =>
    cases h2 with
    | root _ _ _ => exact ⟨rfl, rfl⟩
    | step _ _ _ _ _ hpos _ => omega
  | step x r d _ _ hpos _ ih =>
    cases h2 with
    | root _ _ hneg => omega
    | step _ _ d3 _ _ _ hrest =>
      obtain ⟨e1, e2⟩ := ih _ _ hrest
      exact ⟨e1, by rw [e2]⟩

/-- C18: logarithmic depth under union by size. In every reachable state every element
`x` of `1 .. n` reaches its root `r` after a definite number `d` of parent links, and
`2 ^ d` is at most the size `-V[r]` stored in the root, that is `d` is at most
`floor (log2 (-V[r]))`. -/
theorem C18_log_depth (n k : Nat) (V : List Int) (hV : Reach n k V) (x : Nat)
    (h1 : 1 ≤ x) (h2 : x ≤ n) :
    ∃ r d, Depth V x r d ∧ (∀ r1 d1, Depth V x r1 d1 → r1 = r ∧ d1 = d) ∧
      (2 : Int) ^ d ≤ - V.getD r 0 ∧ d ≤ Nat.log 2 (- V.getD r 0).toNat := by
  obtain ⟨h, inv⟩ := reach_inv n k V hV
  obtain ⟨rk, li⟩ := reach_log n k V hV
  have hlen := inv.len
  obtain ⟨r, hr⟩ := rep_exists n h V inv x h1 h2
  obtain ⟨d, hd⟩ := (rep_iff_depth V x r).1 hr
  obtain ⟨hr1, hr2, hr3⟩ := rep_root V x r hr
  have hrank := depth_rank n rk V hlen li x r d hd
  have hbig := li.big r hr1 (by omega) hr3
  have hpow : (2 : Int) ^ d ≤ - V.getD r 0 := by
    have : (2 : Int) ^ d ≤ (2 : Int) ^ rk r :=
      pow_le_pow_right₀ (by norm_num) (by omega)
    omega
  refine ⟨r, d, hd, fun r1 d1 hd1 => depth_unique V x r1 d1 r d hd1 hd, hpow, ?_⟩
  have hnat : 2 ^ d ≤ (- V.getD r 0).toNat := by
    have h3 : ((2 ^ d : Nat) : Int) ≤ - V.getD r 0 := by push_cast; exact hpow
    omega
  exact (Nat.pow_le_iff_le_log (by norm_num) (by omega)).1 hnat

theorem C18_log_depth_witness :
    ∃ r d, Depth exampleSets 1 r d ∧
      (∀ r1 d1, Depth exampleSets 1 r1 d1 → r1 = r ∧ d1 = d) ∧
      (2 : Int) ^ d ≤ - exampleSets.getD r 0 ∧
      d ≤ Nat.log 2 (- exampleSets.getD r 0).toNat :=
  C18_log_depth 4 3 exampleSets exampleSets_reach 1 (by decide) (by decide)

end DSets

namespace Digraph

theorem insertEdge_eq (g g1 : Digraph) (e : Edge) (h : insertEdge g e = some g1) :
    (e.from_ ≥ 1 ∧ e.from_ ≤ g.size ∧ e.to_ ≥ 1 ∧ e.to_ ≤ g.size) ∧
    g1 = { g with table := (Graph.edge_insertion g.table g.n_edges e).1,
                  n_edges := (Graph.edge_insertion g.table g.n_edges e).2 } := by
  unfold insertEdge at h
  split at h
  · next hr =>
    refine ⟨hr, ?_⟩
    simp only at h
    unfold Graph.edge_insertion
    simp only
    split at h
    · next hc =>
      simp only [Option.some.injEq] at h
      rw [if_pos hc, ← h]
    · next hc =>
      simp only [Option.some.injEq] at h
      rw [if_neg hc, ← h]
  · cases h

theorem removeEdge_eq (g g1 : Digraph) (e : Edge) (h : removeEdge g e = some g1) :
    (e.from_ ≥ 1 ∧ e.from_ ≤ g.size ∧ e.to_ ≥ 1 ∧ e.to_ ≤ g.size) ∧
    ∃ T n, Graph.edgeRemoval g.table g.n_edges e = some (T, n) ∧
      g1 = { g with table := T, n_edges := n } := by
  unfold removeEdge at h
  split at h
  · next hr =>
    refine ⟨hr, ?_⟩
    simp only at h
    unfold Graph.edgeRemoval
    simp only
    split at h
    · next hc =>
      simp only [Option.some.injEq] at h
      rw [if_pos hc]
      exact ⟨_, _, rfl, h.symm⟩
    · cases h
  · cases h

theorem uwsssp_table (g g1 : Digraph) (s : Nat) (h : uwsssp g s = some g1) :
    g1.table = g.table ∧ g1.size = g.size ∧ g1.n_edges = g.n_edges := by
  unfold uwsssp at h
  split at h
  · simp only [Option.some.injEq] at h
    rw [← h]
    exact ⟨rfl, rfl, rfl⟩
  · cases h

theorem pwsssp_table (g g1 : Digraph) (s : Nat) (h : pwsssp g s = some g1) :
    g1.table = g.table ∧ g1.size = g.size ∧ g1.n_edges = g.n_edges := by
  unfold pwsssp at h
  split at h
  · simp only [Option.some.injEq] at h
    rw [← h]
    exact ⟨rfl, rfl, rfl⟩
  · cases h

/-- In a reachable digraph the table has `size + 1` rows, every entry of row `v` has
`from = v`, and no row holds two entries with the same destination. -/
theorem reachable_rows (g : Digraph) (hg : Reachable g) :
    g.table.length = g.size + 1 ∧ Graph.RowsOK g.table := by
  induction hg with
  | new n g h =>
    unfold Digraph.new at h
    split at h
    · simp only [Option.some.injEq] at h
      rw [← h]
      refine ⟨by simp, ?_⟩
      intro v
      have hrow : (List.replicate (n + 1) ([] : List Edge)).getD v [] = [] := by
        by_cases hv : v < n + 1
        · exact getD_replicate _ _ _ _ hv
        · rw [List.getD_eq_getElem?_getD, List.getElem?_eq_none (by simp; omega)]; rfl
      show Graph.RowOK v ((List.replicate (n + 1) ([] : List Edge)).getD v [])
      rw [hrow]
      exact ⟨fun x hx => (by cases hx), List.Pairwise.nil⟩
    · cases h
  | insertEdge g g1 e _ h ih =>
    obtain ⟨hr, hg1⟩ := insertEdge_eq g g1 e h
    obtain ⟨h1, _, h3⟩ := Graph.edge_insertion_spec g.table g.n_edges e ih.2 (by omega)
    rw [hg1]
    exact ⟨by rw [h1]; exact ih.1, h3⟩
  | removeEdge g g1 e _ h ih =>
    obtain ⟨hr, T, n, hrem, hg1⟩ := removeEdge_eq g g1 e h
    obtain ⟨h1, _, h3⟩ := Graph.edgeRemoval_spec g.table g.n_edges e T n ih.2 (by omega) hrem
    rw [hg1]
    exact ⟨by rw [h1]; exact ih.1, h3⟩
  | uwsssp g g1 s _ h ih =>
    obtain ⟨h1, h2, _⟩ := uwsssp_table g g1 s h
    rw [h1, h2]; exact ih
  | pwsssp g g1 s _ h ih =>
    obtain ⟨h1, h2, _⟩ := pwsssp_table g g1 s h
    rw [h1, h2]; exact ih

theorem insertEdges_reach (V : List Edge) : ∀ g g1 : Digraph, Reachable g →
    insertEdges V g = some g1 → Reachable g1 := by
  induction V with
  | nil =>
    intro g g1 hg h
    simp only [insertEdges, Option.some.injEq] at h
    subst h; exact hg
  | cons e es ih =>
    intro g g1 hg h
    simp only [insertEdges] at h
    cases h1 : insertEdge g e with
    | none => rw [h1] at h; cases h
    | some g2 =>
      rw [h1] at h
      exact ih g2 g1 (Reachable.insertEdge g g2 e hg h1) h

theorem ofEdges_reach (V : List Edge) (n : Nat) (g : Digraph) (h : ofEdges V n = some g) :
    Reachable g := by
  unfold ofEdges at h
  cases h1 : Digraph.new n with
  | none => rw [h1] at h; cases h
  | some g0 =>
    rw [h1] at h
    exact insertEdges_reach V g0 g (Reachable.new n g0 h1) h

/-- On a row without repeated destinations the weight update touches the one entry with
the destination of `e` and keeps the order. -/
theorem updateWeight_eq_map (e : Edge) (a : Nat) (he : e.from_ = a) (row : List Edge)
    (hok : Graph.RowOK a row) :
    updateWeight e row =
      row.map (fun ed => if ed.to_ = e.to_ then { ed with weight := e.weight } else ed) := by
  induction row with
  | nil => rfl
  | cons ed rest ih =>
    have hrest : Graph.RowOK a rest :=
      ⟨fun x hx => hok.1 x (List.mem_cons_of_mem _ hx), (List.pairwise_cons.1 hok.2).2⟩
    have hed : ed.from_ = a := hok.1 ed (List.mem_cons_self _ _)
    simp only [updateWeight, List.map_cons]
    by_cases hl : e.links_same_nodes ed = true
    · rw [if_pos hl]
      have hto : ed.to_ = e.to_ := ((Graph.links_iff e ed).1 hl).2.symm
      rw [if_pos hto]
      congr 1
      have hid : rest.map (fun ed => if ed.to_ = e.to_ then { ed with weight := e.weight }
          else ed) = rest.map id := by
        apply List.map_congr_left
        intro x hx
        have := (List.pairwise_cons.1 hok.2).1 x hx
        rw [if_neg]
        · rfl
        · intro hh
          exact this (hto.trans hh.symm)
      rw [hid, List.map_id]
    · rw [if_neg hl]
      have hto : ¬ ed.to_ = e.to_ := by
        intro hh
        exact hl ((Graph.links_iff e ed).2 ⟨by rw [he, hed], hh.symm⟩)
      rw [if_neg hto, ih hrest]

theorem filter_updated (u v : Nat) (w : Int) (row : List Edge) (hok : Graph.RowOK u row)
    (hex : ∃ x ∈ row, x.to_ = v) :
    (row.map (fun ed => if ed.to_ = v then { ed with weight := w } else ed)).filter
      (fun ed => decide (ed.to_ = v)) = [⟨u, v, w⟩] := by
  induction row with
  | nil => obtain ⟨x, hx, _⟩ := hex; cases hx
  | cons ed rest ih =>
    have hrest : Graph.RowOK u rest :=
      ⟨fun x hx => hok.1 x (List.mem_cons_of_mem _ hx), (List.pairwise_cons.1 hok.2).2⟩
    have hed : ed.from_ = u := hok.1 ed (List.mem_cons_self _ _)
    simp only [List.map_cons]
    by_cases hto : ed.to_ = v
    · rw [if_pos hto, List.filter_cons_of_pos (by simpa using hto)]
      have hnone : (rest.map (fun ed => if ed.to_ = v then { ed with weight := w } else ed)).filter
          (fun ed => decide (ed.to_ = v)) = [] := by
        rw [List.filter_eq_nil_iff]
        intro x hx
        obtain ⟨y, hy, hxy⟩ := List.mem_map.1 hx
        have hne : y.to_ ≠ v := by
          intro hh
          exact (List.pairwise_cons.1 hok.2).1 y hy (hto.trans hh.symm)
        rw [if_neg hne] at hxy
        rw [← hxy]
        simpa using hne
      rw [hnone]
      congr 1
      cases ed
      simp only at hed hto
      rw [hed, hto]
    · rw [if_neg hto, List.filter_cons_of_neg (by simpa using hto)]
      apply ih hrest
      obtain ⟨x, hx, hxv⟩ := hex
      rcases List.mem_cons.1 hx with h | h
      · rw [h] at hxv; exact absurd hxv hto
      · exact ⟨x, h, hxv⟩

/-- C19: for every reachable digraph and every edge `(u, v, w)` with `u`, `v` in
`1 .. n`, `insertEdge` succeeds, afterwards `table[u]` holds exactly one entry with
destination `v` and its weight is `w`, and every other row is untouched. If `table[u]`
had no entry to `v`, the edge is appended and `n_edges` grows by one; if it had one, only
the weight of that entry changes: `n_edges`, the length of the row and the order of its
entries stay the same. -/
theorem C19_insertEdge (g : Digraph) (hg : Reachable g) (u v : Nat) (w : Int)
    (hu : 1 ≤ u ∧ u ≤ g.size) (hv : 1 ≤ v ∧ v ≤ g.size) :
    ∃ g1, insertEdge g ⟨u, v, w⟩ = some g1 ∧
      (g1.table.getD u []).filter (fun ed => decide (ed.to_ = v)) = [⟨u, v, w⟩] ∧
      (∀ x, x ≠ u → g1.table.getD x [] = g.table.getD x []) ∧
      g1.table.length = g.table.length ∧ g1.size = g.size ∧
      ((∀ ed ∈ g.table.getD u [], ed.to_ ≠ v) →
        g1.table.getD u [] = g.table.getD u [] ++ [⟨u, v, w⟩] ∧
        g1.n_edges = g.n_edges + 1) ∧
      ((∃ ed ∈ g.table.getD u [], ed.to_ = v) →
        g1.table.getD u [] = (g.table.getD u []).map
          (fun ed => if ed.to_ = v then { ed with weight := w } else ed) ∧
        (g1.table.getD u []).length = (g.table.getD u []).length ∧
        g1.n_edges = g.n_edges) := by
  obtain ⟨hlen, hrows⟩ := reachable_rows g hg
  have hrow := hrows u
  have hul : u < g.table.length := by omega
  have hany := Graph.any_links_iff ⟨u, v, w⟩ (g.table.getD u []) u hrow.1 rfl
  simp only at hany
  unfold insertEdge
  rw [if_pos ⟨hu.1, hu.2, hv.1, hv.2⟩]
  simp only
  by_cases hex : ∃ x ∈ g.table.getD u [], x.to_ = v
  · rw [if_pos (hany.2 hex)]
    have hmap := updateWeight_eq_map ⟨u, v, w⟩ u rfl (g.table.getD u []) hrow
    simp only at hmap
    have hrow1 : (g.table.set u (updateWeight ⟨u, v, w⟩ (g.table.getD u []))).getD u [] =
        (g.table.getD u []).map
          (fun ed => if ed.to_ = v then { ed with weight := w } else ed) := by
      rw [getD_set_self _ _ _ _ hul, hmap]
    refine ⟨_, rfl, ?_, ?_, by simp, rfl, ?_, ?_⟩
    · show ((g.table.set u _).getD u []).filter _ = _
      rw [hrow1]
      exact filter_updated u v w _ hrow hex
    · intro x hx
      show (g.table.set u _).getD x [] = _
      exact getD_set_ne _ _ _ _ _ (Ne.symm hx)
    · intro hno
      obtain ⟨x, hx, hxv⟩ := hex
      exact absurd hxv (hno x hx)
    · intro _
      refine ⟨hrow1, ?_, rfl⟩
      show ((g.table.set u _).getD u []).length = _
      rw [hrow1, List.length_map]
  · have hnany : ¬ ((g.table.getD u []).any
        (fun ed => Edge.links_same_nodes ⟨u, v, w⟩ ed) = true) := fun hh => hex (hany.1 hh)
    rw [if_neg hnany]
    have hrow1 : (g.table.set u (g.table.getD u [] ++ [⟨u, v, w⟩])).getD u [] =
        g.table.getD u [] ++ [⟨u, v, w⟩] := getD_set_self _ _ _ _ hul
    refine ⟨_, rfl, ?_, ?_, by simp, rfl, ?_, ?_⟩
    · show ((g.table.set u _).getD u []).filter _ = _
      rw [hrow1, List.filter_append]
      have hnone : (g.table.getD u []).filter (fun ed => decide (ed.to_ = v)) = [] := by
        rw [List.filter_eq_nil_iff]
        intro x hx
        have : x.to_ ≠ v := fun hh => hex ⟨x, hx, hh⟩
        simpa using this
      rw [hnone]
      simp
    · intro x hx
      show (g.table.set u _).getD x [] = _
      exact getD_set_ne _ _ _ _ _ (Ne.symm hx)
    · intro _
      exact ⟨hrow1, rfl⟩
    · intro hh
      exact absurd hh hex

theorem exampleDijkstraGraph_reach : Reachable exampleDijkstraGraph :=
  ofEdges_reach [⟨1, 2, 4⟩, ⟨1, 3, 1⟩, ⟨3, 2, 1⟩] 3 exampleDijkstraGraph (by decide)

theorem C19_insertEdge_witness :
    ∃ g1, insertEdge exampleDijkstraGraph ⟨1, 3, 9⟩ = some g1 ∧
      (g1.table.getD 1 []).filter (fun ed => decide (ed.to_ = 3)) = [⟨1, 3, 9⟩] ∧
      (∀ x, x ≠ 1 → g1.table.getD x [] = exampleDijkstraGraph.table.getD x []) ∧
      g1.table.length = exampleDijkstraGraph.table.length ∧
      g1.size = exampleDijkstraGraph.size ∧
      ((∀ ed ∈ exampleDijkstraGraph.table.getD 1 [], ed.to_ ≠ 3) →
        g1.table.getD 1 [] = exampleDijkstraGraph.table.getD 1 [] ++ [⟨1, 3, 9⟩] ∧
        g1.n_edges = exampleDijkstraGraph.n_edges + 1) ∧
      ((∃ ed ∈ exampleDijkstraGraph.table.getD 1 [], ed.to_ = 3) →
        g1.table.getD 1 [] = (exampleDijkstraGraph.table.getD 1 []).map
          (fun ed => if ed.to_ = 3 then { ed with weight := 9 } else ed) ∧
        (g1.table.getD 1 []).length = (exampleDijkstraGraph.table.getD 1 []).length ∧
        g1.n_edges = exampleDijkstraGraph.n_edges) :=
  C19_insertEdge exampleDijkstraGraph exampleDijkstraGraph_reach 1 3 9 (by decide) (by decide)

end Digraph

namespace Graph

theorem edgeRemoval_some (T : List (List Edge)) (n : Int) (e : Edge) (hT : RowsOK T)
    (hex : ∃ x ∈ T.getD e.from_ [], x.to_ = e.to_) :
    edgeRemoval T n e = some (T.set e.from_ (Digraph.eraseEdge e (T.getD e.from_ [])), n - 1) := by
  unfold edgeRemoval
  simp only
  rw [if_pos ((any_links_iff e _ e.from_ (hT e.from_).1 rfl).2 hex)]

theorem edgeRemoval_none (T : List (List Edge)) (n : Int) (e : Edge) (hT : RowsOK T)
    (hno : ¬ ∃ x ∈ T.getD e.from_ [], x.to_ = e.to_) : edgeRemoval T n e = none := by
  unfold edgeRemoval
  simp only
  rw [if_neg (fun hh => hno ((any_links_iff e _ e.from_ (hT e.from_).1 rfl).1 hh))]

/-- For two different vertices, inserting `(u, v, w)` and then removing `(v, u)` both
succeed and leave no entry between `u` and `v` in either row. -/
theorem insert_remove_distinct (g : Graph) (hg : Reachable g) (u v : Nat) (w w2 : Int)
    (hu : 1 ≤ u ∧ u ≤ g.size) (hv : 1 ≤ v ∧ v ≤ g.size) (hne : u ≠ v) :
    ∃ g1 g2, insertEdge g ⟨u, v, w⟩ = some g1 ∧ removeEdge g1 ⟨v, u, w2⟩ = some g2 ∧
      (∀ x ∈ g2.table.getD u [], x.to_ ≠ v) ∧ (∀ x ∈ g2.table.getD v [], x.to_ ≠ u) := by
  have hwf := reachable_wf g hg
  have hrows := wf_rowsOK g hwf
  have hlen := hwf.table_len
  obtain ⟨len1, mem1, rows1⟩ :=
    edge_insertion_spec g.table g.n_edges ⟨u, v, w⟩ hrows (by show u < _; omega)
  obtain ⟨len2, mem2, rows2⟩ :=
    edge_insertion_spec (edge_insertion g.table g.n_edges ⟨u, v, w⟩).1
      (edge_insertion g.table g.n_edges ⟨u, v, w⟩).2 (Edge.reverse ⟨u, v, w⟩) rows1
      (by show v < _; omega)
  have hins : insertEdge g ⟨u, v, w⟩ = some
      { g with
        table := (edge_insertion (edge_insertion g.table g.n_edges ⟨u, v, w⟩).1
          (edge_insertion g.table g.n_edges ⟨u, v, w⟩).2 (Edge.reverse ⟨u, v, w⟩)).1,
        n_edges := (edge_insertion (edge_insertion g.table g.n_edges ⟨u, v, w⟩).1
          (edge_insertion g.table g.n_edges ⟨u, v, w⟩).2 (Edge.reverse ⟨u, v, w⟩)).2 } := by
    unfold insertEdge
    rw [if_pos ⟨hu.1, hu.2, hv.1, hv.2⟩]
  generalize hT2 : (edge_insertion (edge_insertion g.table g.n_edges ⟨u, v, w⟩).1
    (edge_insertion g.table g.n_edges ⟨u, v, w⟩).2 (Edge.reverse ⟨u, v, w⟩)).1 = T2
    at hins len2 mem2 rows2
  generalize hn2 : (edge_insertion (edge_insertion g.table g.n_edges ⟨u, v, w⟩).1
    (edge_insertion g.table g.n_edges ⟨u, v, w⟩).2 (Edge.reverse ⟨u, v, w⟩)).2 = n2 at hins
  have he1 : (⟨u, v, w⟩ : Edge) ∈ (edge_insertion g.table g.n_edges ⟨u, v, w⟩).1.getD u [] :=
    (mem1 u ⟨u, v, w⟩).2 (Or.inl ⟨rfl, rfl⟩)
  have he2 : (⟨u, v, w⟩ : Edge) ∈ T2.getD u [] :=
    (mem2 u ⟨u, v, w⟩).2 (Or.inr ⟨he1, fun hh => hne hh.1⟩)
  have hr2 : (⟨v, u, w⟩ : Edge) ∈ T2.getD v [] :=
    (mem2 v ⟨v, u, w⟩).2 (Or.inl ⟨rfl, rfl⟩)
  have hrem1 := edgeRemoval_some T2 n2 ⟨v, u, w2⟩ rows2 ⟨_, hr2, rfl⟩
  obtain ⟨len3, mem3, rows3⟩ := edgeRemoval_spec T2 n2 ⟨v, u, w2⟩ _ _ rows2
    (by show v < _; rw [len2, len1]; omega) hrem1
  generalize hT3 : T2.set (⟨v, u, w2⟩ : Edge).from_
    (Digraph.eraseEdge ⟨v, u, w2⟩ (T2.getD (⟨v, u, w2⟩ : Edge).from_ [])) = T3
    at hrem1 len3 mem3 rows3
  have he3 : (⟨u, v, w⟩ : Edge) ∈ T3.getD u [] :=
    (mem3 u ⟨u, v, w⟩).2 ⟨he2, fun hh => hne hh.1⟩
  have hrem2 := edgeRemoval_some T3 (n2 - 1) (Edge.reverse ⟨v, u, w2⟩) rows3 ⟨_, he3, rfl⟩
  obtain ⟨len4, mem4, rows4⟩ := edgeRemoval_spec T3 (n2 - 1) (Edge.reverse ⟨v, u, w2⟩) _ _ rows3
    (by show u < _; rw [len3, len2, len1]; omega) hrem2
  generalize hT4 : T3.set (Edge.reverse ⟨v, u, w2⟩).from_
    (Digraph.eraseEdge (Edge.reverse ⟨v, u, w2⟩)
      (T3.getD (Edge.reverse ⟨v, u, w2⟩).from_ [])) = T4 at hrem2 len4 mem4 rows4
  refine ⟨_, { table := T4, size := g.size, n_edges := n2 - 1 - 1 }, hins, ?_, ?_, ?_⟩
  · unfold removeEdge
    rw [if_pos ⟨hv.1, hv.2, hu.1, hu.2⟩]
    simp only [hrem1, hrem2]
  · intro x hx
    have := (mem4 u x).1 hx
    intro hh
    exact this.2 ⟨rfl, hh⟩
  · intro x hx
    have h4 := ((mem4 v x).1 hx).1
    have h3 := (mem3 v x).1 h4
    intro hh
    exact h3.2 ⟨rfl, hh⟩

/-- For a self-loop the removal fails: the first `edgeRemoval` erases the only `(u, u)`
entry and the second one, called with the reversed (identical) edge, finds nothing. -/
theorem insert_remove_self_loop (g : Graph) (hg : Reachable g) (u : Nat) (w w2 : Int)
    (hu : 1 ≤ u ∧ u ≤ g.size) :
    ∃ g1, insertEdge g ⟨u, u, w⟩ = some g1 ∧ removeEdge g1 ⟨u, u, w2⟩ = none := by
  have hwf := reachable_wf g hg
  have hrows := wf_rowsOK g hwf
  have hlen := hwf.table_len
  obtain ⟨len1, mem1, rows1⟩ :=
    edge_insertion_spec g.table g.n_edges ⟨u, u, w⟩ hrows (by show u < _; omega)
  obtain ⟨len2, mem2, rows2⟩ :=
    edge_insertion_spec (edge_insertion g.table g.n_edges ⟨u, u, w⟩).1
      (edge_insertion g.table g.n_edges ⟨u, u, w⟩).2 (Edge.reverse ⟨u, u, w⟩) rows1
      (by show u < _; omega)
  have hins : insertEdge g ⟨u, u, w⟩ = some
      { g with
        table := (edge_insertion (edge_insertion g.table g.n_edges ⟨u, u, w⟩).1
          (edge_insertion g.table g.n_edges ⟨u, u, w⟩).2 (Edge.reverse ⟨u, u, w⟩)).1,
        n_edges := (edge_insertion (edge_insertion g.table g.n_edges ⟨u, u, w⟩).1
          (edge_insertion g.table g.n_edges ⟨u, u, w⟩).2 (Edge.reverse ⟨u, u, w⟩)).2 } := by
    unfold insertEdge
    rw [if_pos ⟨hu.1, hu.2, hu.1, hu.2⟩]
  generalize hT2 : (edge_insertion (edge_insertion g.table g.n_edges ⟨u, u, w⟩).1
    (edge_insertion g.table g.n_edges ⟨u, u, w⟩).2 (Edge.reverse ⟨u, u, w⟩)).1 = T2
    at hins len2 mem2 rows2
  generalize hn2 : (edge_insertion (edge_insertion g.table g.n_edges ⟨u, u, w⟩).1
    (edge_insertion g.table g.n_edges ⟨u, u, w⟩).2 (Edge.reverse ⟨u, u, w⟩)).2 = n2 at hins
  have hr2 : (⟨u, u, w⟩ : Edge) ∈ T2.getD u [] :=
    (mem2 u ⟨u, u, w⟩).2 (Or.inl ⟨rfl, rfl⟩)
  have hrem1 := edgeRemoval_some T2 n2 ⟨u, u, w2⟩ rows2 ⟨_, hr2, rfl⟩
  obtain ⟨len3, mem3, rows3⟩ := edgeRemoval_spec T2 n2 ⟨u, u, w2⟩ _ _ rows2
    (by show u < _; rw [len2, len1]; omega) hrem1
  generalize hT3 : T2.set (⟨u, u, w2⟩ : Edge).from_
    (Digraph.eraseEdge ⟨u, u, w2⟩ (T2.getD (⟨u, u, w2⟩ : Edge).from_ [])) = T3
    at hrem1 len3 mem3 rows3
  have hrem2 : edgeRemoval T3 (n2 - 1) (Edge.reverse ⟨u, u, w2⟩) = none := by
    apply edgeRemoval_none T3 (n2 - 1) _ rows3
    rintro ⟨x, hx, hxu⟩
    exact ((mem3 u x).1 hx).2 ⟨rfl, hxu⟩
  refine ⟨_, hins, ?_⟩
  unfold removeEdge
  rw [if_pos ⟨hu.1, hu.2, hu.1, hu.2⟩]
  simp only [hrem1, hrem2]

/-- C20 fails on the code for `u = v`: on the graph with one vertex, `insertEdge(1, 1, 5)`
succeeds and stores the single entry `(1, 1, 5)`, and the following `removeEdge(1, 1)`
hits `assert(it != end(T[e1.from]))` in its second `edgeRemoval`. -/
theorem C20_removeEdge_self_loop :
    ∃ g g1, Graph.new 1 = some g ∧ insertEdge g ⟨1, 1, 5⟩ = some g1 ∧
      g1.table = [[], [⟨1, 1, 5⟩]] ∧ g1.n_edges = 1 ∧
      edgeRemoval g1.table g1.n_edges ⟨1, 1, 5⟩ = some ([[], []], 0) ∧
      edgeRemoval [[], []] 0 (Edge.reverse ⟨1, 1, 5⟩) = none ∧
      removeEdge g1 ⟨1, 1, 5⟩ = none :=
  ⟨{ table := [[], []], size := 1, n_edges := 0 },
    { table := [[], [⟨1, 1, 5⟩]], size := 1, n_edges := 1 },
    by decide, by decide, rfl, rfl, by decide, by decide, by decide⟩

/-- Two entries of one row with the same destination are the same entry. -/
theorem row_unique (row : List Edge) (h : row.Pairwise (fun a b => a.to_ ≠ b.to_))
    (a b : Edge) (ha : a ∈ row) (hb : b ∈ row) (hab : a.to_ = b.to_) : a = b := by
  by_contra hne
  exact (h.forall (fun x y hxy => Ne.symm hxy) ha hb hne) hab

/-- After a successful `insertEdge (u, v, w)` both orientations are stored with the
weight `w`. -/
theorem insertEdge_mem (g : Graph) (hg : WF g) (u v : Nat) (w : Int) (g1 : Graph)
    (h : insertEdge g ⟨u, v, w⟩ = some g1) :
    (⟨u, v, w⟩ : Edge) ∈ g1.table.getD u [] ∧ (⟨v, u, w⟩ : Edge) ∈ g1.table.getD v [] := by
  have hrows := wf_rowsOK g hg
  have hlen := hg.table_len
  unfold insertEdge at h
  split at h
  · next hr =>
    simp only at hr
    simp only [Option.some.injEq] at h
    obtain ⟨len1, mem1, rows1⟩ :=
      edge_insertion_spec g.table g.n_edges ⟨u, v, w⟩ hrows (by show u < _; omega)
    obtain ⟨len2, mem2, rows2⟩ :=
      edge_insertion_spec (edge_insertion g.table g.n_edges ⟨u, v, w⟩).1
        (edge_insertion g.table g.n_edges ⟨u, v, w⟩).2 (Edge.reverse ⟨u, v, w⟩) rows1
        (by show v < _; omega)
    rw [← h]
    have he1 : (⟨u, v, w⟩ : Edge) ∈ (edge_insertion g.table g.n_edges ⟨u, v, w⟩).1.getD u [] :=
      (mem1 u ⟨u, v, w⟩).2 (Or.inl ⟨rfl, rfl⟩)
    refine ⟨?_, (mem2 v ⟨v, u, w⟩).2 (Or.inl ⟨rfl, rfl⟩)⟩
    by_cases huv : u = v
    · subst huv
      exact (mem2 u ⟨u, u, w⟩).2 (Or.inl ⟨rfl, rfl⟩)
    · exact (mem2 u ⟨u, v, w⟩).2 (Or.inr ⟨he1, fun hh => huv hh.1⟩)
  · cases h

/-- C21: mirror invariant of the undirected graph. In every state reachable from the
constructor by successful `insertEdge` and `removeEdge` calls, `table[u]` holds the entry
`(u, v, w)` exactly when `table[v]` holds `(v, u, w)`, with the same weight. In particular
after a successful `insertEdge (u, v, w)`, whether it appended the pair or updated an edge
stored in either orientation, both rows hold the edge with the weight `w` and with no
other weight. -/
theorem C21_mirror (g : Graph) (hg : Reachable g) :
    (∀ u v w, (⟨u, v, w⟩ : Edge) ∈ g.table.getD u [] ↔ (⟨v, u, w⟩ : Edge) ∈ g.table.getD v []) ∧
    (∀ u v w g1, insertEdge g ⟨u, v, w⟩ = some g1 →
      ((⟨u, v, w⟩ : Edge) ∈ g1.table.getD u [] ∧ (⟨v, u, w⟩ : Edge) ∈ g1.table.getD v []) ∧
      (∀ x ∈ g1.table.getD u [], x.to_ = v → x.weight = w) ∧
      (∀ x ∈ g1.table.getD v [], x.to_ = u → x.weight = w)) := by
  have hwf := reachable_wf g hg
  constructor
  · intro u v w
    constructor
    · intro h
      exact hwf.mirror u ⟨u, v, w⟩ h
    · intro h
      exact hwf.mirror v ⟨v, u, w⟩ h
  · intro u v w g1 h
    have hwf1 := reachable_wf g1 (Reachable.insertEdge g g1 _ hg h)
    obtain ⟨h1, h2⟩ := insertEdge_mem g hwf u v w g1 h
    refine ⟨⟨h1, h2⟩, ?_, ?_⟩
    · intro x hx hxv
      have := row_unique _ (hwf1.uniq u) x ⟨u, v, w⟩ hx h1 hxv
      rw [this]
    · intro x hx hxu
      have := row_unique _ (hwf1.uniq v) x ⟨v, u, w⟩ hx h2 hxu
      rw [this]

theorem C21_mirror_witness :
    (∀ u v w, (⟨u, v, w⟩ : Edge) ∈ triangle.table.getD u [] ↔
      (⟨v, u, w⟩ : Edge) ∈ triangle.table.getD v []) ∧
    (∀ u v w g1, insertEdge triangle ⟨u, v, w⟩ = some g1 →
      ((⟨u, v, w⟩ : Edge) ∈ g1.table.getD u [] ∧ (⟨v, u, w⟩ : Edge) ∈ g1.table.getD v []) ∧
      (∀ x ∈ g1.table.getD u [], x.to_ = v → x.weight = w) ∧
      (∀ x ∈ g1.table.getD v [], x.to_ = u → x.weight = w)) :=
  C21_mirror triangle triangle_reachable

end Graph

namespace Digraph

/-- In a reachable digraph slot 0 is empty and every destination lies in `1 .. size`. -/
theorem reachable_range (g : Digraph) (hg : Reachable g) :
    g.table.getD 0 [] = [] ∧ ∀ v e, e ∈ g.table.getD v [] → 1 ≤ e.to_ ∧ e.to_ ≤ g.size := by
  induction hg with
  | new n g h =>
    unfold Digraph.new at h
    split at h
    · simp only [Option.some.injEq] at h
      rw [← h]
      have hrow : ∀ v, (List.replicate (n + 1) ([] : List Edge)).getD v [] = [] := by
        intro v
        by_cases hv : v < n + 1
        · exact getD_replicate _ _ _ _ hv
        · rw [List.getD_eq_getElem?_getD, List.getElem?_eq_none (by simp; omega)]; rfl
      refine ⟨hrow 0, ?_⟩
      intro v e he
      change e ∈ (List.replicate (n + 1) ([] : List Edge)).getD v [] at he
      rw [hrow v] at he
      cases he
    · cases h
  | insertEdge g g1 e hg0 h ih =>
    obtain ⟨hr, hg1⟩ := insertEdge_eq g g1 e h
    obtain ⟨hlen, hrows⟩ := reachable_rows g hg0
    obtain ⟨_, mem1, _⟩ := Graph.edge_insertion_spec g.table g.n_edges e hrows (by omega)
    rw [hg1]
    constructor
    · apply List.eq_nil_iff_forall_not_mem.2
      intro x hx
      rcases (mem1 0 x).1 hx with h1 | h1
      · omega
      · rw [ih.1] at h1
        cases h1.1
    · intro v x hx
      rcases (mem1 v x).1 hx with h1 | h1
      · rw [h1.2]
        exact ⟨hr.2.2.1, hr.2.2.2⟩
      · exact ih.2 v x h1.1
  | removeEdge g g1 e hg0 h ih =>
    obtain ⟨hr, T, n, hrem, hg1⟩ := removeEdge_eq g g1 e h
    obtain ⟨hlen, hrows⟩ := reachable_rows g hg0
    obtain ⟨_, mem1, _⟩ := Graph.edgeRemoval_spec g.table g.n_edges e T n hrows (by omega) hrem
    rw [hg1]
    constructor
    · apply List.eq_nil_iff_forall_not_mem.2
      intro x hx
      have h1 := (mem1 0 x).1 hx
      rw [ih.1] at h1
      cases h1.1
    · intro v x hx
      exact ih.2 v x ((mem1 v x).1 hx).1
  | uwsssp g g1 s _ h ih =>
    obtain ⟨h1, h2, _⟩ := uwsssp_table g g1 s h
    rw [h1, h2]; exact ih
  | pwsssp g g1 s _ h ih =>
    obtain ⟨h1, h2, _⟩ := pwsssp_table g g1 s h
    rw [h1, h2]; exact ih

end Digraph

namespace Graph

/-- C22: uniqueness invariant of the adjacency table, for both graph kinds. In every
reachable state of a `Digraph` and of a `Graph`, slot 0 is empty, an entry stored in
`table[v]` has `1 <= v <= n`, `from = v` and `to` in `1 .. n`, and no two entries of
`table[v]` have the same destination. -/
theorem C22_uniqueness (gd : Digraph) (hd : Digraph.Reachable gd)
    (gu : Graph) (hu : Reachable gu) :
    (gd.table.getD 0 [] = [] ∧
      (∀ v e, e ∈ gd.table.getD v [] →
        (1 ≤ v ∧ v ≤ gd.size) ∧ e.from_ = v ∧ 1 ≤ e.to_ ∧ e.to_ ≤ gd.size) ∧
      ∀ v, (gd.table.getD v []).Pairwise (fun a b => a.to_ ≠ b.to_)) ∧
    (gu.table.getD 0 [] = [] ∧
      (∀ v e, e ∈ gu.table.getD v [] →
        (1 ≤ v ∧ v ≤ gu.size) ∧ e.from_ = v ∧ 1 ≤ e.to_ ∧ e.to_ ≤ gu.size) ∧
      ∀ v, (gu.table.getD v []).Pairwise (fun a b => a.to_ ≠ b.to_)) := by
  have key : ∀ (T : List (List Edge)) (n : Nat), T.length = n + 1 → T.getD 0 [] = [] →
      ∀ v (e : Edge), e ∈ T.getD v [] → 1 ≤ v ∧ v ≤ n := by
    intro T n hlen h0 v e he
    have hv0 : v ≠ 0 := by
      intro hh
      rw [hh, h0] at he
      cases he
    have hlt : v < T.length := by
      by_contra hcon
      rw [List.getD_eq_getElem?_getD, List.getElem?_eq_none (by omega)] at he
      cases he
    omega
  constructor
  · obtain ⟨hlen, hrows⟩ := Digraph.reachable_rows gd hd
    obtain ⟨h0, hrange⟩ := Digraph.reachable_range gd hd
    refine ⟨h0, ?_, ?_⟩
    · intro v e he
      exact ⟨key gd.table gd.size hlen h0 v e he, (hrows v).1 e he, hrange v e he⟩
    · intro v
      exact (hrows v).2
  · have hwf := reachable_wf gu hu
    refine ⟨hwf.row0, ?_, ?_⟩
    · intro v e he
      exact ⟨key gu.table gu.size hwf.table_len hwf.row0 v e he, hwf.range v e he⟩
    · intro v
      exact hwf.uniq v

theorem C22_uniqueness_witness :
    (Digraph.exampleDijkstraGraph.table.getD 0 [] = [] ∧
      (∀ v e, e ∈ Digraph.exampleDijkstraGraph.table.getD v [] →
        (1 ≤ v ∧ v ≤ Digraph.exampleDijkstraGraph.size) ∧ e.from_ = v ∧ 1 ≤ e.to_ ∧
          e.to_ ≤ Digraph.exampleDijkstraGraph.size) ∧
      ∀ v, (Digraph.exampleDijkstraGraph.table.getD v []).Pairwise
        (fun a b => a.to_ ≠ b.to_)) ∧
    (triangle.table.getD 0 [] = [] ∧
      (∀ v e, e ∈ triangle.table.getD v [] →
        (1 ≤ v ∧ v ≤ triangle.size) ∧ e.from_ = v ∧ 1 ≤ e.to_ ∧ e.to_ ≤ triangle.size) ∧
      ∀ v, (triangle.table.getD v []).Pairwise
        (fun a b => a.to_ ≠ b.to_)) :=
  C22_uniqueness Digraph.exampleDijkstraGraph Digraph.exampleDijkstraGraph_reach
    triangle triangle_reachable

/-- A duplicate-free list in which every element satisfying `p` equals `x0` filters to
the singleton `[x0]`. -/
theorem filter_eq_singleton (l : List Edge) (p : Edge → Bool) (x0 : Edge) (hnd : l.Nodup)
    (hmem : x0 ∈ l) (hp : p x0 = true) (hall : ∀ y ∈ l, p y = true → y = x0) :
    l.filter p = [x0] := by
  induction l with
  | nil => cases hmem
  | cons a rest ih =>
    obtain ⟨ha, hrest⟩ := List.nodup_cons.1 hnd
    by_cases hax : a = x0
    · subst hax
      rw [List.filter_cons_of_pos hp]
      congr 1
      rw [List.filter_eq_nil_iff]
      intro y hy hpy
      have := hall y (List.mem_cons_of_mem _ hy) hpy
      rw [this] at hy
      exact ha hy
    · have hpa : ¬ p a = true := fun hh => hax (hall a (List.mem_cons_self _ _) hh)
      rw [List.filter_cons_of_neg hpa]
      apply ih hrest
      · rcases List.mem_cons.1 hmem with h | h
        · exact absurd h.symm hax
        · exact h
      · intro y hy
        exact hall y (List.mem_cons_of_mem _ hy)

/-- C27: the edge list `mstKruskal` collects. In every reachable state every collected
entry has `from < to` (so it is no self-loop) and is stored in the table together with its
mirror; and for every stored edge between two different vertices `u` and `v`, of current
weight `w`, the collected entries joining `u` and `v` in either direction are exactly the
one entry `(min u v, max u v, w)`. -/
theorem C27_collectEdges (g : Graph) (hg : Reachable g) :
    (collectEdges g).Nodup ∧
    (∀ x ∈ collectEdges g, x.from_ < x.to_ ∧ x ∈ g.table.getD x.from_ [] ∧
      x.reverse ∈ g.table.getD x.to_ []) ∧
    (∀ u v w, u ≠ v → (⟨u, v, w⟩ : Edge) ∈ g.table.getD u [] →
      (collectEdges g).filter
        (fun x => decide ((x.from_ = u ∧ x.to_ = v) ∨ (x.from_ = v ∧ x.to_ = u))) =
        [⟨min u v, max u v, w⟩]) := by
  have hwf := reachable_wf g hg
  refine ⟨collectEdges_nodup g hwf, ?_, ?_⟩
  · intro x hx
    obtain ⟨h1, h2⟩ := (mem_collectEdges g hwf x).1 hx
    exact ⟨h2, h1, hwf.mirror _ x h1⟩
  · intro u v w huv he
    have hrev : (⟨v, u, w⟩ : Edge) ∈ g.table.getD v [] := hwf.mirror u ⟨u, v, w⟩ he
    have hrow : (⟨min u v, max u v, w⟩ : Edge) ∈ g.table.getD (min u v) [] := by
      rcases Nat.lt_or_gt_of_ne huv with hlt | hgt
      · rw [min_eq_left (le_of_lt hlt), max_eq_right (le_of_lt hlt)]
        exact he
      · rw [min_eq_right (le_of_lt hgt), max_eq_left (le_of_lt hgt)]
        exact hrev
    have hminmax : min u v < max u v := by
      rcases Nat.lt_or_gt_of_ne huv with hlt | hgt
      · rw [min_eq_left (le_of_lt hlt), max_eq_right (le_of_lt hlt)]
        exact hlt
      · rw [min_eq_right (le_of_lt hgt), max_eq_left (le_of_lt hgt)]
        exact hgt
    apply filter_eq_singleton _ _ _ (collectEdges_nodup g hwf)
    · exact (mem_collectEdges g hwf _).2 ⟨hrow, hminmax⟩
    · rcases Nat.lt_or_gt_of_ne huv with hlt | hgt
      · rw [min_eq_left (le_of_lt hlt), max_eq_right (le_of_lt hlt)]
        simp
      · rw [min_eq_right (le_of_lt hgt), max_eq_left (le_of_lt hgt)]
        simp
    · intro y hy hpy
      obtain ⟨h1, h2⟩ := (mem_collectEdges g hwf y).1 hy
      simp only [decide_eq_true_eq] at hpy
      have hfrom : y.from_ = min u v ∧ y.to_ = max u v := by
        rcases hpy with ⟨e1, e2⟩ | ⟨e1, e2⟩
        · rw [e1, e2] at h2
          rw [min_eq_left (le_of_lt h2), max_eq_right (le_of_lt h2)]
          exact ⟨e1, e2⟩
        · rw [e1, e2] at h2
          rw [min_eq_right (le_of_lt h2), max_eq_left (le_of_lt h2)]
          exact ⟨e1, e2⟩
      rw [hfrom.1] at h1
      exact row_unique _ (hwf.uniq _) y _ h1 hrow hfrom.2

theorem C27_collectEdges_witness :
    (collectEdges triangle).Nodup ∧
    (∀ x ∈ collectEdges triangle, x.from_ < x.to_ ∧ x ∈ triangle.table.getD x.from_ [] ∧
      x.reverse ∈ triangle.table.getD x.to_ []) ∧
    (∀ u v w, u ≠ v → (⟨u, v, w⟩ : Edge) ∈ triangle.table.getD u [] →
      (collectEdges triangle).filter
        (fun x => decide ((x.from_ = u ∧ x.to_ = v) ∨ (x.from_ = v ∧ x.to_ = u))) =
        [⟨min u v, max u v, w⟩]) :=
  C27_collectEdges triangle triangle_reachable

theorem entryCount_cons (row : List Edge) (T : List (List Edge)) :
    Digraph.entryCount (row :: T) = row.length + Digraph.entryCount T := by
  simp [Digraph.entryCount]

theorem entryCount_set (T : List (List Edge)) : ∀ (i : Nat) (r : List Edge), i < T.length →
    Digraph.entryCount (T.set i r) + (T.getD i []).length = Digraph.entryCount T + r.length := by
  induction T with
  | nil => intro i r hi; simp at hi
  | cons row t ih =>
    intro i r hi
    cases i with
    | zero =>
      simp only [List.set_cons_zero, List.getD_cons_zero, entryCount_cons]
      omega
    | succ i =>
      simp only [List.set_cons_succ, List.getD_cons_succ, entryCount_cons]
      simp only [List.length_cons] at hi
      have := ih i r (by omega)
      omega

theorem updateWeight_length (e : Edge) (row : List Edge) :
    (Digraph.updateWeight e row).length = row.length := by
  induction row with
  | nil => rfl
  | cons ed rest ih =>
    simp only [Digraph.updateWeight]
    split
    · rfl
    · simp [ih]

theorem eraseEdge_length (e : Edge) (row : List Edge)
    (h : row.any (fun ed => e.links_same_nodes ed) = true) :
    (Digraph.eraseEdge e row).length + 1 = row.length := by
  induction row with
  | nil => simp at h
  | cons ed rest ih =>
    simp only [Digraph.eraseEdge]
    split
    · rfl
    · next hne =>
      simp only [List.any_cons, Bool.or_eq_true] at h
      rcases h with h | h
      · exact absurd h hne
      · simp only [List.length_cons]
        have := ih h
        omega

/-- The lambda `edge_insertion` keeps the difference between the counter and the number
of stored entries. -/
theorem edge_insertion_count (T : List (List Edge)) (n : Int) (e : Edge)
    (hlen : e.from_ < T.length) :
    (edge_insertion T n e).2 - (Digraph.entryCount (edge_insertion T n e).1 : Int) =
      n - (Digraph.entryCount T : Int) := by
  unfold edge_insertion
  simp only
  split
  · have := entryCount_set T e.from_ (Digraph.updateWeight e (T.getD e.from_ [])) hlen
    rw [updateWeight_length] at this
    simp only
    omega
  · have := entryCount_set T e.from_ (T.getD e.from_ [] ++ [e]) hlen
    simp only [List.length_append, List.length_singleton] at this
    simp only
    omega

/-- The lambda `edgeRemoval` keeps the difference between the counter and the number of
stored entries. -/
theorem edgeRemoval_count (T : List (List Edge)) (n : Int) (e : Edge)
    (T1 : List (List Edge)) (n1 : Int) (hlen : e.from_ < T.length)
    (h : edgeRemoval T n e = some (T1, n1)) :
    n1 = n - 1 ∧ n1 - (Digraph.entryCount T1 : Int) = n - (Digraph.entryCount T : Int) := by
  unfold edgeRemoval at h
  simp only at h
  split at h
  · next hany =>
    simp only [Option.some.injEq, Prod.mk.injEq] at h
    obtain ⟨e1, e2⟩ := h
    have h1 := entryCount_set T e.from_ (Digraph.eraseEdge e (T.getD e.from_ [])) hlen
    have h2 := eraseEdge_length e _ hany
    rw [← e1, ← e2]
    exact ⟨rfl, by omega⟩
  · cases h

theorem graph_insertEdge_eq (g g1 : Graph) (e : Edge) (h : insertEdge g e = some g1) :
    (e.from_ ≥ 1 ∧ e.from_ ≤ g.size ∧ e.to_ ≥ 1 ∧ e.to_ ≤ g.size) ∧
    g1 = { g with
      table := (edge_insertion (edge_insertion g.table g.n_edges e).1
        (edge_insertion g.table g.n_edges e).2 e.reverse).1,
      n_edges := (edge_insertion (edge_insertion g.table g.n_edges e).1
        (edge_insertion g.table g.n_edges e).2 e.reverse).2 } := by
  unfold insertEdge at h
  split at h
  · next hr =>
    simp only [Option.some.injEq] at h
    exact ⟨hr, h.symm⟩
  · cases h

theorem graph_removeEdge_eq (g g1 : Graph) (e : Edge) (h : removeEdge g e = some g1) :
    (e.from_ ≥ 1 ∧ e.from_ ≤ g.size ∧ e.to_ ≥ 1 ∧ e.to_ ≤ g.size) ∧
    ∃ T1 n1 T2 n2, edgeRemoval g.table g.n_edges e = some (T1, n1) ∧
      edgeRemoval T1 n1 e.reverse = some (T2, n2) ∧
      g1 = { g with table := T2, n_edges := n2 } := by
  unfold removeEdge at h
  split at h
  · next hr =>
    refine ⟨hr, ?_⟩
    cases h1 : edgeRemoval g.table g.n_edges e with
    | none => rw [h1] at h; cases h
    | some r1 =>
      rw [h1] at h
      simp only at h
      cases h2 : edgeRemoval r1.1 r1.2 e.reverse with
      | none => rw [h2] at h; cases h
      | some r2 =>
        rw [h2] at h
        simp only [Option.some.injEq] at h
        exact ⟨r1.1, r1.2, r2.1, r2.2, rfl, h2, h.symm⟩
  · cases h

/-- In every reachable state the counter equals the number of stored entries. -/
theorem reachable_count (g : Graph) (hg : Reachable g) :
    g.n_edges = (Digraph.entryCount g.table : Int) := by
  induction hg with
  | new n g h =>
    unfold Graph.new at h
    split at h
    · simp only [Option.some.injEq] at h
      rw [← h]
      show (0 : Int) = ((Digraph.entryCount (List.replicate (n + 1) ([] : List Edge)) : Nat) : Int)
      have : Digraph.entryCount (List.replicate (n + 1) ([] : List Edge)) = 0 := by
        simp [Digraph.entryCount]
      rw [this]
      rfl
    · cases h
  | insertEdge g g1 e hg0 h ih =>
    have hwf := reachable_wf g hg0
    obtain ⟨hr, hg1⟩ := graph_insertEdge_eq g g1 e h
    have hlen := hwf.table_len
    obtain ⟨len1, _, _⟩ :=
      edge_insertion_spec g.table g.n_edges e (wf_rowsOK g hwf) (by omega)
    have c1 := edge_insertion_count g.table g.n_edges e (by omega)
    have c2 := edge_insertion_count (edge_insertion g.table g.n_edges e).1
      (edge_insertion g.table g.n_edges e).2 e.reverse (by rw [len1]; show e.to_ < _; omega)
    rw [hg1]
    simp only
    omega
  | removeEdge g g1 e hg0 h ih =>
    have hwf := reachable_wf g hg0
    obtain ⟨hr, T1, n1, T2, n2, h1, h2, hg1⟩ := graph_removeEdge_eq g g1 e h
    have hlen := hwf.table_len
    obtain ⟨len1, _, _⟩ :=
      edgeRemoval_spec g.table g.n_edges e T1 n1 (wf_rowsOK g hwf) (by omega) h1
    have c1 := edgeRemoval_count g.table g.n_edges e T1 n1 (by omega) h1
    have c2 := edgeRemoval_count T1 n1 e.reverse T2 n2 (by rw [len1]; show e.to_ < _; omega) h2
    rw [hg1]
    simp only
    omega

theorem sum_lengths_range (T : List (List Edge)) :
    Digraph.entryCount T =
      ((List.range T.length).map (fun i => (T.getD i []).length)).sum := by
  induction T with
  | nil => rfl
  | cons row t ih =>
    rw [entryCount_cons, List.length_cons, List.range_succ_eq_map, List.map_cons, List.sum_cons,
      List.map_map, ih]
    rfl

theorem length_flatMap_rows (T : List (List Edge)) (n : Nat) (hlen : T.length = n + 1)
    (h0 : T.getD 0 [] = []) :
    ((List.range' 1 n).flatMap (fun u => T.getD u [])).length = Digraph.entryCount T := by
  rw [sum_lengths_range, hlen, List.range_eq_range', List.range'_succ, List.map_cons,
    List.sum_cons, h0, List.length_flatMap]
  simp [Function.comp_def]

theorem length_three_way (l : List Nat) (f : Nat → List Edge) :
    (l.flatMap f).length =
      (l.flatMap (fun u => (f u).filter (fun e => decide (e.from_ < e.to_)))).length +
      (l.flatMap (fun u => (f u).filter (fun e => decide (e.to_ < e.from_)))).length +
      (l.flatMap (fun u => (f u).filter (fun e => decide (e.from_ = e.to_)))).length := by
  have row : ∀ r : List Edge, r.length =
      (r.filter (fun e => decide (e.from_ < e.to_))).length +
      (r.filter (fun e => decide (e.to_ < e.from_))).length +
      (r.filter (fun e => decide (e.from_ = e.to_))).length := by
    intro r
    induction r with
    | nil => rfl
    | cons e rest ih =>
      rcases Nat.lt_trichotomy e.from_ e.to_ with h | h | h
      · rw [List.filter_cons_of_pos (by simpa using h),
          List.filter_cons_of_neg (by simp; omega), List.filter_cons_of_neg (by simp; omega)]
        simp only [List.length_cons]
        omega
      · rw [List.filter_cons_of_neg (by simp; omega),
          List.filter_cons_of_neg (by simp; omega), List.filter_cons_of_pos (by simpa using h)]
        simp only [List.length_cons]
        omega
      · rw [List.filter_cons_of_neg (by simp; omega),
          List.filter_cons_of_pos (by simpa using h), List.filter_cons_of_neg (by simp; omega)]
        simp only [List.length_cons]
        omega
  induction l with
  | nil => rfl
  | cons a rest ih =>
    simp only [List.flatMap_cons, List.length_append]
    have := row (f a)
    omega

theorem mem_mirrorEdges (g : Graph) (hg : WF g) (x : Edge) :
    x ∈ mirrorEdges g ↔ x ∈ g.table.getD x.from_ [] ∧ x.to_ < x.from_ := by
  unfold mirrorEdges
  rw [List.mem_flatMap]
  constructor
  · rintro ⟨u, _, hx⟩
    rw [List.mem_filter] at hx
    have := (hg.range u x hx.1).1
    exact ⟨by rw [this]; exact hx.1, by simpa using hx.2⟩
  · rintro ⟨h1, h2⟩
    have hr := hg.range _ x h1
    have h0 : x.from_ ≠ 0 := by
      intro hh
      rw [hh, hg.row0] at h1
      cases h1
    refine ⟨x.from_, ?_, ?_⟩
    · rw [List.mem_range'_1]
      have hlt : x.from_ < g.table.length := by
        by_contra hcon
        rw [List.getD_eq_getElem?_getD, List.getElem?_eq_none (by omega)] at h1
        cases h1
      have := hg.table_len
      omega
    · rw [List.mem_filter]
      exact ⟨h1, by simpa using h2⟩

theorem mirrorEdges_nodup (g : Graph) (hg : WF g) : (mirrorEdges g).Nodup := by
  unfold mirrorEdges
  rw [List.nodup_flatMap]
  constructor
  · intro u _
    exact (row_nodup g hg u).filter _
  · apply (List.nodup_range' 1 g.size).imp
    intro a b hab
    intro x hxa hxb
    rw [List.mem_filter] at hxa hxb
    have h1 := (hg.range a x hxa.1).1
    have h2 := (hg.range b x hxb.1).1
    exact hab (h1.symm.trans h2)

theorem reverse_injective : Function.Injective Edge.reverse := by
  intro a b h
  have := congrArg Edge.reverse h
  rw [reverse_reverse, reverse_reverse] at this
  exact this

/-- Every undirected edge between two different vertices is stored twice: there are as
many mirrors as collected entries. -/
theorem mirrorEdges_length (g : Graph) (hg : WF g) :
    (mirrorEdges g).length = (collectEdges g).length := by
  apply le_antisymm
  · have hnd : ((mirrorEdges g).map Edge.reverse).Nodup :=
      (mirrorEdges_nodup g hg).map reverse_injective
    have hsub : (mirrorEdges g).map Edge.reverse ⊆ collectEdges g := by
      intro x hx
      obtain ⟨y, hy, hyx⟩ := List.mem_map.1 hx
      obtain ⟨h1, h2⟩ := (mem_mirrorEdges g hg y).1 hy
      rw [← hyx]
      exact (mem_collectEdges g hg _).2 ⟨hg.mirror _ y h1, h2⟩
    have := (List.subperm_of_subset hnd hsub).length_le
    rw [List.length_map] at this
    exact this
  · have hnd : ((collectEdges g).map Edge.reverse).Nodup :=
      (collectEdges_nodup g hg).map reverse_injective
    have hsub : (collectEdges g).map Edge.reverse ⊆ mirrorEdges g := by
      intro x hx
      obtain ⟨y, hy, hyx⟩ := List.mem_map.1 hx
      obtain ⟨h1, h2⟩ := (mem_collectEdges g hg y).1 hy
      rw [← hyx]
      exact (mem_mirrorEdges g hg _).2 ⟨hg.mirror _ y h1, h2⟩
    have := (List.subperm_of_subset hnd hsub).length_le
    rw [List.length_map] at this
    exact this

/-- C23 as stated fails: after `Graph g(2); g.insertEdge((1, 2, 5))` there is one
undirected edge, collected once, and `n_edges` is 2. -/
theorem C23_counterexample :
    ∃ g g1, Graph.new 2 = some g ∧ insertEdge g ⟨1, 2, 5⟩ = some g1 ∧
      g.n_edges = 0 ∧ collectEdges g1 = [⟨1, 2, 5⟩] ∧ selfLoops g1 = [] ∧ g1.n_edges = 2 :=
  ⟨{ table := [[], [], []], size := 2, n_edges := 0 },
    { table := [[], [⟨1, 2, 5⟩], [⟨2, 1, 5⟩]], size := 2, n_edges := 2 },
    by decide, by decide, rfl, by decide, by decide, rfl⟩

/-- C23, amended: `n_edges` counts stored entries. In every reachable state it equals the
number of entries in the table, which is twice the number of undirected edges between
different vertices (the collected entries) plus the number of self-loops. Inserting an
edge between two different vertices that is not yet present raises `n_edges` by two, and
every successful `removeEdge` lowers it by two. -/
theorem C23_edge_count (g : Graph) (hg : Reachable g) :
    g.n_edges = (Digraph.entryCount g.table : Int) ∧
    g.n_edges = 2 * ((collectEdges g).length : Int) + ((selfLoops g).length : Int) ∧
    (∀ e g1, insertEdge g e = some g1 → e.from_ ≠ e.to_ →
      (∀ x ∈ g.table.getD e.from_ [], x.to_ ≠ e.to_) → g1.n_edges = g.n_edges + 2) ∧
    (∀ e g1, removeEdge g e = some g1 → g1.n_edges = g.n_edges - 2) := by
  have hwf := reachable_wf g hg
  have hrows := wf_rowsOK g hwf
  have hlen := hwf.table_len
  have hcount := reachable_count g hg
  refine ⟨hcount, ?_, ?_, ?_⟩
  · have h1 := length_flatMap_rows g.table g.size hwf.table_len hwf.row0
    have h2 := length_three_way (List.range' 1 g.size) (fun u => g.table.getD u [])
    have h3 := mirrorEdges_length g hwf
    rw [hcount]
    unfold mirrorEdges at h3
    unfold collectEdges at h3 ⊢
    unfold selfLoops
    omega
  · intro e g1 h hne hno
    have hg1 := reachable_count g1 (Reachable.insertEdge g g1 e hg h)
    obtain ⟨hr, hg1eq⟩ := graph_insertEdge_eq g g1 e h
    obtain ⟨len1, mem1, rows1⟩ := edge_insertion_spec g.table g.n_edges e hrows (by omega)
    have hn1 : (edge_insertion g.table g.n_edges e).2 = g.n_edges + 1 := by
      unfold edge_insertion
      simp only
      rw [if_neg]
      intro hany
      obtain ⟨x, hx, hxe⟩ := (any_links_iff e _ e.from_ (hrows e.from_).1 rfl).1 hany
      exact hno x hx hxe
    have hn2 : (edge_insertion (edge_insertion g.table g.n_edges e).1
        (edge_insertion g.table g.n_edges e).2 e.reverse).2 =
        (edge_insertion g.table g.n_edges e).2 + 1 := by
      generalize (edge_insertion g.table g.n_edges e).2 = m
      unfold edge_insertion
      simp only
      rw [if_neg]
      intro hany
      obtain ⟨x, hx, hxe⟩ := (any_links_iff e.reverse _ e.reverse.from_
        (rows1 e.reverse.from_).1 rfl).1 hany
      rcases (mem1 e.reverse.from_ x).1 hx with h1 | h1
      · exact hne h1.1.symm
      · have hm := hwf.mirror _ x h1.1
        have hxf := (hwf.range _ x h1.1).1
        rw [hxe] at hm
        exact hno x.reverse hm (by show x.from_ = e.to_; rw [hxf]; rfl)
    rw [hg1eq]
    simp only
    rw [hn2, hn1]
    ring
  · intro e g1 h
    obtain ⟨hr, T1, n1, T2, n2, h1, h2, hg1⟩ := graph_removeEdge_eq g g1 e h
    obtain ⟨len1, _, _⟩ := edgeRemoval_spec g.table g.n_edges e T1 n1 hrows (by omega) h1
    have c1 := edgeRemoval_count g.table g.n_edges e T1 n1 (by omega) h1
    have c2 := edgeRemoval_count T1 n1 e.reverse T2 n2 (by rw [len1]; show e.to_ < _; omega) h2
    rw [hg1]
    simp only
    omega

theorem C23_edge_count_witness :
    triangle.n_edges = (Digraph.entryCount triangle.table : Int) ∧
    triangle.n_edges =
      2 * ((collectEdges triangle).length : Int) + ((selfLoops triangle).length : Int) ∧
    (∀ e g1, insertEdge triangle e = some g1 → e.from_ ≠ e.to_ →
      (∀ x ∈ triangle.table.getD e.from_ [], x.to_ ≠ e.to_) →
      g1.n_edges = triangle.n_edges + 2) ∧
    (∀ e g1, removeEdge triangle e = some g1 → g1.n_edges = triangle.n_edges - 2) :=
  C23_edge_count triangle triangle_reachable

end Graph

namespace Digraph

/-- In every reachable digraph the counter equals the number of stored entries. -/
theorem reach_count (g : Digraph) (hg : Reachable g) :
    g.n_edges = (entryCount g.table : Int) := by
  induction hg with
  | new n g h =>
    unfold Digraph.new at h
    split at h
    · simp only [Option.some.injEq] at h
      rw [← h]
      show (0 : Int) = ((entryCount (List.replicate (n + 1) ([] : List Edge)) : Nat) : Int)
      have : entryCount (List.replicate (n + 1) ([] : List Edge)) = 0 := by
        simp [entryCount]
      rw [this]
      rfl
    · cases h
  | insertEdge g g1 e hg0 h ih =>
    obtain ⟨hr, hg1⟩ := insertEdge_eq g g1 e h
    obtain ⟨hlen, _⟩ := reachable_rows g hg0
    have c1 := Graph.edge_insertion_count g.table g.n_edges e (by omega)
    rw [hg1]
    simp only
    omega
  | removeEdge g g1 e hg0 h ih =>
    obtain ⟨hr, T, n, hrem, hg1⟩ := removeEdge_eq g g1 e h
    obtain ⟨hlen, _⟩ := reachable_rows g hg0
    have c1 := Graph.edgeRemoval_count g.table g.n_edges e T n (by omega) hrem
    rw [hg1]
    simp only
    omega
  | uwsssp g g1 s _ h ih =>
    obtain ⟨h1, _, h3⟩ := uwsssp_table g g1 s h
    rw [h1, h3]; exact ih
  | pwsssp g g1 s _ h ih =>
    obtain ⟨h1, _, h3⟩ := pwsssp_table g g1 s h
    rw [h1, h3]; exact ih

/-- On a row without repeated destinations the erase drops the one entry with the
destination of `e` and keeps the others in their order. -/
theorem eraseEdge_eq_filter (e : Edge) (a : Nat) (he : e.from_ = a) (row : List Edge)
    (hok : Graph.RowOK a row) :
    eraseEdge e row = row.filter (fun ed => decide (ed.to_ ≠ e.to_)) := by
  induction row with
  | nil => rfl
  | cons ed rest ih =>
    have hrest : Graph.RowOK a rest :=
      ⟨fun x hx => hok.1 x (List.mem_cons_of_mem _ hx), (List.pairwise_cons.1 hok.2).2⟩
    have hed : ed.from_ = a := hok.1 ed (List.mem_cons_self _ _)
    simp only [eraseEdge]
    by_cases hl : e.links_same_nodes ed = true
    · rw [if_pos hl]
      have hto : ed.to_ = e.to_ := ((Graph.links_iff e ed).1 hl).2.symm
      rw [List.filter_cons_of_neg (by simpa using hto)]
      symm
      rw [List.filter_eq_self]
      intro x hx
      have := (List.pairwise_cons.1 hok.2).1 x hx
      have hne : x.to_ ≠ e.to_ := fun hh => this (hto.trans hh.symm)
      simpa using hne
    · rw [if_neg hl]
      have hto : ¬ ed.to_ = e.to_ := by
        intro hh
        exact hl ((Graph.links_iff e ed).2 ⟨by rw [he, hed], hh.symm⟩)
      rw [List.filter_cons_of_pos (by simpa using hto), ih hrest]

/-- `removeEdge` on a reachable digraph, with natural endpoints. -/
theorem removeEdge_spec (g : Digraph) (hg : Reachable g) (e : Edge) :
    (removeEdge g e = none ↔
      (e.from_ < 1 ∨ g.size < e.from_ ∨ e.to_ < 1 ∨ g.size < e.to_ ∨
        ∀ x ∈ g.table.getD e.from_ [], x.to_ ≠ e.to_)) ∧
    (∀ g1, removeEdge g e = some g1 →
      (∀ x, g1.table.getD x [] =
        if x = e.from_ then (g.table.getD x []).filter (fun ed => decide (ed.to_ ≠ e.to_))
        else g.table.getD x []) ∧
      (g1.table.getD e.from_ []).length + 1 = (g.table.getD e.from_ []).length ∧
      g1.n_edges = g.n_edges - 1 ∧ g1.table.length = g.table.length ∧ g1.size = g.size ∧
      g1.dist = g.dist ∧ g1.path = g.path ∧ g1.done = g.done) := by
  obtain ⟨hlen, hrows⟩ := reachable_rows g hg
  have hany := Graph.any_links_iff e (g.table.getD e.from_ []) e.from_ (hrows e.from_).1 rfl
  constructor
  · unfold removeEdge
    constructor
    · intro h
      by_contra hcon
      simp only [not_or, not_lt, not_forall, not_not] at hcon
      obtain ⟨h1, h2, h3, h4, x, hx, hxe⟩ := hcon
      rw [if_pos ⟨h1, h2, h3, h4⟩] at h
      simp only at h
      rw [if_pos (hany.2 ⟨x, hx, hxe⟩)] at h
      cases h
    · intro h
      by_cases hr : e.from_ ≥ 1 ∧ e.from_ ≤ g.size ∧ e.to_ ≥ 1 ∧ e.to_ ≤ g.size
      · rw [if_pos hr]
        simp only
        rw [if_neg]
        intro hh
        obtain ⟨x, hx, hxe⟩ := hany.1 hh
        rcases h with h | h | h | h | h
        · omega
        · omega
        · omega
        · omega
        · exact h x hx hxe
      · rw [if_neg hr]
  · intro g1 h
    unfold removeEdge at h
    split at h
    · next hr =>
      simp only at h
      split at h
      · next hc =>
        simp only [Option.some.injEq] at h
        rw [← h]
        have hul : e.from_ < g.table.length := by omega
        refine ⟨?_, ?_, rfl, by simp, rfl, rfl, rfl, rfl⟩
        · intro x
          show (g.table.set e.from_ _).getD x [] = _
          by_cases hx : x = e.from_
          · rw [if_pos hx, hx, getD_set_self _ _ _ _ hul]
            exact eraseEdge_eq_filter e e.from_ rfl _ (hrows e.from_)
          · rw [if_neg hx]
            exact getD_set_ne _ _ _ _ _ (Ne.symm hx)
        · show ((g.table.set e.from_ _).getD e.from_ []).length + 1 = _
          rw [getD_set_self _ _ _ _ hul]
          exact Graph.eraseEdge_length e _ hc
      · cases h
    · cases h

/-- C24: `Digraph::removeEdge(u, v)` on a reachable digraph. The call fails exactly when
`u` or `v` lies outside `1 .. n` or `table[u]` holds no entry to `v`, and a failing call
leaves the digraph as it was. A successful call removes the entry `(u, v)`: row `u`
becomes the old row without the entries to `v`, one entry shorter and in the old order,
every other row and the arrays are untouched, and `n_edges` drops by one. In every
reachable state `n_edges` equals the number of stored entries. -/
theorem C24_removeEdge (g : Digraph) (hg : Reachable g) (u v w : Int) :
    ((removeEdgeCall g u v w).1 = false ↔
      (u < 1 ∨ (g.size : Int) < u ∨ v < 1 ∨ (g.size : Int) < v ∨
        ∀ x ∈ g.table.getD u.toNat [], (x.to_ : Int) ≠ v)) ∧
    ((removeEdgeCall g u v w).1 = false → (removeEdgeCall g u v w).2 = g) ∧
    ((removeEdgeCall g u v w).1 = true →
      (∀ x, (removeEdgeCall g u v w).2.table.getD x [] =
        if x = u.toNat then
          (g.table.getD x []).filter (fun ed => decide (ed.to_ ≠ v.toNat))
        else g.table.getD x []) ∧
      ((removeEdgeCall g u v w).2.table.getD u.toNat []).length + 1 =
        (g.table.getD u.toNat []).length ∧
      (removeEdgeCall g u v w).2.n_edges = g.n_edges - 1 ∧
      (removeEdgeCall g u v w).2.size = g.size ∧
      (removeEdgeCall g u v w).2.dist = g.dist ∧
      (removeEdgeCall g u v w).2.path = g.path ∧
      (removeEdgeCall g u v w).2.done = g.done) ∧
    g.n_edges = (entryCount g.table : Int) := by
  obtain ⟨hnone, hsome⟩ := removeEdge_spec g hg ⟨u.toNat, v.toNat, w⟩
  simp only at hnone hsome
  refine ⟨?_, ?_, ?_, reach_count g hg⟩
  · unfold removeEdgeCall
    by_cases hnn : 0 ≤ u ∧ 0 ≤ v
    · rw [if_pos hnn]
      cases hrem : removeEdge g ⟨u.toNat, v.toNat, w⟩ with
      | none =>
        simp only [true_iff]
        rcases hnone.1 hrem with h | h | h | h | h
        · exact Or.inl (by omega)
        · exact Or.inr (Or.inl (by omega))
        · exact Or.inr (Or.inr (Or.inl (by omega)))
        · exact Or.inr (Or.inr (Or.inr (Or.inl (by omega))))
        · refine Or.inr (Or.inr (Or.inr (Or.inr ?_)))
          intro x hx hxv
          exact h x hx (by omega)
      | some g1 =>
        simp only [Bool.true_eq_false, false_iff]
        intro hcon
        have : removeEdge g ⟨u.toNat, v.toNat, w⟩ = none := by
          apply hnone.2
          rcases hcon with h | h | h | h | h
          · exact Or.inl (by omega)
          · exact Or.inr (Or.inl (by omega))
          · exact Or.inr (Or.inr (Or.inl (by omega)))
          · exact Or.inr (Or.inr (Or.inr (Or.inl (by omega))))
          · refine Or.inr (Or.inr (Or.inr (Or.inr ?_)))
            intro x hx hxv
            exact h x hx (by omega)
        rw [this] at hrem
        cases hrem
    · rw [if_neg hnn]
      simp only [true_iff]
      by_cases hu : 0 ≤ u
      · exact Or.inr (Or.inr (Or.inl (by omega)))
      · exact Or.inl (by omega)
  · unfold removeEdgeCall
    split
    · cases hrem : removeEdge g ⟨u.toNat, v.toNat, w⟩ with
      | none => intro _; rfl
      | some g1 => intro hh; cases hh
    · intro _; rfl
  · unfold removeEdgeCall
    split
    · cases hrem : removeEdge g ⟨u.toNat, v.toNat, w⟩ with
      | none => intro hh; cases hh
      | some g1 =>
        intro _
        obtain ⟨h1, h2, h3, _, h5, h6, h7, h8⟩ := hsome g1 hrem
        exact ⟨h1, h2, h3, h5, h6, h7, h8⟩
    · intro hh; cases hh

theorem C24_removeEdge_witness :
    ((removeEdgeCall exampleDijkstraGraph 1 3 0).1 = false ↔
      ((1 : Int) < 1 ∨ (exampleDijkstraGraph.size : Int) < 1 ∨ (3 : Int) < 1 ∨
        (exampleDijkstraGraph.size : Int) < 3 ∨
        ∀ x ∈ exampleDijkstraGraph.table.getD (1 : Int).toNat [], (x.to_ : Int) ≠ 3)) ∧
    ((removeEdgeCall exampleDijkstraGraph 1 3 0).1 = false →
      (removeEdgeCall exampleDijkstraGraph 1 3 0).2 = exampleDijkstraGraph) ∧
    ((removeEdgeCall exampleDijkstraGraph 1 3 0).1 = true →
      (∀ x, (removeEdgeCall exampleDijkstraGraph 1 3 0).2.table.getD x [] =
        if x = (1 : Int).toNat then
          (exampleDijkstraGraph.table.getD x []).filter
            (fun ed => decide (ed.to_ ≠ (3 : Int).toNat))
        else exampleDijkstraGraph.table.getD x []) ∧
      ((removeEdgeCall exampleDijkstraGraph 1 3 0).2.table.getD (1 : Int).toNat []).length + 1 =
        (exampleDijkstraGraph.table.getD (1 : Int).toNat []).length ∧
      (removeEdgeCall exampleDijkstraGraph 1 3 0).2.n_edges =
        exampleDijkstraGraph.n_edges - 1 ∧
      (removeEdgeCall exampleDijkstraGraph 1 3 0).2.size = exampleDijkstraGraph.size ∧
      (removeEdgeCall exampleDijkstraGraph 1 3 0).2.dist = exampleDijkstraGraph.dist ∧
      (removeEdgeCall exampleDijkstraGraph 1 3 0).2.path = exampleDijkstraGraph.path ∧
      (removeEdgeCall exampleDijkstraGraph 1 3 0).2.done = exampleDijkstraGraph.done) ∧
    exampleDijkstraGraph.n_edges = (entryCount exampleDijkstraGraph.table : Int) :=
  C24_removeEdge exampleDijkstraGraph exampleDijkstraGraph_reach 1 3 0

end Digraph

namespace Graph

theorem kruskal_init_inv (n : Nat) (ds : List Int) (h : DSets.new n = some ds) :
    KruskalInv n { ds := ds, totalWeight := 0, out := [] } := by
  obtain ⟨hinv, hroots⟩ := DSets.new_inv n ds h
  have hlen := hinv.len
  exact
    { ds := ⟨_, hinv⟩
      part := by
        intro x y hx1 hx2 hy1 hy2
        have hrx : DSets.Rep ds x x := DSets.Rep.root x hx1 (by omega) (hroots x hx1 hx2)
        have hry : DSets.Rep ds y y := DSets.Rep.root y hy1 (by omega) (hroots y hy1 hy2)
        constructor
        · rintro ⟨r, h1, h2⟩
          have e1 := DSets.rep_unique _ _ _ _ hrx h1
          have e2 := DSets.rep_unique _ _ _ _ hry h2
          rw [e1, e2]; exact conn_refl _ _
        · intro hc
          have := conn_nil x y hc
          subst this
          exact ⟨x, hrx, hrx⟩
      total := by simp [weightSum, wrap32] }

/-- Every state the loop passes through satisfies the loop invariant, and the heap holds
collected edges only. -/
theorem kruskalReach_inv (make : List Edge → List Edge)
    (pop : List Edge → Option (Edge × List Edge)) (hops : MinHeapOps make pop)
    (g : Graph) (hg : WF g) (heap : List Edge) (st : KruskalState)
    (hr : KruskalReach make pop g heap st) :
    KruskalInv g.size st ∧
      ∀ x ∈ heap, (1 ≤ x.from_ ∧ x.from_ ≤ g.size) ∧ (1 ≤ x.to_ ∧ x.to_ ≤ g.size) := by
  induction hr with
  | start ds h =>
    exact ⟨kruskal_init_inv g.size ds h,
      fun x hx => collectEdges_range g hg x ((hops.make_perm _).subset hx)⟩
  | step heap heap1 st st1 e _ hp hstep ih =>
    have hperm := hops.pop_perm heap e heap1 hp
    have heh : e ∈ heap := hperm.symm.subset (List.mem_cons_self _ _)
    obtain ⟨st2, hstep2, inv2, _⟩ :=
      kruskalStep_spec g.size st e ih.1 (ih.2 e heh).1 (ih.2 e heh).2
    rw [hstep] at hstep2
    simp only [Option.some.injEq] at hstep2
    rw [hstep2]
    exact ⟨inv2, fun x hx => ih.2 x (hperm.symm.subset (List.mem_cons_of_mem _ hx))⟩

/-- The calls of one loop iteration meet the assertions of `DSets`. -/
theorem kruskalStep_calls (n : Nat) (st : KruskalState) (e : Edge) (inv : KruskalInv n st)
    (hu : 1 ≤ e.from_ ∧ e.from_ ≤ n) (hv : 1 ≤ e.to_ ∧ e.to_ ≤ n) :
    ∃ ru ds1 rv ds2, DSets.find st.ds e.from_ = some (ru, ds1) ∧
      DSets.find ds1 e.to_ = some (rv, ds2) ∧
      ds1.length = n + 1 ∧ ds2.length = n + 1 ∧
      (1 ≤ ru ∧ ru ≤ n) ∧ (1 ≤ rv ∧ rv ≤ n) ∧
      ds1.getD ru 0 < 0 ∧ ds2.getD ru 0 < 0 ∧ ds2.getD rv 0 < 0 ∧
      (ru ≠ rv → ∃ ds3, DSets.join ds2 ru rv = some ds3) := by
  obtain ⟨h, hds⟩ := inv.ds
  obtain ⟨ru, V1, hf1, hrep1, inv1, hroots1, _, hreps1⟩ :=
    DSets.find_spec n h st.ds e.from_ hds hu.1 hu.2
  obtain ⟨rv, V2, hf2, hrep2, inv2, hroots2, _, hreps2⟩ :=
    DSets.find_spec n h V1 e.to_ inv1 hv.1 hv.2
  obtain ⟨hru1, hru2, hruneg⟩ := DSets.rep_root _ _ _ hrep1
  obtain ⟨hrv1, hrv2, hrvneg⟩ := DSets.rep_root _ _ _ hrep2
  have hlen := hds.len
  have hlen1 := inv1.len
  have hruneg1 : V1.getD ru 0 < 0 := by rw [hroots1 ru hruneg]; exact hruneg
  have hruneg2 : V2.getD ru 0 < 0 := by rw [hroots2 ru hruneg1]; exact hruneg1
  have hrvneg2 : V2.getD rv 0 < 0 := by rw [hroots2 rv hrvneg]; exact hrvneg
  refine ⟨ru, V1, rv, V2, hf1, hf2, inv1.len, inv2.len, ⟨hru1, by omega⟩, ⟨hrv1, by omega⟩,
    hruneg1, hruneg2, hrvneg2, ?_⟩
  intro hne
  obtain ⟨V3, _, _, _, hjoin, _⟩ :=
    DSets.join_spec n h V2 ru rv inv2 ⟨hru1, by omega⟩ ⟨hrv1, by omega⟩ hne hruneg2 hrvneg2
  exact ⟨V3, hjoin⟩

/-- C29: `mstKruskal` never violates the contract of `DSets`. On every reachable graph
the run returns (no assertion fails), and in every iteration of its loop, for the popped
edge `e`: `e.from` and `e.to` lie in `1 .. n`; `find(e.from)` returns a root `ru` and
`find(e.to)` a root `rv`, both in `1 .. n`; `ru` is still a root after the second `find`;
and when `ru != rv` the call `join(ru, rv)` meets all its assertions and succeeds. -/
theorem C29_kruskal_dsets (make : List Edge → List Edge)
    (pop : List Edge → Option (Edge × List Edge)) (hops : MinHeapOps make pop)
    (g : Graph) (hg : Reachable g) :
    (∃ r, mstKruskal make pop g = some r) ∧
    ∀ heap st, KruskalReach make pop g heap st → ∀ e heap1, pop heap = some (e, heap1) →
      (1 ≤ e.from_ ∧ e.from_ ≤ g.size) ∧ (1 ≤ e.to_ ∧ e.to_ ≤ g.size) ∧
      ∃ ru ds1 rv ds2, DSets.find st.ds e.from_ = some (ru, ds1) ∧
        DSets.find ds1 e.to_ = some (rv, ds2) ∧
        (1 ≤ ru ∧ ru ≤ ds2.length - 1) ∧ (1 ≤ rv ∧ rv ≤ ds2.length - 1) ∧
        ds1.getD ru 0 < 0 ∧ ds2.getD ru 0 < 0 ∧ ds2.getD rv 0 < 0 ∧
        (ru ≠ rv → ∃ ds3, DSets.join ds2 ru rv = some ds3) ∧
        ∃ st1, kruskalStep st e = some st1 := by
  have hwf := reachable_wf g hg
  constructor
  · obtain ⟨out, total, _, h, _⟩ := mstKruskal_spec make pop hops g hwf
    exact ⟨_, h⟩
  · intro heap st hr e heap1 hp
    obtain ⟨inv, hrange⟩ := kruskalReach_inv make pop hops g hwf heap st hr
    have heh : e ∈ heap := (hops.pop_perm heap e heap1 hp).symm.subset (List.mem_cons_self _ _)
    obtain ⟨hu, hv⟩ := hrange e heh
    obtain ⟨ru, ds1, rv, ds2, hf1, hf2, _, hl2, hru, hrv, hn1, hn2, hn3, hj⟩ :=
      kruskalStep_calls g.size st e inv hu hv
    obtain ⟨st1, hstep, _⟩ := kruskalStep_spec g.size st e inv hu hv
    refine ⟨hu, hv, ru, ds1, rv, ds2, hf1, hf2, ⟨hru.1, by omega⟩, ⟨hrv.1, by omega⟩,
      hn1, hn2, hn3, hj, st1, hstep⟩

theorem C29_kruskal_dsets_witness :
    (∃ r, mstKruskal id popMinEdge triangle = some r) ∧
    ∀ heap st, KruskalReach id popMinEdge triangle heap st →
      ∀ e heap1, popMinEdge heap = some (e, heap1) →
      (1 ≤ e.from_ ∧ e.from_ ≤ triangle.size) ∧ (1 ≤ e.to_ ∧ e.to_ ≤ triangle.size) ∧
      ∃ ru ds1 rv ds2, DSets.find st.ds e.from_ = some (ru, ds1) ∧
        DSets.find ds1 e.to_ = some (rv, ds2) ∧
        (1 ≤ ru ∧ ru ≤ ds2.length - 1) ∧ (1 ≤ rv ∧ rv ≤ ds2.length - 1) ∧
        ds1.getD ru 0 < 0 ∧ ds2.getD ru 0 < 0 ∧ ds2.getD rv 0 < 0 ∧
        (ru ≠ rv → ∃ ds3, DSets.join ds2 ru rv = some ds3) ∧
        ∃ st1, kruskalStep st e = some st1 :=
  C29_kruskal_dsets id popMinEdge popMinEdge_ops triangle triangle_reachable

/-- The weight update touches only an entry with the endpoints of `e`. -/
theorem updateWeight_filter (e : Edge) (p : Edge → Bool)
    (hp : ∀ ed : Edge, ed.from_ = e.from_ → ed.to_ = e.to_ → p ed = false)
    (row : List Edge) : (Digraph.updateWeight e row).filter p = row.filter p := by
  induction row with
  | nil => rfl
  | cons ed rest ih =>
    simp only [Digraph.updateWeight]
    by_cases hl : e.links_same_nodes ed = true
    · rw [if_pos hl]
      obtain ⟨h1, h2⟩ := (links_iff e ed).1 hl
      have hp1 : p { ed with weight := e.weight } = false := hp _ h1.symm h2.symm
      have hp2 : p ed = false := hp _ h1.symm h2.symm
      rw [List.filter_cons_of_neg (by rw [hp1]; simp),
        List.filter_cons_of_neg (by rw [hp2]; simp)]
    · rw [if_neg hl]
      by_cases hpe : p ed = true
      · rw [List.filter_cons_of_pos hpe, List.filter_cons_of_pos hpe, ih]
      · rw [List.filter_cons_of_neg hpe, List.filter_cons_of_neg hpe, ih]

theorem edge_insertion_length (T : List (List Edge)) (n : Int) (e : Edge) :
    (edge_insertion T n e).1.length = T.length := by
  unfold edge_insertion
  simp only
  split <;> simp

/-- The lambda `edge_insertion` leaves every row as it was, up to entries with the
endpoints of `e`: a filter that rejects those entries cannot tell the tables apart. -/
theorem edge_insertion_filter (T : List (List Edge)) (n : Int) (e : Edge) (x : Nat)
    (p : Edge → Bool)
    (hp : x = e.from_ → ∀ ed : Edge, ed.from_ = e.from_ → ed.to_ = e.to_ → p ed = false) :
    ((edge_insertion T n e).1.getD x []).filter p = (T.getD x []).filter p := by
  unfold edge_insertion
  simp only
  split
  · simp only
    rw [getD_set]
    split
    · next hc =>
      rw [← hc.1]
      exact updateWeight_filter e p (hp hc.1.symm) _
    · rfl
  · simp only
    rw [getD_set]
    split
    · next hc =>
      rw [← hc.1, List.filter_append]
      have : p e = false := hp hc.1.symm e rfl rfl
      rw [List.filter_cons_of_neg (by rw [this]; simp)]
      simp
    · rfl

theorem edge_insertion_entryCount (T : List (List Edge)) (n : Int) (e : Edge) :
    Digraph.entryCount T ≤ Digraph.entryCount (edge_insertion T n e).1 := by
  by_cases hlen : e.from_ < T.length
  · unfold edge_insertion
    simp only
    split
    · have := entryCount_set T e.from_ (Digraph.updateWeight e (T.getD e.from_ [])) hlen
      rw [updateWeight_length] at this
      simp only
      omega
    · have := entryCount_set T e.from_ (T.getD e.from_ [] ++ [e]) hlen
      simp only [List.length_append, List.length_singleton] at this
      simp only
      omega
  · unfold edge_insertion
    simp only
    split
    · simp only
      rw [List.set_eq_of_length_le (by omega)]
    · simp only
      rw [List.set_eq_of_length_le (by omega)]

end Graph

namespace Digraph

theorem uwssspRelax_len (v : Nat) (es : List Edge) : ∀ st : BfsState,
    (uwssspRelax v es st).dist.length = st.dist.length ∧
    (uwssspRelax v es st).path.length = st.path.length := by
  induction es with
  | nil => intro st; exact ⟨rfl, rfl⟩
  | cons e es ih =>
    intro st
    simp only [uwssspRelax]
    split
    · obtain ⟨h1, h2⟩ := ih
        { dist := st.dist.set e.to_ (add32 (st.dist.getD v 0) 1),
          path := st.path.set e.to_ v, q := st.q ++ [e.to_] }
      simp only [List.length_set] at h1 h2
      exact ⟨h1, h2⟩
    · exact ih st

theorem uwssspLoop_len (T : List (List Edge)) (fuel : Nat) : ∀ st : BfsState,
    (uwssspLoop T fuel st).dist.length = st.dist.length ∧
    (uwssspLoop T fuel st).path.length = st.path.length := by
  induction fuel with
  | zero => intro st; exact ⟨rfl, rfl⟩
  | succ fuel ih =>
    intro st
    simp only [uwssspLoop]
    cases hq : st.q with
    | nil => exact ⟨rfl, rfl⟩
    | cons v q1 =>
      simp only
      obtain ⟨h1, h2⟩ := ih (uwssspRelax v (T.getD v []) { st with q := q1 })
      obtain ⟨h3, h4⟩ := uwssspRelax_len v (T.getD v []) { st with q := q1 }
      exact ⟨h1.trans h3, h2.trans h4⟩

/-- The inner loop of `pwsssp` never writes `done`, keeps the array lengths and pushes at
most one pair per visited entry. -/
theorem pwssspRelax_bound (d : Int) (v : Nat) (es : List Edge) : ∀ st : DijkstraState,
    (pwssspRelax d v es st).done = st.done ∧
    (pwssspRelax d v es st).pq.length ≤ st.pq.length + es.length ∧
    (pwssspRelax d v es st).dist.length = st.dist.length ∧
    (pwssspRelax d v es st).path.length = st.path.length := by
  induction es with
  | nil => intro st; exact ⟨rfl, by simp [pwssspRelax], rfl, rfl⟩
  | cons e es ih =>
    intro st
    simp only [pwssspRelax]
    split
    · obtain ⟨h1, h2, h3, h4⟩ := ih
        { st with dist := st.dist.set e.to_ (add32 d e.weight),
                  path := st.path.set e.to_ v,
                  pq := (add32 d e.weight, e.to_) :: st.pq }
      simp only [List.length_set, List.length_cons] at h1 h2 h3 h4
      refine ⟨h1, ?_, h3, h4⟩
      simp only [List.length_cons]
      omega
    · obtain ⟨h1, h2, h3, h4⟩ := ih st
      refine ⟨h1, ?_, h3, h4⟩
      simp only [List.length_cons]
      omega

theorem pwssspLoop_len (T : List (List Edge)) (fuel : Nat) : ∀ st : DijkstraState,
    (pwssspLoop T fuel st).dist.length = st.dist.length ∧
    (pwssspLoop T fuel st).path.length = st.path.length ∧
    (pwssspLoop T fuel st).done.length = st.done.length := by
  induction fuel with
  | zero => intro st; exact ⟨rfl, rfl, rfl⟩
  | succ fuel ih =>
    intro st
    simp only [pwssspLoop]
    cases hpop : popTop pairLt st.pq with
    | none => exact ⟨rfl, rfl, rfl⟩
    | some r =>
      obtain ⟨⟨d, v⟩, pq1⟩ := r
      simp only
      split
      · exact ih { st with pq := pq1 }
      · obtain ⟨h1, h2, h3⟩ := ih (pwssspRelax d v (T.getD v [])
          { st with done := st.done.set v true, pq := pq1 })
        obtain ⟨b1, _, b3, b4⟩ := pwssspRelax_bound d v (T.getD v [])
          { st with done := st.done.set v true, pq := pq1 }
        refine ⟨h1.trans b3, h2.trans b4, ?_⟩
        rw [h3, b1]
        simp

/-- Every reachable digraph is well-formed: the three arrays keep the size the
constructor gave them. -/
theorem reach_wf (g : Digraph) (hg : Reachable g) : WF g := by
  have hlens : g.dist.length = g.size + 1 ∧ g.path.length = g.size + 1 ∧
      g.done.length = g.size + 1 := by
    induction hg with
    | new n g h =>
      obtain ⟨hw, _⟩ := new_wf n g h
      exact ⟨hw.dist_len, hw.path_len, hw.done_len⟩
    | insertEdge g g1 e _ h ih =>
      obtain ⟨_, hg1⟩ := insertEdge_eq g g1 e h
      rw [hg1]; exact ih
    | removeEdge g g1 e _ h ih =>
      obtain ⟨_, T, n, _, hg1⟩ := removeEdge_eq g g1 e h
      rw [hg1]; exact ih
    | uwsssp g g1 s _ h ih =>
      unfold uwsssp at h
      split at h
      · simp only [Option.some.injEq] at h
        rw [← h]
        obtain ⟨h1, h2⟩ := uwssspLoop_len g.table g.table.length (uwssspInit g s)
        refine ⟨?_, ?_, ih.2.2⟩
        · show (uwssspLoop g.table g.table.length (uwssspInit g s)).dist.length = _
          rw [h1]
          simp [uwssspInit, ih.1]
        · show (uwssspLoop g.table g.table.length (uwssspInit g s)).path.length = _
          rw [h2]
          simp [uwssspInit, ih.2.1]
      · cases h
    | pwsssp g g1 s _ h ih =>
      unfold pwsssp at h
      split at h
      · simp only [Option.some.injEq] at h
        rw [← h]
        obtain ⟨h1, h2, h3⟩ :=
          pwssspLoop_len g.table (entryCount g.table + 1) (pwssspInit g s)
        refine ⟨?_, ?_, ?_⟩
        · show (pwssspLoop g.table (entryCount g.table + 1) (pwssspInit g s)).dist.length = _
          rw [h1]
          simp [pwssspInit, ih.1]
        · show (pwssspLoop g.table (entryCount g.table + 1) (pwssspInit g s)).path.length = _
          rw [h2]
          simp [pwssspInit, ih.2.1]
        · show (pwssspLoop g.table (entryCount g.table + 1) (pwssspInit g s)).done.length = _
          rw [h3]
          simp [pwssspInit, ih.2.2]
      · cases h
  obtain ⟨hlen, hrows⟩ := reachable_rows g hg
  obtain ⟨h0, hrange⟩ := reachable_range g hg
  exact
    { table_len := hlen, dist_len := hlens.1, path_len := hlens.2.1, done_len := hlens.2.2,
      row0 := h0
      range := fun v e he => ⟨(hrows v).1 e he, hrange v e he⟩ }

/-- Once `dist[v]` is set, the inner loop of `uwsssp` skips every entry leading to `v`. -/
theorem uwssspRelax_filter (v : Nat) (es : List Edge) : ∀ st : BfsState,
    st.dist.getD v 0 ≠ INT_MAX →
    uwssspRelax v es st = uwssspRelax v (es.filter (fun ed => decide (ed.to_ ≠ v))) st := by
  induction es with
  | nil => intro st _; rfl
  | cons e es ih =>
    intro st hv
    by_cases hto : e.to_ = v
    · rw [List.filter_cons_of_neg (by simpa using hto)]
      simp only [uwssspRelax]
      rw [hto, if_neg hv]
      exact ih st hv
    · rw [List.filter_cons_of_pos (by simpa using hto)]
      simp only [uwssspRelax]
      split
      · apply ih
        show (st.dist.set e.to_ _).getD v 0 ≠ INT_MAX
        rw [getD_set_ne _ _ _ _ _ hto]
        exact hv
      · exact ih st hv

/-- The loop of `uwsssp` runs alike on two tables whose rows differ only in entries that
lead back to the row's own vertex. -/
theorem uwssspLoop_congr (T T1 : List (List Edge)) (n s : Nat) (hn : (n : Int) < INT_MAX)
    (htab : ∀ v e, e ∈ T.getD v [] → 1 ≤ e.to_ ∧ e.to_ ≤ n)
    (hrows : ∀ x, (T1.getD x []).filter (fun ed => decide (ed.to_ ≠ x)) =
      (T.getD x []).filter (fun ed => decide (ed.to_ ≠ x)))
    (fuel : Nat) : ∀ st : BfsState, BfsInv T n s st →
    uwssspLoop T1 fuel st = uwssspLoop T fuel st := by
  induction fuel with
  | zero => intro st _; rfl
  | succ fuel ih =>
    intro st inv
    simp only [uwssspLoop]
    cases hq : st.q with
    | nil => rfl
    | cons v q1 =>
      simp only
      have hv : st.dist.getD v 0 ≠ INT_MAX :=
        (inv.qdisc v (by rw [hq]; exact List.mem_cons_self _ _)).2
      have e1 := uwssspRelax_filter v (T1.getD v []) { st with q := q1 } hv
      have e2 := uwssspRelax_filter v (T.getD v []) { st with q := q1 } hv
      rw [e1, hrows v, ← e2]
      have inv1 := bfs_pop T n s v q1 st hq inv
      obtain ⟨inv2, _⟩ := bfs_relax_all T n s v hn (T.getD v []) [] _
        (fun e he => ⟨he, htab v e he⟩) inv1
      rw [List.nil_append] at inv2
      exact ih _ (bfs_finish T n s v _ inv2)

/-- Once `v` is marked done, the inner loop of `pwsssp` skips every entry leading to
`v`. -/
theorem pwssspRelax_filter (d : Int) (v : Nat) (es : List Edge) : ∀ st : DijkstraState,
    st.done.getD v false = true →
    pwssspRelax d v es st =
      pwssspRelax d v (es.filter (fun ed => decide (ed.to_ ≠ v))) st := by
  induction es with
  | nil => intro st _; rfl
  | cons e es ih =>
    intro st hv
    by_cases hto : e.to_ = v
    · rw [List.filter_cons_of_neg (by simpa using hto)]
      simp only [pwssspRelax]
      rw [hto, hv]
      simp only [Bool.not_true, Bool.false_and, Bool.false_eq_true, if_false]
      exact ih st hv
    · rw [List.filter_cons_of_pos (by simpa using hto)]
      simp only [pwssspRelax]
      split
      · apply ih
        exact hv
      · exact ih st hv

/-- The loop of `pwsssp` runs alike on two tables whose rows differ only in entries that
lead back to the row's own vertex. -/
theorem pwssspLoop_congr (T T1 : List (List Edge)) (hlen : T1.length = T.length)
    (hrows : ∀ x, (T1.getD x []).filter (fun ed => decide (ed.to_ ≠ x)) =
      (T.getD x []).filter (fun ed => decide (ed.to_ ≠ x)))
    (fuel : Nat) : ∀ st : DijkstraState, st.done.length = T.length →
    pwssspLoop T1 fuel st = pwssspLoop T fuel st := by
  induction fuel with
  | zero => intro st _; rfl
  | succ fuel ih =>
    intro st hd
    simp only [pwssspLoop]
    cases hpop : popTop pairLt st.pq with
    | none => rfl
    | some r =>
      obtain ⟨⟨d, v⟩, pq1⟩ := r
      simp only
      cases hdone : st.done.getD v false
      · simp only [Bool.false_eq_true, if_false]
        have hrel : pwssspRelax d v (T1.getD v [])
            { st with done := st.done.set v true, pq := pq1 } =
            pwssspRelax d v (T.getD v [])
              { st with done := st.done.set v true, pq := pq1 } := by
          by_cases hvl : v < T.length
          · have hv : (st.done.set v true).getD v false = true :=
              getD_set_self _ _ _ _ (by omega)
            have e1 := pwssspRelax_filter d v (T1.getD v [])
              { st with done := st.done.set v true, pq := pq1 } hv
            have e2 := pwssspRelax_filter d v (T.getD v [])
              { st with done := st.done.set v true, pq := pq1 } hv
            rw [e1, hrows v, ← e2]
          · have r1 : T1.getD v [] = [] := by
              rw [List.getD_eq_getElem?_getD, List.getElem?_eq_none (by omega)]; rfl
            have r2 : T.getD v [] = [] := by
              rw [List.getD_eq_getElem?_getD, List.getElem?_eq_none (by omega)]; rfl
            rw [r1, r2]
        rw [hrel]
        apply ih
        rw [(pwssspRelax_bound d v (T.getD v []) _).1]
        show (st.done.set v true).length = T.length
        rw [List.length_set]; exact hd
      · simp only [if_true]
        exact ih { st with pq := pq1 } hd

/-- With fuel at least the number of queued pairs plus the out-degrees of the vertices
not yet done, the loop of `pwsssp` ends with an empty queue, whatever the weights. -/
theorem pwssspLoop_pq_nil (T : List (List Edge)) (fuel : Nat) : ∀ st : DijkstraState,
    st.done.length = T.length → st.pq.length + undoneDeg T st.done ≤ fuel →
    (pwssspLoop T fuel st).pq = [] := by
  induction fuel with
  | zero =>
    intro st _ hm
    simp only [pwssspLoop]
    exact List.length_eq_zero.1 (by omega)
  | succ fuel ih =>
    intro st hd hm
    simp only [pwssspLoop]
    cases hpop : popTop pairLt st.pq with
    | none => exact popTop_none _ hpop
    | some r =>
      obtain ⟨⟨d, v⟩, pq1⟩ := r
      simp only
      obtain ⟨_, _, _, hlen⟩ := popTop_spec st.pq pq1 d v hpop
      cases hdone : st.done.getD v false
      · simp only [Bool.false_eq_true, if_false]
        obtain ⟨b1, b2, _, _⟩ := pwssspRelax_bound d v (T.getD v [])
          { st with done := st.done.set v true, pq := pq1 }
        apply ih
        · rw [b1]
          show (st.done.set v true).length = T.length
          rw [List.length_set]; exact hd
        · rw [b1]
          have hl3 : (pwssspRelax d v (T.getD v [])
              { st with done := st.done.set v true, pq := pq1 }).pq.length ≤
              pq1.length + (T.getD v []).length := b2
          show _ + undoneDeg T (st.done.set v true) ≤ fuel
          by_cases hvl : v < T.length
          · have := undoneDeg_set T st.done v hvl (by omega) hdone
            omega
          · have r2 : T.getD v [] = [] := by
              rw [List.getD_eq_getElem?_getD, List.getElem?_eq_none (by omega)]; rfl
            have hset : st.done.set v true = st.done := List.set_eq_of_length_le (by omega)
            rw [hset] at hl3 ⊢
            rw [r2] at hl3 ⊢
            simp only [List.length_nil] at hl3
            omega
      · simp only [if_true]
        apply ih { st with pq := pq1 } hd
        show pq1.length + undoneDeg T st.done ≤ fuel
        omega

/-- Once the loop of `pwsssp` has ended with an empty queue, more fuel changes nothing. -/
theorem pwssspLoop_extra (T : List (List Edge)) (k : Nat) (fuel : Nat) :
    ∀ st : DijkstraState, (pwssspLoop T fuel st).pq = [] →
    pwssspLoop T (fuel + k) st = pwssspLoop T fuel st := by
  induction fuel with
  | zero =>
    intro st h
    simp only [pwssspLoop] at h
    cases k with
    | zero => rfl
    | succ k =>
      rw [Nat.zero_add]
      simp only [pwssspLoop]
      rw [h]
      rfl
  | succ fuel ih =>
    intro st h
    have hk : fuel + 1 + k = (fuel + k) + 1 := by omega
    rw [hk]
    simp only [pwssspLoop] at h ⊢
    cases hpop : popTop pairLt st.pq with
    | none => rfl
    | some r =>
      obtain ⟨⟨d, v⟩, pq1⟩ := r
      rw [hpop] at h
      simp only at h ⊢
      split
      · next hdn =>
        rw [if_pos hdn] at h
        exact ih _ h
      · next hdn =>
        rw [if_neg hdn] at h
        exact ih _ h

/-- Inserting a self-loop into a reachable digraph leaves the results of `uwsssp` and
`pwsssp` as they were. -/
theorem selfLoop_sssp (g : Digraph) (hg : Reachable g) (hn : (g.size : Int) < INT_MAX)
    (v s : Nat) (w : Int) (g1 : Digraph) (h : insertEdge g ⟨v, v, w⟩ = some g1) :
    (uwsssp g1 s).map (fun r => (r.dist, r.path)) =
      (uwsssp g s).map (fun r => (r.dist, r.path)) ∧
    (pwsssp g1 s).map (fun r => (r.dist, r.path, r.done)) =
      (pwsssp g s).map (fun r => (r.dist, r.path, r.done)) := by
  have hwf := reach_wf g hg
  obtain ⟨hr, hg1⟩ := insertEdge_eq g g1 ⟨v, v, w⟩ h
  have hlen1 := Graph.edge_insertion_length g.table g.n_edges ⟨v, v, w⟩
  have hrows : ∀ x, ((Graph.edge_insertion g.table g.n_edges ⟨v, v, w⟩).1.getD x []).filter
      (fun ed => decide (ed.to_ ≠ x)) =
      (g.table.getD x []).filter (fun ed => decide (ed.to_ ≠ x)) := by
    intro x
    apply Graph.edge_insertion_filter
    intro hx ed _ hto
    simp only at hx hto
    simp only [decide_eq_false_iff_not, not_not]
    rw [hto, hx]
  have hcount := Graph.edge_insertion_entryCount g.table g.n_edges ⟨v, v, w⟩
  generalize (Graph.edge_insertion g.table g.n_edges ⟨v, v, w⟩).1 = T1
    at hg1 hlen1 hrows hcount
  generalize (Graph.edge_insertion g.table g.n_edges ⟨v, v, w⟩).2 = n1 at hg1
  subst hg1
  constructor
  · unfold uwsssp
    simp only
    by_cases hs : s ≥ 1 ∧ s ≤ g.size
    · rw [if_pos hs, if_pos hs]
      simp only [Option.map_some']
      obtain ⟨inv, _⟩ := bfs_init g s hwf hs
      have hinit : uwssspInit { g with table := T1, n_edges := n1 } s = uwssspInit g s := rfl
      rw [hinit, hlen1,
        uwssspLoop_congr g.table T1 g.size s hn (fun x e he => (hwf.range x e he).2) hrows
          g.table.length _ inv]
    · rw [if_neg hs, if_neg hs]
  · unfold pwsssp
    simp only
    by_cases hs : s ≥ 1 ∧ s ≤ g.size
    · rw [if_pos hs, if_pos hs]
      simp only [Option.map_some']
      have hinit : pwssspInit { g with table := T1, n_edges := n1 } s = pwssspInit g s := rfl
      obtain ⟨_, hm⟩ := dij_init g s hwf hs
      have hdl : (pwssspInit g s).done.length = g.table.length := by
        simp [pwssspInit, hwf.done_len, hwf.table_len]
      have hnil := pwssspLoop_pq_nil g.table (entryCount g.table + 1) (pwssspInit g s) hdl
        (by rw [hm])
      have hfuel : entryCount T1 + 1 =
          entryCount g.table + 1 + (entryCount T1 - entryCount g.table) := by omega
      rw [hinit, pwssspLoop_congr g.table T1 hlen1 hrows _ _ hdl, hfuel,
        pwssspLoop_extra g.table _ _ _ hnil]
    · rw [if_neg hs, if_neg hs]

end Digraph

namespace Graph

/-- Once `v` is marked done, the inner loop of `mstPrim` skips every entry leading to
`v`. -/
theorem primRelax_filter (v : Nat) (es : List Edge) : ∀ st : PrimState,
    st.done.getD v false = true →
    primRelax v es st = primRelax v (es.filter (fun ed => decide (ed.to_ ≠ v))) st := by
  induction es with
  | nil => intro st _; rfl
  | cons e es ih =>
    intro st hv
    by_cases hto : e.to_ = v
    · rw [List.filter_cons_of_neg (by simpa using hto)]
      simp only [primRelax]
      rw [hto, hv]
      simp only [Bool.not_true, Bool.false_and, Bool.false_eq_true, if_false]
      exact ih st hv
    · rw [List.filter_cons_of_pos (by simpa using hto)]
      simp only [primRelax]
      split
      · apply ih
        exact hv
      · exact ih st hv

/-- The inner loop of `mstPrim` never writes `done` and pushes at most one pair per
visited entry. -/
theorem primRelax_bound (u : Nat) (es : List Edge) : ∀ st : PrimState,
    (primRelax u es st).done = st.done ∧
    (primRelax u es st).heap.length ≤ st.heap.length + es.length := by
  induction es with
  | nil => intro st; exact ⟨rfl, by simp [primRelax]⟩
  | cons e es ih =>
    intro st
    simp only [primRelax]
    split
    · obtain ⟨h1, h2⟩ := ih
        { st with dist := st.dist.set e.to_ e.weight,
                  path := st.path.set e.to_ u,
                  heap := (neg32 e.weight, e.to_) :: st.heap }
      simp only [List.length_cons] at h1 h2
      refine ⟨h1, ?_⟩
      simp only [List.length_cons]
      omega
    · obtain ⟨h1, h2⟩ := ih st
      refine ⟨h1, ?_⟩
      simp only [List.length_cons]
      omega

/-- The loop of `mstPrim` runs alike on two tables whose rows differ only in entries that
lead back to the row's own vertex. -/
theorem primLoop_congr (T T1 : List (List Edge)) (hlen : T1.length = T.length)
    (hrows : ∀ x, (T1.getD x []).filter (fun ed => decide (ed.to_ ≠ x)) =
      (T.getD x []).filter (fun ed => decide (ed.to_ ≠ x)))
    (fuel : Nat) : ∀ st : PrimState, st.done.length = T.length →
    primLoop T1 fuel st = primLoop T fuel st := by
  induction fuel with
  | zero => intro st _; rfl
  | succ fuel ih =>
    intro st hd
    simp only [primLoop]
    cases hpop : Digraph.popTop (fun a b => Digraph.pairLt b a) st.heap with
    | none => rfl
    | some r =>
      obtain ⟨⟨d, v⟩, pq1⟩ := r
      simp only
      cases hdone : st.done.getD v false
      · simp only [Bool.false_eq_true, if_false]
        have hrel : primRelax v (T1.getD v [])
            { st with done := st.done.set v true, heap := pq1,
                      total_weight := add32 st.total_weight (neg32 d) } =
            primRelax v (T.getD v [])
              { st with done := st.done.set v true, heap := pq1,
                        total_weight := add32 st.total_weight (neg32 d) } := by
          by_cases hvl : v < T.length
          · have hv : (st.done.set v true).getD v false = true :=
              getD_set_self _ _ _ _ (by omega)
            have e1 := primRelax_filter v (T1.getD v [])
              { st with done := st.done.set v true, heap := pq1,
                        total_weight := add32 st.total_weight (neg32 d) } hv
            have e2 := primRelax_filter v (T.getD v [])
              { st with done := st.done.set v true, heap := pq1,
                        total_weight := add32 st.total_weight (neg32 d) } hv
            rw [e1, hrows v, ← e2]
          · have r1 : T1.getD v [] = [] := by
              rw [List.getD_eq_getElem?_getD, List.getElem?_eq_none (by omega)]; rfl
            have r2 : T.getD v [] = [] := by
              rw [List.getD_eq_getElem?_getD, List.getElem?_eq_none (by omega)]; rfl
            rw [r1, r2]
        rw [hrel]
        apply ih
        rw [(primRelax_bound v (T.getD v []) _).1]
        show (st.done.set v true).length = T.length
        rw [List.length_set]; exact hd
      · simp only [if_true]
        exact ih { st with heap := pq1 } hd

/-- With fuel at least the number of heap entries plus the degrees of the vertices not
yet done, the loop of `mstPrim` ends with an empty heap, whatever the weights. -/
theorem primLoop_heap_nil (T : List (List Edge)) (fuel : Nat) : ∀ st : PrimState,
    st.done.length = T.length → st.heap.length + Digraph.undoneDeg T st.done ≤ fuel →
    (primLoop T fuel st).heap = [] := by
  induction fuel with
  | zero =>
    intro st _ hm
    simp only [primLoop]
    exact List.length_eq_zero.1 (by omega)
  | succ fuel ih =>
    intro st hd hm
    simp only [primLoop]
    cases hpop : Digraph.popTop (fun a b => Digraph.pairLt b a) st.heap with
    | none => exact popMax_none _ hpop
    | some r =>
      obtain ⟨⟨d, v⟩, pq1⟩ := r
      simp only
      obtain ⟨_, _, _, hlen⟩ := popMax_spec st.heap pq1 d v hpop
      cases hdone : st.done.getD v false
      · simp only [Bool.false_eq_true, if_false]
        obtain ⟨b1, b2⟩ := primRelax_bound v (T.getD v [])
          { st with done := st.done.set v true, heap := pq1,
                    total_weight := add32 st.total_weight (neg32 d) }
        apply ih
        · rw [b1]
          show (st.done.set v true).length = T.length
          rw [List.length_set]; exact hd
        · rw [b1]
          have hl3 : (primRelax v (T.getD v [])
              { st with done := st.done.set v true, heap := pq1,
                        total_weight := add32 st.total_weight (neg32 d) }).heap.length ≤
              pq1.length + (T.getD v []).length := b2
          show _ + Digraph.undoneDeg T (st.done.set v true) ≤ fuel
          by_cases hvl : v < T.length
          · have := Digraph.undoneDeg_set T st.done v hvl (by omega) hdone
            omega
          · have r2 : T.getD v [] = [] := by
              rw [List.getD_eq_getElem?_getD, List.getElem?_eq_none (by omega)]; rfl
            have hset : st.done.set v true = st.done := List.set_eq_of_length_le (by omega)
            rw [hset] at hl3 ⊢
            rw [r2] at hl3 ⊢
            simp only [List.length_nil] at hl3
            omega
      · simp only [if_true]
        apply ih { st with heap := pq1 } hd
        show pq1.length + Digraph.undoneDeg T st.done ≤ fuel
        omega

/-- Once the loop of `mstPrim` has ended with an empty heap, more fuel changes nothing. -/
theorem primLoop_extra (T : List (List Edge)) (k : Nat) (fuel : Nat) :
    ∀ st : PrimState, (primLoop T fuel st).heap = [] →
    primLoop T (fuel + k) st = primLoop T fuel st := by
  induction fuel with
  | zero =>
    intro st h
    simp only [primLoop] at h
    cases k with
    | zero => rfl
    | succ k =>
      rw [Nat.zero_add]
      simp only [primLoop]
      rw [h]
      rfl
  | succ fuel ih =>
    intro st h
    have hk : fuel + 1 + k = (fuel + k) + 1 := by omega
    rw [hk]
    simp only [primLoop] at h ⊢
    cases hpop : Digraph.popTop (fun a b => Digraph.pairLt b a) st.heap with
    | none => rfl
    | some r =>
      obtain ⟨⟨d, v⟩, pq1⟩ := r
      rw [hpop] at h
      simp only at h ⊢
      split
      · next hdn =>
        rw [if_pos hdn] at h
        exact ih _ h
      · next hdn =>
        rw [if_neg hdn] at h
        exact ih _ h

/-- Inserting a self-loop into a reachable graph changes neither the collected edges nor
what `mstPrim` and `mstKruskal` return. -/
theorem selfLoop_mst (g : Graph) (hg : Reachable g) (v : Nat) (w : Int) (g1 : Graph)
    (h : insertEdge g ⟨v, v, w⟩ = some g1)
    (make : List Edge → List Edge) (pop : List Edge → Option (Edge × List Edge)) :
    collectEdges g1 = collectEdges g ∧ mstPrim g1 = mstPrim g ∧
    mstKruskal make pop g1 = mstKruskal make pop g := by
  have hwf := reachable_wf g hg
  obtain ⟨hr, hg1⟩ := graph_insertEdge_eq g g1 ⟨v, v, w⟩ h
  have hlenA := edge_insertion_length g.table g.n_edges ⟨v, v, w⟩
  have hcountA := edge_insertion_entryCount g.table g.n_edges ⟨v, v, w⟩
  have hfA : ∀ (x : Nat) (p : Edge → Bool),
      (x = v → ∀ ed : Edge, ed.from_ = v → ed.to_ = v → p ed = false) →
      ((edge_insertion g.table g.n_edges ⟨v, v, w⟩).1.getD x []).filter p =
        (g.table.getD x []).filter p :=
    fun x p hp => edge_insertion_filter g.table g.n_edges ⟨v, v, w⟩ x p hp
  generalize (edge_insertion g.table g.n_edges ⟨v, v, w⟩).1 = TA at hg1 hlenA hcountA hfA
  generalize (edge_insertion g.table g.n_edges ⟨v, v, w⟩).2 = nA at hg1
  have hlenB := edge_insertion_length TA nA (Edge.reverse ⟨v, v, w⟩)
  have hcountB := edge_insertion_entryCount TA nA (Edge.reverse ⟨v, v, w⟩)
  have hfB : ∀ (x : Nat) (p : Edge → Bool),
      (x = v → ∀ ed : Edge, ed.from_ = v → ed.to_ = v → p ed = false) →
      ((edge_insertion TA nA (Edge.reverse ⟨v, v, w⟩)).1.getD x []).filter p =
        (TA.getD x []).filter p :=
    fun x p hp => edge_insertion_filter TA nA (Edge.reverse ⟨v, v, w⟩) x p hp
  generalize (edge_insertion TA nA (Edge.reverse ⟨v, v, w⟩)).1 = TB at hg1 hlenB hcountB hfB
  generalize (edge_insertion TA nA (Edge.reverse ⟨v, v, w⟩)).2 = nB at hg1
  subst hg1
  have hlen : TB.length = g.table.length := hlenB.trans hlenA
  have hf : ∀ (x : Nat) (p : Edge → Bool),
      (x = v → ∀ ed : Edge, ed.from_ = v → ed.to_ = v → p ed = false) →
      (TB.getD x []).filter p = (g.table.getD x []).filter p :=
    fun x p hp => (hfB x p hp).trans (hfA x p hp)
  have hcollect : collectEdges { g with table := TB, n_edges := nB } = collectEdges g := by
    unfold collectEdges
    simp only
    have hfun : (fun u => (TB.getD u []).filter (fun e => decide (e.from_ < e.to_))) =
        (fun u => (g.table.getD u []).filter (fun e => decide (e.from_ < e.to_))) := by
      funext u
      apply hf
      intro _ ed h1 h2
      simp only [decide_eq_false_iff_not]
      omega
    rw [hfun]
  refine ⟨hcollect, ?_, ?_⟩
  · have hrows : ∀ x, (TB.getD x []).filter (fun ed => decide (ed.to_ ≠ x)) =
        (g.table.getD x []).filter (fun ed => decide (ed.to_ ≠ x)) := by
      intro x
      apply hf
      intro hx ed _ hto
      simp only [decide_eq_false_iff_not, not_not]
      rw [hto, hx]
    unfold mstPrim
    simp only
    have hinit : primInit { g with table := TB, n_edges := nB } = primInit g := rfl
    have hdl : (primInit g).done.length = g.table.length := by
      simp [primInit, hwf.table_len]
    have hm : (primInit g).heap.length + Digraph.undoneDeg g.table (primInit g).done =
        Digraph.entryCount g.table + 1 := by
      have hd : (primInit g).done = List.replicate g.table.length false := by
        simp [primInit, hwf.table_len]
      rw [hd, Digraph.undoneDeg_replicate]
      simp [primInit]
      omega
    have hnil := primLoop_heap_nil g.table (Digraph.entryCount g.table + 1) (primInit g) hdl
      (by rw [hm])
    have hfuel : Digraph.entryCount TB + 1 =
        Digraph.entryCount g.table + 1 +
          (Digraph.entryCount TB - Digraph.entryCount g.table) := by omega
    rw [hinit, primLoop_congr g.table TB hlen hrows _ _ hdl, hfuel,
      primLoop_extra g.table _ _ _ hnil]
  · unfold mstKruskal
    simp only
    rw [hcollect]

/-- C25: self-loops never influence results. Inserting the self-loop `(v, v, w)` into a
reachable digraph (with fewer than `INT_MAX` vertices) leaves the `dist` and `path`
arrays computed by `uwsssp(s)` and by `pwsssp(s)` as they were, for every source `s` and
every weight `w`; inserting it into a reachable undirected graph changes neither the
edges `mstKruskal` collects, nor what `mstKruskal` returns, nor the triples and the total
that `mstPrim` returns. -/
theorem C25_self_loops (g : Digraph) (hg : Digraph.Reachable g)
    (hn : (g.size : Int) < INT_MAX) (gu : Graph) (hgu : Reachable gu)
    (v s : Nat) (w : Int)
    (make : List Edge → List Edge) (pop : List Edge → Option (Edge × List Edge)) :
    (∀ g1, Digraph.insertEdge g ⟨v, v, w⟩ = some g1 →
      (Digraph.uwsssp g1 s).map (fun r => (r.dist, r.path)) =
        (Digraph.uwsssp g s).map (fun r => (r.dist, r.path)) ∧
      (Digraph.pwsssp g1 s).map (fun r => (r.dist, r.path, r.done)) =
        (Digraph.pwsssp g s).map (fun r => (r.dist, r.path, r.done))) ∧
    (∀ gu1, insertEdge gu ⟨v, v, w⟩ = some gu1 →
      collectEdges gu1 = collectEdges gu ∧ mstPrim gu1 = mstPrim gu ∧
      mstKruskal make pop gu1 = mstKruskal make pop gu) :=
  ⟨fun g1 h => Digraph.selfLoop_sssp g hg hn v s w g1 h,
    fun gu1 h => selfLoop_mst gu hgu v w gu1 h make pop⟩

theorem C25_self_loops_witness :
    (∀ g1, Digraph.insertEdge Digraph.exampleDijkstraGraph ⟨2, 2, -7⟩ = some g1 →
      (Digraph.uwsssp g1 1).map (fun r => (r.dist, r.path)) =
        (Digraph.uwsssp Digraph.exampleDijkstraGraph 1).map (fun r => (r.dist, r.path)) ∧
      (Digraph.pwsssp g1 1).map (fun r => (r.dist, r.path, r.done)) =
        (Digraph.pwsssp Digraph.exampleDijkstraGraph 1).map
          (fun r => (r.dist, r.path, r.done))) ∧
    (∀ gu1, insertEdge triangle ⟨2, 2, -7⟩ = some gu1 →
      collectEdges gu1 = collectEdges triangle ∧ mstPrim gu1 = mstPrim triangle ∧
      mstKruskal id popMinEdge gu1 = mstKruskal id popMinEdge triangle) :=
  C25_self_loops Digraph.exampleDijkstraGraph Digraph.exampleDijkstraGraph_reach (by decide)
    triangle triangle_reachable 2 1 (-7) id popMinEdge

theorem isolatedVertex_reachable : Reachable isolatedVertex :=
  ofEdges_reachable [⟨1, 2, 5⟩] 3 isolatedVertex (by decide)

/-- C26 fails on the code. After `Graph g(3); g.insertEdge((1, 2, 5))` vertex 3 is not
connected to vertex 1 and no stored entry leads to it, yet `mstPrim` prints a line for
it: the output loop runs over every `v = 2 .. size` and prints `(path[v], v, dist[v])`,
which for the unreached vertex is `(0, 3, INT_MAX)`, an entry that is no edge of the
graph. -/
theorem C26_mstPrim_unreached :
    Reachable isolatedVertex ∧
    ¬ Conn (collectEdges isolatedVertex) 1 3 ∧
    (∀ u, ∀ e ∈ isolatedVertex.table.getD u [], e.to_ ≠ 3) ∧
    mstPrim isolatedVertex = ([(1, 2, 5), (0, 3, INT_MAX)], 5) := by
  refine ⟨isolatedVertex_reachable, ?_, ?_, by decide⟩
  · have hcol : collectEdges isolatedVertex = [⟨1, 2, 5⟩] := by decide
    rw [hcol]
    have key : ∀ y, Conn [(⟨1, 2, 5⟩ : Edge)] 1 y → y = 1 ∨ y = 2 := by
      intro y hy
      induction hy with
      | refl => exact Or.inl rfl
      | tail _ hadj ih =>
        obtain ⟨e, he, hcase⟩ := hadj
        simp only [List.mem_singleton] at he
        subst he
        simp only at hcase
        omega
    intro hc
    have := key 3 hc
    omega
  · intro u e he
    have hu : u = 1 ∨ u = 2 ∨ (u ≠ 1 ∧ u ≠ 2) := by omega
    rcases hu with h | h | h
    · subst h
      simp only [isolatedVertex, List.getD_cons_succ, List.getD_cons_zero,
        List.mem_singleton] at he
      subst he
      decide
    · subst h
      simp only [isolatedVertex, List.getD_cons_succ, List.getD_cons_zero,
        List.mem_singleton] at he
      subst he
      decide
    · exfalso
      match u, h with
      | 0, _ => simp [isolatedVertex] at he
      | 3, _ => simp [isolatedVertex] at he
      | (k + 4), _ => simp [isolatedVertex] at he

end Graph

namespace Digraph

end Digraph

namespace Set

theorem isMemberFrom_iff (l : List Int) (hl : l.Pairwise (fun a b => a < b)) (v : Int) :
    isMemberFrom l v = true ↔ v ∈ l := by
  induction l with
  | nil => simp [isMemberFrom]
  | cons a rest ih =>
    obtain ⟨h1, h2⟩ := List.pairwise_cons.1 hl
    simp only [isMemberFrom, List.mem_cons]
    by_cases hle : a ≤ v
    · rw [if_pos hle]
      by_cases heq : a = v
      · rw [if_pos heq]
        simp [heq]
      · rw [if_neg heq, ih h2]
        constructor
        · intro h; exact Or.inr h
        · rintro (h | h)
          · exact absurd h.symm heq
          · exact h
    · rw [if_neg hle]
      constructor
      · intro h; cases h
      · rintro (h | h)
        · omega
        · have := h1 v h
          omega

theorem incr_eq (c : Nat) (h : c + 1 < 18446744073709551616) : incr c = c + 1 := by
  unfold incr
  rw [if_neg (by omega)]

theorem decr_eq (c : Nat) (h1 : 1 ≤ c) (h : c < 18446744073709551616) : decr c = c - 1 := by
  unfold decr
  rw [if_neg (by omega)]

theorem advance_spec (x : Int) (suf : List Int) : ∀ pre : List Int,
    (∀ p ∈ pre, p < x) →
    (advance x pre suf).1 ++ (advance x pre suf).2 = pre ++ suf ∧
    (∀ p ∈ (advance x pre suf).1, p < x) ∧
    (∀ a rest, (advance x pre suf).2 = a :: rest → x ≤ a) := by
  induction suf with
  | nil =>
    intro pre hpre
    refine ⟨rfl, hpre, ?_⟩
    intro a rest h
    simp [advance] at h
  | cons b suf ih =>
    intro pre hpre
    simp only [advance]
    by_cases hb : b < x
    · rw [if_pos hb]
      have := ih (pre ++ [b]) (by
        intro p hp
        rcases List.mem_append.1 hp with h | h
        · exact hpre p h
        · simp only [List.mem_singleton] at h
          rw [h]; exact hb)
      refine ⟨?_, this.2.1, this.2.2⟩
      rw [this.1]
      simp
    · rw [if_neg hb]
      refine ⟨rfl, hpre, ?_⟩
      intro a rest h
      simp only [List.cons.injEq] at h
      rw [← h.1]
      omega

theorem sorted_insert (pre suf : List Int) (x : Int)
    (hs : (pre ++ suf).Pairwise (fun a b => a < b)) (hpre : ∀ p ∈ pre, p < x)
    (hsuf : ∀ a ∈ suf, x < a) : ((pre ++ [x]) ++ suf).Pairwise (fun a b => a < b) := by
  rw [List.pairwise_append] at hs
  obtain ⟨h1, h2, h3⟩ := hs
  rw [List.pairwise_append]
  refine ⟨?_, h2, ?_⟩
  · rw [List.pairwise_append]
    refine ⟨h1, List.pairwise_singleton _ _, ?_⟩
    intro p hp y hy
    simp only [List.mem_singleton] at hy
    rw [hy]; exact hpre p hp
  · intro p hp y hy
    rcases List.mem_append.1 hp with h | h
    · exact h3 p h y hy
    · simp only [List.mem_singleton] at h
      rw [h]; exact hsuf y hy

theorem or_insert_iff (P1 S1 P S X Sr : Prop) (h : P1 ∨ S1 ↔ P ∨ S) :
    ((P1 ∨ X) ∨ S1 ∨ Sr) ↔ (P ∨ S ∨ X ∨ Sr) := by
  tauto

theorem or_present_iff (P1 S1 P S X Sr : Prop) (h : P1 ∨ S1 ↔ P ∨ S) (hx : X → P ∨ S) :
    (P1 ∨ S1 ∨ Sr) ↔ (P ∨ S ∨ X ∨ Sr) := by
  tauto

/-- The loop of `operator+=` merges: the result is strictly increasing, holds exactly the
values of both lists, and the counter follows the length. -/
theorem plusLoop_spec (s : List Int) : ∀ (pre suf : List Int) (c : Nat),
    (pre ++ suf).Pairwise (fun a b => a < b) → s.Pairwise (fun a b => a < b) →
    (∀ p ∈ pre, ∀ y ∈ s, p < y) → c = pre.length + suf.length →
    pre.length + suf.length + s.length < 18446744073709551616 →
    (plusLoop pre suf c s).1.Pairwise (fun a b => a < b) ∧
    (∀ z, z ∈ (plusLoop pre suf c s).1 ↔ (z ∈ pre ∨ z ∈ suf ∨ z ∈ s)) ∧
    (plusLoop pre suf c s).2 = (plusLoop pre suf c s).1.length := by
  induction s with
  | nil =>
    intro pre suf c hs _ _ hc _
    simp only [plusLoop]
    refine ⟨hs, ?_, ?_⟩
    · intro z
      simp
    · rw [hc, List.length_append]
  | cons x s ih =>
    intro pre suf c hs hss hlt hc hb
    obtain ⟨hx, hss1⟩ := List.pairwise_cons.1 hss
    have hprex : ∀ p ∈ pre, p < x := fun p hp => hlt p hp x (List.mem_cons_self _ _)
    obtain ⟨a1, a2, a3⟩ := advance_spec x suf pre hprex
    simp only [plusLoop]
    simp only [List.length_cons] at hb
    have hlen : (advance x pre suf).1.length + (advance x pre suf).2.length =
        pre.length + suf.length := by
      rw [← List.length_append, a1, List.length_append]
    have hmem : ∀ z, (z ∈ (advance x pre suf).1 ∨ z ∈ (advance x pre suf).2) ↔
        (z ∈ pre ∨ z ∈ suf) := by
      intro z
      rw [← List.mem_append, a1, List.mem_append]
    have hsort : ((advance x pre suf).1 ++ (advance x pre suf).2).Pairwise (fun a b => a < b) := by
      rw [a1]; exact hs
    generalize advance x pre suf = r at a2 a3 hlen hmem hsort
    obtain ⟨pre1, suf1⟩ := r
    simp only at a2 a3 hlen hmem hsort
    have hcb : c + 1 < 18446744073709551616 := by omega
    have hins : ∀ y ∈ s, ∀ p ∈ pre1 ++ [x], p < y := by
      intro y hy p hp
      rcases List.mem_append.1 hp with h | h
      · have := a2 p h
        have := hx y hy
        omega
      · simp only [List.mem_singleton] at h
        rw [h]; exact hx y hy
    cases suf1 with
    | nil =>
      simp only
      simp only [List.length_nil] at hlen
      have hs1 : ((pre1 ++ [x]) ++ []).Pairwise (fun a b => a < b) :=
        sorted_insert pre1 [] x hsort a2 (fun a ha => by cases ha)
      obtain ⟨r1, r2, r3⟩ := ih (pre1 ++ [x]) [] (incr c) hs1 hss1
        (fun p hp y hy => hins y hy p hp)
        (by
          rw [incr_eq c hcb]
          simp only [List.length_append, List.length_singleton, List.length_nil]
          omega)
        (by
          simp only [List.length_append, List.length_singleton, List.length_nil]
          omega)
      refine ⟨r1, ?_, r3⟩
      intro z
      have e1 : z ∈ x :: s ↔ z = x ∨ z ∈ s := List.mem_cons
      have e2 : z ∈ pre1 ++ [x] ↔ z ∈ pre1 ∨ z = x := by
        rw [List.mem_append, List.mem_singleton]
      rw [r2 z, e1, e2]
      exact or_insert_iff _ _ _ _ _ _ (hmem z)
    | cons a suf2 =>
      simp only
      simp only [List.length_cons] at hlen
      have hxa : x ≤ a := a3 a suf2 rfl
      by_cases hgt : a > x
      · rw [if_pos hgt]
        have hsuf : ∀ b ∈ a :: suf2, x < b := by
          intro b hb
          rcases List.mem_cons.1 hb with h | h
          · rw [h]; exact hgt
          · have h1 := (List.pairwise_append.1 hsort).2.1
            have := (List.pairwise_cons.1 h1).1 b h
            omega
        have hs1 := sorted_insert pre1 (a :: suf2) x hsort a2 hsuf
        obtain ⟨r1, r2, r3⟩ := ih (pre1 ++ [x]) (a :: suf2) (incr c) hs1 hss1
          (fun p hp y hy => hins y hy p hp)
          (by
            rw [incr_eq c hcb]
            simp only [List.length_append, List.length_singleton, List.length_cons,
              List.length_nil]
            omega)
          (by
            simp only [List.length_append, List.length_singleton, List.length_cons,
              List.length_nil]
            omega)
        refine ⟨r1, ?_, r3⟩
        intro z
        have e1 : z ∈ x :: s ↔ z = x ∨ z ∈ s := List.mem_cons
        have e2 : z ∈ pre1 ++ [x] ↔ z ∈ pre1 ∨ z = x := by
          rw [List.mem_append, List.mem_singleton]
        rw [r2 z, e1, e2]
        exact or_insert_iff _ _ _ _ _ _ (hmem z)
      · rw [if_neg hgt]
        have hax : a = x := by omega
        obtain ⟨r1, r2, r3⟩ := ih pre1 (a :: suf2) c hsort hss1
          (fun p hp y hy => by
            have := a2 p hp
            have := hx y hy
            omega)
          (by simp only [List.length_cons]; omega)
          (by simp only [List.length_cons]; omega)
        refine ⟨r1, ?_, r3⟩
        intro z
        have e1 : z ∈ x :: s ↔ z = x ∨ z ∈ s := List.mem_cons
        have hxin : z = x → z ∈ pre ∨ z ∈ suf := by
          intro hz
          rw [hz, ← hmem x, ← hax]
          exact Or.inr (List.mem_cons_self _ _)
        rw [r2 z, e1]
        exact or_present_iff _ _ _ _ _ _ (hmem z) hxin

theorem dropRest_eq (suf : List Int) : ∀ c : Nat, suf.length ≤ c → c < 18446744073709551616 →
    dropRest suf c = c - suf.length := by
  induction suf with
  | nil => intro c _ _; simp [dropRest]
  | cons a suf ih =>
    intro c h1 h2
    simp only [List.length_cons] at h1
    simp only [dropRest, List.length_cons]
    rw [decr_eq c (by omega) h2, ih (c - 1) (by omega) (by omega)]
    omega

theorem filter_mem_cons_of_lt (l s : List Int) (x : Int) (h : ∀ b ∈ l, x < b) :
    l.filter (fun b => decide (b ∈ x :: s)) = l.filter (fun b => decide (b ∈ s)) := by
  apply List.filter_congr
  intro b hb
  have := h b hb
  simp only [List.mem_cons, decide_eq_decide]
  constructor
  · rintro (h1 | h1)
    · omega
    · exact h1
  · intro h1; exact Or.inr h1

theorem filter_not_mem_cons_of_lt (l s : List Int) (x : Int) (h : ∀ b ∈ l, x < b) :
    l.filter (fun b => decide (b ∉ x :: s)) = l.filter (fun b => decide (b ∉ s)) := by
  apply List.filter_congr
  intro b hb
  have := h b hb
  simp only [List.mem_cons, decide_eq_decide, not_or]
  constructor
  · intro h1; exact h1.2
  · intro h1; exact ⟨by omega, h1⟩

/-- The two loops of `operator*=` keep exactly the values of `*this` that occur in `S`,
in their order, and count the removed nodes down. -/
theorem timesLoop_spec (fuel : Nat) : ∀ (pre suf : List Int) (c : Nat) (s : List Int),
    suf.length + s.length ≤ fuel →
    suf.Pairwise (fun a b => a < b) → s.Pairwise (fun a b => a < b) →
    c = pre.length + suf.length → c < 18446744073709551616 →
    (timesLoop fuel pre suf c s).1 = pre ++ suf.filter (fun b => decide (b ∈ s)) ∧
    dropRest (timesLoop fuel pre suf c s).2.1 (timesLoop fuel pre suf c s).2.2 =
      (pre ++ suf.filter (fun b => decide (b ∈ s))).length := by
  induction fuel with
  | zero =>
    intro pre suf c s hf _ _ hc _
    have h1 : suf = [] := List.length_eq_zero.1 (by omega)
    subst h1
    constructor <;> simp [timesLoop, dropRest, hc]
  | succ fuel ih =>
    intro pre suf c s hf hsuf hs hc hb
    cases suf with
    | nil =>
      constructor <;> simp [timesLoop, dropRest, hc]
    | cons a suf =>
      obtain ⟨ha, hsuf1⟩ := List.pairwise_cons.1 hsuf
      simp only [List.length_cons] at hf hc
      cases s with
      | nil =>
        simp only [timesLoop]
        have hnil : (a :: suf).filter (fun b => decide (b ∈ ([] : List Int))) = [] := by
          rw [List.filter_eq_nil_iff]
          intro b _
          simp
        rw [hnil]
        refine ⟨by simp, ?_⟩
        show dropRest (a :: suf) c = _
        rw [dropRest_eq (a :: suf) c (by simp only [List.length_cons]; omega) hb]
        simp only [List.length_cons, List.append_nil]
        omega
      | cons x s =>
        obtain ⟨hx, hs1⟩ := List.pairwise_cons.1 hs
        simp only [List.length_cons] at hf
        simp only [timesLoop]
        by_cases hlt : a < x
        · rw [if_pos hlt]
          have hnot : a ∉ x :: s := by
            intro hmem
            rcases List.mem_cons.1 hmem with h | h
            · omega
            · have := hx a h
              omega
          rw [List.filter_cons_of_neg (by simpa using hnot)]
          exact ih pre suf (decr c) (x :: s) (by simp only [List.length_cons]; omega) hsuf1 hs
            (by rw [decr_eq c (by omega) hb]; omega)
            (by rw [decr_eq c (by omega) hb]; omega)
        · rw [if_neg hlt]
          by_cases hgt : a > x
          · rw [if_pos hgt]
            have hall : ∀ b ∈ a :: suf, x < b := by
              intro b hb
              rcases List.mem_cons.1 hb with h | h
              · rw [h]; exact hgt
              · have := ha b h
                omega
            rw [filter_mem_cons_of_lt (a :: suf) s x hall]
            exact ih pre (a :: suf) c s (by simp only [List.length_cons]; omega) hsuf hs1
              (by simp only [List.length_cons]; omega) hb
          · rw [if_neg hgt]
            have hax : a = x := by omega
            have hin : a ∈ x :: s := by rw [hax]; exact List.mem_cons_self _ _
            rw [List.filter_cons_of_pos (by simpa using hin)]
            have hall : ∀ b ∈ suf, x < b := by
              intro b hb
              have := ha b hb
              omega
            rw [filter_mem_cons_of_lt suf s x hall]
            have := ih (pre ++ [a]) suf c s (by omega) hsuf1 hs1
              (by simp only [List.length_append, List.length_singleton]; omega) hb
            simp only [List.append_assoc, List.singleton_append] at this
            exact this

/-- The loop of `operator-=` keeps exactly the values of `*this` that do not occur in `S`,
in their order, and counts the removed nodes down. -/
theorem minusLoop_spec (fuel : Nat) : ∀ (pre suf : List Int) (c : Nat) (s : List Int),
    suf.length + s.length ≤ fuel →
    suf.Pairwise (fun a b => a < b) → s.Pairwise (fun a b => a < b) →
    c = pre.length + suf.length → c < 18446744073709551616 →
    (minusLoop fuel pre suf c s).1 = pre ++ suf.filter (fun b => decide (b ∉ s)) ∧
    (minusLoop fuel pre suf c s).2 = (pre ++ suf.filter (fun b => decide (b ∉ s))).length := by
  induction fuel with
  | zero =>
    intro pre suf c s hf _ _ hc _
    have h1 : suf = [] := List.length_eq_zero.1 (by omega)
    subst h1
    constructor <;> simp [minusLoop, hc]
  | succ fuel ih =>
    intro pre suf c s hf hsuf hs hc hb
    cases suf with
    | nil =>
      constructor <;> simp [minusLoop, hc]
    | cons a suf =>
      obtain ⟨ha, hsuf1⟩ := List.pairwise_cons.1 hsuf
      simp only [List.length_cons] at hf hc
      cases s with
      | nil =>
        simp only [minusLoop]
        have hall : (a :: suf).filter (fun b => decide (b ∉ ([] : List Int))) = a :: suf := by
          rw [List.filter_eq_self]
          intro b _
          simp
        rw [hall]
        refine ⟨rfl, ?_⟩
        simp only [List.length_append, List.length_cons]
        omega
      | cons x s =>
        obtain ⟨hx, hs1⟩ := List.pairwise_cons.1 hs
        simp only [List.length_cons] at hf
        simp only [minusLoop]
        by_cases hlt : a < x
        · rw [if_pos hlt]
          have hnot : a ∉ x :: s := by
            intro hmem
            rcases List.mem_cons.1 hmem with h | h
            · omega
            · have := hx a h
              omega
          rw [List.filter_cons_of_pos (by simpa using hnot)]
          have := ih (pre ++ [a]) suf c (x :: s) (by simp only [List.length_cons]; omega)
            hsuf1 hs (by simp only [List.length_append, List.length_singleton]; omega) hb
          simp only [List.append_assoc, List.singleton_append] at this
          exact this
        · rw [if_neg hlt]
          by_cases hgt : a > x
          · rw [if_pos hgt]
            have hall : ∀ b ∈ a :: suf, x < b := by
              intro b hb
              rcases List.mem_cons.1 hb with h | h
              · rw [h]; exact hgt
              · have := ha b h
                omega
            rw [filter_not_mem_cons_of_lt (a :: suf) s x hall]
            exact ih pre (a :: suf) c s (by simp only [List.length_cons]; omega) hsuf hs1
              (by simp only [List.length_cons]; omega) hb
          · rw [if_neg hgt]
            have hax : a = x := by omega
            have hin : a ∈ x :: s := by rw [hax]; exact List.mem_cons_self _ _
            rw [List.filter_cons_of_neg (by simp only [decide_eq_true_eq, not_not]; exact hin)]
            have hall : ∀ b ∈ suf, x < b := by
              intro b hb
              have := ha b hb
              omega
            rw [filter_not_mem_cons_of_lt suf s x hall]
            exact ih pre suf (decr c) s (by omega) hsuf1 hs1
              (by rw [decr_eq c (by omega) hb]; omega)
              (by rw [decr_eq c (by omega) hb]; omega)

/-- The three operations evaluated on `{1, 3, 5}` and `{3, 4}`. -/
theorem example_operations :
    plusAssign exampleA exampleB = { values := [1, 3, 4, 5], counter := 4 } ∧
    timesAssign exampleA exampleB = { values := [3], counter := 1 } ∧
    minusAssign false exampleA exampleB = { values := [1, 5], counter := 2 } := by
  decide

/-- C28: the sorted-list set algebra of lab 2. For sets `A` and `B` whose lists are
strictly increasing with `counter` equal to the list length (lengths within `size_t`),
`A += B`, `A *= B` and `A -= B` leave `A` strictly increasing with `counter` equal to its
new length, and `x` is a member of the result exactly when it is a member of `A` or `B`,
of `A` and `B`, of `A` and not `B`; the lists of `A *= B` and `A -= B` are the old list
filtered. `B` is only read. The aliased call `A -= A` empties `A`. -/
theorem C28_set_algebra (A B : Set)
    (hA : A.values.Pairwise (fun a b => a < b)) (hB : B.values.Pairwise (fun a b => a < b))
    (hcA : A.counter = A.values.length) (hcB : B.counter = B.values.length)
    (hsize : A.values.length + B.values.length < 18446744073709551616) :
    ((plusAssign A B).values.Pairwise (fun a b => a < b) ∧
      (plusAssign A B).counter = (plusAssign A B).values.length ∧
      ∀ x, is_member (plusAssign A B) x = true ↔
        (is_member A x = true ∨ is_member B x = true)) ∧
    ((timesAssign A B).values.Pairwise (fun a b => a < b) ∧
      (timesAssign A B).counter = (timesAssign A B).values.length ∧
      (timesAssign A B).values = A.values.filter (fun b => decide (b ∈ B.values)) ∧
      ∀ x, is_member (timesAssign A B) x = true ↔
        (is_member A x = true ∧ is_member B x = true)) ∧
    ((minusAssign false A B).values.Pairwise (fun a b => a < b) ∧
      (minusAssign false A B).counter = (minusAssign false A B).values.length ∧
      (minusAssign false A B).values = A.values.filter (fun b => decide (b ∉ B.values)) ∧
      ∀ x, is_member (minusAssign false A B) x = true ↔
        (is_member A x = true ∧ ¬ is_member B x = true)) ∧
    ((minusAssign true A A).values = [] ∧ (minusAssign true A A).counter = 0 ∧
      ∀ x, is_member (minusAssign true A A) x = false) := by
  have memA : ∀ x, is_member A x = true ↔ x ∈ A.values := isMemberFrom_iff A.values hA
  have memB : ∀ x, is_member B x = true ↔ x ∈ B.values := isMemberFrom_iff B.values hB
  refine ⟨?_, ?_, ?_, ?_⟩
  · obtain ⟨r1, r2, r3⟩ := plusLoop_spec B.values [] A.values A.counter (by simpa using hA) hB
      (fun p hp => by cases hp) (by simpa using hcA) (by simpa using hsize)
    refine ⟨r1, r3, ?_⟩
    intro x
    rw [memA, memB]
    show isMemberFrom (plusLoop [] A.values A.counter B.values).1 x = true ↔ _
    rw [isMemberFrom_iff _ r1, r2 x]
    simp only [List.not_mem_nil, false_or]
  · obtain ⟨r1, r2⟩ := timesLoop_spec (A.values.length + B.values.length) [] A.values A.counter
      B.values (le_refl _) hA hB (by simpa using hcA) (by omega)
    simp only [List.nil_append] at r1 r2
    have hv : (timesAssign A B).values = A.values.filter (fun b => decide (b ∈ B.values)) := r1
    have hs : (timesAssign A B).values.Pairwise (fun a b => a < b) := by
      rw [hv]; exact hA.filter _
    refine ⟨hs, ?_, hv, ?_⟩
    · rw [hv]; exact r2
    · intro x
      rw [memA, memB]
      show isMemberFrom (timesAssign A B).values x = true ↔ _
      rw [isMemberFrom_iff _ hs, hv, List.mem_filter]
      simp
  · obtain ⟨r1, r2⟩ := minusLoop_spec (A.values.length + B.values.length) [] A.values A.counter
      B.values (le_refl _) hA hB (by simpa using hcA) (by omega)
    simp only [List.nil_append] at r1 r2
    have hv : (minusAssign false A B).values =
        A.values.filter (fun b => decide (b ∉ B.values)) := r1
    have hs : (minusAssign false A B).values.Pairwise (fun a b => a < b) := by
      rw [hv]; exact hA.filter _
    refine ⟨hs, ?_, hv, ?_⟩
    · rw [hv]; exact r2
    · intro x
      rw [memA, memB]
      show isMemberFrom (minusAssign false A B).values x = true ↔ _
      rw [isMemberFrom_iff _ hs, hv, List.mem_filter]
      simp
  · exact ⟨rfl, rfl, fun x => rfl⟩

theorem C28_set_algebra_witness :
    ((plusAssign exampleA exampleB).values.Pairwise (fun a b => a < b) ∧
      (plusAssign exampleA exampleB).counter = (plusAssign exampleA exampleB).values.length ∧
      ∀ x, is_member (plusAssign exampleA exampleB) x = true ↔
        (is_member exampleA x = true ∨ is_member exampleB x = true)) ∧
    ((timesAssign exampleA exampleB).values.Pairwise (fun a b => a < b) ∧
      (timesAssign exampleA exampleB).counter = (timesAssign exampleA exampleB).values.length ∧
      (timesAssign exampleA exampleB).values =
        exampleA.values.filter (fun b => decide (b ∈ exampleB.values)) ∧
      ∀ x, is_member (timesAssign exampleA exampleB) x = true ↔
        (is_member exampleA x = true ∧ is_member exampleB x = true)) ∧
    ((minusAssign false exampleA exampleB).values.Pairwise (fun a b => a < b) ∧
      (minusAssign false exampleA exampleB).counter =
        (minusAssign false exampleA exampleB).values.length ∧
      (minusAssign false exampleA exampleB).values =
        exampleA.values.filter (fun b => decide (b ∉ exampleB.values)) ∧
      ∀ x, is_member (minusAssign false exampleA exampleB) x = true ↔
        (is_member exampleA x = true ∧ ¬ is_member exampleB x = true)) ∧
    ((minusAssign true exampleA exampleA).values = [] ∧
      (minusAssign true exampleA exampleA).counter = 0 ∧
      ∀ x, is_member (minusAssign true exampleA exampleA) x = false) :=
  C28_set_algebra exampleA exampleB (by decide) (by decide) rfl rfl
    (by simp [exampleA, exampleB])

end Set

end TND004
